import Mathlib

/-!
# Verification of the Gambit chess engine core

This development gives a shallow embedding, in Lean 4, of the parts of the
Gambit repository (a chess engine written in Rust) that its specification
talks about, and proves or refutes the specified properties against that
embedding.

The repository contains several generations of the engine:

* `gambit/` — the newest library crate (bitboard algebra, carry-rippler
  subset iterator, move encoding, FEN);
* `src/` together with `old/src_old_2/` — the current engine crate
  (`board.rs` lives in `old/src_old_2`, the move generator, magic-table
  initialisation and bit helpers live in `src/src`);
* `old/src_old/` — an earlier engine crate with its own board, zobrist and
  move-generation code.

Machine integers (`u64`, `u8`, `usize`) are embedded as `Nat` with explicit
reductions modulo `2 ^ 64` exactly where the Rust code wraps.  Fallible
operations (slice indexing that can panic, `Option::unwrap`) are embedded
with `Option`: a `none` result models a panic.

Namespaces: `Gambit` for the `gambit/` crate, `Engine` for the current
crate (`src/src` + `old/src_old_2`), `SrcOld` for `old/src_old`.
-/

/-- `2 ^ 64`, the modulus of Rust `u64` arithmetic. -/
def U64 : Nat := 2 ^ 64

/-- `u64::MAX`, the all-ones 64-bit word. -/
def MAX64 : Nat := U64 - 1

/-- Wrapping 64-bit subtraction `a.wrapping_sub(b)` for `a b < 2^64`. -/
def wsub (a b : Nat) : Nat := (a + (U64 - b)) % U64

/-- Bitwise not of a `u64` (`!a` in Rust), for `a < 2^64`. -/
def not64 (a : Nat) : Nat := a ^^^ MAX64

namespace Gambit

/-!
## `gambit/src/bitboard/ops.rs`

The bitboard is a transparent wrapper around a `u64`; we embed it as the
underlying `Nat` directly.  Each definition mirrors one method of
`impl Bitboard` in `gambit/src/bitboard/ops.rs`.
-/

/-- `Bitboard::intersection`: `self.bits() & b.bits()`. -/
def intersection (a b : Nat) : Nat := a &&& b

/-- `Bitboard::union`: `self.bits() | b.bits()`. -/
def union (a b : Nat) : Nat := a ||| b

/-- `Bitboard::complement`: `!self.bits()` (64-bit not). -/
def complement (a : Nat) : Nat := not64 a

/-- `Bitboard::relative_complement`: `self.bits() & !b.bits()`. -/
def relative_complement (a b : Nat) : Nat := a &&& not64 b

/-- `Bitboard::symmetric_difference`: `self.bits() ^ b.bits()`. -/
def symmetric_difference (a b : Nat) : Nat := a ^^^ b

/-- `Bitboard::xor`: the source reads `self.relative_complement(b)`,
even though its doc comment says "Identical to bitwise xor". -/
def xor (a b : Nat) : Nat := relative_complement a b

/-- `Bitboard::contains(square)`: intersection with the square's bitboard
is non-empty. -/
def contains (a : Nat) (square : Nat) : Bool := intersection a (2 ^ square) ≠ 0

/-!
## `gambit/src/bitboard/core.rs` — the carry-rippler iterator

`CarryRippler` holds the mask (`bitboard`), the current `subset` and the
`first` flag, exactly as the Rust struct does.
-/

/-- The state of `struct CarryRippler` from `gambit/src/bitboard/core.rs`. -/
structure CarryRippler where
  bitboard : Nat
  subset : Nat
  first : Bool
deriving DecidableEq, Repr

/-- `Bitboard::carry_rippler()`: start with the empty subset and
`first = true`. -/
def carry_rippler (b : Nat) : CarryRippler :=
  { bitboard := b, subset := 0, first := true }

/-- `Iterator::next for CarryRippler`.  Returns the emitted item (if any)
together with the successor state; when exhausted the state is unchanged,
which is what makes the iterator fused.  The update is the source's
`self.subset.wrapping_sub(self.bitboard) & self.bitboard`. -/
def CarryRippler.next (c : CarryRippler) : Option Nat × CarryRippler :=
  if c.subset ≠ 0 ∨ c.first then
    (some c.subset,
     { bitboard := c.bitboard,
       subset := wsub c.subset c.bitboard &&& c.bitboard,
       first := false })
  else
    (none, c)

/-- Drive the iterator for at most `fuel` calls to `next`, collecting the
emitted items and returning the final state.  (The Rust caller loops until
`next` returns `None`; `fuel` makes that loop a total function.) -/
def run (c : CarryRippler) (fuel : Nat) : List Nat × CarryRippler :=
  match fuel with
  | 0 => ([], c)
  | fuel + 1 =>
    match c.next with
    | (some x, c2) =>
      let r := run c2 fuel
      (x :: r.1, r.2)
    | (none, c2) => ([], c2)

/-- The subset-update step of the carry-rippler:
`subset.wrapping_sub(mask) & mask`. -/
def step (M s : Nat) : Nat := wsub s M &&& M

/-- 64-iteration embedding of `u64::count_ones` (the popcount used for the
`2^popcount(M)` cardinality statement). -/
def popcount64 (n : Nat) : Nat := go 64 n where
  go : Nat → Nat → Nat
  | 0, _ => 0
  | w + 1, n => n % 2 + go w (n / 2)

end Gambit

namespace CRProof

/-!
Proof scaffolding for the carry-rippler claim (C5).  `stepW` is an
arithmetic normal form of the subset update: for `s ⊆ M` the wrapping
subtraction `(s - M) & M` equals `((s | !M) + 1) & M`, where the
complement is taken at any bit width `W` with `M < 2^W`.  The binary
(even/odd) recursion below shows the update is exactly binary counting
through the mask bits.
-/

/-- `((s ||| not_W M) + 1) &&& M`: the masked-increment normal form of the
carry-rippler step at bit width `W`. -/
def stepW (W M s : Nat) : Nat := ((s ||| ((2 ^ W - 1) ^^^ M)) + 1) &&& M

/-- Popcount of the low `W` bits. -/
def popcW : Nat → Nat → Nat
  | 0, _ => 0
  | w + 1, n => n % 2 + popcW w (n / 2)

/-- The ideal enumeration of the subsets of `M` (its low `W` bits), in
carry-rippler order: binary counting distributed over the mask bits. -/
def seqW : Nat → Nat → List Nat
  | 0, _ => [0]
  | w + 1, M =>
    if M % 2 = 1 then
      (seqW w (M / 2)).flatMap (fun t => [2 * t, 2 * t + 1])
    else
      (seqW w (M / 2)).map (fun t => 2 * t)

/-- The orbit `[s, f s, f (f s), …]` of length `k`. -/
def pchain (f : Nat → Nat) : Nat → Nat → List Nat
  | _, 0 => []
  | s, k + 1 => s :: pchain f (f s) k

theorem testBit_two_mul_add_zero (a e : Nat) (he : e ≤ 1) :
    (2 * a + e).testBit 0 = decide (e = 1) := by
  rw [Nat.testBit_zero]
  have : (2 * a + e) % 2 = e := by omega
  rw [this]

theorem testBit_two_mul_add_succ (a e i : Nat) (he : e ≤ 1) :
    (2 * a + e).testBit (i + 1) = a.testBit i := by
  rw [Nat.testBit_add_one]
  have : (2 * a + e) / 2 = a := by omega
  rw [this]

theorem land_bit_decomp (a b e f : Nat) (he : e ≤ 1) (hf : f ≤ 1) :
    (2 * a + e) &&& (2 * b + f) = 2 * (a &&& b) + (e &&& f) := by
  have hef : e &&& f ≤ 1 := le_trans Nat.and_le_left he
  apply Nat.eq_of_testBit_eq
  intro i
  cases i with
  | zero =>
    rw [Nat.testBit_and, testBit_two_mul_add_zero _ _ he,
      testBit_two_mul_add_zero _ _ hf, testBit_two_mul_add_zero _ _ hef]
    interval_cases e <;> interval_cases f <;> decide
  | succ i =>
    rw [Nat.testBit_and, testBit_two_mul_add_succ _ _ _ he,
      testBit_two_mul_add_succ _ _ _ hf, testBit_two_mul_add_succ _ _ _ hef,
      Nat.testBit_and]

theorem lor_bit_decomp (a b e f : Nat) (he : e ≤ 1) (hf : f ≤ 1) :
    (2 * a + e) ||| (2 * b + f) = 2 * (a ||| b) + (e ||| f) := by
  have hef : e ||| f ≤ 1 := by
    interval_cases e <;> interval_cases f <;> decide
  apply Nat.eq_of_testBit_eq
  intro i
  cases i with
  | zero =>
    rw [Nat.testBit_or, testBit_two_mul_add_zero _ _ he,
      testBit_two_mul_add_zero _ _ hf, testBit_two_mul_add_zero _ _ hef]
    interval_cases e <;> interval_cases f <;> decide
  | succ i =>
    rw [Nat.testBit_or, testBit_two_mul_add_succ _ _ _ he,
      testBit_two_mul_add_succ _ _ _ hf, testBit_two_mul_add_succ _ _ _ hef,
      Nat.testBit_or]

theorem xor_bit_decomp (a b e f : Nat) (he : e ≤ 1) (hf : f ≤ 1) :
    (2 * a + e) ^^^ (2 * b + f) = 2 * (a ^^^ b) + (e ^^^ f) := by
  have hef : e ^^^ f ≤ 1 := by
    interval_cases e <;> interval_cases f <;> decide
  apply Nat.eq_of_testBit_eq
  intro i
  cases i with
  | zero =>
    rw [Nat.testBit_xor, testBit_two_mul_add_zero _ _ he,
      testBit_two_mul_add_zero _ _ hf, testBit_two_mul_add_zero _ _ hef]
    interval_cases e <;> interval_cases f <;> decide
  | succ i =>
    rw [Nat.testBit_xor, testBit_two_mul_add_succ _ _ _ he,
      testBit_two_mul_add_succ _ _ _ hf, testBit_two_mul_add_succ _ _ _ hef,
      Nat.testBit_xor]

theorem sub_one_xor {W M : Nat} (hM : M < 2 ^ W) :
    (2 ^ W - 1) ^^^ M = 2 ^ W - 1 - M := by
  have h2 : 2 ^ W - 1 - M = 2 ^ W - (M + 1) := by omega
  rw [h2]
  apply Nat.eq_of_testBit_eq
  intro i
  rw [Nat.testBit_xor, Nat.testBit_two_pow_sub_one, Nat.testBit_two_pow_sub_succ hM]
  by_cases hi : i < W
  · cases hMi : M.testBit i <;> simp [hi, hMi]
  · have hMi : M.testBit i = false :=
      Nat.testBit_lt_two_pow
        (lt_of_lt_of_le hM (Nat.pow_le_pow_right (by norm_num) (le_of_not_lt hi)))
    simp [hi, hMi]

theorem add_eq_or_of_and_eq_zero : ∀ a b : Nat, a &&& b = 0 → a + b = a ||| b := by
  intro a
  induction a using Nat.strong_induction_on with
  | _ a ih =>
    intro b h
    rcases Nat.eq_zero_or_pos a with ha | ha
    · subst ha; simp
    · have hd : a / 2 &&& b / 2 = 0 := by
        rw [← Nat.and_div_two, h]
      have hm : ¬(a % 2 = 1 ∧ b % 2 = 1) := by
        intro hh
        have h1 := Nat.and_mod_two_eq_one.mpr hh
        rw [h] at h1
        simp at h1
      have iha := ih (a / 2) (Nat.div_lt_self ha (by norm_num)) (b / 2) hd
      have e2 : a % 2 ≤ 1 := by omega
      have f2 : b % 2 ≤ 1 := by omega
      have hor : a % 2 ||| b % 2 = a % 2 + b % 2 := by
        rcases (by omega : a % 2 = 0 ∨ a % 2 = 1) with h1 | h1 <;>
          rcases (by omega : b % 2 = 0 ∨ b % 2 = 1) with h2 | h2
        · simp [h1, h2]
        · simp [h1, h2]
        · simp [h1, h2]
        · exact absurd ⟨h1, h2⟩ hm
      calc a + b = 2 * (a / 2 + b / 2) + (a % 2 + b % 2) := by omega
        _ = 2 * (a / 2 ||| b / 2) + (a % 2 + b % 2) := by rw [iha]
        _ = 2 * (a / 2 ||| b / 2) + (a % 2 ||| b % 2) := by rw [hor]
        _ = (2 * (a / 2) + a % 2) ||| (2 * (b / 2) + b % 2) :=
            (lor_bit_decomp _ _ _ _ e2 f2).symm
        _ = a ||| b := by rw [Nat.div_add_mod, Nat.div_add_mod]

theorem mul_pow_land_eq_zero {V M : Nat} (hM : M < 2 ^ V) (q : Nat) :
    (2 ^ V * q) &&& M = 0 := by
  apply Nat.eq_of_testBit_eq
  intro i
  rw [Nat.testBit_and, Nat.testBit_mul_pow_two, Nat.zero_testBit]
  by_cases hi : i ≥ V
  · have hMi : M.testBit i = false :=
      Nat.testBit_lt_two_pow
        (lt_of_lt_of_le hM (Nat.pow_le_pow_right (by norm_num) hi))
    simp [hMi]
  · simp [hi]

theorem land_add_one_mod {V M : Nat} (hM : M < 2 ^ V) (x : Nat) :
    (x + 1) &&& M = (x % 2 ^ V + 1) &&& M := by
  have hx := (Nat.div_add_mod x (2 ^ V)).symm
  have hr : x % 2 ^ V < 2 ^ V := Nat.mod_lt _ (Nat.pos_pow_of_pos _ (by norm_num))
  by_cases hc : x % 2 ^ V + 1 < 2 ^ V
  · have h1 : x + 1 = 2 ^ V * (x / 2 ^ V) + (x % 2 ^ V + 1) := by omega
    rw [h1, Nat.mul_add_lt_is_or hc, Nat.and_distrib_right,
      mul_pow_land_eq_zero hM, Nat.zero_or]
  · have hc2 : x % 2 ^ V + 1 = 2 ^ V := by omega
    have hmul : 2 ^ V * (x / 2 ^ V + 1) = 2 ^ V * (x / 2 ^ V) + 2 ^ V := by ring
    have h1 : x + 1 = 2 ^ V * (x / 2 ^ V + 1) := by omega
    rw [h1, hc2, mul_pow_land_eq_zero hM]
    have := mul_pow_land_eq_zero hM 1
    rw [Nat.mul_one] at this
    rw [this]

theorem stepW_width {V W M : Nat} (hMV : M < 2 ^ V) (hVW : V ≤ W) (s : Nat) :
    stepW W M s = stepW V M s := by
  unfold stepW
  rw [land_add_one_mod hMV (s ||| ((2 ^ W - 1) ^^^ M)),
    land_add_one_mod hMV (s ||| ((2 ^ V - 1) ^^^ M))]
  suffices h : (s ||| ((2 ^ W - 1) ^^^ M)) % 2 ^ V = (s ||| ((2 ^ V - 1) ^^^ M)) % 2 ^ V by
    rw [h]
  rw [← Nat.and_pow_two_sub_one_eq_mod, ← Nat.and_pow_two_sub_one_eq_mod,
    Nat.and_distrib_right, Nat.and_distrib_right]
  suffices h : ((2 ^ W - 1) ^^^ M) &&& (2 ^ V - 1) = ((2 ^ V - 1) ^^^ M) &&& (2 ^ V - 1) by
    rw [h]
  apply Nat.eq_of_testBit_eq
  intro i
  simp only [Nat.testBit_and, Nat.testBit_xor, Nat.testBit_two_pow_sub_one]
  by_cases hi : i < V
  · simp [hi, lt_of_lt_of_le hi hVW]
  · simp [hi]

theorem step_eq_stepW64 {M s : Nat} (hM : M < U64) (hs : s &&& M = s) :
    Gambit.step M s = stepW 64 M s := by
  have hsM : s ≤ M := hs ▸ Nat.and_le_right
  have hsU : s < U64 := lt_of_le_of_lt hsM hM
  have hU : U64 = 2 ^ 64 := rfl
  have hMi_of : ∀ i, s.testBit i = true → M.testBit i = true := by
    intro i hsi
    have h1 : (s &&& M).testBit i = s.testBit i := by rw [hs]
    rw [Nat.testBit_and, hsi] at h1
    simpa using h1.symm
  have hdisj : s &&& ((2 ^ 64 - 1) ^^^ M) = 0 := by
    apply Nat.eq_of_testBit_eq
    intro i
    rw [Nat.testBit_and, Nat.testBit_xor, Nat.testBit_two_pow_sub_one, Nat.zero_testBit]
    cases hsi : s.testBit i
    · simp
    · have hMi := hMi_of i hsi
      have hi : i < 64 := by
        by_contra hcon
        have : M.testBit i = false :=
          Nat.testBit_lt_two_pow
            (lt_of_lt_of_le (hU ▸ hM) (Nat.pow_le_pow_right (by norm_num) (le_of_not_lt hcon)))
        rw [this] at hMi
        exact Bool.noConfusion hMi
      simp [hi, hMi]
  have hCxor := sub_one_xor (W := 64) (hU ▸ hM)
  have hsum : s + (U64 - M) = (s ||| ((2 ^ 64 - 1) ^^^ M)) + 1 := by
    rw [← add_eq_or_of_and_eq_zero s _ hdisj, hCxor]
    have hp : (0 : Nat) < 2 ^ 64 := Nat.pos_pow_of_pos _ (by norm_num)
    omega
  have hCU : ((2 ^ 64 - 1) ^^^ M) < U64 := by
    rw [hU]
    exact Nat.xor_lt_two_pow (by omega) (hU ▸ hM)
  have hor_lt : (s ||| ((2 ^ 64 - 1) ^^^ M)) < U64 := by
    rw [hU]
    exact Nat.or_lt_two_pow (hU ▸ hsU) (hU ▸ hCU)
  unfold Gambit.step wsub stepW
  rw [hsum]
  rcases Nat.lt_or_ge ((s ||| ((2 ^ 64 - 1) ^^^ M)) + 1) U64 with hlt | hge
  · rw [Nat.mod_eq_of_lt hlt]
  · have heq : (s ||| ((2 ^ 64 - 1) ^^^ M)) + 1 = U64 :=
      le_antisymm (Nat.succ_le_of_lt hor_lt) hge
    rw [heq, Nat.mod_self, Nat.zero_and]
    have h1 := mul_pow_land_eq_zero (hU ▸ hM) 1
    rw [Nat.mul_one] at h1
    rw [← hU] at h1
    rw [h1]

theorem lit_xor_10 : (1 : Nat) ^^^ 0 = 1 := by decide

theorem lit_xor_11 : (1 : Nat) ^^^ 1 = 0 := by decide

theorem lit_or_01 : (0 : Nat) ||| 1 = 1 := by decide

theorem lit_or_00 : (0 : Nat) ||| 0 = 0 := by decide

theorem lit_or_10 : (1 : Nat) ||| 0 = 1 := by decide

theorem lit_and_11 : (1 : Nat) &&& 1 = 1 := by decide

theorem lit_and_01 : (0 : Nat) &&& 1 = 0 := by decide

theorem lit_and_00 : (0 : Nat) &&& 0 = 0 := by decide

theorem compl_land_self {W M : Nat} (hM : M < 2 ^ W) : ((2 ^ W - 1) ^^^ M) &&& M = 0 := by
  apply Nat.eq_of_testBit_eq
  intro i
  rw [Nat.testBit_and, Nat.testBit_xor, Nat.testBit_two_pow_sub_one, Nat.zero_testBit]
  cases hMi : M.testBit i
  · simp
  · have hiW : i < W := by
      by_contra hcon
      have : M.testBit i = false :=
        Nat.testBit_lt_two_pow
          (lt_of_lt_of_le hM (Nat.pow_le_pow_right (by norm_num) (le_of_not_lt hcon)))
      rw [this] at hMi
      exact Bool.noConfusion hMi
    simp [hiW]

theorem stepW_subset (W M s : Nat) : stepW W M s &&& M = stepW W M s := by
  unfold stepW
  rw [Nat.and_assoc, Nat.and_self]

theorem stepW_even {W M' : Nat} (s : Nat) :
    stepW (W + 1) (2 * M') (2 * s) = 2 * stepW W M' s := by
  unfold stepW
  have hpow : 2 ^ (W + 1) - 1 = 2 * (2 ^ W - 1) + 1 := by
    have h1 : 2 ^ (W + 1) = 2 * 2 ^ W := by ring
    have h2 : (0 : Nat) < 2 ^ W := Nat.pos_pow_of_pos _ (by norm_num)
    omega
  rw [hpow]
  have hM0 : 2 * M' = 2 * M' + 0 := by omega
  rw [hM0, xor_bit_decomp _ _ _ _ (by omega) (by omega), lit_xor_10]
  have hs0 : 2 * s = 2 * s + 0 := by omega
  rw [hs0, lor_bit_decomp _ _ _ _ (by omega) (by omega), lit_or_01]
  have h3 : 2 * (s ||| ((2 ^ W - 1) ^^^ M')) + 1 + 1
      = 2 * ((s ||| ((2 ^ W - 1) ^^^ M')) + 1) + 0 := by omega
  rw [h3, land_bit_decomp _ _ _ _ (by omega) (by omega), lit_and_00]
  omega

theorem stepW_odd_zero {W M' : Nat} (hM : M' < 2 ^ W) (s : Nat) (hs : s &&& M' = s) :
    stepW (W + 1) (2 * M' + 1) (2 * s) = 2 * s + 1 := by
  unfold stepW
  have hpow : 2 ^ (W + 1) - 1 = 2 * (2 ^ W - 1) + 1 := by
    have h1 : 2 ^ (W + 1) = 2 * 2 ^ W := by ring
    have h2 : (0 : Nat) < 2 ^ W := Nat.pos_pow_of_pos _ (by norm_num)
    omega
  rw [hpow, xor_bit_decomp _ _ _ _ (by omega) (by omega), lit_xor_11]
  have hs0 : 2 * s = 2 * s + 0 := by omega
  rw [hs0, lor_bit_decomp _ _ _ _ (by omega) (by omega), lit_or_00]
  have h3 : 2 * (s ||| ((2 ^ W - 1) ^^^ M')) + 0 + 1
      = 2 * (s ||| ((2 ^ W - 1) ^^^ M')) + 1 := by omega
  rw [h3, land_bit_decomp _ _ _ _ (by omega) (by omega), lit_and_11,
    Nat.and_distrib_right, hs, compl_land_self hM]
  simp

theorem stepW_odd_one {W M' : Nat} (s : Nat) :
    stepW (W + 1) (2 * M' + 1) (2 * s + 1) = 2 * stepW W M' s := by
  unfold stepW
  have hpow : 2 ^ (W + 1) - 1 = 2 * (2 ^ W - 1) + 1 := by
    have h1 : 2 ^ (W + 1) = 2 * 2 ^ W := by ring
    have h2 : (0 : Nat) < 2 ^ W := Nat.pos_pow_of_pos _ (by norm_num)
    omega
  rw [hpow, xor_bit_decomp _ _ _ _ (by omega) (by omega), lit_xor_11,
    lor_bit_decomp _ _ _ _ (by omega) (by omega), lit_or_10]
  have h3 : 2 * (s ||| ((2 ^ W - 1) ^^^ M')) + 1 + 1
      = 2 * ((s ||| ((2 ^ W - 1) ^^^ M')) + 1) + 0 := by omega
  rw [h3, land_bit_decomp _ _ _ _ (by omega) (by omega), lit_and_01]
  omega

theorem iter_even {W M' : Nat} :
    ∀ k s, s &&& M' = s →
      (stepW (W + 1) (2 * M'))^[k] (2 * s) = 2 * ((stepW W M')^[k] s) := by
  intro k
  induction k with
  | zero => intro s _; simp
  | succ k ih =>
    intro s hs
    rw [Function.iterate_succ_apply, Function.iterate_succ_apply,
      stepW_even s, ih _ (stepW_subset W M' s)]

theorem iter_odd {W M' : Nat} (hM : M' < 2 ^ W) :
    ∀ k s, s &&& M' = s →
      (stepW (W + 1) (2 * M' + 1))^[2 * k] (2 * s) = 2 * ((stepW W M')^[k] s) := by
  intro k
  induction k with
  | zero => intro s _; simp
  | succ k ih =>
    intro s hs
    have h2 : 2 * (k + 1) = 2 * k + 1 + 1 := by omega
    rw [h2, Function.iterate_succ_apply, Function.iterate_succ_apply,
      stepW_odd_zero hM s hs, stepW_odd_one s, ih _ (stepW_subset W M' s),
      Function.iterate_succ_apply]

theorem pchain_even {W M' : Nat} :
    ∀ k s, s &&& M' = s →
      pchain (stepW (W + 1) (2 * M')) (2 * s) k
        = (pchain (stepW W M') s k).map (fun t => 2 * t) := by
  intro k
  induction k with
  | zero => intro s _; rfl
  | succ k ih =>
    intro s hs
    show (2 * s) :: pchain (stepW (W + 1) (2 * M')) (stepW (W + 1) (2 * M') (2 * s)) k = _
    rw [stepW_even s, ih _ (stepW_subset W M' s)]
    rfl

theorem pchain_odd {W M' : Nat} (hM : M' < 2 ^ W) :
    ∀ k s, s &&& M' = s →
      pchain (stepW (W + 1) (2 * M' + 1)) (2 * s) (2 * k)
        = (pchain (stepW W M') s k).flatMap (fun t => [2 * t, 2 * t + 1]) := by
  intro k
  induction k with
  | zero => intro s _; rfl
  | succ k ih =>
    intro s hs
    have h2 : 2 * (k + 1) = 2 * k + 1 + 1 := by omega
    rw [h2]
    show (2 * s) :: pchain _ (stepW (W + 1) (2 * M' + 1) (2 * s)) (2 * k + 1) = _
    rw [stepW_odd_zero hM s hs]
    show (2 * s) :: (2 * s + 1) :: pchain _ (stepW (W + 1) (2 * M' + 1) (2 * s + 1)) (2 * k) = _
    rw [stepW_odd_one s, ih _ (stepW_subset W M' s)]
    rfl

theorem getLast?_flatMap_pairs :
    ∀ (l : List Nat) (a : Nat), l.getLast? = some a →
      (l.flatMap (fun t => [2 * t, 2 * t + 1])).getLast? = some (2 * a + 1) := by
  intro l
  induction l with
  | nil => intro a h; simp at h
  | cons x xs ihl =>
    intro a h
    cases xs with
    | nil =>
      simp at h
      subst h
      rfl
    | cons y ys =>
      have h2 : (y :: ys).getLast? = some a := by rwa [List.getLast?_cons_cons] at h
      rw [List.flatMap_cons]
      have h3 := ihl a h2
      rw [List.getLast?_append_of_ne_nil]
      · exact h3
      · intro hnil
        rw [List.flatMap_cons] at hnil
        simp at hnil

theorem length_flatMap_pairs (l : List Nat) :
    (l.flatMap (fun t => [2 * t, 2 * t + 1])).length = 2 * l.length := by
  induction l with
  | nil => rfl
  | cons x xs ihl =>
    rw [List.flatMap_cons, List.length_append, ihl]
    simp
    omega

theorem subset_odd_iff {M' s : Nat} :
    s &&& (2 * M' + 1) = s ↔ (s / 2) &&& M' = s / 2 := by
  have hdecomp : s = 2 * (s / 2) + s % 2 := by omega
  have hm : s % 2 ≤ 1 := by omega
  have h1 : s &&& (2 * M' + 1) = 2 * ((s / 2) &&& M') + (s % 2 &&& 1) := by
    conv_lhs => rw [hdecomp]
    exact land_bit_decomp _ _ _ _ hm (by omega)
  have h2 : s % 2 &&& 1 = s % 2 := by
    rcases (by omega : s % 2 = 0 ∨ s % 2 = 1) with h | h <;> rw [h] <;> decide
  have hle : (s / 2) &&& M' ≤ s / 2 := Nat.and_le_left
  rw [h1, h2]
  omega

theorem subset_even_iff {M' s : Nat} :
    s &&& (2 * M') = s ↔ (s % 2 = 0 ∧ (s / 2) &&& M' = s / 2) := by
  have hdecomp : s = 2 * (s / 2) + s % 2 := by omega
  have hm : s % 2 ≤ 1 := by omega
  have h1 : s &&& (2 * M') = 2 * ((s / 2) &&& M') + (s % 2 &&& 0) := by
    conv_lhs => rw [hdecomp]
    have h0 : 2 * M' = 2 * M' + 0 := by omega
    rw [h0]
    exact land_bit_decomp _ _ _ _ hm (by omega)
  have h2 : s % 2 &&& 0 = 0 := Nat.and_zero _
  have hle : (s / 2) &&& M' ≤ s / 2 := Nat.and_le_left
  rw [h1, h2]
  omega

theorem seqW_spec :
    ∀ W M, M < 2 ^ W →
      (seqW W M).head? = some 0 ∧ (seqW W M).getLast? = some M ∧
      (seqW W M).length = 2 ^ popcW W M ∧
      (∀ s, s ∈ seqW W M ↔ s &&& M = s) ∧ (seqW W M).Nodup := by
  intro W
  induction W with
  | zero =>
    intro M hM
    have hM0 : M = 0 := by simpa using hM
    subst hM0
    refine ⟨rfl, rfl, rfl, ?_, by simp [seqW]⟩
    intro s
    simp [seqW, Nat.and_zero, eq_comm]
  | succ W ih =>
    intro M hM
    have hM2 : M / 2 < 2 ^ W := by
      have hp : 2 ^ (W + 1) = 2 * 2 ^ W := by ring
      omega
    obtain ⟨ih1, ih2, ih3, ih4, ih5⟩ := ih (M / 2) hM2
    have hpc : popcW (W + 1) M = M % 2 + popcW W (M / 2) := rfl
    by_cases hod : M % 2 = 1
    · have hseq : seqW (W + 1) M = (seqW W (M / 2)).flatMap (fun t => [2 * t, 2 * t + 1]) := by
        simp [seqW, hod]
      have hMeq : M = 2 * (M / 2) + 1 := by omega
      obtain ⟨ys, hys⟩ := List.head?_eq_some_iff.mp ih1
      refine ⟨?_, ?_, ?_, ?_, ?_⟩
      · rw [hseq, hys, List.flatMap_cons]
        rfl
      · rw [hseq, getLast?_flatMap_pairs _ _ ih2, ← hMeq]
      · rw [hseq, length_flatMap_pairs, ih3, hpc, hod, pow_add, pow_one]
      · intro s
        rw [hseq, List.mem_flatMap]
        constructor
        · rintro ⟨t, htl, hts⟩
          simp only [List.mem_cons, List.not_mem_nil, or_false] at hts
          have ht : t &&& M / 2 = t := (ih4 t).mp htl
          have hs2 : s / 2 = t := by rcases hts with h | h <;> subst h <;> omega
          rw [hMeq, subset_odd_iff, hs2]
          exact ht
        · intro hsub
          rw [hMeq, subset_odd_iff] at hsub
          refine ⟨s / 2, (ih4 _).mpr hsub, ?_⟩
          simp only [List.mem_cons, List.not_mem_nil, or_false]
          omega
      · rw [hseq]
        rw [List.nodup_flatMap]
        constructor
        · intro t _
          simp
        · apply ih5.imp
          intro a b hab
          intro x hxa hxb
          simp only [List.mem_cons, List.not_mem_nil, or_false] at hxa hxb
          omega
    · have hseq : seqW (W + 1) M = (seqW W (M / 2)).map (fun t => 2 * t) := by
        simp [seqW, hod]
      have hMeq : M = 2 * (M / 2) := by omega
      refine ⟨?_, ?_, ?_, ?_, ?_⟩
      · rw [hseq, List.head?_map, ih1]
        rfl
      · rw [hseq, List.getLast?_map, ih2, Option.map_some']
        rw [← hMeq]
      · rw [hseq, List.length_map, ih3, hpc]
        have h0 : M % 2 = 0 := by omega
        rw [h0, Nat.zero_add]
      · intro s
        rw [hseq, List.mem_map]
        constructor
        · rintro ⟨t, htl, hts⟩
          have ht : t &&& M / 2 = t := (ih4 t).mp htl
          rw [hMeq, subset_even_iff]
          constructor
          · omega
          · have : s / 2 = t := by omega
            rw [this]
            exact ht
        · intro hsub
          rw [hMeq, subset_even_iff] at hsub
          refine ⟨s / 2, (ih4 _).mpr hsub.2, ?_⟩
          omega
      · rw [hseq]
        exact ih5.map (fun a b h => by omega)

theorem seq_chain :
    ∀ W M, M < 2 ^ W →
      seqW W M = pchain (stepW W M) 0 (2 ^ popcW W M) ∧
      (stepW W M)^[2 ^ popcW W M] 0 = 0 := by
  intro W
  induction W with
  | zero =>
    intro M hM
    have hM0 : M = 0 := by simpa using hM
    subst hM0
    refine ⟨rfl, by decide⟩
  | succ W ih =>
    intro M hM
    have hM2 : M / 2 < 2 ^ W := by
      have hp : 2 ^ (W + 1) = 2 * 2 ^ W := by ring
      omega
    obtain ⟨ic, ii⟩ := ih (M / 2) hM2
    have hz : (0 : Nat) &&& M / 2 = 0 := Nat.zero_and _
    have hpc : popcW (W + 1) M = M % 2 + popcW W (M / 2) := rfl
    have h20 : (2 : Nat) * 0 = 0 := by omega
    by_cases hod : M % 2 = 1
    · have hseq : seqW (W + 1) M = (seqW W (M / 2)).flatMap (fun t => [2 * t, 2 * t + 1]) := by
        simp [seqW, hod]
      have hMeq : M = 2 * (M / 2) + 1 := by omega
      have hN : 2 ^ popcW (W + 1) M = 2 * 2 ^ popcW W (M / 2) := by
        rw [hpc, hod, pow_add, pow_one]
      have hpo := @pchain_odd W (M / 2) hM2 (2 ^ popcW W (M / 2)) 0 hz
      rw [h20, ← hMeq] at hpo
      have hio := @iter_odd W (M / 2) hM2 (2 ^ popcW W (M / 2)) 0 hz
      rw [h20, ← hMeq] at hio
      constructor
      · rw [hseq, hN, ic, ← hpo]
      · rw [hN, hio, ii]
    · have hseq : seqW (W + 1) M = (seqW W (M / 2)).map (fun t => 2 * t) := by
        simp [seqW, hod]
      have hMeq : M = 2 * (M / 2) := by omega
      have hN : 2 ^ popcW (W + 1) M = 2 ^ popcW W (M / 2) := by
        have h0 : M % 2 = 0 := by omega
        rw [hpc, h0, Nat.zero_add]
      have hpe := @pchain_even W (M / 2) (2 ^ popcW W (M / 2)) 0 hz
      rw [h20, ← hMeq] at hpe
      have hie := @iter_even W (M / 2) (2 ^ popcW W (M / 2)) 0 hz
      rw [h20, ← hMeq] at hie
      constructor
      · rw [hseq, hN, ic, ← hpe]
      · rw [hN, hie, ii]

theorem pchain_step_eq {M : Nat} (hM : M < U64) :
    ∀ k s, s &&& M = s →
      pchain (Gambit.step M) s k = pchain (stepW 64 M) s k ∧
      (Gambit.step M)^[k] s = (stepW 64 M)^[k] s := by
  intro k
  induction k with
  | zero => intro s _; exact ⟨rfl, rfl⟩
  | succ k ih =>
    intro s hs
    have hstep : Gambit.step M s = stepW 64 M s := step_eq_stepW64 hM hs
    obtain ⟨ih1, ih2⟩ := ih (stepW 64 M s) (stepW_subset 64 M s)
    constructor
    · show s :: pchain (Gambit.step M) (Gambit.step M s) k = s :: pchain (stepW 64 M) (stepW 64 M s) k
      rw [hstep, ih1]
    · rw [Function.iterate_succ_apply, Function.iterate_succ_apply, hstep, ih2]

theorem pchain_get (f : Nat → Nat) : ∀ k s, pchain f s k = (List.range k).map (fun j => f^[j] s) := by
  intro k
  induction k with
  | zero => intro s; rfl
  | succ k ih =>
    intro s
    show s :: pchain f (f s) k = _
    rw [ih (f s), List.range_succ_eq_map, List.map_cons, List.map_map]
    have hmaps : List.map (fun j => f^[j] (f s)) (List.range k)
        = List.map ((fun j => f^[j] s) ∘ (· + 1)) (List.range k) := by
      apply List.map_congr_left
      intro j _
      show f^[j] (f s) = f^[j + 1] s
      rw [Function.iterate_succ_apply]
    rw [hmaps]
    rfl

theorem run_cons {c : Gambit.CarryRippler} {x : Nat} {c2 : Gambit.CarryRippler}
    (h : c.next = (some x, c2)) (f : Nat) :
    Gambit.run c (f + 1) = (x :: (Gambit.run c2 f).1, (Gambit.run c2 f).2) := by
  simp [Gambit.run, h]

theorem run_terminal (M : Nat) :
    ∀ fuel, Gambit.run { bitboard := M, subset := 0, first := false } fuel
      = ([], { bitboard := M, subset := 0, first := false }) := by
  intro fuel
  cases fuel with
  | zero => rfl
  | succ f => simp [Gambit.run, Gambit.CarryRippler.next]

theorem run_from (M : Nat) :
    ∀ (k : Nat) (s : Nat) (fuel : Nat), k ≤ fuel →
      (∀ j, j < k → (Gambit.step M)^[j] s ≠ 0) → (Gambit.step M)^[k] s = 0 →
      Gambit.run { bitboard := M, subset := s, first := false } fuel
        = (pchain (Gambit.step M) s k, { bitboard := M, subset := 0, first := false }) := by
  intro k
  induction k with
  | zero =>
    intro s fuel _ _ hzero
    simp only [Function.iterate_zero, id] at hzero
    subst hzero
    exact run_terminal M fuel
  | succ k ih =>
    intro s fuel hk hnz hzero
    have hs0 : s ≠ 0 := by
      have := hnz 0 (Nat.succ_pos k)
      simpa using this
    cases fuel with
    | zero => omega
    | succ f =>
      have hnext : Gambit.CarryRippler.next { bitboard := M, subset := s, first := false }
          = (some s, { bitboard := M, subset := Gambit.step M s, first := false }) := by
        simp [Gambit.CarryRippler.next, hs0, Gambit.step]
      have ihr := ih (Gambit.step M s) f (by omega)
        (by
          intro j hj
          have := hnz (j + 1) (by omega)
          rwa [Function.iterate_succ_apply] at this)
        (by
          have := hzero
          rwa [Function.iterate_succ_apply] at this)
      rw [run_cons hnext f, ihr]
      rfl

theorem popc_go_eq : ∀ w n, Gambit.popcount64.go w n = popcW w n := by
  intro w
  induction w with
  | zero => intro n; rfl
  | succ w ih =>
    intro n
    show n % 2 + Gambit.popcount64.go w (n / 2) = n % 2 + popcW w (n / 2)
    rw [ih]

theorem popcount64_eq (n : Nat) : Gambit.popcount64 n = popcW 64 n := popc_go_eq 64 n

theorem run_init {M : Nat} (hM : M < U64) :
    ∀ fuel, 2 ^ popcW 64 M ≤ fuel →
      Gambit.run (Gambit.carry_rippler M) fuel
        = (seqW 64 M, { bitboard := M, subset := 0, first := false }) := by
  obtain ⟨hc, hiter⟩ := seq_chain 64 M hM
  obtain ⟨_, _, _, _, hnodup⟩ := seqW_spec 64 M hM
  obtain ⟨hpeq, hieq⟩ := pchain_step_eq hM (2 ^ popcW 64 M) 0 (Nat.zero_and M)
  have hcs : seqW 64 M = pchain (Gambit.step M) 0 (2 ^ popcW 64 M) := by rw [hc, ← hpeq]
  have hiter2 : (Gambit.step M)^[2 ^ popcW 64 M] 0 = 0 := by rw [hieq, hiter]
  have hNpos : 1 ≤ 2 ^ popcW 64 M := Nat.one_le_two_pow
  have hinj : ∀ j, 0 < j → j < 2 ^ popcW 64 M → (Gambit.step M)^[j] 0 ≠ 0 := by
    intro j hj0 hjN heq
    have hmap : (pchain (Gambit.step M) 0 (2 ^ popcW 64 M)).Nodup := by
      rw [← hcs]; exact hnodup
    rw [pchain_get] at hmap
    have hinj2 := (List.nodup_map_iff_inj_on (List.nodup_range _)).mp hmap
    have h0j := hinj2 j (List.mem_range.mpr hjN) 0 (List.mem_range.mpr (by omega))
    simp only [Function.iterate_zero, id] at h0j
    exact absurd (h0j heq) (by omega)
  intro fuel hfuel
  obtain ⟨n, hn⟩ : ∃ n, 2 ^ popcW 64 M = n + 1 := ⟨2 ^ popcW 64 M - 1, by omega⟩
  cases fuel with
  | zero => omega
  | succ f =>
    have hnext : Gambit.CarryRippler.next (Gambit.carry_rippler M)
        = (some 0, { bitboard := M, subset := Gambit.step M 0, first := false }) := by
      simp [Gambit.CarryRippler.next, Gambit.carry_rippler, Gambit.step]
    have hiter3 : (Gambit.step M)^[n] (Gambit.step M 0) = 0 := by
      have h2 := hiter2
      rw [hn, Function.iterate_succ_apply] at h2
      exact h2
    have hrest := run_from M n (Gambit.step M 0) f (by omega)
      (by
        intro j hj
        rw [← Function.iterate_succ_apply]
        exact hinj (j + 1) (by omega) (by omega))
      hiter3
    rw [run_cons hnext f, hrest, hcs, hn]
    rfl

end CRProof

/-!
### C5 — the carry-rippler subset iterator

The claim: for every mask `M` the iterator enumerates every subset of `M`
exactly once, beginning with the empty set and ending with `M`, emitting
exactly `2^popcount(M)` values via the wrapping step
`subset = (subset − M) & M`, and then yields `None` forever (finite,
fused); for `M = 0b1010` it yields exactly `0, 0b0010, 0b1000, 0b1010` in
that order.
-/

/-- C5: the carry-rippler iterator over any 64-bit mask `M` emits exactly
`2^popcount(M)` pairwise-distinct values — precisely the subsets of `M` —
starting with `0` and ending with `M`; afterwards its state is fixed and
`next` yields `none` forever (fused).  The concrete conjunct checks the
specified run for `M = 0b1010`. -/
theorem C5_carry_rippler_enumeration :
    (∀ M, M < U64 →
      ∃ l : List Nat,
        (∀ fuel, 2 ^ Gambit.popcount64 M ≤ fuel →
          Gambit.run (Gambit.carry_rippler M) fuel
            = (l, { bitboard := M, subset := 0, first := false })) ∧
        l.length = 2 ^ Gambit.popcount64 M ∧
        l.Nodup ∧
        (∀ s, s ∈ l ↔ s &&& M = s) ∧
        l.head? = some 0 ∧
        l.getLast? = some M ∧
        Gambit.CarryRippler.next { bitboard := M, subset := 0, first := false }
          = (none, { bitboard := M, subset := 0, first := false }) ∧
        (∀ fuel, Gambit.run { bitboard := M, subset := 0, first := false } fuel
          = ([], { bitboard := M, subset := 0, first := false }))) ∧
    Gambit.run (Gambit.carry_rippler 10) 4
      = ([0, 2, 8, 10], { bitboard := 10, subset := 0, first := false }) := by
  have hconc : Gambit.run (Gambit.carry_rippler 10) 4
      = ([0, 2, 8, 10], { bitboard := 10, subset := 0, first := false }) := by
    decide
  constructor
  · intro M hM
    obtain ⟨h1, h2, h3, h4, h5⟩ := CRProof.seqW_spec 64 M hM
    refine ⟨CRProof.seqW 64 M, ?_, ?_, h5, h4, h1, h2, rfl, CRProof.run_terminal M⟩
    · intro fuel hfuel
      rw [CRProof.popcount64_eq] at hfuel
      exact CRProof.run_init hM fuel hfuel
    · rw [CRProof.popcount64_eq]
      exact h3
  · exact hconc

/-- Witness for C5: the universally quantified part applied at the concrete
mask `M = 10`, with its hypothesis `10 < 2^64` discharged by computation. -/
theorem C5_carry_rippler_enumeration_witness :
    10 < U64 ∧
    (∃ l : List Nat,
      (∀ fuel, 2 ^ Gambit.popcount64 10 ≤ fuel →
        Gambit.run (Gambit.carry_rippler 10) fuel
          = (l, { bitboard := 10, subset := 0, first := false })) ∧
      l.length = 2 ^ Gambit.popcount64 10 ∧
      l.Nodup ∧
      (∀ s, s ∈ l ↔ s &&& 10 = s) ∧
      l.head? = some 0 ∧
      l.getLast? = some 10 ∧
      Gambit.CarryRippler.next { bitboard := 10, subset := 0, first := false }
        = (none, { bitboard := 10, subset := 0, first := false }) ∧
      (∀ fuel, Gambit.run { bitboard := 10, subset := 0, first := false } fuel
        = ([], { bitboard := 10, subset := 0, first := false }))) :=
  ⟨by norm_num [U64], C5_carry_rippler_enumeration.1 10 (by norm_num [U64])⟩

/-!
### C9 — `symmetric_difference` and its alias `xor`

The claim: both `Bitboard::symmetric_difference(a, b)` and the const alias
`Bitboard::xor(a, b)` equal `a XOR b`, so the two agree on every input.
-/

/-- C9, counterexample/divergence witness: at `a = 0b0011`, `b = 0b0101`
the claim fails on the code.  `symmetric_difference` returns the true
symmetric difference `0b0110`, but `xor` (implemented as
`relative_complement`, i.e. `a & !b`) returns `0b0010 = 2`, which is not the
symmetric difference and differs from `symmetric_difference` — refuting
both "xor equals a XOR b" and "the two functions agree on every input". -/
theorem C9_xor_is_not_symmetric_difference :
    Gambit.symmetric_difference 3 5 = 6 ∧
    Gambit.xor 3 5 = 2 ∧
    Gambit.xor 3 5 ≠ Gambit.symmetric_difference 3 5 ∧
    Gambit.xor 3 5 = Gambit.relative_complement 3 5 := by
  refine ⟨?_, ?_, ?_, rfl⟩ <;> decide

namespace Engine

/-!
## The current engine crate: `old/src_old_2/board.rs` + `src/src/movegen.rs`,
`src/src/movegen/init.rs`, `src/src/helpers/bits.rs`,
`src/src/board/castling.rs`.

The crate's `board/location.rs` and `board/piece.rs` modules are not under
`src/`; the constants they export are used throughout the files that are.
They are modelled here from the spec (§3: square index = file + 8·rank,
rank/file bitboards, piece and side encodings) and from the surviving
sibling crate `old/src_old/board/square.rs`, which defines the same
lookups.
-/

/-- `SQUARE_BITBOARDS[sq] = 1u64 << sq`. -/
def SQUARE_BITBOARDS (sq : Nat) : Nat := 2 ^ sq

/-- `RANK_BITBOARDS[r] = 0xFF << (r * 8)`. -/
def RANK_BITBOARDS (r : Nat) : Nat := 0xFF <<< (r * 8)

/-- `FILE_BITBOARDS[f] = 0x0101_0101_0101_0101 << f`. -/
def FILE_BITBOARDS (f : Nat) : Nat := 0x0101010101010101 <<< f

/-- `Squares::get_coordinates`: `(rank, file) = (sq / 8, sq % 8)`. -/
def getRank (sq : Nat) : Nat := sq / 8

/-- File of a square. -/
def getFile (sq : Nat) : Nat := sq % 8

/-- `u64` shift-left (bits shifted past bit 63 are discarded). -/
def shl64 (a k : Nat) : Nat := (a <<< k) % U64

/-- `u64::rotate_left` (the rotation amount is taken modulo 64). -/
def rol64 (x n : Nat) : Nat :=
  ((x <<< (n % 64)) ||| (x >>> (64 - n % 64))) % U64

/-- `u64::trailing_zeros`: index of the lowest set bit, `64` for `0`. -/
def tz64 (n : Nat) : Nat := go 64 0 n where
  go : Nat → Nat → Nat → Nat
  | 0, acc, _ => acc
  | f + 1, acc, n => if n % 2 = 1 then acc else go f (acc + 1) (n / 2)

/-- Directions (`Directions::{NORTH, …}`), modelled from the spec's ±8
advance directions and the shift amounts in `cast_ray`. -/
def NORTH : Int := 8
def NORTH_EAST : Int := 9
def EAST : Int := 1
def SOUTH_EAST : Int := -7
def SOUTH : Int := -8
def SOUTH_WEST : Int := -9
def WEST : Int := -1
def NORTH_WEST : Int := 7

/-- `Squares::translate(square, direction)` for guarded (in-board) uses. -/
def translate (sq : Nat) (d : Int) : Nat := ((sq : Int) + d).toNat

/-- Chebyshev distance between two squares (`Squares::distance`; the spec
§4.2 names it explicitly). -/
def distance (a b : Nat) : Nat :=
  max ((getRank a : Int) - getRank b).natAbs ((getFile a : Int) - getFile b).natAbs

/-- The king-move boundary guard of `init_king_moves`
(`src/src/movegen/init.rs`): the direction is skipped when the square sits
on the edge the direction would cross. -/
def kingBlocked (sq : Nat) (d : Int) : Bool :=
  (getRank sq = 7 ∧ (d = NORTH ∨ d = NORTH_EAST ∨ d = NORTH_WEST)) ∨
  (getRank sq = 0 ∧ (d = SOUTH ∨ d = SOUTH_EAST ∨ d = SOUTH_WEST)) ∨
  (getFile sq = 0 ∧ (d = WEST ∨ d = NORTH_WEST ∨ d = SOUTH_WEST)) ∨
  (getFile sq = 7 ∧ (d = EAST ∨ d = NORTH_EAST ∨ d = SOUTH_EAST))

/-- `Directions::ALL`. -/
def directionsAll : List Int :=
  [NORTH, NORTH_EAST, EAST, SOUTH_EAST, SOUTH, SOUTH_WEST, WEST, NORTH_WEST]

/-- `MoveGenerator::init_king_moves` (`src/src/movegen/init.rs`), as the
per-square entry of `KING_MOVES`. -/
def kingMoves (sq : Nat) : Nat :=
  directionsAll.foldl
    (fun acc d =>
      if kingBlocked sq d then acc
      else
        let nsq := translate sq d
        if distance sq nsq = 1 then acc ||| SQUARE_BITBOARDS nsq else acc)
    0

/-- Knight jumps (`KnightJumps::{LONG_NORTH_EAST, …}`): long = two ranks,
short = two files. -/
def LONG_NORTH_EAST : Int := 17
def LONG_NORTH_WEST : Int := 15
def SHORT_NORTH_EAST : Int := 10
def SHORT_NORTH_WEST : Int := 6
def SHORT_SOUTH_EAST : Int := -6
def SHORT_SOUTH_WEST : Int := -10
def LONG_SOUTH_EAST : Int := -15
def LONG_SOUTH_WEST : Int := -17

/-- `KnightJumps::ALL`. -/
def knightJumpsAll : List Int :=
  [LONG_NORTH_EAST, LONG_NORTH_WEST, SHORT_NORTH_EAST, SHORT_NORTH_WEST,
   SHORT_SOUTH_EAST, SHORT_SOUTH_WEST, LONG_SOUTH_EAST, LONG_SOUTH_WEST]

/-- The knight-jump boundary guard of `init_knight_moves`. -/
def knightBlocked (sq : Nat) (d : Int) : Bool :=
  (getRank sq = 0 ∧ (d = LONG_SOUTH_EAST ∨ d = LONG_SOUTH_WEST ∨ d = SHORT_SOUTH_EAST ∨ d = SHORT_SOUTH_WEST)) ∨
  (getRank sq = 1 ∧ (d = LONG_SOUTH_EAST ∨ d = LONG_SOUTH_WEST)) ∨
  (getRank sq = 7 ∧ (d = LONG_NORTH_EAST ∨ d = LONG_NORTH_WEST ∨ d = SHORT_NORTH_EAST ∨ d = SHORT_NORTH_WEST)) ∨
  (getRank sq = 6 ∧ (d = LONG_NORTH_EAST ∨ d = LONG_NORTH_WEST)) ∨
  (getFile sq = 0 ∧ (d = LONG_NORTH_WEST ∨ d = LONG_SOUTH_WEST ∨ d = SHORT_NORTH_WEST ∨ d = SHORT_SOUTH_WEST)) ∨
  (getFile sq = 1 ∧ (d = SHORT_NORTH_WEST ∨ d = SHORT_SOUTH_WEST)) ∨
  (getFile sq = 7 ∧ (d = LONG_NORTH_EAST ∨ d = LONG_SOUTH_EAST ∨ d = SHORT_NORTH_EAST ∨ d = SHORT_SOUTH_EAST)) ∨
  (getFile sq = 6 ∧ (d = SHORT_NORTH_EAST ∨ d = SHORT_SOUTH_EAST))

/-- `MoveGenerator::init_knight_moves`, as the per-square entry of
`KNIGHT_MOVES`. -/
def knightMoves (sq : Nat) : Nat :=
  knightJumpsAll.foldl
    (fun acc d =>
      if knightBlocked sq d then acc
      else
        let nsq := translate sq d
        if distance sq nsq = 2 then acc ||| SQUARE_BITBOARDS nsq else acc)
    0

/-- `MoveGenerator::init_pawn_captures`, per (side, square):
white `(b & !FILE_A) << 7 | (b & !FILE_H) << 9`, black
`(b & !FILE_A) >> 9 | (b & !FILE_H) >> 7`. -/
def pawnCaptures (side sq : Nat) : Nat :=
  let b := SQUARE_BITBOARDS sq
  if side = 0 then
    shl64 (b &&& not64 (FILE_BITBOARDS 0)) 7 ||| shl64 (b &&& not64 (FILE_BITBOARDS 7)) 9
  else
    (b &&& not64 (FILE_BITBOARDS 0)) >>> 9 ||| (b &&& not64 (FILE_BITBOARDS 7)) >>> 7

/-- One iteration bound for `cast_ray`'s `while !done` loop (a ray takes at
most 7 steps on an 8×8 board; the fuel is generous). -/
def rayFuel : Nat := 16

/-- `MoveGenerator::cast_ray` (`src/src/movegen/init.rs`): walk from the
square in direction `d`, collecting squares, stopping after the first one
that intersects `blocker` or at the board edge.  `squareBB` is the current
single-square bitboard, `rank`/`file` its coordinates, `ray` the
accumulator. -/
def castRayAux (d : Int) (blocker : Nat) :
    Nat → Nat → Nat → Nat → Nat → Nat
  | 0, _, _, _, ray => ray
  | fuel + 1, squareBB, rank, file, ray =>
    if d = NORTH then
      if rank = 7 then ray
      else
        let s := shl64 squareBB 8
        let r := ray ||| s
        if s &&& blocker > 0 then r else castRayAux d blocker fuel s (rank + 1) file r
    else if d = NORTH_EAST then
      if rank = 7 ∨ file = 7 then ray
      else
        let s := shl64 squareBB 9
        let r := ray ||| s
        if s &&& blocker > 0 then r else castRayAux d blocker fuel s (rank + 1) (file + 1) r
    else if d = EAST then
      if file = 7 then ray
      else
        let s := shl64 squareBB 1
        let r := ray ||| s
        if s &&& blocker > 0 then r else castRayAux d blocker fuel s rank (file + 1) r
    else if d = SOUTH_EAST then
      if rank = 0 ∨ file = 7 then ray
      else
        let s := squareBB >>> 7
        let r := ray ||| s
        if s &&& blocker > 0 then r else castRayAux d blocker fuel s (rank - 1) (file + 1) r
    else if d = SOUTH then
      if rank = 0 then ray
      else
        let s := squareBB >>> 8
        let r := ray ||| s
        if s &&& blocker > 0 then r else castRayAux d blocker fuel s (rank - 1) file r
    else if d = SOUTH_WEST then
      if rank = 0 ∨ file = 0 then ray
      else
        let s := squareBB >>> 9
        let r := ray ||| s
        if s &&& blocker > 0 then r else castRayAux d blocker fuel s (rank - 1) (file - 1) r
    else if d = WEST then
      if file = 0 then ray
      else
        let s := squareBB >>> 1
        let r := ray ||| s
        if s &&& blocker > 0 then r else castRayAux d blocker fuel s rank (file - 1) r
    else if d = NORTH_WEST then
      if rank = 7 ∨ file = 0 then ray
      else
        let s := shl64 squareBB 7
        let r := ray ||| s
        if s &&& blocker > 0 then r else castRayAux d blocker fuel s (rank + 1) (file - 1) r
    else ray

/-- `cast_ray` from a square index. -/
def castRay (d : Int) (blocker sq : Nat) : Nat :=
  castRayAux d blocker rayFuel (SQUARE_BITBOARDS sq) (getRank sq) (getFile sq) 0

/-- The edge mask of `init_rook_mask`/`init_bishop_mask`. -/
def edgeMask (sq : Nat) : Nat :=
  (FILE_BITBOARDS 0 &&& not64 (FILE_BITBOARDS (getFile sq))) |||
  (FILE_BITBOARDS 7 &&& not64 (FILE_BITBOARDS (getFile sq))) |||
  (RANK_BITBOARDS 0 &&& not64 (RANK_BITBOARDS (getRank sq))) |||
  (RANK_BITBOARDS 7 &&& not64 (RANK_BITBOARDS (getRank sq)))

/-- `MoveGenerator::init_rook_mask`, per square. -/
def ROOK_MASK (sq : Nat) : Nat :=
  (RANK_BITBOARDS (getRank sq) ||| FILE_BITBOARDS (getFile sq))
    &&& not64 (edgeMask sq) &&& not64 (SQUARE_BITBOARDS sq)

/-- `MoveGenerator::init_bishop_mask`, per square. -/
def BISHOP_MASK (sq : Nat) : Nat :=
  (castRay NORTH_WEST 0 sq ||| castRay NORTH_EAST 0 sq |||
   castRay SOUTH_EAST 0 sq ||| castRay SOUTH_WEST 0 sq) &&& not64 (edgeMask sq)

/-- The rook attack board computed by `init_magics` for a blocker
configuration (N | E | S | W rays). -/
def rookAttacks (sq blocker : Nat) : Nat :=
  castRay NORTH blocker sq ||| castRay EAST blocker sq |||
  castRay SOUTH blocker sq ||| castRay WEST blocker sq

/-- The bishop attack board computed by `init_magics` for a blocker
configuration (NE | SE | SW | NW rays). -/
def bishopAttacks (sq blocker : Nat) : Nat :=
  castRay NORTH_EAST blocker sq ||| castRay SOUTH_EAST blocker sq |||
  castRay SOUTH_WEST blocker sq ||| castRay NORTH_WEST blocker sq

/-- `MoveGenerator::get_rook_moves`.  Modelled from the spec: the source
reads `rook_moves[rook_magics[square].get_index(occupancy)]`; the `magics`
module (`Magic::get_index` and the magic constants) is missing from `src/`.
Per spec §4.3 the table stores, at `index(B)`, the ray-cast attack set for
blocker board `B = occupancy & mask[sq]`, and the build aborts on any
collision (see C6), so a successfully built table's lookup returns exactly
that stored attack set. -/
def get_rook_moves (sq occ : Nat) : Nat := rookAttacks sq (occ &&& ROOK_MASK sq)

/-- `MoveGenerator::get_bishop_moves` — see `get_rook_moves`. -/
def get_bishop_moves (sq occ : Nat) : Nat := bishopAttacks sq (occ &&& BISHOP_MASK sq)

/-- `MoveGenerator::get_queen_moves`: rook XOR bishop
(`src/src/movegen.rs` lines 101–103). -/
def get_queen_moves (sq occ : Nat) : Nat :=
  get_rook_moves sq occ ^^^ get_bishop_moves sq occ

end Engine

namespace Engine

/-!
## Board and state (`old/src_old_2/board.rs`)

Piece encoding (`board/piece.rs`, present as `old/src_old_2/board/piece.rs`):
PAWN 0, KNIGHT 1, BISHOP 2, ROOK 3, QUEEN 4, KING 5, NONE 6.
Sides: WHITE 0, BLACK 1.  `piece_bitboards[side][piece]` is flattened to a
single 12-entry list indexed `side * 6 + piece`.
-/

/-- `struct State` of `old/src_old_2/board.rs`.  `next_move` holds the
packed move data. -/
structure State where
  side_to_move : Nat
  half_move_clock : Nat
  full_move_number : Nat
  en_passant_square : Option Nat
  castling_availability : Nat
  zobrist_key : Nat
  next_move : Nat
deriving DecidableEq, Repr

/-- `struct Board` of `old/src_old_2/board.rs` (the read-only
`move_generator` tables live as plain functions here). -/
structure Board where
  state : State
  history : List State
  piece_list : List Nat
  piece_bitboards : List Nat
  side_bitboards : List Nat
deriving DecidableEq, Repr

/-- `piece_bitboards[side][piece]`. -/
def getPB (b : Board) (side piece : Nat) : Nat :=
  b.piece_bitboards.getD (side * 6 + piece) 0

/-- `side_bitboards[side]`. -/
def getSB (b : Board) (side : Nat) : Nat := b.side_bitboards.getD side 0

/-- `Board::occupancy`. -/
def occupancy (b : Board) : Nat := getSB b 0 ||| getSB b 1

/-!
## Zobrist randoms — modelled from the spec

The crate's zobrist module (exporting `ZOBRIST_PIECES`, `ZOBRIST_CASTLING`,
`ZOBRIST_EN_PASSANT`, `ZOBRIST_SIDE`, `get_zobrist_key`) is missing from
`src/`.  Per spec §2/§6 the tables hold 64-bit randoms drawn once from a
seeded RNG — runtime data whose particular values none of the claims
settled here depend on.  They are modelled as fixed total functions so the
embedding stays executable.  `board.rs` additionally reads
`ZOBRIST_EN_PASSANT[ZOBRIST_EN_PASSANT.len()]` for the "no en-passant"
contribution; spec §9 notes this sentinel convention, and the sentinel slot
is modelled as index 65.
-/

/-- Modelled from the spec: `ZOBRIST_PIECES[piece + side_offset][square]`
(the missing zobrist module; values are placeholder runtime randoms). -/
def ZOBRIST_PIECES (pieceWithOffset square : Nat) : Nat :=
  pieceWithOffset * 64 + square + 1

/-- Modelled from the spec: `ZOBRIST_CASTLING[rights]`. -/
def ZOBRIST_CASTLING (c : Nat) : Nat := 1000 + c

/-- Modelled from the spec: the single side-to-move random. -/
def ZOBRIST_SIDE : Nat := 2000

/-- Modelled from the spec: `ZOBRIST_EN_PASSANT[i]`, with the sentinel
"no en-passant" slot at `i = 65` standing for the source's
`ZOBRIST_EN_PASSANT[ZOBRIST_EN_PASSANT.len()]`. -/
def ZOBRIST_EN_PASSANT (i : Nat) : Nat := 3000 + i

/-- The sentinel index `ZOBRIST_EN_PASSANT.len()`. -/
def EP_LEN : Nat := 65

/-- `CastlingPermissions::PER_SQUARE` (`src/src/board/castling.rs`). -/
def CASTLING_PER_SQUARE (sq : Nat) : Nat :=
  if sq = 0 then 13
  else if sq = 4 then 12
  else if sq = 7 then 14
  else if sq = 56 then 7
  else if sq = 60 then 3
  else if sq = 63 then 11
  else 15

/-!
## Move decoding — modelled from the spec (§3 packed layout)

The crate's `movegen/piece_move.rs` is missing from `src/`.  The spec fixes
the field widths and order: piece 3, from 6, to 6, capture 3, promotion 3,
en_passant 1, double_step 1, castling 1; decoding is pure shifts and masks
(§4.5).
-/

namespace Move

/-- Modelled from the spec: `Move::piece`. -/
def piece (m : Nat) : Nat := m &&& 7

/-- Modelled from the spec: `Move::from`. -/
def fromSq (m : Nat) : Nat := (m >>> 3) &&& 63

/-- Modelled from the spec: `Move::to`. -/
def toSq (m : Nat) : Nat := (m >>> 9) &&& 63

/-- Modelled from the spec: `Move::capture`. -/
def capture (m : Nat) : Nat := (m >>> 15) &&& 7

/-- Modelled from the spec: `Move::promotion`. -/
def promotion (m : Nat) : Nat := (m >>> 18) &&& 7

/-- Modelled from the spec: `Move::en_passant`. -/
def en_passant (m : Nat) : Bool := (m >>> 21) &&& 1 = 1

/-- Modelled from the spec: `Move::double_step`. -/
def double_step (m : Nat) : Bool := (m >>> 22) &&& 1 = 1

/-- Modelled from the spec: `Move::castling`. -/
def castling (m : Nat) : Bool := (m >>> 23) &&& 1 = 1

end Move

/-- Modelled from the spec: the `MoveBuilder` encoder matching the §3
layout (capture/promotion default to NONE = 6; flags are single bits). -/
def mkMove (piece f t capture promo : Nat) (ep ds cast : Bool) : Nat :=
  piece ||| (f <<< 3) ||| (t <<< 9) ||| (capture <<< 15) ||| (promo <<< 18) |||
  ((if ep then 1 else 0) <<< 21) ||| ((if ds then 1 else 0) <<< 22) |||
  ((if cast then 1 else 0) <<< 23)

/-!
## Piece movement primitives (`old/src_old_2/board.rs` lines 228–255)
-/

/-- `Board::put_piece::<UPDATE_ZOBRIST>`. -/
def put_piece (z : Bool) (side piece square : Nat) (b : Board) : Board :=
  let b1 : Board :=
    { b with
      piece_bitboards :=
        b.piece_bitboards.set (side * 6 + piece) (getPB b side piece ||| SQUARE_BITBOARDS square),
      side_bitboards :=
        b.side_bitboards.set side (getSB b side ||| SQUARE_BITBOARDS square),
      piece_list := b.piece_list.set square piece }
  if z then
    { b1 with state := { b1.state with
        zobrist_key := b1.state.zobrist_key ^^^
          ZOBRIST_PIECES (piece + (if side = 1 then 6 else 0)) square } }
  else b1

/-- `Board::remove_piece::<UPDATE_ZOBRIST>`. -/
def remove_piece (z : Bool) (side piece square : Nat) (b : Board) : Board :=
  let b1 : Board :=
    { b with
      piece_bitboards :=
        b.piece_bitboards.set (side * 6 + piece) (getPB b side piece ^^^ SQUARE_BITBOARDS square),
      side_bitboards :=
        b.side_bitboards.set side (getSB b side ^^^ SQUARE_BITBOARDS square),
      piece_list := b.piece_list.set square 6 }
  if z then
    { b1 with state := { b1.state with
        zobrist_key := b1.state.zobrist_key ^^^
          ZOBRIST_PIECES (piece + (if side = 1 then 6 else 0)) square } }
  else b1

/-- `Board::move_piece::<UPDATE_ZOBRIST>`. -/
def move_piece (z : Bool) (side piece f t : Nat) (b : Board) : Board :=
  put_piece z side piece t (remove_piece z side piece f b)

end Engine

namespace Engine

/-- `MoveGenerator::is_square_attacked` (`src/src/movegen.rs` lines
200–217).  The six checks, in source order: king, knight, pawn
(reverse-colour capture table), rook, bishop, queen (= rook XOR bishop). -/
def is_square_attacked (b : Board) (attacker square : Nat) : Bool :=
  let occ := occupancy b
  let king_moves := kingMoves square
  let knight_moves := knightMoves square
  let pawn_moves := pawnCaptures (attacker ^^^ 1) square
  let rook_moves := get_rook_moves square occ
  let bishop_moves := get_bishop_moves square occ
  let queen_moves := rook_moves ^^^ bishop_moves
  decide (king_moves &&& getPB b attacker 5 > 0) ||
  decide (knight_moves &&& getPB b attacker 1 > 0) ||
  decide (pawn_moves &&& getPB b attacker 0 > 0) ||
  decide (rook_moves &&& getPB b attacker 3 > 0) ||
  decide (bishop_moves &&& getPB b attacker 2 > 0) ||
  decide (queen_moves &&& getPB b attacker 4 > 0)

/-- `Board::unmake_move` (`old/src_old_2/board.rs` lines 186–226).
`none` models the panic of `self.history.pop().unwrap()` on an empty
history, and of the `_ => panic!("Invalid castling square")` arm. -/
def unmake_move (b : Board) : Option Board :=
  match b.history with
  | [] => none
  | st :: rest =>
    let b : Board := { b with state := st, history := rest }
    let m := b.state.next_move
    let us := b.state.side_to_move
    let opponent := us ^^^ 1
    let piece := Move.piece m
    let f := Move.fromSq m
    let t := Move.toSq m
    let capture := Move.capture m
    let promotion := Move.promotion m
    let castling := Move.castling m
    let en_passant := Move.en_passant m
    let b :=
      if promotion = 6 then move_piece false us piece t f b
      else put_piece false us 0 f (remove_piece false us promotion t b)
    let ob :=
      if castling then
        if t = 6 then some (move_piece false us 3 5 7 b)
        else if t = 2 then some (move_piece false us 3 3 0 b)
        else if t = 62 then some (move_piece false us 3 61 63 b)
        else if t = 58 then some (move_piece false us 3 59 56 b)
        else none
      else some b
    match ob with
    | none => none
    | some b =>
      let b := if capture ≠ 6 then put_piece false opponent capture t b else b
      let b := if en_passant then put_piece false opponent 0 (t ^^^ 8) b else b
      some b

/-- `make_move` step (`old/src_old_2/board.rs` lines 95–97): push the
current state, with `next_move` overwritten, onto the history. -/
def pushStep (m : Nat) (b : Board) : Board :=
  { b with history := { b.state with next_move := m } :: b.history }

/-- `make_move` step (line 112): `half_move_clock += 1`. -/
def clockStep (b : Board) : Board :=
  { b with state := { b.state with half_move_clock := b.state.half_move_clock + 1 } }

/-- `make_move` step (lines 114–118): clear a pending en-passant square,
updating the key with the square's random and the sentinel
`ZOBRIST_EN_PASSANT[ZOBRIST_EN_PASSANT.len()]`. -/
def clearEpStep (b : Board) : Board :=
  match b.state.en_passant_square with
  | some square =>
    { b with state := { b.state with
        zobrist_key := b.state.zobrist_key ^^^ ZOBRIST_EN_PASSANT square
          ^^^ ZOBRIST_EN_PASSANT EP_LEN,
        en_passant_square := none } }
  | none => b

/-- `make_move` step (lines 120–129): remove the captured piece at `to`,
reset the clock, and update castling rights if a rook was captured.
(`has_castling_permissions` is read by the source before the clock and
en-passant steps, which do not modify `castling_availability`.) -/
def captureStep (m : Nat) (b : Board) : Board :=
  let us := b.state.side_to_move
  let opponent := us ^^^ 1
  let t := Move.toSq m
  let capture := Move.capture m
  let has_castling_permissions := b.state.castling_availability > 0
  if capture ≠ 6 then
    let b := remove_piece true opponent capture t b
    let b : Board := { b with state := { b.state with half_move_clock := 0 } }
    if capture = 3 ∧ has_castling_permissions then
      { b with state := { b.state with
          zobrist_key := b.state.zobrist_key
            ^^^ ZOBRIST_CASTLING b.state.castling_availability
            ^^^ ZOBRIST_CASTLING (b.state.castling_availability &&& CASTLING_PER_SQUARE t),
          castling_availability := b.state.castling_availability &&& CASTLING_PER_SQUARE t } }
    else b
  else b

/-- `make_move` step (lines 131–153): move the piece; for pawns, handle
promotion, en-passant removal and the double-step en-passant square. -/
def pieceStep (m : Nat) (b : Board) : Board :=
  let us := b.state.side_to_move
  let opponent := us ^^^ 1
  let piece := Move.piece m
  let f := Move.fromSq m
  let t := Move.toSq m
  let promotion := Move.promotion m
  if piece ≠ 0 then move_piece true us piece f t b
  else
    let double_step := Move.double_step m
    let en_passant := Move.en_passant m
    let is_promotion := promotion ≠ 6
    let b := remove_piece true us piece f b
    let b := put_piece true us (if is_promotion then promotion else piece) t b
    let b : Board := { b with state := { b.state with half_move_clock := 0 } }
    let b := if en_passant then remove_piece true opponent 0 (t ^^^ 8) b else b
    if double_step then
      { b with state := { b.state with
          zobrist_key := b.state.zobrist_key
            ^^^ ZOBRIST_EN_PASSANT ((b.state.en_passant_square).getD EP_LEN)
            ^^^ ZOBRIST_EN_PASSANT (t ^^^ 8),
          en_passant_square := some (t ^^^ 8) } }
    else b

/-- `make_move` step (lines 155–159): update castling rights when a king
or rook moves from its home square. -/
def rightsStep (m : Nat) (b : Board) : Board :=
  let piece := Move.piece m
  let f := Move.fromSq m
  let has_castling_permissions := b.state.castling_availability > 0
  if (piece = 5 ∨ piece = 3) ∧ has_castling_permissions then
    { b with state := { b.state with
        zobrist_key := b.state.zobrist_key
          ^^^ ZOBRIST_CASTLING b.state.castling_availability
          ^^^ ZOBRIST_CASTLING (b.state.castling_availability &&& CASTLING_PER_SQUARE f),
        castling_availability := b.state.castling_availability &&& CASTLING_PER_SQUARE f } }
  else b

/-- `make_move` step (lines 161–169): move the castling rook.  `none`
models the `_ => panic!("Invalid castling square")` arm.

Note: the source reads `has_castling_permissions` once at line 110; the
steps between do not change `castling_availability` except `captureStep`
and `rightsStep` themselves, which re-read it only through this cached
flag — modelled by reading the field where the flag is still unchanged. -/
def rookStep (m : Nat) (b : Board) : Option Board :=
  let us := b.state.side_to_move
  let t := Move.toSq m
  if Move.castling m then
    if t = 6 then some (move_piece true us 3 7 5 b)
    else if t = 2 then some (move_piece true us 3 0 3 b)
    else if t = 62 then some (move_piece true us 3 63 61 b)
    else if t = 58 then some (move_piece true us 3 56 59 b)
    else none
  else some b

/-- `make_move` step (lines 171–172): XOR the side random, flip the side
to move. -/
def flipStep (b : Board) : Board :=
  { b with state := { b.state with
      zobrist_key := b.state.zobrist_key ^^^ ZOBRIST_SIDE,
      side_to_move := b.state.side_to_move ^^^ 1 } }

/-- `make_move` step (lines 174–176): bump the fullmove number after a
Black move (`us` is the side that moved). -/
def fullmoveStep (us : Nat) (b : Board) : Board :=
  if us = 1 then
    { b with state := { b.state with full_move_number := b.state.full_move_number + 1 } }
  else b

/-- `Board::make_move` without the final legality check: the update
sequence of `old/src_old_2/board.rs` lines 95–176 in source order.
`none` models the `panic!("Invalid castling square")` arm. -/
def make_move_applied (m : Nat) (b : Board) : Option Board :=
  let us := b.state.side_to_move
  match rookStep m (rightsStep m (pieceStep m (captureStep m (clearEpStep (clockStep (pushStep m b)))))) with
  | none => none
  | some b1 => some (fullmoveStep us (flipStep b1))

/-- `Board::make_move` (`old/src_old_2/board.rs` lines 93–184): apply the
move, then test whether the mover's king square is attacked by the (new)
side to move; if so, undo with `unmake_move` and return `false`. -/
def make_move (m : Nat) (b : Board) : Option (Bool × Board) :=
  let us := b.state.side_to_move
  let opponent := us ^^^ 1
  match make_move_applied m b with
  | none => none
  | some b1 =>
    let is_legal := ! is_square_attacked b1 opponent (tz64 (getPB b1 us 5))
    if is_legal then some (true, b1)
    else
      match unmake_move b1 with
      | none => none
      | some b2 => some (false, b2)

end Engine

namespace Engine

/-- `bits::next` (`src/src/helpers/bits.rs`): lowest set square, clearing
its bit.  `trailing_zeros` of an empty bitboard is 64 and the
`SQUARE_BITBOARDS[64]` access panics (index out of bounds), modelled by
`none`. -/
def bitsNext (bb : Nat) : Option (Nat × Nat) :=
  let square := tz64 bb
  if square < 64 then some (square, bb ^^^ SQUARE_BITBOARDS square) else none

/-- `Ranks::get_fourth_rank`. -/
def fourthRank (side : Nat) : Nat := if side = 0 then 3 else 4

/-- `Ranks::get_promotion_rank`. -/
def promotionRank (side : Nat) : Nat := if side = 0 then 7 else 0

/-- `Pieces::PROMOTION_TARGETS`. -/
def PROMOTION_TARGETS : List Nat := [1, 2, 3, 4]

/-- The moves emitted by `MoveGenerator::add_move_to_list` for one
destination square (one move, or four on promotion). -/
def movesForTarget (b : Board) (pieceType f t : Nat) : List Nat :=
  let is_pawn := pieceType = 0
  let capture := b.piece_list.getD t 6
  let en_passant :=
    match b.state.en_passant_square with
    | some square => is_pawn && square = t
    | none => false
  let promotion := is_pawn && (getRank t = promotionRank b.state.side_to_move)
  let double_step := is_pawn && ((t : Int) - (f : Int)).natAbs = 16
  let castling := (pieceType = 5) && ((t : Int) - (f : Int)).natAbs = 2
  if promotion then
    PROMOTION_TARGETS.map (fun p => mkMove pieceType f t capture p en_passant double_step castling)
  else
    [mkMove pieceType f t capture 6 en_passant double_step castling]

/-- `MoveGenerator::add_move_to_list` (`src/src/movegen.rs` lines
219–257): the `while to > 0` loop popping destination bits with
`bits::next`.  The fuel bounds the loop (a 64-bit board has at most 64
bits); `none` models a `bits::next` panic. -/
def addMoveToList (b : Board) (pieceType f : Nat) : Nat → Nat → Option (List Nat)
  | 0, _ => some []
  | fuel + 1, toBB =>
    if toBB = 0 then some []
    else
      match bitsNext toBB with
      | none => none
      | some (t, rest) =>
        match addMoveToList b pieceType f fuel rest with
        | none => none
        | some ms => some (movesForTarget b pieceType f t ++ ms)

/-- The `while pieces > 0` loop of
`MoveGenerator::generate_moves_for_piece` (`src/src/movegen.rs` lines
67–87). -/
def pieceLoop (b : Board) (pieceType : Nat) : Nat → Nat → Option (List Nat)
  | 0, _ => some []
  | fuel + 1, pieces =>
    if pieces = 0 then some []
    else
      match bitsNext pieces with
      | none => none
      | some (f, rest) =>
        let toBB :=
          (if pieceType = 5 then kingMoves f
           else if pieceType = 1 then knightMoves f
           else if pieceType = 3 then get_rook_moves f (occupancy b)
           else if pieceType = 2 then get_bishop_moves f (occupancy b)
           else if pieceType = 4 then get_queen_moves f (occupancy b)
           else 0) &&& not64 (getSB b b.state.side_to_move)
        match addMoveToList b pieceType f 64 toBB with
        | none => none
        | some ms =>
          match pieceLoop b pieceType fuel rest with
          | none => none
          | some ms2 => some (ms ++ ms2)

/-- `MoveGenerator::generate_moves_for_piece`. -/
def generate_moves_for_piece (b : Board) (pieceType : Nat) : Option (List Nat) :=
  pieceLoop b pieceType 64 (getPB b b.state.side_to_move pieceType)

/-- The `while pawns > 0` loop of
`MoveGenerator::generate_moves_for_pawns` (`src/src/movegen.rs` lines
106–143).  `none` models either a `bits::next` panic or the
`SQUARE_BITBOARDS[to]` panic when `Squares::translate` leaves the board
(`to` is a wrapped `usize` outside `0..64`). -/
def pawnLoop (b : Board) : Nat → Nat → Option (List Nat)
  | 0, _ => some []
  | fuel + 1, pawns =>
    if pawns = 0 then some []
    else
      match bitsNext pawns with
      | none => none
      | some (f, rest) =>
        let us := b.state.side_to_move
        let opponent := us ^^^ 1
        let direction : Int := if us = 0 then NORTH else SOUTH
        let rotation_count : Nat := (64 + direction).toNat
        let toI : Int := (f : Int) + direction
        if 0 ≤ toI ∧ toI < 64 then
          let t := toI.toNat
          let empty_squares := not64 (occupancy b)
          let one_step := SQUARE_BITBOARDS t &&& empty_squares
          let two_steps := rol64 one_step rotation_count &&& empty_squares
            &&& RANK_BITBOARDS (fourthRank us)
          let targets := pawnCaptures us f
          let captures := targets &&& getSB b opponent
          let en_passant_capture :=
            match b.state.en_passant_square with
            | some sq => targets &&& SQUARE_BITBOARDS sq
            | none => 0
          let moves := one_step ||| two_steps ||| captures ||| en_passant_capture
          match addMoveToList b 0 f 64 moves with
          | none => none
          | some ms =>
            match pawnLoop b fuel rest with
            | none => none
            | some ms2 => some (ms ++ ms2)
        else none

/-- `MoveGenerator::generate_moves_for_pawns`. -/
def generate_moves_for_pawns (b : Board) : Option (List Nat) :=
  pawnLoop b 64 (getPB b b.state.side_to_move 0)

/-- `MoveGenerator::generate_castling_moves` (`src/src/movegen.rs` lines
145–198).  Note the `bits::next` call on the king bitboard is not guarded
by a `while > 0` loop: on a board with no king of the side to move it
panics (`none`). -/
def generate_castling_moves (b : Board) : Option (List Nat) :=
  let us := b.state.side_to_move
  let opponent := us ^^^ 1
  let occ := occupancy b
  match bitsNext (getPB b us 5) with
  | none => none
  | some (f, _) =>
    if us = 0 then
      let kingside :=
        if b.state.castling_availability &&& 1 > 0 then
          let blockers := SQUARE_BITBOARDS 5 ||| SQUARE_BITBOARDS 6
          if ¬(occ &&& blockers > 0) ∧ ¬(is_square_attacked b opponent 4 = true) ∧
              ¬(is_square_attacked b opponent 5 = true) then
            addMoveToList b 5 f 64 (shl64 (SQUARE_BITBOARDS f) 2)
          else some []
        else some []
      let queenside :=
        if b.state.castling_availability &&& 2 > 0 then
          let blockers := SQUARE_BITBOARDS 1 ||| SQUARE_BITBOARDS 2 ||| SQUARE_BITBOARDS 3
          if ¬(occ &&& blockers > 0) ∧ ¬(is_square_attacked b opponent 4 = true) ∧
              ¬(is_square_attacked b opponent 3 = true) then
            addMoveToList b 5 f 64 (SQUARE_BITBOARDS f >>> 2)
          else some []
        else some []
      match kingside, queenside with
      | some k, some q => some (k ++ q)
      | _, _ => none
    else
      let kingside :=
        if b.state.castling_availability &&& 4 > 0 then
          let blockers := SQUARE_BITBOARDS 61 ||| SQUARE_BITBOARDS 62
          if ¬(occ &&& blockers > 0) ∧ ¬(is_square_attacked b opponent 60 = true) ∧
              ¬(is_square_attacked b opponent 61 = true) then
            addMoveToList b 5 f 64 (shl64 (SQUARE_BITBOARDS f) 2)
          else some []
        else some []
      let queenside :=
        if b.state.castling_availability &&& 8 > 0 then
          let blockers := SQUARE_BITBOARDS 57 ||| SQUARE_BITBOARDS 58 ||| SQUARE_BITBOARDS 59
          if ¬(occ &&& blockers > 0) ∧ ¬(is_square_attacked b opponent 60 = true) ∧
              ¬(is_square_attacked b opponent 59 = true) then
            addMoveToList b 5 f 64 (SQUARE_BITBOARDS f >>> 2)
          else some []
        else some []
      match kingside, queenside with
      | some k, some q => some (k ++ q)
      | _, _ => none

/-- `MoveGenerator::generate_moves`: king, knight, rook, bishop, queen,
pawns, castling, in source order. -/
def generate_moves (b : Board) : Option (List Nat) :=
  match generate_moves_for_piece b 5 with
  | none => none
  | some l1 =>
  match generate_moves_for_piece b 1 with
  | none => none
  | some l2 =>
  match generate_moves_for_piece b 3 with
  | none => none
  | some l3 =>
  match generate_moves_for_piece b 2 with
  | none => none
  | some l4 =>
  match generate_moves_for_piece b 4 with
  | none => none
  | some l5 =>
  match generate_moves_for_pawns b with
  | none => none
  | some l6 =>
  match generate_castling_moves b with
  | none => none
  | some l7 => some (l1 ++ l2 ++ l3 ++ l4 ++ l5 ++ l6 ++ l7)

end Engine

namespace Engine

theorem getD_set_self {l : List Nat} {i : Nat} (h : i < l.length) (a d : Nat) :
    (l.set i a).getD i d = a := by
  rw [List.getD_eq_getElem?_getD, List.getElem?_set_self h]
  rfl

theorem getD_set_ne {l : List Nat} {i j : Nat} (h : i ≠ j) (a d : Nat) :
    (l.set i a).getD j d = l.getD j d := by
  rw [List.getD_eq_getElem?_getD, List.getElem?_set_ne h, ← List.getD_eq_getElem?_getD]

theorem set_getD_self {l : List Nat} {i : Nat} {d a : Nat} (hi : i < l.length)
    (h : l.getD i d = a) : l.set i a = l := by
  apply List.ext_getElem?
  intro n
  by_cases hn : i = n
  · subst hn
    rw [List.getElem?_set_self hi]
    rw [List.getD_eq_getElem?_getD] at h
    cases hg : l[i]? with
    | none =>
      rw [hg] at h
      exact absurd (List.getElem?_eq_none_iff.mp hg) (by omega)
    | some v =>
      rw [hg] at h
      simp at h
      rw [h]
  · rw [List.getElem?_set_ne hn]

/-- A set that lands beyond the list is the identity. -/
theorem set_out_of_bounds {l : List Nat} {i : Nat} (h : l.length ≤ i) (a : Nat) :
    l.set i a = l := by
  apply List.ext_getElem?
  intro n
  by_cases hn : i = n
  · subst hn
    rw [List.getElem?_set_self']
    have : l[i]? = none := List.getElem?_eq_none (by omega)
    rw [this]
    rfl
  · rw [List.getElem?_set_ne hn]

theorem bit_move_restore {x f t : Nat} (hf : x.testBit f = true)
    (ht : x.testBit t = false) (_hne : f ≠ t) :
    (((x ^^^ 2 ^ f) ||| 2 ^ t) ^^^ 2 ^ t) ||| 2 ^ f = x := by
  apply Nat.eq_of_testBit_eq
  intro i
  simp only [Nat.testBit_or, Nat.testBit_xor, Nat.testBit_two_pow]
  by_cases hif : f = i
  · subst hif
    simp [hf]
  · by_cases hit : t = i
    · subst hit
      simp [ht, hif, Ne.symm hif]
    · simp [hif, hit]

theorem bit_remove_put {x t : Nat} (ht : x.testBit t = true) :
    (x ^^^ 2 ^ t) ||| 2 ^ t = x := by
  apply Nat.eq_of_testBit_eq
  intro i
  simp only [Nat.testBit_or, Nat.testBit_xor, Nat.testBit_two_pow]
  by_cases hit : t = i
  · subst hit
    simp [ht]
  · simp [hit]

theorem bit_put_remove {x t : Nat} (ht : x.testBit t = false) :
    (x ||| 2 ^ t) ^^^ 2 ^ t = x := by
  apply Nat.eq_of_testBit_eq
  intro i
  simp only [Nat.testBit_or, Nat.testBit_xor, Nat.testBit_two_pow]
  by_cases hit : t = i
  · subst hit
    simp [ht]
  · simp [hit]

/-!
## The data-model invariants (spec §3)

`invariants` collects the structural invariants 1–4: side bitboards are
the unions of the piece bitboards, the two sides are disjoint, the piece
list mirrors the bitboards, and each side has exactly one king.  (The
zobrist invariant 5 and the en-passant-rank invariant 6 are not needed by
the round-trip/atomicity proofs, which restore the state wholesale, so
they are not assumed — the theorems are correspondingly stronger.)
-/

/-- Shape constraints of the flattened board representation. -/
def wellFormed (b : Board) : Prop :=
  b.piece_bitboards.length = 12 ∧ b.side_bitboards.length = 2 ∧
  b.piece_list.length = 64 ∧ b.state.side_to_move < 2

/-- Spec §3 invariant 1: `side_bitboards[c] = ⋃_k piece_bitboards[c][k]`. -/
def invUnion (b : Board) : Prop :=
  ∀ c < 2, getSB b c
    = getPB b c 0 ||| getPB b c 1 ||| getPB b c 2 ||| getPB b c 3 |||
      getPB b c 4 ||| getPB b c 5

/-- Spec §3 invariant 2: the two side bitboards are disjoint. -/
def invDisjoint (b : Board) : Prop := getSB b 0 &&& getSB b 1 = 0

/-- Spec §3 invariant 3: the piece list mirrors the piece bitboards. -/
def invPieceList (b : Board) : Prop :=
  ∀ s < 64,
    ((occupancy b).testBit s = false → b.piece_list.getD s 6 = 6) ∧
    ∀ c < 2, ∀ k < 6, (getPB b c k).testBit s = true → b.piece_list.getD s 6 = k

/-- Spec §3 invariant 4: each side has exactly one king. -/
def invKings (b : Board) : Prop :=
  ∀ c < 2, Gambit.popcount64 (getPB b c 5) = 1

/-- The data-model invariants (spec §3, items 1–4, plus representation
shape). -/
def invariants (b : Board) : Prop :=
  wellFormed b ∧ invUnion b ∧ invDisjoint b ∧ invPieceList b ∧ invKings b

instance (b : Board) : Decidable (wellFormed b) := by unfold wellFormed; infer_instance
instance (b : Board) : Decidable (invUnion b) := by unfold invUnion; infer_instance
instance (b : Board) : Decidable (invDisjoint b) := by unfold invDisjoint; infer_instance
instance (b : Board) : Decidable (invPieceList b) := by unfold invPieceList; infer_instance
instance (b : Board) : Decidable (invKings b) := by unfold invKings; infer_instance
instance (b : Board) : Decidable (invariants b) := by unfold invariants; infer_instance

/-- Rook origin square of a castling move with king target `t`
(`make_move`'s castling match arms). -/
def castleRookFrom (t : Nat) : Nat :=
  if t = 6 then 7 else if t = 2 then 0 else if t = 62 then 63 else 56

/-- Rook destination square of a castling move with king target `t`. -/
def castleRookTo (t : Nat) : Nat :=
  if t = 6 then 5 else if t = 2 then 3 else if t = 62 then 61 else 59

/-- The structural facts `make_move` relies on for a pseudo-legal move, as
guaranteed by the move generator: the moving piece of the side to move
stands on `from`; `to` is not occupied by the mover; the decoded `capture`
field is the piece-list entry at `to` (for non-en-passant moves), with the
opponent on `to` iff it is a capture; promotion/en-passant/castling flags
come with their structural preconditions. -/
def MoveFits (b : Board) (m : Nat) : Prop :=
  Move.piece m < 6 ∧ Move.fromSq m ≠ Move.toSq m ∧ Move.capture m ≠ 7 ∧
  b.piece_list.getD (Move.fromSq m) 6 = Move.piece m ∧
  (getSB b b.state.side_to_move).testBit (Move.fromSq m) = true ∧
  (getSB b b.state.side_to_move).testBit (Move.toSq m) = false ∧
  (Move.en_passant m = false →
    b.piece_list.getD (Move.toSq m) 6 = Move.capture m ∧
    (Move.capture m ≠ 6 →
      (getSB b (b.state.side_to_move ^^^ 1)).testBit (Move.toSq m) = true) ∧
    (Move.capture m = 6 →
      (getSB b (b.state.side_to_move ^^^ 1)).testBit (Move.toSq m) = false)) ∧
  (Move.promotion m = 6 ∨ (Move.piece m = 0 ∧ 1 ≤ Move.promotion m ∧ Move.promotion m ≤ 4)) ∧
  (Move.en_passant m = true →
    Move.piece m = 0 ∧ Move.capture m = 6 ∧ Move.promotion m = 6 ∧
    Move.toSq m ^^^ 8 ≠ Move.fromSq m ∧
    b.piece_list.getD (Move.toSq m) 6 = 6 ∧
    (getSB b (b.state.side_to_move ^^^ 1)).testBit (Move.toSq m ^^^ 8) = true ∧
    b.piece_list.getD (Move.toSq m ^^^ 8) 6 = 0 ∧
    (getSB b b.state.side_to_move).testBit (Move.toSq m ^^^ 8) = false) ∧
  (Move.castling m = true →
    Move.piece m = 5 ∧ Move.capture m = 6 ∧ Move.promotion m = 6 ∧
    Move.en_passant m = false ∧
    ((b.state.side_to_move = 0 ∧ Move.fromSq m = 4 ∧ (Move.toSq m = 6 ∨ Move.toSq m = 2)) ∨
     (b.state.side_to_move = 1 ∧ Move.fromSq m = 60 ∧ (Move.toSq m = 62 ∨ Move.toSq m = 58))) ∧
    (getSB b b.state.side_to_move).testBit (castleRookFrom (Move.toSq m)) = true ∧
    (getSB b b.state.side_to_move).testBit (castleRookTo (Move.toSq m)) = false ∧
    (getSB b (b.state.side_to_move ^^^ 1)).testBit (castleRookTo (Move.toSq m)) = false ∧
    b.piece_list.getD (castleRookFrom (Move.toSq m)) 6 = 3 ∧
    b.piece_list.getD (castleRookTo (Move.toSq m)) 6 = 6)

set_option synthInstance.maxHeartbeats 1000000 in
set_option synthInstance.maxSize 8192 in
instance (b : Board) (m : Nat) : Decidable (MoveFits b m) := by
  unfold MoveFits; infer_instance

/-!
## Component projections of the board-mutation primitives

`put_piece`/`remove_piece` touch one piece bitboard, one side bitboard and
one piece-list slot; the zobrist flag only affects `state.zobrist_key`.
-/

theorem put_piece_pb (z : Bool) (s p sq : Nat) (b : Board) :
    (put_piece z s p sq b).piece_bitboards
      = b.piece_bitboards.set (s * 6 + p) (getPB b s p ||| 2 ^ sq) := by
  cases z <;> rfl

theorem put_piece_sb (z : Bool) (s p sq : Nat) (b : Board) :
    (put_piece z s p sq b).side_bitboards
      = b.side_bitboards.set s (getSB b s ||| 2 ^ sq) := by
  cases z <;> rfl

theorem put_piece_pl (z : Bool) (s p sq : Nat) (b : Board) :
    (put_piece z s p sq b).piece_list = b.piece_list.set sq p := by
  cases z <;> rfl

theorem put_piece_history (z : Bool) (s p sq : Nat) (b : Board) :
    (put_piece z s p sq b).history = b.history := by
  cases z <;> rfl

theorem put_piece_stm (z : Bool) (s p sq : Nat) (b : Board) :
    (put_piece z s p sq b).state.side_to_move = b.state.side_to_move := by
  cases z <;> rfl

theorem put_piece_false_state (s p sq : Nat) (b : Board) :
    (put_piece false s p sq b).state = b.state := rfl

theorem remove_piece_pb (z : Bool) (s p sq : Nat) (b : Board) :
    (remove_piece z s p sq b).piece_bitboards
      = b.piece_bitboards.set (s * 6 + p) (getPB b s p ^^^ 2 ^ sq) := by
  cases z <;> rfl

theorem remove_piece_sb (z : Bool) (s p sq : Nat) (b : Board) :
    (remove_piece z s p sq b).side_bitboards
      = b.side_bitboards.set s (getSB b s ^^^ 2 ^ sq) := by
  cases z <;> rfl

theorem remove_piece_pl (z : Bool) (s p sq : Nat) (b : Board) :
    (remove_piece z s p sq b).piece_list = b.piece_list.set sq 6 := by
  cases z <;> rfl

theorem remove_piece_history (z : Bool) (s p sq : Nat) (b : Board) :
    (remove_piece z s p sq b).history = b.history := by
  cases z <;> rfl

theorem remove_piece_stm (z : Bool) (s p sq : Nat) (b : Board) :
    (remove_piece z s p sq b).state.side_to_move = b.state.side_to_move := by
  cases z <;> rfl

theorem remove_piece_false_state (s p sq : Nat) (b : Board) :
    (remove_piece false s p sq b).state = b.state := rfl

/-!
## Component projections of the `make_move` pipeline steps
-/

theorem pushStep_history (m : Nat) (b : Board) :
    (pushStep m b).history = { b.state with next_move := m } :: b.history := rfl

theorem pushStep_state (m : Nat) (b : Board) : (pushStep m b).state = b.state := rfl

theorem pushStep_pb (m : Nat) (b : Board) :
    (pushStep m b).piece_bitboards = b.piece_bitboards := rfl

theorem pushStep_sb (m : Nat) (b : Board) :
    (pushStep m b).side_bitboards = b.side_bitboards := rfl

theorem pushStep_pl (m : Nat) (b : Board) :
    (pushStep m b).piece_list = b.piece_list := rfl

theorem clockStep_data (b : Board) :
    (clockStep b).piece_bitboards = b.piece_bitboards ∧
    (clockStep b).side_bitboards = b.side_bitboards ∧
    (clockStep b).piece_list = b.piece_list ∧
    (clockStep b).history = b.history ∧
    (clockStep b).state.side_to_move = b.state.side_to_move ∧
    (clockStep b).state.en_passant_square = b.state.en_passant_square := by
  refine ⟨rfl, rfl, rfl, rfl, rfl, rfl⟩

theorem clearEpStep_data (b : Board) :
    (clearEpStep b).piece_bitboards = b.piece_bitboards ∧
    (clearEpStep b).side_bitboards = b.side_bitboards ∧
    (clearEpStep b).piece_list = b.piece_list ∧
    (clearEpStep b).history = b.history ∧
    (clearEpStep b).state.side_to_move = b.state.side_to_move := by
  unfold clearEpStep
  cases b.state.en_passant_square <;> exact ⟨rfl, rfl, rfl, rfl, rfl⟩

theorem captureStep_none {m : Nat} (b : Board) (h : Move.capture m = 6) :
    captureStep m b = b := by
  unfold captureStep
  simp [h]

theorem captureStep_data {m : Nat} (b : Board) (h : Move.capture m ≠ 6) :
    (captureStep m b).piece_bitboards
      = b.piece_bitboards.set ((b.state.side_to_move ^^^ 1) * 6 + Move.capture m)
          (getPB b (b.state.side_to_move ^^^ 1) (Move.capture m) ^^^ 2 ^ Move.toSq m) ∧
    (captureStep m b).side_bitboards
      = b.side_bitboards.set (b.state.side_to_move ^^^ 1)
          (getSB b (b.state.side_to_move ^^^ 1) ^^^ 2 ^ Move.toSq m) ∧
    (captureStep m b).piece_list = b.piece_list.set (Move.toSq m) 6 ∧
    (captureStep m b).history = b.history ∧
    (captureStep m b).state.side_to_move = b.state.side_to_move := by
  unfold captureStep
  dsimp only
  rw [if_pos h]
  split <;> exact ⟨rfl, rfl, rfl, rfl, rfl⟩

theorem rightsStep_data (m : Nat) (b : Board) :
    (rightsStep m b).piece_bitboards = b.piece_bitboards ∧
    (rightsStep m b).side_bitboards = b.side_bitboards ∧
    (rightsStep m b).piece_list = b.piece_list ∧
    (rightsStep m b).history = b.history ∧
    (rightsStep m b).state.side_to_move = b.state.side_to_move := by
  unfold rightsStep
  dsimp only
  split <;> exact ⟨rfl, rfl, rfl, rfl, rfl⟩

theorem rookStep_not {m : Nat} (b : Board) (h : Move.castling m = false) :
    rookStep m b = some b := by
  unfold rookStep
  simp [h]

theorem flipStep_data (b : Board) :
    (flipStep b).piece_bitboards = b.piece_bitboards ∧
    (flipStep b).side_bitboards = b.side_bitboards ∧
    (flipStep b).piece_list = b.piece_list ∧
    (flipStep b).history = b.history := by
  refine ⟨rfl, rfl, rfl, rfl⟩

theorem fullmoveStep_data (us : Nat) (b : Board) :
    (fullmoveStep us b).piece_bitboards = b.piece_bitboards ∧
    (fullmoveStep us b).side_bitboards = b.side_bitboards ∧
    (fullmoveStep us b).piece_list = b.piece_list ∧
    (fullmoveStep us b).history = b.history := by
  unfold fullmoveStep
  split <;> exact ⟨rfl, rfl, rfl, rfl⟩

theorem pieceStep_nonpawn {m : Nat} (b : Board) (h : Move.piece m ≠ 0) :
    pieceStep m b
      = move_piece true b.state.side_to_move (Move.piece m) (Move.fromSq m) (Move.toSq m) b := by
  unfold pieceStep
  simp [h]

theorem Board.ext' {a c : Board} (h1 : a.state = c.state) (h2 : a.history = c.history)
    (h3 : a.piece_list = c.piece_list) (h4 : a.piece_bitboards = c.piece_bitboards)
    (h5 : a.side_bitboards = c.side_bitboards) : a = c := by
  cases a; cases c; simp_all

/-!
## Small arithmetic facts about sides, squares and decoded fields
-/

theorem opp_facts {us : Nat} (h : us < 2) : us ^^^ 1 < 2 ∧ us ^^^ 1 ≠ us := by
  interval_cases us <;> decide

theorem fromSq_lt (m : Nat) : Move.fromSq m < 64 :=
  Nat.lt_succ_of_le Nat.and_le_right

theorem toSq_lt (m : Nat) : Move.toSq m < 64 :=
  Nat.lt_succ_of_le Nat.and_le_right

theorem capture_le (m : Nat) : Move.capture m ≤ 7 := Nat.and_le_right

theorem promotion_le (m : Nat) : Move.promotion m ≤ 7 := Nat.and_le_right

theorem xor8_ne (t : Nat) : t ^^^ 8 ≠ t := by
  intro h
  have h3 := congrArg (fun x => Nat.testBit x 3) h
  simp [Nat.testBit_xor, show Nat.testBit 8 3 = true from by decide] at h3

theorem xor8_lt {t : Nat} (h : t < 64) : t ^^^ 8 < 64 :=
  Nat.xor_lt_two_pow (n := 6) h (by norm_num)

theorem getPB_eq_of {b1 b2 : Board} (h : b1.piece_bitboards = b2.piece_bitboards)
    (c k : Nat) : getPB b1 c k = getPB b2 c k := by
  unfold getPB; rw [h]

theorem getSB_eq_of {b1 b2 : Board} (h : b1.side_bitboards = b2.side_bitboards)
    (c : Nat) : getSB b1 c = getSB b2 c := by
  unfold getSB; rw [h]

/-!
## `move_piece` in one step
-/

theorem move_piece_pb (z : Bool) (c p f t : Nat) {x : Board}
    (hi : c * 6 + p < x.piece_bitboards.length) :
    (move_piece z c p f t x).piece_bitboards
      = x.piece_bitboards.set (c * 6 + p) ((getPB x c p ^^^ 2 ^ f) ||| 2 ^ t) := by
  unfold move_piece
  rw [put_piece_pb, remove_piece_pb]
  have hg : getPB (remove_piece z c p f x) c p = getPB x c p ^^^ 2 ^ f := by
    unfold getPB
    rw [remove_piece_pb]
    exact getD_set_self hi _ _
  rw [hg, List.set_set]

theorem move_piece_sb (z : Bool) (c p f t : Nat) {x : Board}
    (hc : c < x.side_bitboards.length) :
    (move_piece z c p f t x).side_bitboards
      = x.side_bitboards.set c ((getSB x c ^^^ 2 ^ f) ||| 2 ^ t) := by
  unfold move_piece
  rw [put_piece_sb, remove_piece_sb]
  have hg : getSB (remove_piece z c p f x) c = getSB x c ^^^ 2 ^ f := by
    unfold getSB
    rw [remove_piece_sb]
    exact getD_set_self hc _ _
  rw [hg, List.set_set]

theorem move_piece_pl (z : Bool) (c p f t : Nat) (x : Board) :
    (move_piece z c p f t x).piece_list = (x.piece_list.set f 6).set t p := by
  unfold move_piece
  rw [put_piece_pl, remove_piece_pl]

theorem move_piece_history (z : Bool) (c p f t : Nat) (x : Board) :
    (move_piece z c p f t x).history = x.history := by
  unfold move_piece
  rw [put_piece_history, remove_piece_history]

theorem move_piece_stm (z : Bool) (c p f t : Nat) (x : Board) :
    (move_piece z c p f t x).state.side_to_move = x.state.side_to_move := by
  unfold move_piece
  rw [put_piece_stm, remove_piece_stm]

theorem move_piece_false_state (c p f t : Nat) (x : Board) :
    (move_piece false c p f t x).state = x.state := rfl

/-!
## Bits of the piece bitboards, from the invariants
-/

theorem pb_bit_true_of_pl {b : Board} (hinv : invariants b) {c k sq : Nat}
    (hc : c < 2) (hk : k < 6) (hsq : sq < 64)
    (hsb : (getSB b c).testBit sq = true)
    (hplq : b.piece_list.getD sq 6 = k) : (getPB b c k).testBit sq = true := by
  obtain ⟨-, hunion, -, hpl, -⟩ := hinv
  rw [hunion c hc] at hsb
  simp only [Nat.testBit_or, Bool.or_eq_true] at hsb
  have hmirror := (hpl sq hsq).2 c hc
  rcases hsb with ((((h | h) | h) | h) | h) | h
  · have := hmirror 0 (by norm_num) h
    rw [this] at hplq; subst hplq; exact h
  · have := hmirror 1 (by norm_num) h
    rw [this] at hplq; subst hplq; exact h
  · have := hmirror 2 (by norm_num) h
    rw [this] at hplq; subst hplq; exact h
  · have := hmirror 3 (by norm_num) h
    rw [this] at hplq; subst hplq; exact h
  · have := hmirror 4 (by norm_num) h
    rw [this] at hplq; subst hplq; exact h
  · have := hmirror 5 (by norm_num) h
    rw [this] at hplq; subst hplq; exact h

/-!
## `pieceStep` by pawn-move shape

`double_step` and the clock reset only touch `state`, so the data fields
agree with the plain remove/put composition.
-/

theorem pieceStep_pawn_plain {m : Nat} (b : Board) (hp : Move.piece m = 0)
    (hep : Move.en_passant m = false) (hq : Move.promotion m = 6) :
    (pieceStep m b).piece_bitboards
      = (move_piece true b.state.side_to_move 0 (Move.fromSq m) (Move.toSq m) b).piece_bitboards ∧
    (pieceStep m b).side_bitboards
      = (move_piece true b.state.side_to_move 0 (Move.fromSq m) (Move.toSq m) b).side_bitboards ∧
    (pieceStep m b).piece_list
      = (move_piece true b.state.side_to_move 0 (Move.fromSq m) (Move.toSq m) b).piece_list ∧
    (pieceStep m b).history = b.history ∧
    (pieceStep m b).state.side_to_move = b.state.side_to_move := by
  unfold pieceStep move_piece
  rw [if_neg (by simp [hp])]
  simp only [hp, hep, hq, if_neg (by simp : ¬(6 : Nat) ≠ 6), Bool.false_eq_true, if_false]
  cases Move.double_step m <;>
    exact ⟨rfl, rfl, rfl,
      (put_piece_history _ _ _ _ _).trans (remove_piece_history _ _ _ _ _),
      (put_piece_stm _ _ _ _ _).trans (remove_piece_stm _ _ _ _ _)⟩

theorem pieceStep_pawn_promo {m : Nat} (b : Board) (hp : Move.piece m = 0)
    (hep : Move.en_passant m = false) (hq : Move.promotion m ≠ 6) :
    (pieceStep m b).piece_bitboards
      = (put_piece true b.state.side_to_move (Move.promotion m) (Move.toSq m)
          (remove_piece true b.state.side_to_move 0 (Move.fromSq m) b)).piece_bitboards ∧
    (pieceStep m b).side_bitboards
      = (put_piece true b.state.side_to_move (Move.promotion m) (Move.toSq m)
          (remove_piece true b.state.side_to_move 0 (Move.fromSq m) b)).side_bitboards ∧
    (pieceStep m b).piece_list
      = (put_piece true b.state.side_to_move (Move.promotion m) (Move.toSq m)
          (remove_piece true b.state.side_to_move 0 (Move.fromSq m) b)).piece_list ∧
    (pieceStep m b).history = b.history ∧
    (pieceStep m b).state.side_to_move = b.state.side_to_move := by
  unfold pieceStep
  rw [if_neg (by simp [hp])]
  simp only [hp, hep, if_pos hq, Bool.false_eq_true, if_false]
  cases Move.double_step m <;>
    exact ⟨rfl, rfl, rfl,
      (put_piece_history _ _ _ _ _).trans (remove_piece_history _ _ _ _ _),
      (put_piece_stm _ _ _ _ _).trans (remove_piece_stm _ _ _ _ _)⟩

theorem pieceStep_pawn_ep {m : Nat} (b : Board) (hp : Move.piece m = 0)
    (hep : Move.en_passant m = true) (hq : Move.promotion m = 6) :
    (pieceStep m b).piece_bitboards
      = (remove_piece true (b.state.side_to_move ^^^ 1) 0 (Move.toSq m ^^^ 8)
          (move_piece true b.state.side_to_move 0 (Move.fromSq m) (Move.toSq m) b)).piece_bitboards ∧
    (pieceStep m b).side_bitboards
      = (remove_piece true (b.state.side_to_move ^^^ 1) 0 (Move.toSq m ^^^ 8)
          (move_piece true b.state.side_to_move 0 (Move.fromSq m) (Move.toSq m) b)).side_bitboards ∧
    (pieceStep m b).piece_list
      = (remove_piece true (b.state.side_to_move ^^^ 1) 0 (Move.toSq m ^^^ 8)
          (move_piece true b.state.side_to_move 0 (Move.fromSq m) (Move.toSq m) b)).piece_list ∧
    (pieceStep m b).history = b.history ∧
    (pieceStep m b).state.side_to_move = b.state.side_to_move := by
  unfold pieceStep move_piece
  rw [if_neg (by simp [hp])]
  simp only [hp, hep, hq, if_neg (by simp : ¬(6 : Nat) ≠ 6), if_true]
  cases Move.double_step m <;>
    refine ⟨rfl, rfl, rfl, ?_, ?_⟩ <;>
      simp [remove_piece_history, put_piece_history, remove_piece_stm, put_piece_stm]

/-- The push/clock/clear-ep prefix of `make_move` only touches `state`
(and records the pre-move state, with the move, on the history). -/
theorem s2_facts (m : Nat) (b : Board) :
    (clearEpStep (clockStep (pushStep m b))).piece_bitboards = b.piece_bitboards ∧
    (clearEpStep (clockStep (pushStep m b))).side_bitboards = b.side_bitboards ∧
    (clearEpStep (clockStep (pushStep m b))).piece_list = b.piece_list ∧
    (clearEpStep (clockStep (pushStep m b))).history
      = { b.state with next_move := m } :: b.history ∧
    (clearEpStep (clockStep (pushStep m b))).state.side_to_move
      = b.state.side_to_move := by
  obtain ⟨e1, e2, e3, e4, e5⟩ := clearEpStep_data (clockStep (pushStep m b))
  obtain ⟨c1, c2, c3, c4, c5, -⟩ := clockStep_data (pushStep m b)
  exact ⟨by rw [e1, c1, pushStep_pb], by rw [e2, c2, pushStep_sb],
    by rw [e3, c3, pushStep_pl], by rw [e4, c4, pushStep_history],
    by rw [e5, c5, pushStep_state]⟩

/-!
## `unmake_move` by move shape
-/

theorem unmake_plain {x : Board} {st : State} {rest : List State}
    (h : x.history = st :: rest)
    (hcast : Move.castling st.next_move = false)
    (hq : Move.promotion st.next_move = 6)
    (hep : Move.en_passant st.next_move = false) :
    unmake_move x
      = some (if Move.capture st.next_move ≠ 6 then
          put_piece false (st.side_to_move ^^^ 1) (Move.capture st.next_move)
            (Move.toSq st.next_move)
            (move_piece false st.side_to_move (Move.piece st.next_move)
              (Move.toSq st.next_move) (Move.fromSq st.next_move)
              { x with state := st, history := rest })
        else
          move_piece false st.side_to_move (Move.piece st.next_move)
            (Move.toSq st.next_move) (Move.fromSq st.next_move)
            { x with state := st, history := rest }) := by
  unfold unmake_move
  rw [h]
  simp [hcast, hq, hep]

theorem unmake_promo {x : Board} {st : State} {rest : List State}
    (h : x.history = st :: rest)
    (hcast : Move.castling st.next_move = false)
    (hq : Move.promotion st.next_move ≠ 6)
    (hep : Move.en_passant st.next_move = false) :
    unmake_move x
      = some (if Move.capture st.next_move ≠ 6 then
          put_piece false (st.side_to_move ^^^ 1) (Move.capture st.next_move)
            (Move.toSq st.next_move)
            (put_piece false st.side_to_move 0 (Move.fromSq st.next_move)
              (remove_piece false st.side_to_move (Move.promotion st.next_move)
                (Move.toSq st.next_move) { x with state := st, history := rest }))
        else
          put_piece false st.side_to_move 0 (Move.fromSq st.next_move)
            (remove_piece false st.side_to_move (Move.promotion st.next_move)
              (Move.toSq st.next_move) { x with state := st, history := rest })) := by
  unfold unmake_move
  rw [h]
  simp [hcast, hq, hep]

theorem unmake_ep {x : Board} {st : State} {rest : List State}
    (h : x.history = st :: rest)
    (hcast : Move.castling st.next_move = false)
    (hq : Move.promotion st.next_move = 6)
    (hep : Move.en_passant st.next_move = true)
    (hcap : Move.capture st.next_move = 6) :
    unmake_move x
      = some (put_piece false (st.side_to_move ^^^ 1) 0 (Move.toSq st.next_move ^^^ 8)
          (move_piece false st.side_to_move (Move.piece st.next_move)
            (Move.toSq st.next_move) (Move.fromSq st.next_move)
            { x with state := st, history := rest })) := by
  unfold unmake_move
  rw [h]
  simp [hcast, hq, hep, hcap]

theorem unmake_castle {x : Board} {st : State} {rest : List State}
    (h : x.history = st :: rest)
    (hcast : Move.castling st.next_move = true)
    (hq : Move.promotion st.next_move = 6)
    (hep : Move.en_passant st.next_move = false)
    (hcap : Move.capture st.next_move = 6)
    (ht : Move.toSq st.next_move = 6 ∨ Move.toSq st.next_move = 2 ∨
          Move.toSq st.next_move = 62 ∨ Move.toSq st.next_move = 58) :
    unmake_move x
      = some (move_piece false st.side_to_move 3
          (castleRookTo (Move.toSq st.next_move)) (castleRookFrom (Move.toSq st.next_move))
          (move_piece false st.side_to_move (Move.piece st.next_move)
            (Move.toSq st.next_move) (Move.fromSq st.next_move)
            { x with state := st, history := rest })) := by
  unfold unmake_move
  rw [h]
  rcases ht with ht | ht | ht | ht <;>
    simp [hcast, hq, hep, hcap, ht, castleRookTo, castleRookFrom]

theorem pb_bit_false_of_sb {b : Board} (hinv : invariants b) {c k sq : Nat}
    (hc : c < 2) (hk : k < 6)
    (hsb : (getSB b c).testBit sq = false) : (getPB b c k).testBit sq = false := by
  obtain ⟨-, hunion, -, -, -⟩ := hinv
  rw [hunion c hc] at hsb
  simp only [Nat.testBit_or, Bool.or_eq_false_iff] at hsb
  interval_cases k
  · exact hsb.1.1.1.1.1
  · exact hsb.1.1.1.1.2
  · exact hsb.1.1.1.2
  · exact hsb.1.1.2
  · exact hsb.1.2
  · exact hsb.2

/-- Round trip for a quiet (non-capture, non-promotion, non-castling,
non-en-passant) move: applying the `make_move` pipeline and then
`unmake_move` yields the original board with only `state.next_move`
overwritten. -/
theorem restore_plain_quiet {b : Board} {m : Nat} (hinv : invariants b) (hfit : MoveFits b m)
    (hcast : Move.castling m = false) (hep : Move.en_passant m = false)
    (hq : Move.promotion m = 6) (hc6 : Move.capture m = 6) :
    make_move_applied m b
      = some (fullmoveStep b.state.side_to_move (flipStep (rightsStep m
          (pieceStep m (captureStep m (clearEpStep (clockStep (pushStep m b)))))))) ∧
    unmake_move (fullmoveStep b.state.side_to_move (flipStep (rightsStep m
          (pieceStep m (captureStep m (clearEpStep (clockStep (pushStep m b))))))))
      = some { b with state := { b.state with next_move := m } } := by
  have hlen12 : b.piece_bitboards.length = 12 := hinv.1.1
  have hlen2 : b.side_bitboards.length = 2 := hinv.1.2.1
  have hlen64 : b.piece_list.length = 64 := hinv.1.2.2.1
  have hus2 : b.state.side_to_move < 2 := hinv.1.2.2.2
  have hf64 := fromSq_lt m
  have ht64 := toSq_lt m
  obtain ⟨hp6, hfne, hcap7, hplf, hsbf, hsbt, hnonep, hpromo8, hepc, hcastc⟩ := hfit
  obtain ⟨hplt, -, -⟩ := hnonep hep
  rw [hc6] at hplt
  obtain ⟨h2pb, h2sb, h2pl, h2hist, h2stm⟩ := s2_facts m b
  have hcs := captureStep_none (clearEpStep (clockStep (pushStep m b))) hc6
  have hfpb : (getPB b b.state.side_to_move (Move.piece m)).testBit (Move.fromSq m) = true :=
    pb_bit_true_of_pl hinv hus2 hp6 hf64 hsbf hplf
  have htpb : (getPB b b.state.side_to_move (Move.piece m)).testBit (Move.toSq m) = false :=
    pb_bit_false_of_sb hinv hus2 hp6 hsbt
  -- the piece step seen from the original board
  have h4pb : (pieceStep m (captureStep m (clearEpStep (clockStep (pushStep m b))))).piece_bitboards
      = b.piece_bitboards.set (b.state.side_to_move * 6 + Move.piece m)
          ((getPB b b.state.side_to_move (Move.piece m) ^^^ 2 ^ Move.fromSq m)
            ||| 2 ^ Move.toSq m) := by
    rw [hcs]
    have hbound : (clearEpStep (clockStep (pushStep m b))).state.side_to_move * 6 + Move.piece m
        < (clearEpStep (clockStep (pushStep m b))).piece_bitboards.length := by
      rw [h2stm, h2pb, hlen12]; omega
    by_cases hp0 : Move.piece m = 0
    · obtain ⟨e1, -, -, -, -⟩ := pieceStep_pawn_plain (clearEpStep (clockStep (pushStep m b))) hp0 hep hq
      rw [hp0] at hbound ⊢
      rw [e1, move_piece_pb true _ _ _ _ hbound, h2stm, getPB_eq_of h2pb, h2pb]
    · rw [pieceStep_nonpawn _ hp0, move_piece_pb true _ _ _ _ hbound, h2stm,
        getPB_eq_of h2pb, h2pb]
  have h4sb : (pieceStep m (captureStep m (clearEpStep (clockStep (pushStep m b))))).side_bitboards
      = b.side_bitboards.set b.state.side_to_move
          ((getSB b b.state.side_to_move ^^^ 2 ^ Move.fromSq m) ||| 2 ^ Move.toSq m) := by
    rw [hcs]
    have hbound : (clearEpStep (clockStep (pushStep m b))).state.side_to_move
        < (clearEpStep (clockStep (pushStep m b))).side_bitboards.length := by
      rw [h2stm, h2sb, hlen2]; omega
    by_cases hp0 : Move.piece m = 0
    · obtain ⟨-, e2, -, -, -⟩ := pieceStep_pawn_plain (clearEpStep (clockStep (pushStep m b))) hp0 hep hq
      rw [e2, move_piece_sb true _ _ _ _ hbound, h2stm, getSB_eq_of h2sb, h2sb]
    · rw [pieceStep_nonpawn _ hp0, move_piece_sb true _ _ _ _ hbound, h2stm,
        getSB_eq_of h2sb, h2sb]
  have h4pl : (pieceStep m (captureStep m (clearEpStep (clockStep (pushStep m b))))).piece_list
      = (b.piece_list.set (Move.fromSq m) 6).set (Move.toSq m) (Move.piece m) := by
    rw [hcs]
    by_cases hp0 : Move.piece m = 0
    · obtain ⟨-, -, e3, -, -⟩ := pieceStep_pawn_plain (clearEpStep (clockStep (pushStep m b))) hp0 hep hq
      rw [hp0, e3, move_piece_pl, h2pl]
    · rw [pieceStep_nonpawn _ hp0, move_piece_pl, h2pl]
  have h4hist : (pieceStep m (captureStep m (clearEpStep (clockStep (pushStep m b))))).history
      = { b.state with next_move := m } :: b.history := by
    rw [hcs]
    by_cases hp0 : Move.piece m = 0
    · obtain ⟨-, -, -, e4, -⟩ := pieceStep_pawn_plain (clearEpStep (clockStep (pushStep m b))) hp0 hep hq
      rw [e4, h2hist]
    · rw [pieceStep_nonpawn _ hp0, move_piece_history, h2hist]
  -- the fully applied board
  have hB1pb : (fullmoveStep b.state.side_to_move (flipStep (rightsStep m
        (pieceStep m (captureStep m (clearEpStep (clockStep (pushStep m b)))))))).piece_bitboards
      = b.piece_bitboards.set (b.state.side_to_move * 6 + Move.piece m)
          ((getPB b b.state.side_to_move (Move.piece m) ^^^ 2 ^ Move.fromSq m)
            ||| 2 ^ Move.toSq m) := by
    rw [(fullmoveStep_data _ _).1, (flipStep_data _).1, (rightsStep_data _ _).1, h4pb]
  have hB1sb : (fullmoveStep b.state.side_to_move (flipStep (rightsStep m
        (pieceStep m (captureStep m (clearEpStep (clockStep (pushStep m b)))))))).side_bitboards
      = b.side_bitboards.set b.state.side_to_move
          ((getSB b b.state.side_to_move ^^^ 2 ^ Move.fromSq m) ||| 2 ^ Move.toSq m) := by
    rw [(fullmoveStep_data _ _).2.1, (flipStep_data _).2.1, (rightsStep_data _ _).2.1, h4sb]
  have hB1pl : (fullmoveStep b.state.side_to_move (flipStep (rightsStep m
        (pieceStep m (captureStep m (clearEpStep (clockStep (pushStep m b)))))))).piece_list
      = (b.piece_list.set (Move.fromSq m) 6).set (Move.toSq m) (Move.piece m) := by
    rw [(fullmoveStep_data _ _).2.2.1, (flipStep_data _).2.2.1, (rightsStep_data _ _).2.2.1, h4pl]
  have hB1hist : (fullmoveStep b.state.side_to_move (flipStep (rightsStep m
        (pieceStep m (captureStep m (clearEpStep (clockStep (pushStep m b)))))))).history
      = { b.state with next_move := m } :: b.history := by
    rw [(fullmoveStep_data _ _).2.2.2, (flipStep_data _).2.2.2, (rightsStep_data _ _).2.2.2.1, h4hist]
  constructor
  · unfold make_move_applied
    rw [rookStep_not _ hcast]
  · rw [unmake_plain hB1hist hcast hq hep]
    rw [if_neg (by simp [hc6])]
    refine congrArg some (Board.ext' ?_ ?_ ?_ ?_ ?_)
    · rw [move_piece_false_state]
    · rw [move_piece_history]
    · rw [move_piece_pl]
      show ((fullmoveStep b.state.side_to_move (flipStep (rightsStep m
          (pieceStep m (captureStep m (clearEpStep (clockStep (pushStep m b)))))))).piece_list.set
            (Move.toSq m) 6).set (Move.fromSq m) (Move.piece m)
          = b.piece_list
      rw [hB1pl, List.set_set, List.set_comm 6 6 _ hfne, List.set_set,
        ← List.set_comm (Move.piece m) 6 _ hfne,
        set_getD_self (by rw [hlen64]; exact hf64) hplf,
        set_getD_self (by rw [hlen64]; exact ht64) hplt]
    · rw [move_piece_pb false _ _ _ _ (by
        rw [hB1pb]
        simp only [List.length_set]
        rw [hlen12]
        omega)]
      show (fullmoveStep b.state.side_to_move (flipStep (rightsStep m
          (pieceStep m (captureStep m (clearEpStep (clockStep (pushStep m b)))))))).piece_bitboards.set
            (b.state.side_to_move * 6 + Move.piece m)
            ((getPB (fullmoveStep b.state.side_to_move (flipStep (rightsStep m
              (pieceStep m (captureStep m (clearEpStep (clockStep (pushStep m b))))))))
                b.state.side_to_move (Move.piece m) ^^^ 2 ^ Move.toSq m) ||| 2 ^ Move.fromSq m)
          = b.piece_bitboards
      have hg : getPB (fullmoveStep b.state.side_to_move (flipStep (rightsStep m
            (pieceStep m (captureStep m (clearEpStep (clockStep (pushStep m b))))))))
            b.state.side_to_move (Move.piece m)
          = (getPB b b.state.side_to_move (Move.piece m) ^^^ 2 ^ Move.fromSq m)
            ||| 2 ^ Move.toSq m := by
        unfold getPB
        rw [hB1pb]
        exact getD_set_self (by rw [hlen12]; omega) _ _
      rw [hg, hB1pb, List.set_set, bit_move_restore hfpb htpb hfne]
      exact set_getD_self (by rw [hlen12]; omega) rfl
    · rw [move_piece_sb false _ _ _ _ (by
        rw [hB1sb]
        simp only [List.length_set]
        rw [hlen2]
        omega)]
      show (fullmoveStep b.state.side_to_move (flipStep (rightsStep m
          (pieceStep m (captureStep m (clearEpStep (clockStep (pushStep m b)))))))).side_bitboards.set
            b.state.side_to_move
            ((getSB (fullmoveStep b.state.side_to_move (flipStep (rightsStep m
              (pieceStep m (captureStep m (clearEpStep (clockStep (pushStep m b))))))))
                b.state.side_to_move ^^^ 2 ^ Move.toSq m) ||| 2 ^ Move.fromSq m)
          = b.side_bitboards
      have hg : getSB (fullmoveStep b.state.side_to_move (flipStep (rightsStep m
            (pieceStep m (captureStep m (clearEpStep (clockStep (pushStep m b))))))))
            b.state.side_to_move
          = (getSB b b.state.side_to_move ^^^ 2 ^ Move.fromSq m) ||| 2 ^ Move.toSq m := by
        unfold getSB
        rw [hB1sb]
        exact getD_set_self (by rw [hlen2]; omega) _ _
      rw [hg, hB1sb, List.set_set, bit_move_restore hsbf hsbt hfne]
      exact set_getD_self (by rw [hlen2]; omega) rfl

/-- Round trip for a plain capture (non-promotion, non-castling,
non-en-passant). -/
theorem restore_plain_capture {b : Board} {m : Nat} (hinv : invariants b) (hfit : MoveFits b m)
    (hcast : Move.castling m = false) (hep : Move.en_passant m = false)
    (hq : Move.promotion m = 6) (hc6 : Move.capture m ≠ 6) :
    make_move_applied m b
      = some (fullmoveStep b.state.side_to_move (flipStep (rightsStep m
          (pieceStep m (captureStep m (clearEpStep (clockStep (pushStep m b)))))))) ∧
    unmake_move (fullmoveStep b.state.side_to_move (flipStep (rightsStep m
          (pieceStep m (captureStep m (clearEpStep (clockStep (pushStep m b))))))))
      = some { b with state := { b.state with next_move := m } } := by
  have hlen12 : b.piece_bitboards.length = 12 := hinv.1.1
  have hlen2 : b.side_bitboards.length = 2 := hinv.1.2.1
  have hlen64 : b.piece_list.length = 64 := hinv.1.2.2.1
  have hus2 : b.state.side_to_move < 2 := hinv.1.2.2.2
  obtain ⟨hopp2, hoppne⟩ := opp_facts hus2
  have hf64 := fromSq_lt m
  have ht64 := toSq_lt m
  have hcaplt : Move.capture m < 6 := by
    have := capture_le m
    obtain ⟨hp6', hfne', hcap7', -⟩ := hfit
    omega
  obtain ⟨hp6, hfne, hcap7, hplf, hsbf, hsbt, hnonep, hpromo8, hepc, hcastc⟩ := hfit
  obtain ⟨hplt, hsbcapT, -⟩ := hnonep hep
  have hsboppt : (getSB b (b.state.side_to_move ^^^ 1)).testBit (Move.toSq m) = true :=
    hsbcapT hc6
  have hidx_ne : (b.state.side_to_move ^^^ 1) * 6 + Move.capture m
      ≠ b.state.side_to_move * 6 + Move.piece m := by
    have h01 : b.state.side_to_move = 0 ∨ b.state.side_to_move = 1 := by omega
    rcases h01 with h | h <;> rw [h] <;> simp <;> omega
  obtain ⟨h2pb, h2sb, h2pl, h2hist, h2stm⟩ := s2_facts m b
  have hfpb : (getPB b b.state.side_to_move (Move.piece m)).testBit (Move.fromSq m) = true :=
    pb_bit_true_of_pl hinv hus2 hp6 hf64 hsbf hplf
  have htpb : (getPB b b.state.side_to_move (Move.piece m)).testBit (Move.toSq m) = false :=
    pb_bit_false_of_sb hinv hus2 hp6 hsbt
  have hcapb : (getPB b (b.state.side_to_move ^^^ 1) (Move.capture m)).testBit (Move.toSq m)
      = true :=
    pb_bit_true_of_pl hinv hopp2 hcaplt ht64 hsboppt hplt
  obtain ⟨c1, c2, c3, c4, c5⟩ := captureStep_data (clearEpStep (clockStep (pushStep m b))) hc6
  -- the capture step seen from the original board
  have h3pb : (captureStep m (clearEpStep (clockStep (pushStep m b)))).piece_bitboards
      = b.piece_bitboards.set ((b.state.side_to_move ^^^ 1) * 6 + Move.capture m)
          (getPB b (b.state.side_to_move ^^^ 1) (Move.capture m) ^^^ 2 ^ Move.toSq m) := by
    rw [c1, h2stm, getPB_eq_of h2pb, h2pb]
  have h3sb : (captureStep m (clearEpStep (clockStep (pushStep m b)))).side_bitboards
      = b.side_bitboards.set (b.state.side_to_move ^^^ 1)
          (getSB b (b.state.side_to_move ^^^ 1) ^^^ 2 ^ Move.toSq m) := by
    rw [c2, h2stm, getSB_eq_of h2sb, h2sb]
  have h3pl : (captureStep m (clearEpStep (clockStep (pushStep m b)))).piece_list
      = b.piece_list.set (Move.toSq m) 6 := by
    rw [c3, h2pl]
  have h3hist : (captureStep m (clearEpStep (clockStep (pushStep m b)))).history
      = { b.state with next_move := m } :: b.history := by
    rw [c4, h2hist]
  have h3stm : (captureStep m (clearEpStep (clockStep (pushStep m b)))).state.side_to_move
      = b.state.side_to_move := by
    rw [c5, h2stm]
  -- getPB/getSB of the mover through the capture step
  have hgp3 : getPB (captureStep m (clearEpStep (clockStep (pushStep m b))))
        b.state.side_to_move (Move.piece m)
      = getPB b b.state.side_to_move (Move.piece m) := by
    unfold getPB
    rw [h3pb]
    exact getD_set_ne hidx_ne _ _
  have hgs3 : getSB (captureStep m (clearEpStep (clockStep (pushStep m b))))
        b.state.side_to_move
      = getSB b b.state.side_to_move := by
    unfold getSB
    rw [h3sb]
    exact getD_set_ne hoppne _ _
  -- the piece step
  have hbound4 : (captureStep m (clearEpStep (clockStep (pushStep m b)))).state.side_to_move * 6
        + Move.piece m
      < (captureStep m (clearEpStep (clockStep (pushStep m b)))).piece_bitboards.length := by
    rw [h3stm, h3pb]
    simp only [List.length_set]
    rw [hlen12]; omega
  have hbound4s : (captureStep m (clearEpStep (clockStep (pushStep m b)))).state.side_to_move
      < (captureStep m (clearEpStep (clockStep (pushStep m b)))).side_bitboards.length := by
    rw [h3stm, h3sb]
    simp only [List.length_set]
    rw [hlen2]; omega
  have h4pb : (pieceStep m (captureStep m (clearEpStep (clockStep (pushStep m b))))).piece_bitboards
      = (b.piece_bitboards.set ((b.state.side_to_move ^^^ 1) * 6 + Move.capture m)
          (getPB b (b.state.side_to_move ^^^ 1) (Move.capture m) ^^^ 2 ^ Move.toSq m)).set
          (b.state.side_to_move * 6 + Move.piece m)
          ((getPB b b.state.side_to_move (Move.piece m) ^^^ 2 ^ Move.fromSq m)
            ||| 2 ^ Move.toSq m) := by
    by_cases hp0 : Move.piece m = 0
    · obtain ⟨e1, -, -, -, -⟩ := pieceStep_pawn_plain
        (captureStep m (clearEpStep (clockStep (pushStep m b)))) hp0 hep hq
      rw [hp0] at hbound4 ⊢
      rw [e1, move_piece_pb true _ _ _ _ hbound4, h3stm]
      rw [hp0] at hgp3
      rw [hgp3, h3pb]
    · rw [pieceStep_nonpawn _ hp0, move_piece_pb true _ _ _ _ hbound4, h3stm, hgp3, h3pb]
  have h4sb : (pieceStep m (captureStep m (clearEpStep (clockStep (pushStep m b))))).side_bitboards
      = (b.side_bitboards.set (b.state.side_to_move ^^^ 1)
          (getSB b (b.state.side_to_move ^^^ 1) ^^^ 2 ^ Move.toSq m)).set
          b.state.side_to_move
          ((getSB b b.state.side_to_move ^^^ 2 ^ Move.fromSq m) ||| 2 ^ Move.toSq m) := by
    by_cases hp0 : Move.piece m = 0
    · obtain ⟨-, e2, -, -, -⟩ := pieceStep_pawn_plain
        (captureStep m (clearEpStep (clockStep (pushStep m b)))) hp0 hep hq
      rw [e2, move_piece_sb true _ _ _ _ hbound4s, h3stm, hgs3, h3sb]
    · rw [pieceStep_nonpawn _ hp0, move_piece_sb true _ _ _ _ hbound4s, h3stm, hgs3, h3sb]
  have h4pl : (pieceStep m (captureStep m (clearEpStep (clockStep (pushStep m b))))).piece_list
      = ((b.piece_list.set (Move.toSq m) 6).set (Move.fromSq m) 6).set (Move.toSq m)
          (Move.piece m) := by
    by_cases hp0 : Move.piece m = 0
    · obtain ⟨-, -, e3, -, -⟩ := pieceStep_pawn_plain
        (captureStep m (clearEpStep (clockStep (pushStep m b)))) hp0 hep hq
      rw [hp0, e3, move_piece_pl, h3pl]
    · rw [pieceStep_nonpawn _ hp0, move_piece_pl, h3pl]
  have h4hist : (pieceStep m (captureStep m (clearEpStep (clockStep (pushStep m b))))).history
      = { b.state with next_move := m } :: b.history := by
    by_cases hp0 : Move.piece m = 0
    · obtain ⟨-, -, -, e4, -⟩ := pieceStep_pawn_plain
        (captureStep m (clearEpStep (clockStep (pushStep m b)))) hp0 hep hq
      rw [e4, h3hist]
    · rw [pieceStep_nonpawn _ hp0, move_piece_history, h3hist]
  -- the fully applied board
  have hB1pb : (fullmoveStep b.state.side_to_move (flipStep (rightsStep m
        (pieceStep m (captureStep m (clearEpStep (clockStep (pushStep m b)))))))).piece_bitboards
      = (b.piece_bitboards.set ((b.state.side_to_move ^^^ 1) * 6 + Move.capture m)
          (getPB b (b.state.side_to_move ^^^ 1) (Move.capture m) ^^^ 2 ^ Move.toSq m)).set
          (b.state.side_to_move * 6 + Move.piece m)
          ((getPB b b.state.side_to_move (Move.piece m) ^^^ 2 ^ Move.fromSq m)
            ||| 2 ^ Move.toSq m) := by
    rw [(fullmoveStep_data _ _).1, (flipStep_data _).1, (rightsStep_data _ _).1, h4pb]
  have hB1sb : (fullmoveStep b.state.side_to_move (flipStep (rightsStep m
        (pieceStep m (captureStep m (clearEpStep (clockStep (pushStep m b)))))))).side_bitboards
      = (b.side_bitboards.set (b.state.side_to_move ^^^ 1)
          (getSB b (b.state.side_to_move ^^^ 1) ^^^ 2 ^ Move.toSq m)).set
          b.state.side_to_move
          ((getSB b b.state.side_to_move ^^^ 2 ^ Move.fromSq m) ||| 2 ^ Move.toSq m) := by
    rw [(fullmoveStep_data _ _).2.1, (flipStep_data _).2.1, (rightsStep_data _ _).2.1, h4sb]
  have hB1pl : (fullmoveStep b.state.side_to_move (flipStep (rightsStep m
        (pieceStep m (captureStep m (clearEpStep (clockStep (pushStep m b)))))))).piece_list
      = ((b.piece_list.set (Move.toSq m) 6).set (Move.fromSq m) 6).set (Move.toSq m)
          (Move.piece m) := by
    rw [(fullmoveStep_data _ _).2.2.1, (flipStep_data _).2.2.1, (rightsStep_data _ _).2.2.1, h4pl]
  have hB1hist : (fullmoveStep b.state.side_to_move (flipStep (rightsStep m
        (pieceStep m (captureStep m (clearEpStep (clockStep (pushStep m b)))))))).history
      = { b.state with next_move := m } :: b.history := by
    rw [(fullmoveStep_data _ _).2.2.2, (flipStep_data _).2.2.2, (rightsStep_data _ _).2.2.2.1, h4hist]
  constructor
  · unfold make_move_applied
    rw [rookStep_not _ hcast]
  · rw [unmake_plain hB1hist hcast hq hep]
    rw [if_pos (show Move.capture m ≠ 6 from hc6)]
    refine congrArg some (Board.ext' ?_ ?_ ?_ ?_ ?_)
    · rw [put_piece_false_state, move_piece_false_state]
    · rw [put_piece_history, move_piece_history]
    · rw [put_piece_pl, move_piece_pl]
      show (((fullmoveStep b.state.side_to_move (flipStep (rightsStep m
          (pieceStep m (captureStep m (clearEpStep (clockStep (pushStep m b)))))))).piece_list.set
            (Move.toSq m) 6).set (Move.fromSq m) (Move.piece m)).set (Move.toSq m)
            (Move.capture m)
          = b.piece_list
      rw [hB1pl]
      simp only [List.set_set]
      rw [List.set_comm 6 6 _ hfne]
      simp only [List.set_set]
      rw [List.set_comm (Move.piece m) (Move.capture m) _ hfne]
      simp only [List.set_set]
      rw [set_getD_self (by rw [List.length_set, hlen64]; exact hf64) (by
        rw [getD_set_ne (Ne.symm hfne) _ _]; exact hplf)]
      exact set_getD_self (by rw [hlen64]; exact ht64) hplt
    · rw [put_piece_pb]
      have hg : getPB (fullmoveStep b.state.side_to_move (flipStep (rightsStep m
            (pieceStep m (captureStep m (clearEpStep (clockStep (pushStep m b))))))))
            b.state.side_to_move (Move.piece m)
          = (getPB b b.state.side_to_move (Move.piece m) ^^^ 2 ^ Move.fromSq m)
            ||| 2 ^ Move.toSq m := by
        unfold getPB
        rw [hB1pb]
        exact getD_set_self (by rw [List.length_set, hlen12]; omega) _ _
      have hg2 : getPB (move_piece false b.state.side_to_move (Move.piece m) (Move.toSq m)
            (Move.fromSq m)
            { fullmoveStep b.state.side_to_move (flipStep (rightsStep m
                (pieceStep m (captureStep m (clearEpStep (clockStep (pushStep m b))))))) with
              state := { b.state with next_move := m }, history := b.history })
            (b.state.side_to_move ^^^ 1) (Move.capture m)
          = getPB b (b.state.side_to_move ^^^ 1) (Move.capture m) ^^^ 2 ^ Move.toSq m := by
        unfold getPB
        rw [move_piece_pb false _ _ _ _ (by
          show b.state.side_to_move * 6 + Move.piece m
            < (fullmoveStep b.state.side_to_move (flipStep (rightsStep m
                (pieceStep m (captureStep m (clearEpStep (clockStep
                  (pushStep m b)))))))).piece_bitboards.length
          rw [hB1pb]
          simp only [List.length_set]
          rw [hlen12]
          omega)]
        rw [show ({ fullmoveStep b.state.side_to_move (flipStep (rightsStep m
            (pieceStep m (captureStep m (clearEpStep (clockStep (pushStep m b))))))) with
              state := { b.state with next_move := m },
              history := b.history } : Board).piece_bitboards
          = (fullmoveStep b.state.side_to_move (flipStep (rightsStep m
              (pieceStep m (captureStep m (clearEpStep (clockStep
                (pushStep m b)))))))).piece_bitboards from rfl]
        rw [getD_set_ne (Ne.symm hidx_ne) _ _, hB1pb, getD_set_ne (Ne.symm hidx_ne) _ _]
        exact getD_set_self (by rw [hlen12]; omega) _ _
      rw [hg2]
      rw [move_piece_pb false _ _ _ _ (by
        rw [hB1pb]
        simp only [List.length_set]
        rw [hlen12]
        omega)]
      show ((fullmoveStep b.state.side_to_move (flipStep (rightsStep m
          (pieceStep m (captureStep m (clearEpStep (clockStep (pushStep m b)))))))).piece_bitboards.set
            (b.state.side_to_move * 6 + Move.piece m)
            ((getPB (fullmoveStep b.state.side_to_move (flipStep (rightsStep m
              (pieceStep m (captureStep m (clearEpStep (clockStep (pushStep m b))))))))
                b.state.side_to_move (Move.piece m) ^^^ 2 ^ Move.toSq m) ||| 2 ^ Move.fromSq m)).set
            ((b.state.side_to_move ^^^ 1) * 6 + Move.capture m)
            ((getPB b (b.state.side_to_move ^^^ 1) (Move.capture m) ^^^ 2 ^ Move.toSq m)
              ||| 2 ^ Move.toSq m)
          = b.piece_bitboards
      rw [hg, hB1pb]
      simp only [List.set_set]
      rw [bit_move_restore hfpb htpb hfne, bit_remove_put hcapb]
      rw [List.set_comm _ _ _ (Ne.symm hidx_ne)]
      simp only [List.set_set]
      have e1 : b.piece_bitboards.set ((b.state.side_to_move ^^^ 1) * 6 + Move.capture m)
          (getPB b (b.state.side_to_move ^^^ 1) (Move.capture m)) = b.piece_bitboards :=
        set_getD_self (by rw [hlen12]; omega) rfl
      have e2 : b.piece_bitboards.set (b.state.side_to_move * 6 + Move.piece m)
          (getPB b b.state.side_to_move (Move.piece m)) = b.piece_bitboards :=
        set_getD_self (by rw [hlen12]; omega) rfl
      rw [e1, e2]
    · rw [put_piece_sb]
      have hg : getSB (fullmoveStep b.state.side_to_move (flipStep (rightsStep m
            (pieceStep m (captureStep m (clearEpStep (clockStep (pushStep m b))))))))
            b.state.side_to_move
          = (getSB b b.state.side_to_move ^^^ 2 ^ Move.fromSq m) ||| 2 ^ Move.toSq m := by
        unfold getSB
        rw [hB1sb]
        exact getD_set_self (by rw [List.length_set, hlen2]; omega) _ _
      have hg2 : getSB (move_piece false b.state.side_to_move (Move.piece m) (Move.toSq m)
            (Move.fromSq m)
            { fullmoveStep b.state.side_to_move (flipStep (rightsStep m
                (pieceStep m (captureStep m (clearEpStep (clockStep (pushStep m b))))))) with
              state := { b.state with next_move := m }, history := b.history })
            (b.state.side_to_move ^^^ 1)
          = getSB b (b.state.side_to_move ^^^ 1) ^^^ 2 ^ Move.toSq m := by
        unfold getSB
        rw [move_piece_sb false _ _ _ _ (by
          show b.state.side_to_move
            < (fullmoveStep b.state.side_to_move (flipStep (rightsStep m
                (pieceStep m (captureStep m (clearEpStep (clockStep
                  (pushStep m b)))))))).side_bitboards.length
          rw [hB1sb]
          simp only [List.length_set]
          rw [hlen2]
          omega)]
        rw [show ({ fullmoveStep b.state.side_to_move (flipStep (rightsStep m
            (pieceStep m (captureStep m (clearEpStep (clockStep (pushStep m b))))))) with
              state := { b.state with next_move := m },
              history := b.history } : Board).side_bitboards
          = (fullmoveStep b.state.side_to_move (flipStep (rightsStep m
              (pieceStep m (captureStep m (clearEpStep (clockStep
                (pushStep m b)))))))).side_bitboards from rfl]
        rw [getD_set_ne (Ne.symm hoppne) _ _, hB1sb, getD_set_ne (Ne.symm hoppne) _ _]
        exact getD_set_self (by rw [hlen2]; omega) _ _
      rw [hg2]
      rw [move_piece_sb false _ _ _ _ (by
        rw [hB1sb]
        simp only [List.length_set]
        rw [hlen2]
        omega)]
      show ((fullmoveStep b.state.side_to_move (flipStep (rightsStep m
          (pieceStep m (captureStep m (clearEpStep (clockStep (pushStep m b)))))))).side_bitboards.set
            b.state.side_to_move
            ((getSB (fullmoveStep b.state.side_to_move (flipStep (rightsStep m
              (pieceStep m (captureStep m (clearEpStep (clockStep (pushStep m b))))))))
                b.state.side_to_move ^^^ 2 ^ Move.toSq m) ||| 2 ^ Move.fromSq m)).set
            (b.state.side_to_move ^^^ 1)
            ((getSB b (b.state.side_to_move ^^^ 1) ^^^ 2 ^ Move.toSq m) ||| 2 ^ Move.toSq m)
          = b.side_bitboards
      rw [hg, hB1sb]
      simp only [List.set_set]
      rw [bit_move_restore hsbf hsbt hfne, bit_remove_put hsboppt]
      rw [List.set_comm _ _ _ (Ne.symm hoppne)]
      simp only [List.set_set]
      have e1 : b.side_bitboards.set (b.state.side_to_move ^^^ 1)
          (getSB b (b.state.side_to_move ^^^ 1)) = b.side_bitboards :=
        set_getD_self (by rw [hlen2]; omega) rfl
      have e2 : b.side_bitboards.set b.state.side_to_move
          (getSB b b.state.side_to_move) = b.side_bitboards :=
        set_getD_self (by rw [hlen2]; omega) rfl
      rw [e1, e2]

/-- Round trip for a quiet promotion. -/
theorem restore_promo_quiet {b : Board} {m : Nat} (hinv : invariants b) (hfit : MoveFits b m)
    (hcast : Move.castling m = false) (hep : Move.en_passant m = false)
    (hq : Move.promotion m ≠ 6) (hc6 : Move.capture m = 6) :
    make_move_applied m b
      = some (fullmoveStep b.state.side_to_move (flipStep (rightsStep m
          (pieceStep m (captureStep m (clearEpStep (clockStep (pushStep m b)))))))) ∧
    unmake_move (fullmoveStep b.state.side_to_move (flipStep (rightsStep m
          (pieceStep m (captureStep m (clearEpStep (clockStep (pushStep m b))))))))
      = some { b with state := { b.state with next_move := m } } := by
  have hlen12 : b.piece_bitboards.length = 12 := hinv.1.1
  have hlen2 : b.side_bitboards.length = 2 := hinv.1.2.1
  have hlen64 : b.piece_list.length = 64 := hinv.1.2.2.1
  have hus2 : b.state.side_to_move < 2 := hinv.1.2.2.2
  have hf64 := fromSq_lt m
  have ht64 := toSq_lt m
  obtain ⟨hp6, hfne, hcap7, hplf, hsbf, hsbt, hnonep, hpromo8, hepc, hcastc⟩ := hfit
  obtain ⟨hplt, -, -⟩ := hnonep hep
  rw [hc6] at hplt
  have hp0 : Move.piece m = 0 := by
    rcases hpromo8 with h | ⟨h0, -⟩
    · exact absurd h hq
    · exact h0
  have hq14 : 1 ≤ Move.promotion m ∧ Move.promotion m ≤ 4 := by
    rcases hpromo8 with h | ⟨-, h1, h2⟩
    · exact absurd h hq
    · exact ⟨h1, h2⟩
  rw [hp0] at hplf
  have hip_ne : b.state.side_to_move * 6 + Move.promotion m
      ≠ b.state.side_to_move * 6 + 0 := by omega
  obtain ⟨h2pb, h2sb, h2pl, h2hist, h2stm⟩ := s2_facts m b
  have hcs := captureStep_none (clearEpStep (clockStep (pushStep m b))) hc6
  have hfpb0 : (getPB b b.state.side_to_move 0).testBit (Move.fromSq m) = true :=
    pb_bit_true_of_pl hinv hus2 (by norm_num) hf64 hsbf hplf
  have htpbq : (getPB b b.state.side_to_move (Move.promotion m)).testBit (Move.toSq m)
      = false :=
    pb_bit_false_of_sb hinv hus2 (by omega) hsbt
  -- the piece step seen from the original board
  have h4pb : (pieceStep m (captureStep m (clearEpStep (clockStep (pushStep m b))))).piece_bitboards
      = (b.piece_bitboards.set (b.state.side_to_move * 6 + 0)
          (getPB b b.state.side_to_move 0 ^^^ 2 ^ Move.fromSq m)).set
          (b.state.side_to_move * 6 + Move.promotion m)
          (getPB b b.state.side_to_move (Move.promotion m) ||| 2 ^ Move.toSq m) := by
    rw [hcs]
    obtain ⟨e1, -, -, -, -⟩ := pieceStep_pawn_promo
      (clearEpStep (clockStep (pushStep m b))) hp0 hep hq
    rw [e1, h2stm, put_piece_pb]
    have hgq : getPB (remove_piece true b.state.side_to_move 0 (Move.fromSq m)
          (clearEpStep (clockStep (pushStep m b)))) b.state.side_to_move (Move.promotion m)
        = getPB b b.state.side_to_move (Move.promotion m) := by
      unfold getPB
      rw [remove_piece_pb, getD_set_ne (Ne.symm hip_ne) _ _, h2pb]
    rw [hgq, remove_piece_pb, getPB_eq_of h2pb, h2pb]
  have h4sb : (pieceStep m (captureStep m (clearEpStep (clockStep (pushStep m b))))).side_bitboards
      = b.side_bitboards.set b.state.side_to_move
          ((getSB b b.state.side_to_move ^^^ 2 ^ Move.fromSq m) ||| 2 ^ Move.toSq m) := by
    rw [hcs]
    obtain ⟨-, e2, -, -, -⟩ := pieceStep_pawn_promo
      (clearEpStep (clockStep (pushStep m b))) hp0 hep hq
    rw [e2, h2stm, put_piece_sb]
    have hgq : getSB (remove_piece true b.state.side_to_move 0 (Move.fromSq m)
          (clearEpStep (clockStep (pushStep m b)))) b.state.side_to_move
        = getSB b b.state.side_to_move ^^^ 2 ^ Move.fromSq m := by
      unfold getSB
      rw [remove_piece_sb]
      have : (clearEpStep (clockStep (pushStep m b))).side_bitboards.length = 2 := by
        rw [h2sb, hlen2]
      rw [getD_set_self (by rw [this]; omega) _ _, getSB_eq_of h2sb]
      rfl
    rw [hgq, remove_piece_sb, getSB_eq_of h2sb, h2sb, List.set_set]
  have h4pl : (pieceStep m (captureStep m (clearEpStep (clockStep (pushStep m b))))).piece_list
      = (b.piece_list.set (Move.fromSq m) 6).set (Move.toSq m) (Move.promotion m) := by
    rw [hcs]
    obtain ⟨-, -, e3, -, -⟩ := pieceStep_pawn_promo
      (clearEpStep (clockStep (pushStep m b))) hp0 hep hq
    rw [e3, put_piece_pl, remove_piece_pl, h2pl]
  have h4hist : (pieceStep m (captureStep m (clearEpStep (clockStep (pushStep m b))))).history
      = { b.state with next_move := m } :: b.history := by
    rw [hcs]
    obtain ⟨-, -, -, e4, -⟩ := pieceStep_pawn_promo
      (clearEpStep (clockStep (pushStep m b))) hp0 hep hq
    rw [e4, h2hist]
  -- the fully applied board
  have hB1pb : (fullmoveStep b.state.side_to_move (flipStep (rightsStep m
        (pieceStep m (captureStep m (clearEpStep (clockStep (pushStep m b)))))))).piece_bitboards
      = (b.piece_bitboards.set (b.state.side_to_move * 6 + 0)
          (getPB b b.state.side_to_move 0 ^^^ 2 ^ Move.fromSq m)).set
          (b.state.side_to_move * 6 + Move.promotion m)
          (getPB b b.state.side_to_move (Move.promotion m) ||| 2 ^ Move.toSq m) := by
    rw [(fullmoveStep_data _ _).1, (flipStep_data _).1, (rightsStep_data _ _).1, h4pb]
  have hB1sb : (fullmoveStep b.state.side_to_move (flipStep (rightsStep m
        (pieceStep m (captureStep m (clearEpStep (clockStep (pushStep m b)))))))).side_bitboards
      = b.side_bitboards.set b.state.side_to_move
          ((getSB b b.state.side_to_move ^^^ 2 ^ Move.fromSq m) ||| 2 ^ Move.toSq m) := by
    rw [(fullmoveStep_data _ _).2.1, (flipStep_data _).2.1, (rightsStep_data _ _).2.1, h4sb]
  have hB1pl : (fullmoveStep b.state.side_to_move (flipStep (rightsStep m
        (pieceStep m (captureStep m (clearEpStep (clockStep (pushStep m b)))))))).piece_list
      = (b.piece_list.set (Move.fromSq m) 6).set (Move.toSq m) (Move.promotion m) := by
    rw [(fullmoveStep_data _ _).2.2.1, (flipStep_data _).2.2.1, (rightsStep_data _ _).2.2.1, h4pl]
  have hB1hist : (fullmoveStep b.state.side_to_move (flipStep (rightsStep m
        (pieceStep m (captureStep m (clearEpStep (clockStep (pushStep m b)))))))).history
      = { b.state with next_move := m } :: b.history := by
    rw [(fullmoveStep_data _ _).2.2.2, (flipStep_data _).2.2.2, (rightsStep_data _ _).2.2.2.1, h4hist]
  constructor
  · unfold make_move_applied
    rw [rookStep_not _ hcast]
  · rw [unmake_promo hB1hist hcast hq hep]
    rw [if_neg (by simp [hc6])]
    refine congrArg some (Board.ext' ?_ ?_ ?_ ?_ ?_)
    · rw [put_piece_false_state, remove_piece_false_state]
    · rw [put_piece_history, remove_piece_history]
    · rw [put_piece_pl, remove_piece_pl]
      show (((fullmoveStep b.state.side_to_move (flipStep (rightsStep m
          (pieceStep m (captureStep m (clearEpStep (clockStep (pushStep m b)))))))).piece_list.set
            (Move.toSq m) 6).set (Move.fromSq m) 0)
          = b.piece_list
      rw [hB1pl]
      simp only [List.set_set]
      rw [List.set_comm 6 6 _ hfne]
      simp only [List.set_set]
      rw [List.set_comm 6 0 _ (Ne.symm hfne)]
      rw [set_getD_self (by rw [hlen64]; exact hf64) hplf]
      exact set_getD_self (by rw [hlen64]; exact ht64) hplt
    · rw [put_piece_pb]
      have hgq : getPB (remove_piece false b.state.side_to_move (Move.promotion m)
            (Move.toSq m)
            { fullmoveStep b.state.side_to_move (flipStep (rightsStep m
                (pieceStep m (captureStep m (clearEpStep (clockStep (pushStep m b))))))) with
              state := { b.state with next_move := m }, history := b.history })
            b.state.side_to_move 0
          = getPB b b.state.side_to_move 0 ^^^ 2 ^ Move.fromSq m := by
        unfold getPB
        rw [remove_piece_pb, getD_set_ne hip_ne _ _]
        rw [show ({ fullmoveStep b.state.side_to_move (flipStep (rightsStep m
            (pieceStep m (captureStep m (clearEpStep (clockStep (pushStep m b))))))) with
              state := { b.state with next_move := m },
              history := b.history } : Board).piece_bitboards
          = (fullmoveStep b.state.side_to_move (flipStep (rightsStep m
              (pieceStep m (captureStep m (clearEpStep (clockStep
                (pushStep m b)))))))).piece_bitboards from rfl]
        rw [hB1pb, getD_set_ne hip_ne _ _]
        exact getD_set_self (by rw [hlen12]; omega) _ _
      rw [hgq, remove_piece_pb]
      show ((fullmoveStep b.state.side_to_move (flipStep (rightsStep m
          (pieceStep m (captureStep m (clearEpStep (clockStep (pushStep m b)))))))).piece_bitboards.set
            (b.state.side_to_move * 6 + Move.promotion m)
            ((getPB (fullmoveStep b.state.side_to_move (flipStep (rightsStep m
              (pieceStep m (captureStep m (clearEpStep (clockStep (pushStep m b))))))))
                b.state.side_to_move (Move.promotion m)) ^^^ 2 ^ Move.toSq m)).set
            (b.state.side_to_move * 6 + 0)
            ((getPB b b.state.side_to_move 0 ^^^ 2 ^ Move.fromSq m) ||| 2 ^ Move.fromSq m)
          = b.piece_bitboards
      have hg : getPB (fullmoveStep b.state.side_to_move (flipStep (rightsStep m
            (pieceStep m (captureStep m (clearEpStep (clockStep (pushStep m b))))))))
            b.state.side_to_move (Move.promotion m)
          = getPB b b.state.side_to_move (Move.promotion m) ||| 2 ^ Move.toSq m := by
        unfold getPB
        rw [hB1pb]
        exact getD_set_self (by rw [List.length_set, hlen12]; omega) _ _
      rw [hg, hB1pb, bit_put_remove htpbq, bit_remove_put hfpb0]
      simp only [List.set_set]
      rw [List.set_comm _ _ _ hip_ne]
      simp only [List.set_set]
      have e1 : b.piece_bitboards.set (b.state.side_to_move * 6 + 0)
          (getPB b b.state.side_to_move 0) = b.piece_bitboards :=
        set_getD_self (by rw [hlen12]; omega) rfl
      have e2 : b.piece_bitboards.set (b.state.side_to_move * 6 + Move.promotion m)
          (getPB b b.state.side_to_move (Move.promotion m)) = b.piece_bitboards :=
        set_getD_self (by rw [hlen12]; omega) rfl
      rw [e1, e2]
    · rw [put_piece_sb]
      have hgetB1 : getSB (fullmoveStep b.state.side_to_move (flipStep (rightsStep m
            (pieceStep m (captureStep m (clearEpStep (clockStep (pushStep m b))))))))
            b.state.side_to_move
          = (getSB b b.state.side_to_move ^^^ 2 ^ Move.fromSq m) ||| 2 ^ Move.toSq m := by
        unfold getSB
        rw [hB1sb]
        exact getD_set_self (by rw [hlen2]; omega) _ _
      have hgbase : getSB ({ fullmoveStep b.state.side_to_move (flipStep (rightsStep m
            (pieceStep m (captureStep m (clearEpStep (clockStep (pushStep m b))))))) with
            state := { b.state with next_move := m }, history := b.history } : Board)
            b.state.side_to_move
          = (getSB b b.state.side_to_move ^^^ 2 ^ Move.fromSq m) ||| 2 ^ Move.toSq m := hgetB1
      have hgs : getSB (remove_piece false b.state.side_to_move (Move.promotion m)
            (Move.toSq m)
            { fullmoveStep b.state.side_to_move (flipStep (rightsStep m
                (pieceStep m (captureStep m (clearEpStep (clockStep (pushStep m b))))))) with
              state := { b.state with next_move := m }, history := b.history })
            b.state.side_to_move
          = ((getSB b b.state.side_to_move ^^^ 2 ^ Move.fromSq m) ||| 2 ^ Move.toSq m)
            ^^^ 2 ^ Move.toSq m := by
        unfold getSB
        rw [remove_piece_sb]
        rw [getD_set_self (by
          show b.state.side_to_move
            < (fullmoveStep b.state.side_to_move (flipStep (rightsStep m
                (pieceStep m (captureStep m (clearEpStep (clockStep
                  (pushStep m b)))))))).side_bitboards.length
          rw [hB1sb]
          simp only [List.length_set]
          rw [hlen2]
          omega) _ _]
        rw [hgbase]
        rfl
      rw [hgs, remove_piece_sb, hgbase]
      rw [show ({ fullmoveStep b.state.side_to_move (flipStep (rightsStep m
          (pieceStep m (captureStep m (clearEpStep (clockStep (pushStep m b))))))) with
            state := { b.state with next_move := m },
            history := b.history } : Board).side_bitboards
        = (fullmoveStep b.state.side_to_move (flipStep (rightsStep m
            (pieceStep m (captureStep m (clearEpStep (clockStep
              (pushStep m b)))))))).side_bitboards from rfl]
      rw [hB1sb]
      simp only [List.set_set]
      rw [bit_move_restore hsbf hsbt hfne]
      exact set_getD_self (by rw [hlen2]; omega) rfl

theorem getElem?_eq_some_getD {l : List Nat} {i : Nat} (d : Nat) (h : i < l.length) :
    l[i]? = some (l.getD i d) := by
  rw [List.getD_eq_getElem?_getD, List.getElem?_eq_getElem h]
  rfl

/-- Round trip for a capturing promotion. -/
theorem restore_promo_capture {b : Board} {m : Nat} (hinv : invariants b) (hfit : MoveFits b m)
    (hcast : Move.castling m = false) (hep : Move.en_passant m = false)
    (hq : Move.promotion m ≠ 6) (hc6 : Move.capture m ≠ 6) :
    make_move_applied m b
      = some (fullmoveStep b.state.side_to_move (flipStep (rightsStep m
          (pieceStep m (captureStep m (clearEpStep (clockStep (pushStep m b)))))))) ∧
    unmake_move (fullmoveStep b.state.side_to_move (flipStep (rightsStep m
          (pieceStep m (captureStep m (clearEpStep (clockStep (pushStep m b))))))))
      = some { b with state := { b.state with next_move := m } } := by
  have hlen12 : b.piece_bitboards.length = 12 := hinv.1.1
  have hlen2 : b.side_bitboards.length = 2 := hinv.1.2.1
  have hlen64 : b.piece_list.length = 64 := hinv.1.2.2.1
  have hus2 : b.state.side_to_move < 2 := hinv.1.2.2.2
  obtain ⟨hopp2, hoppne⟩ := opp_facts hus2
  have hf64 := fromSq_lt m
  have ht64 := toSq_lt m
  have hcaplt : Move.capture m < 6 := by
    have := capture_le m
    have h7 := hfit.2.2.1
    omega
  obtain ⟨hp6, hfne, hcap7, hplf, hsbf, hsbt, hnonep, hpromo8, hepc, hcastc⟩ := hfit
  obtain ⟨hplt, hsbcapT, -⟩ := hnonep hep
  have hsboppt : (getSB b (b.state.side_to_move ^^^ 1)).testBit (Move.toSq m) = true :=
    hsbcapT hc6
  have hp0 : Move.piece m = 0 := by
    rcases hpromo8 with h | ⟨h0, -⟩
    · exact absurd h hq
    · exact h0
  have hq14 : 1 ≤ Move.promotion m ∧ Move.promotion m ≤ 4 := by
    rcases hpromo8 with h | ⟨-, h1, h2⟩
    · exact absurd h hq
    · exact ⟨h1, h2⟩
  rw [hp0] at hplf
  have hip_ne : b.state.side_to_move * 6 + Move.promotion m
      ≠ b.state.side_to_move * 6 + 0 := by omega
  have hon0 : (b.state.side_to_move ^^^ 1) * 6 + Move.capture m
      ≠ b.state.side_to_move * 6 + 0 := by
    have h01 : b.state.side_to_move = 0 ∨ b.state.side_to_move = 1 := by omega
    rcases h01 with h | h <;> rw [h] <;> simp <;> omega
  have honq : (b.state.side_to_move ^^^ 1) * 6 + Move.capture m
      ≠ b.state.side_to_move * 6 + Move.promotion m := by
    have h01 : b.state.side_to_move = 0 ∨ b.state.side_to_move = 1 := by omega
    rcases h01 with h | h <;> rw [h] <;> simp <;> omega
  obtain ⟨h2pb, h2sb, h2pl, h2hist, h2stm⟩ := s2_facts m b
  have hfpb0 : (getPB b b.state.side_to_move 0).testBit (Move.fromSq m) = true :=
    pb_bit_true_of_pl hinv hus2 (by norm_num) hf64 hsbf hplf
  have htpbq : (getPB b b.state.side_to_move (Move.promotion m)).testBit (Move.toSq m)
      = false :=
    pb_bit_false_of_sb hinv hus2 (by omega) hsbt
  have hcapb : (getPB b (b.state.side_to_move ^^^ 1) (Move.capture m)).testBit (Move.toSq m)
      = true :=
    pb_bit_true_of_pl hinv hopp2 hcaplt ht64 hsboppt hplt
  obtain ⟨c1, c2, c3, c4, c5⟩ := captureStep_data (clearEpStep (clockStep (pushStep m b))) hc6
  have h3pb : (captureStep m (clearEpStep (clockStep (pushStep m b)))).piece_bitboards
      = b.piece_bitboards.set ((b.state.side_to_move ^^^ 1) * 6 + Move.capture m)
          (getPB b (b.state.side_to_move ^^^ 1) (Move.capture m) ^^^ 2 ^ Move.toSq m) := by
    rw [c1, h2stm, getPB_eq_of h2pb, h2pb]
  have h3sb : (captureStep m (clearEpStep (clockStep (pushStep m b)))).side_bitboards
      = b.side_bitboards.set (b.state.side_to_move ^^^ 1)
          (getSB b (b.state.side_to_move ^^^ 1) ^^^ 2 ^ Move.toSq m) := by
    rw [c2, h2stm, getSB_eq_of h2sb, h2sb]
  have h3pl : (captureStep m (clearEpStep (clockStep (pushStep m b)))).piece_list
      = b.piece_list.set (Move.toSq m) 6 := by
    rw [c3, h2pl]
  have h3hist : (captureStep m (clearEpStep (clockStep (pushStep m b)))).history
      = { b.state with next_move := m } :: b.history := by
    rw [c4, h2hist]
  have h3stm : (captureStep m (clearEpStep (clockStep (pushStep m b)))).state.side_to_move
      = b.state.side_to_move := by
    rw [c5, h2stm]
  -- the piece step seen from the original board
  have h4pb : (pieceStep m (captureStep m (clearEpStep (clockStep (pushStep m b))))).piece_bitboards
      = ((b.piece_bitboards.set ((b.state.side_to_move ^^^ 1) * 6 + Move.capture m)
          (getPB b (b.state.side_to_move ^^^ 1) (Move.capture m) ^^^ 2 ^ Move.toSq m)).set
          (b.state.side_to_move * 6 + 0)
          (getPB b b.state.side_to_move 0 ^^^ 2 ^ Move.fromSq m)).set
          (b.state.side_to_move * 6 + Move.promotion m)
          (getPB b b.state.side_to_move (Move.promotion m) ||| 2 ^ Move.toSq m) := by
    obtain ⟨e1, -, -, -, -⟩ := pieceStep_pawn_promo
      (captureStep m (clearEpStep (clockStep (pushStep m b)))) hp0 hep hq
    rw [e1, h3stm, put_piece_pb]
    have hgq : getPB (remove_piece true b.state.side_to_move 0 (Move.fromSq m)
          (captureStep m (clearEpStep (clockStep (pushStep m b)))))
          b.state.side_to_move (Move.promotion m)
        = getPB b b.state.side_to_move (Move.promotion m) := by
      unfold getPB
      rw [remove_piece_pb, getD_set_ne (Ne.symm hip_ne) _ _, h3pb,
        getD_set_ne honq _ _]
    have hg0 : getPB (captureStep m (clearEpStep (clockStep (pushStep m b))))
          b.state.side_to_move 0
        = getPB b b.state.side_to_move 0 := by
      unfold getPB
      rw [h3pb, getD_set_ne hon0 _ _]
    rw [hgq, remove_piece_pb, hg0, h3pb]
  have h4sb : (pieceStep m (captureStep m (clearEpStep (clockStep (pushStep m b))))).side_bitboards
      = (b.side_bitboards.set (b.state.side_to_move ^^^ 1)
          (getSB b (b.state.side_to_move ^^^ 1) ^^^ 2 ^ Move.toSq m)).set
          b.state.side_to_move
          ((getSB b b.state.side_to_move ^^^ 2 ^ Move.fromSq m) ||| 2 ^ Move.toSq m) := by
    obtain ⟨-, e2, -, -, -⟩ := pieceStep_pawn_promo
      (captureStep m (clearEpStep (clockStep (pushStep m b)))) hp0 hep hq
    rw [e2, h3stm, put_piece_sb]
    have hgs0 : getSB (captureStep m (clearEpStep (clockStep (pushStep m b))))
          b.state.side_to_move
        = getSB b b.state.side_to_move := by
      unfold getSB
      rw [h3sb, getD_set_ne hoppne _ _]
    have hgq : getSB (remove_piece true b.state.side_to_move 0 (Move.fromSq m)
          (captureStep m (clearEpStep (clockStep (pushStep m b)))))
          b.state.side_to_move
        = getSB b b.state.side_to_move ^^^ 2 ^ Move.fromSq m := by
      unfold getSB
      rw [remove_piece_sb]
      rw [getD_set_self (by
        rw [h3sb]
        simp only [List.length_set]
        rw [hlen2]
        omega) _ _]
      rw [hgs0]
      rfl
    rw [hgq, remove_piece_sb, hgs0, h3sb, List.set_set]
  have h4pl : (pieceStep m (captureStep m (clearEpStep (clockStep (pushStep m b))))).piece_list
      = ((b.piece_list.set (Move.toSq m) 6).set (Move.fromSq m) 6).set (Move.toSq m)
          (Move.promotion m) := by
    obtain ⟨-, -, e3, -, -⟩ := pieceStep_pawn_promo
      (captureStep m (clearEpStep (clockStep (pushStep m b)))) hp0 hep hq
    rw [e3, put_piece_pl, remove_piece_pl, h3pl]
  have h4hist : (pieceStep m (captureStep m (clearEpStep (clockStep (pushStep m b))))).history
      = { b.state with next_move := m } :: b.history := by
    obtain ⟨-, -, -, e4, -⟩ := pieceStep_pawn_promo
      (captureStep m (clearEpStep (clockStep (pushStep m b)))) hp0 hep hq
    rw [e4, h3hist]
  -- the fully applied board
  have hB1pb : (fullmoveStep b.state.side_to_move (flipStep (rightsStep m
        (pieceStep m (captureStep m (clearEpStep (clockStep (pushStep m b)))))))).piece_bitboards
      = ((b.piece_bitboards.set ((b.state.side_to_move ^^^ 1) * 6 + Move.capture m)
          (getPB b (b.state.side_to_move ^^^ 1) (Move.capture m) ^^^ 2 ^ Move.toSq m)).set
          (b.state.side_to_move * 6 + 0)
          (getPB b b.state.side_to_move 0 ^^^ 2 ^ Move.fromSq m)).set
          (b.state.side_to_move * 6 + Move.promotion m)
          (getPB b b.state.side_to_move (Move.promotion m) ||| 2 ^ Move.toSq m) := by
    rw [(fullmoveStep_data _ _).1, (flipStep_data _).1, (rightsStep_data _ _).1, h4pb]
  have hB1sb : (fullmoveStep b.state.side_to_move (flipStep (rightsStep m
        (pieceStep m (captureStep m (clearEpStep (clockStep (pushStep m b)))))))).side_bitboards
      = (b.side_bitboards.set (b.state.side_to_move ^^^ 1)
          (getSB b (b.state.side_to_move ^^^ 1) ^^^ 2 ^ Move.toSq m)).set
          b.state.side_to_move
          ((getSB b b.state.side_to_move ^^^ 2 ^ Move.fromSq m) ||| 2 ^ Move.toSq m) := by
    rw [(fullmoveStep_data _ _).2.1, (flipStep_data _).2.1, (rightsStep_data _ _).2.1, h4sb]
  have hB1pl : (fullmoveStep b.state.side_to_move (flipStep (rightsStep m
        (pieceStep m (captureStep m (clearEpStep (clockStep (pushStep m b)))))))).piece_list
      = ((b.piece_list.set (Move.toSq m) 6).set (Move.fromSq m) 6).set (Move.toSq m)
          (Move.promotion m) := by
    rw [(fullmoveStep_data _ _).2.2.1, (flipStep_data _).2.2.1, (rightsStep_data _ _).2.2.1, h4pl]
  have hB1hist : (fullmoveStep b.state.side_to_move (flipStep (rightsStep m
        (pieceStep m (captureStep m (clearEpStep (clockStep (pushStep m b)))))))).history
      = { b.state with next_move := m } :: b.history := by
    rw [(fullmoveStep_data _ _).2.2.2, (flipStep_data _).2.2.2, (rightsStep_data _ _).2.2.2.1, h4hist]
  constructor
  · unfold make_move_applied
    rw [rookStep_not _ hcast]
  · rw [unmake_promo hB1hist hcast hq hep]
    rw [if_pos (show Move.capture m ≠ 6 from hc6)]
    refine congrArg some (Board.ext' ?_ ?_ ?_ ?_ ?_)
    · rw [put_piece_false_state, put_piece_false_state, remove_piece_false_state]
    · rw [put_piece_history, put_piece_history, remove_piece_history]
    · rw [put_piece_pl, put_piece_pl, remove_piece_pl]
      show ((((fullmoveStep b.state.side_to_move (flipStep (rightsStep m
          (pieceStep m (captureStep m (clearEpStep (clockStep (pushStep m b)))))))).piece_list.set
            (Move.toSq m) 6).set (Move.fromSq m) 0).set (Move.toSq m) (Move.capture m))
          = b.piece_list
      rw [hB1pl]
      simp only [List.set_set]
      apply List.ext_getElem?
      intro n
      by_cases h1 : Move.toSq m = n
      · subst h1
        rw [List.getElem?_set_self (by
          simp only [List.length_set]
          rw [hlen64]
          exact ht64)]
        rw [getElem?_eq_some_getD 6 (by rw [hlen64]; exact ht64), hplt]
      · by_cases h2 : Move.fromSq m = n
        · subst h2
          rw [List.getElem?_set_ne h1, List.getElem?_set_self (by
            simp only [List.length_set]
            rw [hlen64]
            exact hf64)]
          rw [getElem?_eq_some_getD 6 (by rw [hlen64]; exact hf64), hplf]
        · rw [List.getElem?_set_ne h1, List.getElem?_set_ne h2, List.getElem?_set_ne h1,
            List.getElem?_set_ne h2, List.getElem?_set_ne h1]
    · rw [put_piece_pb]
      have hy : getPB (put_piece false b.state.side_to_move 0 (Move.fromSq m)
            (remove_piece false b.state.side_to_move (Move.promotion m) (Move.toSq m)
              { fullmoveStep b.state.side_to_move (flipStep (rightsStep m
                  (pieceStep m (captureStep m (clearEpStep (clockStep (pushStep m b))))))) with
                state := { b.state with next_move := m }, history := b.history }))
            (b.state.side_to_move ^^^ 1) (Move.capture m)
          = getPB b (b.state.side_to_move ^^^ 1) (Move.capture m) ^^^ 2 ^ Move.toSq m := by
        unfold getPB
        rw [put_piece_pb, remove_piece_pb, getD_set_ne (Ne.symm hon0) _ _,
          getD_set_ne (Ne.symm honq) _ _]
        rw [show ({ fullmoveStep b.state.side_to_move (flipStep (rightsStep m
            (pieceStep m (captureStep m (clearEpStep (clockStep (pushStep m b))))))) with
              state := { b.state with next_move := m },
              history := b.history } : Board).piece_bitboards
          = (fullmoveStep b.state.side_to_move (flipStep (rightsStep m
              (pieceStep m (captureStep m (clearEpStep (clockStep
                (pushStep m b)))))))).piece_bitboards from rfl]
        rw [hB1pb, getD_set_ne (Ne.symm honq) _ _, getD_set_ne (Ne.symm hon0) _ _]
        exact getD_set_self (by rw [hlen12]; omega) _ _
      rw [hy, put_piece_pb]
      have hx : getPB (remove_piece false b.state.side_to_move (Move.promotion m) (Move.toSq m)
            { fullmoveStep b.state.side_to_move (flipStep (rightsStep m
                (pieceStep m (captureStep m (clearEpStep (clockStep (pushStep m b))))))) with
              state := { b.state with next_move := m }, history := b.history })
            b.state.side_to_move 0
          = getPB b b.state.side_to_move 0 ^^^ 2 ^ Move.fromSq m := by
        unfold getPB
        rw [remove_piece_pb, getD_set_ne hip_ne _ _]
        rw [show ({ fullmoveStep b.state.side_to_move (flipStep (rightsStep m
            (pieceStep m (captureStep m (clearEpStep (clockStep (pushStep m b))))))) with
              state := { b.state with next_move := m },
              history := b.history } : Board).piece_bitboards
          = (fullmoveStep b.state.side_to_move (flipStep (rightsStep m
              (pieceStep m (captureStep m (clearEpStep (clockStep
                (pushStep m b)))))))).piece_bitboards from rfl]
        rw [hB1pb, getD_set_ne hip_ne _ _]
        exact getD_set_self (by
          simp only [List.length_set]
          rw [hlen12]
          omega) _ _
      rw [hx, remove_piece_pb]
      have hbq : getPB ({ fullmoveStep b.state.side_to_move (flipStep (rightsStep m
            (pieceStep m (captureStep m (clearEpStep (clockStep (pushStep m b))))))) with
            state := { b.state with next_move := m }, history := b.history } : Board)
            b.state.side_to_move (Move.promotion m)
          = getPB b b.state.side_to_move (Move.promotion m) ||| 2 ^ Move.toSq m := by
        unfold getPB
        rw [show ({ fullmoveStep b.state.side_to_move (flipStep (rightsStep m
            (pieceStep m (captureStep m (clearEpStep (clockStep (pushStep m b))))))) with
              state := { b.state with next_move := m },
              history := b.history } : Board).piece_bitboards
          = (fullmoveStep b.state.side_to_move (flipStep (rightsStep m
              (pieceStep m (captureStep m (clearEpStep (clockStep
                (pushStep m b)))))))).piece_bitboards from rfl]
        rw [hB1pb]
        exact getD_set_self (by
          simp only [List.length_set]
          rw [hlen12]
          omega) _ _
      rw [hbq]
      rw [show ({ fullmoveStep b.state.side_to_move (flipStep (rightsStep m
          (pieceStep m (captureStep m (clearEpStep (clockStep (pushStep m b))))))) with
            state := { b.state with next_move := m },
            history := b.history } : Board).piece_bitboards
        = (fullmoveStep b.state.side_to_move (flipStep (rightsStep m
            (pieceStep m (captureStep m (clearEpStep (clockStep
              (pushStep m b)))))))).piece_bitboards from rfl]
      rw [hB1pb, bit_put_remove htpbq, bit_remove_put hfpb0, bit_remove_put hcapb]
      simp only [List.set_set]
      apply List.ext_getElem?
      intro n
      by_cases h1 : (b.state.side_to_move ^^^ 1) * 6 + Move.capture m = n
      · subst h1
        rw [List.getElem?_set_self (by
          simp only [List.length_set]
          rw [hlen12]
          omega)]
        rw [getElem?_eq_some_getD 0 (by rw [hlen12]; omega)]
        rfl
      · by_cases h2 : b.state.side_to_move * 6 + 0 = n
        · subst h2
          rw [List.getElem?_set_ne h1, List.getElem?_set_self (by
            simp only [List.length_set]
            rw [hlen12]
            omega)]
          rw [getElem?_eq_some_getD 0 (by rw [hlen12]; omega)]
          rfl
        · by_cases h3 : b.state.side_to_move * 6 + Move.promotion m = n
          · subst h3
            rw [List.getElem?_set_ne h1, List.getElem?_set_ne h2, List.getElem?_set_self (by
              simp only [List.length_set]
              rw [hlen12]
              omega)]
            rw [getElem?_eq_some_getD 0 (by rw [hlen12]; omega)]
            rfl
          · rw [List.getElem?_set_ne h1, List.getElem?_set_ne h2, List.getElem?_set_ne h3,
              List.getElem?_set_ne h2, List.getElem?_set_ne h1]
    · rw [put_piece_sb]
      have hgetB1 : getSB (fullmoveStep b.state.side_to_move (flipStep (rightsStep m
            (pieceStep m (captureStep m (clearEpStep (clockStep (pushStep m b))))))))
            b.state.side_to_move
          = (getSB b b.state.side_to_move ^^^ 2 ^ Move.fromSq m) ||| 2 ^ Move.toSq m := by
        unfold getSB
        rw [hB1sb]
        exact getD_set_self (by
          simp only [List.length_set]
          rw [hlen2]
          omega) _ _
      have hgbase : getSB ({ fullmoveStep b.state.side_to_move (flipStep (rightsStep m
            (pieceStep m (captureStep m (clearEpStep (clockStep (pushStep m b))))))) with
            state := { b.state with next_move := m }, history := b.history } : Board)
            b.state.side_to_move
          = (getSB b b.state.side_to_move ^^^ 2 ^ Move.fromSq m) ||| 2 ^ Move.toSq m := hgetB1
      have hyopp : getSB (put_piece false b.state.side_to_move 0 (Move.fromSq m)
            (remove_piece false b.state.side_to_move (Move.promotion m) (Move.toSq m)
              { fullmoveStep b.state.side_to_move (flipStep (rightsStep m
                  (pieceStep m (captureStep m (clearEpStep (clockStep (pushStep m b))))))) with
                state := { b.state with next_move := m }, history := b.history }))
            (b.state.side_to_move ^^^ 1)
          = getSB b (b.state.side_to_move ^^^ 1) ^^^ 2 ^ Move.toSq m := by
        unfold getSB
        rw [put_piece_sb, remove_piece_sb, getD_set_ne (Ne.symm hoppne) _ _,
          getD_set_ne (Ne.symm hoppne) _ _]
        rw [show ({ fullmoveStep b.state.side_to_move (flipStep (rightsStep m
            (pieceStep m (captureStep m (clearEpStep (clockStep (pushStep m b))))))) with
              state := { b.state with next_move := m },
              history := b.history } : Board).side_bitboards
          = (fullmoveStep b.state.side_to_move (flipStep (rightsStep m
              (pieceStep m (captureStep m (clearEpStep (clockStep
                (pushStep m b)))))))).side_bitboards from rfl]
        rw [hB1sb, getD_set_ne (Ne.symm hoppne) _ _]
        exact getD_set_self (by rw [hlen2]; omega) _ _
      rw [hyopp, put_piece_sb]
      have hgs : getSB (remove_piece false b.state.side_to_move (Move.promotion m)
            (Move.toSq m)
            { fullmoveStep b.state.side_to_move (flipStep (rightsStep m
                (pieceStep m (captureStep m (clearEpStep (clockStep (pushStep m b))))))) with
              state := { b.state with next_move := m }, history := b.history })
            b.state.side_to_move
          = ((getSB b b.state.side_to_move ^^^ 2 ^ Move.fromSq m) ||| 2 ^ Move.toSq m)
            ^^^ 2 ^ Move.toSq m := by
        unfold getSB
        rw [remove_piece_sb]
        rw [getD_set_self (by
          show b.state.side_to_move
            < (fullmoveStep b.state.side_to_move (flipStep (rightsStep m
                (pieceStep m (captureStep m (clearEpStep (clockStep
                  (pushStep m b)))))))).side_bitboards.length
          rw [hB1sb]
          simp only [List.length_set]
          rw [hlen2]
          omega) _ _]
        rw [hgbase]
        rfl
      rw [hgs, remove_piece_sb, hgbase]
      rw [show ({ fullmoveStep b.state.side_to_move (flipStep (rightsStep m
          (pieceStep m (captureStep m (clearEpStep (clockStep (pushStep m b))))))) with
            state := { b.state with next_move := m },
            history := b.history } : Board).side_bitboards
        = (fullmoveStep b.state.side_to_move (flipStep (rightsStep m
            (pieceStep m (captureStep m (clearEpStep (clockStep
              (pushStep m b)))))))).side_bitboards from rfl]
      rw [hB1sb]
      simp only [List.set_set]
      rw [bit_move_restore hsbf hsbt hfne, bit_remove_put hsboppt]
      apply List.ext_getElem?
      intro n
      by_cases h1 : b.state.side_to_move ^^^ 1 = n
      · subst h1
        rw [List.getElem?_set_self (by
          simp only [List.length_set]
          rw [hlen2]
          omega)]
        rw [getElem?_eq_some_getD 0 (by rw [hlen2]; omega)]
        rfl
      · by_cases h2 : b.state.side_to_move = n
        · subst h2
          rw [List.getElem?_set_ne h1, List.getElem?_set_self (by
            simp only [List.length_set]
            rw [hlen2]
            omega)]
          rw [getElem?_eq_some_getD 0 (by rw [hlen2]; omega)]
          rfl
        · rw [List.getElem?_set_ne h1, List.getElem?_set_ne h2, List.getElem?_set_ne h1]

/-- Round trip for an en-passant capture. -/
theorem restore_ep {b : Board} {m : Nat} (hinv : invariants b) (hfit : MoveFits b m)
    (hcast : Move.castling m = false) (hep : Move.en_passant m = true) :
    make_move_applied m b
      = some (fullmoveStep b.state.side_to_move (flipStep (rightsStep m
          (pieceStep m (captureStep m (clearEpStep (clockStep (pushStep m b)))))))) ∧
    unmake_move (fullmoveStep b.state.side_to_move (flipStep (rightsStep m
          (pieceStep m (captureStep m (clearEpStep (clockStep (pushStep m b))))))))
      = some { b with state := { b.state with next_move := m } } := by
  have hlen12 : b.piece_bitboards.length = 12 := hinv.1.1
  have hlen2 : b.side_bitboards.length = 2 := hinv.1.2.1
  have hlen64 : b.piece_list.length = 64 := hinv.1.2.2.1
  have hus2 : b.state.side_to_move < 2 := hinv.1.2.2.2
  obtain ⟨hopp2, hoppne⟩ := opp_facts hus2
  have hf64 := fromSq_lt m
  have ht64 := toSq_lt m
  have he64 : Move.toSq m ^^^ 8 < 64 := xor8_lt ht64
  have het : Move.toSq m ^^^ 8 ≠ Move.toSq m := xor8_ne (Move.toSq m)
  obtain ⟨hp6, hfne, hcap7, hplf, hsbf, hsbt, hnonep, hpromo8, hepc, hcastc⟩ := hfit
  obtain ⟨hp0, hcap6, hq6, hefne, hplt6, hsbeopp, hplep, hsbeus⟩ := hepc hep
  rw [hp0] at hplf
  have hi_ne : b.state.side_to_move * 6 + 0 ≠ (b.state.side_to_move ^^^ 1) * 6 + 0 := by
    have h01 : b.state.side_to_move = 0 ∨ b.state.side_to_move = 1 := by omega
    rcases h01 with h | h <;> rw [h] <;> simp
  obtain ⟨h2pb, h2sb, h2pl, h2hist, h2stm⟩ := s2_facts m b
  have hcs := captureStep_none (clearEpStep (clockStep (pushStep m b))) hcap6
  have hfpb0 : (getPB b b.state.side_to_move 0).testBit (Move.fromSq m) = true :=
    pb_bit_true_of_pl hinv hus2 (by norm_num) hf64 hsbf hplf
  have htpb0 : (getPB b b.state.side_to_move 0).testBit (Move.toSq m) = false :=
    pb_bit_false_of_sb hinv hus2 (by norm_num) hsbt
  have hepbopp : (getPB b (b.state.side_to_move ^^^ 1) 0).testBit (Move.toSq m ^^^ 8)
      = true :=
    pb_bit_true_of_pl hinv hopp2 (by norm_num) he64 hsbeopp hplep
  -- the piece step seen from the original board
  have h4pb : (pieceStep m (captureStep m (clearEpStep (clockStep (pushStep m b))))).piece_bitboards
      = (b.piece_bitboards.set (b.state.side_to_move * 6 + 0)
          ((getPB b b.state.side_to_move 0 ^^^ 2 ^ Move.fromSq m) ||| 2 ^ Move.toSq m)).set
          ((b.state.side_to_move ^^^ 1) * 6 + 0)
          (getPB b (b.state.side_to_move ^^^ 1) 0 ^^^ 2 ^ (Move.toSq m ^^^ 8)) := by
    rw [hcs]
    obtain ⟨e1, -, -, -, -⟩ := pieceStep_pawn_ep
      (clearEpStep (clockStep (pushStep m b))) hp0 hep hq6
    rw [e1, h2stm, remove_piece_pb]
    have hbound : b.state.side_to_move * 6 + 0
        < (clearEpStep (clockStep (pushStep m b))).piece_bitboards.length := by
      rw [h2pb, hlen12]; omega
    have hgo : getPB (move_piece true b.state.side_to_move 0 (Move.fromSq m) (Move.toSq m)
          (clearEpStep (clockStep (pushStep m b)))) (b.state.side_to_move ^^^ 1) 0
        = getPB b (b.state.side_to_move ^^^ 1) 0 := by
      unfold getPB
      rw [move_piece_pb true _ _ _ _ hbound, getD_set_ne hi_ne _ _, h2pb]
    rw [hgo, move_piece_pb true _ _ _ _ hbound, getPB_eq_of h2pb, h2pb]
  have h4sb : (pieceStep m (captureStep m (clearEpStep (clockStep (pushStep m b))))).side_bitboards
      = (b.side_bitboards.set b.state.side_to_move
          ((getSB b b.state.side_to_move ^^^ 2 ^ Move.fromSq m) ||| 2 ^ Move.toSq m)).set
          (b.state.side_to_move ^^^ 1)
          (getSB b (b.state.side_to_move ^^^ 1) ^^^ 2 ^ (Move.toSq m ^^^ 8)) := by
    rw [hcs]
    obtain ⟨-, e2, -, -, -⟩ := pieceStep_pawn_ep
      (clearEpStep (clockStep (pushStep m b))) hp0 hep hq6
    rw [e2, h2stm, remove_piece_sb]
    have hbound : b.state.side_to_move
        < (clearEpStep (clockStep (pushStep m b))).side_bitboards.length := by
      rw [h2sb, hlen2]; omega
    have hgo : getSB (move_piece true b.state.side_to_move 0 (Move.fromSq m) (Move.toSq m)
          (clearEpStep (clockStep (pushStep m b)))) (b.state.side_to_move ^^^ 1)
        = getSB b (b.state.side_to_move ^^^ 1) := by
      unfold getSB
      rw [move_piece_sb true _ _ _ _ hbound, getD_set_ne hoppne.symm _ _, h2sb]
    rw [hgo, move_piece_sb true _ _ _ _ hbound, getSB_eq_of h2sb, h2sb]
  have h4pl : (pieceStep m (captureStep m (clearEpStep (clockStep (pushStep m b))))).piece_list
      = ((b.piece_list.set (Move.fromSq m) 6).set (Move.toSq m) 0).set (Move.toSq m ^^^ 8)
          6 := by
    rw [hcs]
    obtain ⟨-, -, e3, -, -⟩ := pieceStep_pawn_ep
      (clearEpStep (clockStep (pushStep m b))) hp0 hep hq6
    rw [e3, remove_piece_pl, move_piece_pl, h2pl]
  have h4hist : (pieceStep m (captureStep m (clearEpStep (clockStep (pushStep m b))))).history
      = { b.state with next_move := m } :: b.history := by
    rw [hcs]
    obtain ⟨-, -, -, e4, -⟩ := pieceStep_pawn_ep
      (clearEpStep (clockStep (pushStep m b))) hp0 hep hq6
    rw [e4, h2hist]
  -- the fully applied board
  have hB1pb : (fullmoveStep b.state.side_to_move (flipStep (rightsStep m
        (pieceStep m (captureStep m (clearEpStep (clockStep (pushStep m b)))))))).piece_bitboards
      = (b.piece_bitboards.set (b.state.side_to_move * 6 + 0)
          ((getPB b b.state.side_to_move 0 ^^^ 2 ^ Move.fromSq m) ||| 2 ^ Move.toSq m)).set
          ((b.state.side_to_move ^^^ 1) * 6 + 0)
          (getPB b (b.state.side_to_move ^^^ 1) 0 ^^^ 2 ^ (Move.toSq m ^^^ 8)) := by
    rw [(fullmoveStep_data _ _).1, (flipStep_data _).1, (rightsStep_data _ _).1, h4pb]
  have hB1sb : (fullmoveStep b.state.side_to_move (flipStep (rightsStep m
        (pieceStep m (captureStep m (clearEpStep (clockStep (pushStep m b)))))))).side_bitboards
      = (b.side_bitboards.set b.state.side_to_move
          ((getSB b b.state.side_to_move ^^^ 2 ^ Move.fromSq m) ||| 2 ^ Move.toSq m)).set
          (b.state.side_to_move ^^^ 1)
          (getSB b (b.state.side_to_move ^^^ 1) ^^^ 2 ^ (Move.toSq m ^^^ 8)) := by
    rw [(fullmoveStep_data _ _).2.1, (flipStep_data _).2.1, (rightsStep_data _ _).2.1, h4sb]
  have hB1pl : (fullmoveStep b.state.side_to_move (flipStep (rightsStep m
        (pieceStep m (captureStep m (clearEpStep (clockStep (pushStep m b)))))))).piece_list
      = ((b.piece_list.set (Move.fromSq m) 6).set (Move.toSq m) 0).set (Move.toSq m ^^^ 8)
          6 := by
    rw [(fullmoveStep_data _ _).2.2.1, (flipStep_data _).2.2.1, (rightsStep_data _ _).2.2.1, h4pl]
  have hB1hist : (fullmoveStep b.state.side_to_move (flipStep (rightsStep m
        (pieceStep m (captureStep m (clearEpStep (clockStep (pushStep m b)))))))).history
      = { b.state with next_move := m } :: b.history := by
    rw [(fullmoveStep_data _ _).2.2.2, (flipStep_data _).2.2.2, (rightsStep_data _ _).2.2.2.1, h4hist]
  constructor
  · unfold make_move_applied
    rw [rookStep_not _ hcast]
  · rw [unmake_ep hB1hist hcast hq6 hep hcap6, hp0]
    refine congrArg some (Board.ext' ?_ ?_ ?_ ?_ ?_)
    · rw [put_piece_false_state, move_piece_false_state]
    · rw [put_piece_history, move_piece_history]
    · rw [put_piece_pl, move_piece_pl]
      show ((((fullmoveStep b.state.side_to_move (flipStep (rightsStep m
          (pieceStep m (captureStep m (clearEpStep (clockStep (pushStep m b)))))))).piece_list.set
            (Move.toSq m) 6).set (Move.fromSq m) 0).set (Move.toSq m ^^^ 8) 0)
          = b.piece_list
      rw [hB1pl]
      apply List.ext_getElem?
      intro n
      by_cases h1 : Move.toSq m ^^^ 8 = n
      · subst h1
        rw [List.getElem?_set_self (by
          simp only [List.length_set]
          rw [hlen64]
          exact he64)]
        rw [getElem?_eq_some_getD 6 (by rw [hlen64]; exact he64), hplep]
      · by_cases h2 : Move.fromSq m = n
        · subst h2
          rw [List.getElem?_set_ne h1, List.getElem?_set_self (by
            simp only [List.length_set]
            rw [hlen64]
            exact hf64)]
          rw [getElem?_eq_some_getD 6 (by rw [hlen64]; exact hf64), hplf]
        · by_cases h3 : Move.toSq m = n
          · subst h3
            rw [List.getElem?_set_ne h1, List.getElem?_set_ne h2, List.getElem?_set_self (by
              simp only [List.length_set]
              rw [hlen64]
              exact ht64)]
            rw [getElem?_eq_some_getD 6 (by rw [hlen64]; exact ht64), hplt6]
          · rw [List.getElem?_set_ne h1, List.getElem?_set_ne h2, List.getElem?_set_ne h3,
              List.getElem?_set_ne h1, List.getElem?_set_ne h3, List.getElem?_set_ne h2]
    · rw [put_piece_pb]
      have hx : getPB ({ fullmoveStep b.state.side_to_move (flipStep (rightsStep m
            (pieceStep m (captureStep m (clearEpStep (clockStep (pushStep m b))))))) with
            state := { b.state with next_move := m }, history := b.history } : Board)
            b.state.side_to_move 0
          = (getPB b b.state.side_to_move 0 ^^^ 2 ^ Move.fromSq m) ||| 2 ^ Move.toSq m := by
        unfold getPB
        rw [show ({ fullmoveStep b.state.side_to_move (flipStep (rightsStep m
            (pieceStep m (captureStep m (clearEpStep (clockStep (pushStep m b))))))) with
              state := { b.state with next_move := m },
              history := b.history } : Board).piece_bitboards
          = (fullmoveStep b.state.side_to_move (flipStep (rightsStep m
              (pieceStep m (captureStep m (clearEpStep (clockStep
                (pushStep m b)))))))).piece_bitboards from rfl]
        rw [hB1pb, getD_set_ne (Ne.symm hi_ne) _ _]
        exact getD_set_self (by rw [hlen12]; omega) _ _
      have hbound : b.state.side_to_move * 6 + 0
          < ({ fullmoveStep b.state.side_to_move (flipStep (rightsStep m
              (pieceStep m (captureStep m (clearEpStep (clockStep (pushStep m b))))))) with
              state := { b.state with next_move := m },
              history := b.history } : Board).piece_bitboards.length := by
        rw [show ({ fullmoveStep b.state.side_to_move (flipStep (rightsStep m
            (pieceStep m (captureStep m (clearEpStep (clockStep (pushStep m b))))))) with
              state := { b.state with next_move := m },
              history := b.history } : Board).piece_bitboards
          = (fullmoveStep b.state.side_to_move (flipStep (rightsStep m
              (pieceStep m (captureStep m (clearEpStep (clockStep
                (pushStep m b)))))))).piece_bitboards from rfl]
        rw [hB1pb]
        simp only [List.length_set]
        rw [hlen12]
        omega
      have hy : getPB (move_piece false b.state.side_to_move 0 (Move.toSq m) (Move.fromSq m)
            { fullmoveStep b.state.side_to_move (flipStep (rightsStep m
                (pieceStep m (captureStep m (clearEpStep (clockStep (pushStep m b))))))) with
              state := { b.state with next_move := m }, history := b.history })
            (b.state.side_to_move ^^^ 1) 0
          = getPB b (b.state.side_to_move ^^^ 1) 0 ^^^ 2 ^ (Move.toSq m ^^^ 8) := by
        unfold getPB
        rw [move_piece_pb false _ _ _ _ hbound, getD_set_ne hi_ne _ _]
        rw [show ({ fullmoveStep b.state.side_to_move (flipStep (rightsStep m
            (pieceStep m (captureStep m (clearEpStep (clockStep (pushStep m b))))))) with
              state := { b.state with next_move := m },
              history := b.history } : Board).piece_bitboards
          = (fullmoveStep b.state.side_to_move (flipStep (rightsStep m
              (pieceStep m (captureStep m (clearEpStep (clockStep
                (pushStep m b)))))))).piece_bitboards from rfl]
        rw [hB1pb]
        exact getD_set_self (by
          simp only [List.length_set]
          rw [hlen12]
          omega) _ _
      rw [hy, move_piece_pb false _ _ _ _ hbound, hx]
      rw [show ({ fullmoveStep b.state.side_to_move (flipStep (rightsStep m
          (pieceStep m (captureStep m (clearEpStep (clockStep (pushStep m b))))))) with
            state := { b.state with next_move := m },
            history := b.history } : Board).piece_bitboards
        = (fullmoveStep b.state.side_to_move (flipStep (rightsStep m
            (pieceStep m (captureStep m (clearEpStep (clockStep
              (pushStep m b)))))))).piece_bitboards from rfl]
      rw [hB1pb, bit_move_restore hfpb0 htpb0 hfne, bit_remove_put hepbopp]
      apply List.ext_getElem?
      intro n
      by_cases h1 : (b.state.side_to_move ^^^ 1) * 6 + 0 = n
      · subst h1
        rw [List.getElem?_set_self (by
          simp only [List.length_set]
          rw [hlen12]
          omega)]
        rw [getElem?_eq_some_getD 0 (by rw [hlen12]; omega)]
        rfl
      · by_cases h2 : b.state.side_to_move * 6 + 0 = n
        · subst h2
          rw [List.getElem?_set_ne h1, List.getElem?_set_self (by
            simp only [List.length_set]
            rw [hlen12]
            omega)]
          rw [getElem?_eq_some_getD 0 (by rw [hlen12]; omega)]
          rfl
        · rw [List.getElem?_set_ne h1, List.getElem?_set_ne h2, List.getElem?_set_ne h1,
            List.getElem?_set_ne h2]
    · rw [put_piece_sb]
      have hgetB1 : getSB (fullmoveStep b.state.side_to_move (flipStep (rightsStep m
            (pieceStep m (captureStep m (clearEpStep (clockStep (pushStep m b))))))))
            b.state.side_to_move
          = (getSB b b.state.side_to_move ^^^ 2 ^ Move.fromSq m) ||| 2 ^ Move.toSq m := by
        unfold getSB
        rw [hB1sb, getD_set_ne hoppne _ _]
        exact getD_set_self (by rw [hlen2]; omega) _ _
      have hgbase : getSB ({ fullmoveStep b.state.side_to_move (flipStep (rightsStep m
            (pieceStep m (captureStep m (clearEpStep (clockStep (pushStep m b))))))) with
            state := { b.state with next_move := m }, history := b.history } : Board)
            b.state.side_to_move
          = (getSB b b.state.side_to_move ^^^ 2 ^ Move.fromSq m) ||| 2 ^ Move.toSq m := hgetB1
      have hboundsb : b.state.side_to_move
          < ({ fullmoveStep b.state.side_to_move (flipStep (rightsStep m
              (pieceStep m (captureStep m (clearEpStep (clockStep (pushStep m b))))))) with
              state := { b.state with next_move := m },
              history := b.history } : Board).side_bitboards.length := by
        rw [show ({ fullmoveStep b.state.side_to_move (flipStep (rightsStep m
            (pieceStep m (captureStep m (clearEpStep (clockStep (pushStep m b))))))) with
              state := { b.state with next_move := m },
              history := b.history } : Board).side_bitboards
          = (fullmoveStep b.state.side_to_move (flipStep (rightsStep m
              (pieceStep m (captureStep m (clearEpStep (clockStep
                (pushStep m b)))))))).side_bitboards from rfl]
        rw [hB1sb]
        simp only [List.length_set]
        rw [hlen2]
        omega
      have hy : getSB (move_piece false b.state.side_to_move 0 (Move.toSq m) (Move.fromSq m)
            { fullmoveStep b.state.side_to_move (flipStep (rightsStep m
                (pieceStep m (captureStep m (clearEpStep (clockStep (pushStep m b))))))) with
              state := { b.state with next_move := m }, history := b.history })
            (b.state.side_to_move ^^^ 1)
          = getSB b (b.state.side_to_move ^^^ 1) ^^^ 2 ^ (Move.toSq m ^^^ 8) := by
        unfold getSB
        rw [move_piece_sb false _ _ _ _ hboundsb, getD_set_ne hoppne.symm _ _]
        rw [show ({ fullmoveStep b.state.side_to_move (flipStep (rightsStep m
            (pieceStep m (captureStep m (clearEpStep (clockStep (pushStep m b))))))) with
              state := { b.state with next_move := m },
              history := b.history } : Board).side_bitboards
          = (fullmoveStep b.state.side_to_move (flipStep (rightsStep m
              (pieceStep m (captureStep m (clearEpStep (clockStep
                (pushStep m b)))))))).side_bitboards from rfl]
        rw [hB1sb]
        exact getD_set_self (by
          simp only [List.length_set]
          rw [hlen2]
          omega) _ _
      rw [hy, move_piece_sb false _ _ _ _ hboundsb, hgbase]
      rw [show ({ fullmoveStep b.state.side_to_move (flipStep (rightsStep m
          (pieceStep m (captureStep m (clearEpStep (clockStep (pushStep m b))))))) with
            state := { b.state with next_move := m },
            history := b.history } : Board).side_bitboards
        = (fullmoveStep b.state.side_to_move (flipStep (rightsStep m
            (pieceStep m (captureStep m (clearEpStep (clockStep
              (pushStep m b)))))))).side_bitboards from rfl]
      rw [hB1sb, bit_move_restore hsbf hsbt hfne, bit_remove_put hsbeopp]
      apply List.ext_getElem?
      intro n
      by_cases h1 : b.state.side_to_move ^^^ 1 = n
      · subst h1
        rw [List.getElem?_set_self (by
          simp only [List.length_set]
          rw [hlen2]
          omega)]
        rw [getElem?_eq_some_getD 0 (by rw [hlen2]; omega)]
        rfl
      · by_cases h2 : b.state.side_to_move = n
        · subst h2
          rw [List.getElem?_set_ne h1, List.getElem?_set_self (by
            simp only [List.length_set]
            rw [hlen2]
            omega)]
          rw [getElem?_eq_some_getD 0 (by rw [hlen2]; omega)]
          rfl
        · rw [List.getElem?_set_ne h1, List.getElem?_set_ne h2, List.getElem?_set_ne h1,
            List.getElem?_set_ne h2]

/-- The castling arm of the rook step, written with the rook's
origin/destination squares. -/
theorem rookStep_castle {m : Nat} (b : Board) (hcast : Move.castling m = true)
    (ht : Move.toSq m = 6 ∨ Move.toSq m = 2 ∨ Move.toSq m = 62 ∨ Move.toSq m = 58) :
    rookStep m b = some (move_piece true b.state.side_to_move 3
      (castleRookFrom (Move.toSq m)) (castleRookTo (Move.toSq m)) b) := by
  unfold rookStep
  rcases ht with h | h | h | h <;>
    simp [hcast, h, castleRookFrom, castleRookTo]

/-- Eight interleaved single-bit updates (king out/in, rook out/in, then
their inverses) cancel when the four squares are distinct and carry the
expected occupancies. -/
theorem bit_castle_restore {x f t rf rt : Nat}
    (hf : x.testBit f = true) (ht : x.testBit t = false)
    (hrf : x.testBit rf = true) (hrt : x.testBit rt = false)
    (hft : f ≠ t) (hfrf : f ≠ rf) (hfrt : f ≠ rt)
    (htrf : t ≠ rf) (htrt : t ≠ rt) (hrfrt : rf ≠ rt) :
    ((((((((x ^^^ 2 ^ f) ||| 2 ^ t) ^^^ 2 ^ rf) ||| 2 ^ rt) ^^^ 2 ^ t) ||| 2 ^ f)
      ^^^ 2 ^ rt) ||| 2 ^ rf) = x := by
  apply Nat.eq_of_testBit_eq
  intro i
  simp only [Nat.testBit_or, Nat.testBit_xor, Nat.testBit_two_pow]
  by_cases h1 : f = i
  · subst h1
    simp [hf, Ne.symm hft, Ne.symm hfrf, Ne.symm hfrt]
  · by_cases h2 : t = i
    · subst h2
      simp [ht, h1, Ne.symm htrf, Ne.symm htrt]
    · by_cases h3 : rf = i
      · subst h3
        simp [hrf, h1, h2, Ne.symm hrfrt]
      · by_cases h4 : rt = i
        · subst h4
          simp [hrt, h1, h2, h3]
        · simp [h1, h2, h3, h4]

/-- Round trip for a castling move. -/
theorem restore_castle {b : Board} {m : Nat} (hinv : invariants b) (hfit : MoveFits b m)
    (hcast : Move.castling m = true) :
    make_move_applied m b
      = some (fullmoveStep b.state.side_to_move (flipStep
          (move_piece true b.state.side_to_move 3 (castleRookFrom (Move.toSq m))
            (castleRookTo (Move.toSq m))
            (rightsStep m (pieceStep m (captureStep m (clearEpStep (clockStep
              (pushStep m b))))))))) ∧
    unmake_move (fullmoveStep b.state.side_to_move (flipStep
          (move_piece true b.state.side_to_move 3 (castleRookFrom (Move.toSq m))
            (castleRookTo (Move.toSq m))
            (rightsStep m (pieceStep m (captureStep m (clearEpStep (clockStep
              (pushStep m b)))))))))
      = some { b with state := { b.state with next_move := m } } := by
  have hlen12 : b.piece_bitboards.length = 12 := hinv.1.1
  have hlen2 : b.side_bitboards.length = 2 := hinv.1.2.1
  have hlen64 : b.piece_list.length = 64 := hinv.1.2.2.1
  have hus2 : b.state.side_to_move < 2 := hinv.1.2.2.2
  have hf64 := fromSq_lt m
  have ht64 := toSq_lt m
  obtain ⟨hp6, hfne, hcap7, hplf, hsbf, hsbt, hnonep, hpromo8, hepc, hcastc⟩ := hfit
  obtain ⟨hp5, hcap6, hq6, hepF, hside, hsbrf, hsbrtus, hsbrtopp, hplrf, hplrt⟩ := hcastc hcast
  obtain ⟨hplt, -, -⟩ := hnonep hepF
  rw [hcap6] at hplt
  rw [hp5] at hplf
  have hdist : Move.fromSq m ≠ castleRookFrom (Move.toSq m) ∧
      Move.fromSq m ≠ castleRookTo (Move.toSq m) ∧
      Move.toSq m ≠ castleRookFrom (Move.toSq m) ∧
      Move.toSq m ≠ castleRookTo (Move.toSq m) ∧
      castleRookFrom (Move.toSq m) ≠ castleRookTo (Move.toSq m) ∧
      castleRookFrom (Move.toSq m) < 64 ∧ castleRookTo (Move.toSq m) < 64 ∧
      (Move.toSq m = 6 ∨ Move.toSq m = 2 ∨ Move.toSq m = 62 ∨ Move.toSq m = 58) := by
    rcases hside with ⟨-, hf, ht⟩ | ⟨-, hf, ht⟩ <;> rcases ht with ht | ht <;>
      rw [hf, ht] <;> decide
  obtain ⟨hfrf, hfrt, htrf, htrt, hrfrt, hrf64, hrt64, ht4⟩ := hdist
  have hi53 : b.state.side_to_move * 6 + 5 ≠ b.state.side_to_move * 6 + 3 := by omega
  obtain ⟨h2pb, h2sb, h2pl, h2hist, h2stm⟩ := s2_facts m b
  have hcs := captureStep_none (clearEpStep (clockStep (pushStep m b))) hcap6
  have hp5ne0 : Move.piece m ≠ 0 := by rw [hp5]; norm_num
  have hpb5f : (getPB b b.state.side_to_move 5).testBit (Move.fromSq m) = true :=
    pb_bit_true_of_pl hinv hus2 (by norm_num) hf64 hsbf hplf
  have hpb5t : (getPB b b.state.side_to_move 5).testBit (Move.toSq m) = false :=
    pb_bit_false_of_sb hinv hus2 (by norm_num) hsbt
  have hpb3rf : (getPB b b.state.side_to_move 3).testBit (castleRookFrom (Move.toSq m))
      = true :=
    pb_bit_true_of_pl hinv hus2 (by norm_num) hrf64 hsbrf hplrf
  have hpb3rt : (getPB b b.state.side_to_move 3).testBit (castleRookTo (Move.toSq m))
      = false :=
    pb_bit_false_of_sb hinv hus2 (by norm_num) hsbrtus
  -- the piece step seen from the original board
  have h4pb : (pieceStep m (captureStep m (clearEpStep (clockStep (pushStep m b))))).piece_bitboards
      = b.piece_bitboards.set (b.state.side_to_move * 6 + 5)
          ((getPB b b.state.side_to_move 5 ^^^ 2 ^ Move.fromSq m) ||| 2 ^ Move.toSq m) := by
    rw [hcs, pieceStep_nonpawn _ hp5ne0, hp5]
    have hbound : (clearEpStep (clockStep (pushStep m b))).state.side_to_move * 6 + 5
        < (clearEpStep (clockStep (pushStep m b))).piece_bitboards.length := by
      rw [h2stm, h2pb, hlen12]; omega
    rw [move_piece_pb true _ _ _ _ hbound, h2stm, getPB_eq_of h2pb, h2pb]
  have h4sb : (pieceStep m (captureStep m (clearEpStep (clockStep (pushStep m b))))).side_bitboards
      = b.side_bitboards.set b.state.side_to_move
          ((getSB b b.state.side_to_move ^^^ 2 ^ Move.fromSq m) ||| 2 ^ Move.toSq m) := by
    rw [hcs, pieceStep_nonpawn _ hp5ne0]
    have hbound : (clearEpStep (clockStep (pushStep m b))).state.side_to_move
        < (clearEpStep (clockStep (pushStep m b))).side_bitboards.length := by
      rw [h2stm, h2sb, hlen2]; omega
    rw [move_piece_sb true _ _ _ _ hbound, h2stm, getSB_eq_of h2sb, h2sb]
  have h4pl : (pieceStep m (captureStep m (clearEpStep (clockStep (pushStep m b))))).piece_list
      = (b.piece_list.set (Move.fromSq m) 6).set (Move.toSq m) 5 := by
    rw [hcs, pieceStep_nonpawn _ hp5ne0, hp5, move_piece_pl, h2pl]
  have h4hist : (pieceStep m (captureStep m (clearEpStep (clockStep (pushStep m b))))).history
      = { b.state with next_move := m } :: b.history := by
    rw [hcs, pieceStep_nonpawn _ hp5ne0, move_piece_history, h2hist]
  have h4stm : (pieceStep m (captureStep m (clearEpStep (clockStep
        (pushStep m b))))).state.side_to_move = b.state.side_to_move := by
    rw [hcs, pieceStep_nonpawn _ hp5ne0, move_piece_stm, h2stm]
  -- the rights step preserves the data
  have hXpb : (rightsStep m (pieceStep m (captureStep m (clearEpStep (clockStep
        (pushStep m b)))))).piece_bitboards
      = b.piece_bitboards.set (b.state.side_to_move * 6 + 5)
          ((getPB b b.state.side_to_move 5 ^^^ 2 ^ Move.fromSq m) ||| 2 ^ Move.toSq m) := by
    rw [(rightsStep_data _ _).1, h4pb]
  have hXsb : (rightsStep m (pieceStep m (captureStep m (clearEpStep (clockStep
        (pushStep m b)))))).side_bitboards
      = b.side_bitboards.set b.state.side_to_move
          ((getSB b b.state.side_to_move ^^^ 2 ^ Move.fromSq m) ||| 2 ^ Move.toSq m) := by
    rw [(rightsStep_data _ _).2.1, h4sb]
  have hXpl : (rightsStep m (pieceStep m (captureStep m (clearEpStep (clockStep
        (pushStep m b)))))).piece_list
      = (b.piece_list.set (Move.fromSq m) 6).set (Move.toSq m) 5 := by
    rw [(rightsStep_data _ _).2.2.1, h4pl]
  have hXhist : (rightsStep m (pieceStep m (captureStep m (clearEpStep (clockStep
        (pushStep m b)))))).history
      = { b.state with next_move := m } :: b.history := by
    rw [(rightsStep_data _ _).2.2.2.1, h4hist]
  have hXstm : (rightsStep m (pieceStep m (captureStep m (clearEpStep (clockStep
        (pushStep m b)))))).state.side_to_move = b.state.side_to_move := by
    rw [(rightsStep_data _ _).2.2.2.2, h4stm]
  have hboundX : b.state.side_to_move * 6 + 3
      < (rightsStep m (pieceStep m (captureStep m (clearEpStep (clockStep
          (pushStep m b)))))).piece_bitboards.length := by
    rw [hXpb]
    simp only [List.length_set]
    rw [hlen12]; omega
  have hboundXs : b.state.side_to_move
      < (rightsStep m (pieceStep m (captureStep m (clearEpStep (clockStep
          (pushStep m b)))))).side_bitboards.length := by
    rw [hXsb]
    simp only [List.length_set]
    rw [hlen2]; omega
  have hgX3 : getPB (rightsStep m (pieceStep m (captureStep m (clearEpStep (clockStep
        (pushStep m b)))))) b.state.side_to_move 3
      = getPB b b.state.side_to_move 3 := by
    unfold getPB
    rw [hXpb, getD_set_ne hi53 _ _]
  have hgXs : getSB (rightsStep m (pieceStep m (captureStep m (clearEpStep (clockStep
        (pushStep m b)))))) b.state.side_to_move
      = (getSB b b.state.side_to_move ^^^ 2 ^ Move.fromSq m) ||| 2 ^ Move.toSq m := by
    unfold getSB
    rw [hXsb]
    exact getD_set_self (by rw [hlen2]; omega) _ _
  -- the fully applied board
  have hB1pb : (fullmoveStep b.state.side_to_move (flipStep
        (move_piece true b.state.side_to_move 3 (castleRookFrom (Move.toSq m))
          (castleRookTo (Move.toSq m))
          (rightsStep m (pieceStep m (captureStep m (clearEpStep (clockStep
            (pushStep m b))))))))).piece_bitboards
      = (b.piece_bitboards.set (b.state.side_to_move * 6 + 5)
          ((getPB b b.state.side_to_move 5 ^^^ 2 ^ Move.fromSq m) ||| 2 ^ Move.toSq m)).set
          (b.state.side_to_move * 6 + 3)
          ((getPB b b.state.side_to_move 3 ^^^ 2 ^ castleRookFrom (Move.toSq m))
            ||| 2 ^ castleRookTo (Move.toSq m)) := by
    rw [(fullmoveStep_data _ _).1, (flipStep_data _).1,
      move_piece_pb true _ _ _ _ hboundX, hgX3, hXpb]
  have hB1sb : (fullmoveStep b.state.side_to_move (flipStep
        (move_piece true b.state.side_to_move 3 (castleRookFrom (Move.toSq m))
          (castleRookTo (Move.toSq m))
          (rightsStep m (pieceStep m (captureStep m (clearEpStep (clockStep
            (pushStep m b))))))))).side_bitboards
      = b.side_bitboards.set b.state.side_to_move
          ((((getSB b b.state.side_to_move ^^^ 2 ^ Move.fromSq m) ||| 2 ^ Move.toSq m)
            ^^^ 2 ^ castleRookFrom (Move.toSq m)) ||| 2 ^ castleRookTo (Move.toSq m)) := by
    rw [(fullmoveStep_data _ _).2.1, (flipStep_data _).2.1,
      move_piece_sb true _ _ _ _ hboundXs, hgXs, hXsb, List.set_set]
  have hB1pl : (fullmoveStep b.state.side_to_move (flipStep
        (move_piece true b.state.side_to_move 3 (castleRookFrom (Move.toSq m))
          (castleRookTo (Move.toSq m))
          (rightsStep m (pieceStep m (captureStep m (clearEpStep (clockStep
            (pushStep m b))))))))).piece_list
      = (((b.piece_list.set (Move.fromSq m) 6).set (Move.toSq m) 5).set
          (castleRookFrom (Move.toSq m)) 6).set (castleRookTo (Move.toSq m)) 3 := by
    rw [(fullmoveStep_data _ _).2.2.1, (flipStep_data _).2.2.1, move_piece_pl, hXpl]
  have hB1hist : (fullmoveStep b.state.side_to_move (flipStep
        (move_piece true b.state.side_to_move 3 (castleRookFrom (Move.toSq m))
          (castleRookTo (Move.toSq m))
          (rightsStep m (pieceStep m (captureStep m (clearEpStep (clockStep
            (pushStep m b))))))))).history
      = { b.state with next_move := m } :: b.history := by
    rw [(fullmoveStep_data _ _).2.2.2, (flipStep_data _).2.2.2, move_piece_history, hXhist]
  constructor
  · unfold make_move_applied
    rw [rookStep_castle _ hcast ht4, hXstm]
  · rw [unmake_castle hB1hist hcast hq6 hepF hcap6 ht4, hp5]
    refine congrArg some (Board.ext' ?_ ?_ ?_ ?_ ?_)
    · rw [move_piece_false_state, move_piece_false_state]
    · rw [move_piece_history, move_piece_history]
    · rw [move_piece_pl, move_piece_pl]
      show (((((fullmoveStep b.state.side_to_move (flipStep
          (move_piece true b.state.side_to_move 3 (castleRookFrom (Move.toSq m))
            (castleRookTo (Move.toSq m))
            (rightsStep m (pieceStep m (captureStep m (clearEpStep (clockStep
              (pushStep m b))))))))).piece_list.set
            (Move.toSq m) 6).set (Move.fromSq m) 5).set (castleRookTo (Move.toSq m)) 6).set
            (castleRookFrom (Move.toSq m)) 3)
          = b.piece_list
      rw [hB1pl]
      apply List.ext_getElem?
      intro n
      by_cases h1 : castleRookFrom (Move.toSq m) = n
      · subst h1
        rw [List.getElem?_set_self (by
          simp only [List.length_set]
          rw [hlen64]
          exact hrf64)]
        rw [getElem?_eq_some_getD 6 (by rw [hlen64]; exact hrf64), hplrf]
      · by_cases h2 : castleRookTo (Move.toSq m) = n
        · subst h2
          rw [List.getElem?_set_ne h1, List.getElem?_set_self (by
            simp only [List.length_set]
            rw [hlen64]
            exact hrt64)]
          rw [getElem?_eq_some_getD 6 (by rw [hlen64]; exact hrt64), hplrt]
        · by_cases h3 : Move.fromSq m = n
          · subst h3
            rw [List.getElem?_set_ne h1, List.getElem?_set_ne h2, List.getElem?_set_self (by
              simp only [List.length_set]
              rw [hlen64]
              exact hf64)]
            rw [getElem?_eq_some_getD 6 (by rw [hlen64]; exact hf64), hplf]
          · by_cases h4 : Move.toSq m = n
            · subst h4
              rw [List.getElem?_set_ne h1, List.getElem?_set_ne h2, List.getElem?_set_ne h3,
                List.getElem?_set_self (by
                  simp only [List.length_set]
                  rw [hlen64]
                  exact ht64)]
              rw [getElem?_eq_some_getD 6 (by rw [hlen64]; exact ht64), hplt]
            · rw [List.getElem?_set_ne h1, List.getElem?_set_ne h2, List.getElem?_set_ne h3,
                List.getElem?_set_ne h4, List.getElem?_set_ne h2, List.getElem?_set_ne h1,
                List.getElem?_set_ne h4, List.getElem?_set_ne h3]
    · have hbound5 : b.state.side_to_move * 6 + 5
          < ({ fullmoveStep b.state.side_to_move (flipStep
              (move_piece true b.state.side_to_move 3 (castleRookFrom (Move.toSq m))
                (castleRookTo (Move.toSq m))
                (rightsStep m (pieceStep m (captureStep m (clearEpStep (clockStep
                  (pushStep m b)))))))) with
              state := { b.state with next_move := m },
              history := b.history } : Board).piece_bitboards.length := by
        rw [show ({ fullmoveStep b.state.side_to_move (flipStep
            (move_piece true b.state.side_to_move 3 (castleRookFrom (Move.toSq m))
              (castleRookTo (Move.toSq m))
              (rightsStep m (pieceStep m (captureStep m (clearEpStep (clockStep
                (pushStep m b)))))))) with
              state := { b.state with next_move := m },
              history := b.history } : Board).piece_bitboards
          = (fullmoveStep b.state.side_to_move (flipStep
              (move_piece true b.state.side_to_move 3 (castleRookFrom (Move.toSq m))
                (castleRookTo (Move.toSq m))
                (rightsStep m (pieceStep m (captureStep m (clearEpStep (clockStep
                  (pushStep m b))))))))).piece_bitboards from rfl]
        rw [hB1pb]
        simp only [List.length_set]
        rw [hlen12]
        omega
      have hx : getPB ({ fullmoveStep b.state.side_to_move (flipStep
            (move_piece true b.state.side_to_move 3 (castleRookFrom (Move.toSq m))
              (castleRookTo (Move.toSq m))
              (rightsStep m (pieceStep m (captureStep m (clearEpStep (clockStep
                (pushStep m b)))))))) with
            state := { b.state with next_move := m }, history := b.history } : Board)
            b.state.side_to_move 5
          = (getPB b b.state.side_to_move 5 ^^^ 2 ^ Move.fromSq m) ||| 2 ^ Move.toSq m := by
        unfold getPB
        rw [show ({ fullmoveStep b.state.side_to_move (flipStep
            (move_piece true b.state.side_to_move 3 (castleRookFrom (Move.toSq m))
              (castleRookTo (Move.toSq m))
              (rightsStep m (pieceStep m (captureStep m (clearEpStep (clockStep
                (pushStep m b)))))))) with
              state := { b.state with next_move := m },
              history := b.history } : Board).piece_bitboards
          = (fullmoveStep b.state.side_to_move (flipStep
              (move_piece true b.state.side_to_move 3 (castleRookFrom (Move.toSq m))
                (castleRookTo (Move.toSq m))
                (rightsStep m (pieceStep m (captureStep m (clearEpStep (clockStep
                  (pushStep m b))))))))).piece_bitboards from rfl]
        rw [hB1pb, getD_set_ne (Ne.symm hi53) _ _]
        exact getD_set_self (by rw [hlen12]; omega) _ _
      have hy : getPB (move_piece false b.state.side_to_move 5 (Move.toSq m) (Move.fromSq m)
            { fullmoveStep b.state.side_to_move (flipStep
              (move_piece true b.state.side_to_move 3 (castleRookFrom (Move.toSq m))
                (castleRookTo (Move.toSq m))
                (rightsStep m (pieceStep m (captureStep m (clearEpStep (clockStep
                  (pushStep m b)))))))) with
              state := { b.state with next_move := m }, history := b.history })
            b.state.side_to_move 3
          = (getPB b b.state.side_to_move 3 ^^^ 2 ^ castleRookFrom (Move.toSq m))
            ||| 2 ^ castleRookTo (Move.toSq m) := by
        unfold getPB
        rw [move_piece_pb false _ _ _ _ hbound5, getD_set_ne hi53 _ _]
        rw [show ({ fullmoveStep b.state.side_to_move (flipStep
            (move_piece true b.state.side_to_move 3 (castleRookFrom (Move.toSq m))
              (castleRookTo (Move.toSq m))
              (rightsStep m (pieceStep m (captureStep m (clearEpStep (clockStep
                (pushStep m b)))))))) with
              state := { b.state with next_move := m },
              history := b.history } : Board).piece_bitboards
          = (fullmoveStep b.state.side_to_move (flipStep
              (move_piece true b.state.side_to_move 3 (castleRookFrom (Move.toSq m))
                (castleRookTo (Move.toSq m))
                (rightsStep m (pieceStep m (captureStep m (clearEpStep (clockStep
                  (pushStep m b))))))))).piece_bitboards from rfl]
        rw [hB1pb]
        exact getD_set_self (by
          simp only [List.length_set]
          rw [hlen12]
          omega) _ _
      rw [move_piece_pb false _ _ _ _ (by
        rw [move_piece_pb false _ _ _ _ hbound5]
        simp only [List.length_set]
        rw [show ({ fullmoveStep b.state.side_to_move (flipStep
            (move_piece true b.state.side_to_move 3 (castleRookFrom (Move.toSq m))
              (castleRookTo (Move.toSq m))
              (rightsStep m (pieceStep m (captureStep m (clearEpStep (clockStep
                (pushStep m b)))))))) with
              state := { b.state with next_move := m },
              history := b.history } : Board).piece_bitboards
          = (fullmoveStep b.state.side_to_move (flipStep
              (move_piece true b.state.side_to_move 3 (castleRookFrom (Move.toSq m))
                (castleRookTo (Move.toSq m))
                (rightsStep m (pieceStep m (captureStep m (clearEpStep (clockStep
                  (pushStep m b))))))))).piece_bitboards from rfl]
        rw [hB1pb]
        simp only [List.length_set]
        rw [hlen12]
        omega)]
      rw [hy, move_piece_pb false _ _ _ _ hbound5, hx]
      rw [show ({ fullmoveStep b.state.side_to_move (flipStep
          (move_piece true b.state.side_to_move 3 (castleRookFrom (Move.toSq m))
            (castleRookTo (Move.toSq m))
            (rightsStep m (pieceStep m (captureStep m (clearEpStep (clockStep
              (pushStep m b)))))))) with
            state := { b.state with next_move := m },
            history := b.history } : Board).piece_bitboards
        = (fullmoveStep b.state.side_to_move (flipStep
            (move_piece true b.state.side_to_move 3 (castleRookFrom (Move.toSq m))
              (castleRookTo (Move.toSq m))
              (rightsStep m (pieceStep m (captureStep m (clearEpStep (clockStep
                (pushStep m b))))))))).piece_bitboards from rfl]
      rw [hB1pb, bit_move_restore hpb5f hpb5t hfne, bit_move_restore hpb3rf hpb3rt hrfrt]
      apply List.ext_getElem?
      intro n
      by_cases h1 : b.state.side_to_move * 6 + 3 = n
      · subst h1
        rw [List.getElem?_set_self (by
          simp only [List.length_set]
          rw [hlen12]
          omega)]
        rw [getElem?_eq_some_getD 0 (by rw [hlen12]; omega)]
        rfl
      · by_cases h2 : b.state.side_to_move * 6 + 5 = n
        · subst h2
          rw [List.getElem?_set_ne h1, List.getElem?_set_self (by
            simp only [List.length_set]
            rw [hlen12]
            omega)]
          rw [getElem?_eq_some_getD 0 (by rw [hlen12]; omega)]
          rfl
        · rw [List.getElem?_set_ne h1, List.getElem?_set_ne h2, List.getElem?_set_ne h1,
            List.getElem?_set_ne h2]
    · have hboundsb : b.state.side_to_move
          < ({ fullmoveStep b.state.side_to_move (flipStep
              (move_piece true b.state.side_to_move 3 (castleRookFrom (Move.toSq m))
                (castleRookTo (Move.toSq m))
                (rightsStep m (pieceStep m (captureStep m (clearEpStep (clockStep
                  (pushStep m b)))))))) with
              state := { b.state with next_move := m },
              history := b.history } : Board).side_bitboards.length := by
        rw [show ({ fullmoveStep b.state.side_to_move (flipStep
            (move_piece true b.state.side_to_move 3 (castleRookFrom (Move.toSq m))
              (castleRookTo (Move.toSq m))
              (rightsStep m (pieceStep m (captureStep m (clearEpStep (clockStep
                (pushStep m b)))))))) with
              state := { b.state with next_move := m },
              history := b.history } : Board).side_bitboards
          = (fullmoveStep b.state.side_to_move (flipStep
              (move_piece true b.state.side_to_move 3 (castleRookFrom (Move.toSq m))
                (castleRookTo (Move.toSq m))
                (rightsStep m (pieceStep m (captureStep m (clearEpStep (clockStep
                  (pushStep m b))))))))).side_bitboards from rfl]
        rw [hB1sb]
        simp only [List.length_set]
        rw [hlen2]
        omega
      have hxs : getSB ({ fullmoveStep b.state.side_to_move (flipStep
            (move_piece true b.state.side_to_move 3 (castleRookFrom (Move.toSq m))
              (castleRookTo (Move.toSq m))
              (rightsStep m (pieceStep m (captureStep m (clearEpStep (clockStep
                (pushStep m b)))))))) with
            state := { b.state with next_move := m }, history := b.history } : Board)
            b.state.side_to_move
          = (((getSB b b.state.side_to_move ^^^ 2 ^ Move.fromSq m) ||| 2 ^ Move.toSq m)
            ^^^ 2 ^ castleRookFrom (Move.toSq m)) ||| 2 ^ castleRookTo (Move.toSq m) := by
        unfold getSB
        rw [show ({ fullmoveStep b.state.side_to_move (flipStep
            (move_piece true b.state.side_to_move 3 (castleRookFrom (Move.toSq m))
              (castleRookTo (Move.toSq m))
              (rightsStep m (pieceStep m (captureStep m (clearEpStep (clockStep
                (pushStep m b)))))))) with
              state := { b.state with next_move := m },
              history := b.history } : Board).side_bitboards
          = (fullmoveStep b.state.side_to_move (flipStep
              (move_piece true b.state.side_to_move 3 (castleRookFrom (Move.toSq m))
                (castleRookTo (Move.toSq m))
                (rightsStep m (pieceStep m (captureStep m (clearEpStep (clockStep
                  (pushStep m b))))))))).side_bitboards from rfl]
        rw [hB1sb]
        exact getD_set_self (by rw [hlen2]; omega) _ _
      have hys : getSB (move_piece false b.state.side_to_move 5 (Move.toSq m) (Move.fromSq m)
            { fullmoveStep b.state.side_to_move (flipStep
              (move_piece true b.state.side_to_move 3 (castleRookFrom (Move.toSq m))
                (castleRookTo (Move.toSq m))
                (rightsStep m (pieceStep m (captureStep m (clearEpStep (clockStep
                  (pushStep m b)))))))) with
              state := { b.state with next_move := m }, history := b.history })
            b.state.side_to_move
          = (((((getSB b b.state.side_to_move ^^^ 2 ^ Move.fromSq m) ||| 2 ^ Move.toSq m)
            ^^^ 2 ^ castleRookFrom (Move.toSq m)) ||| 2 ^ castleRookTo (Move.toSq m))
            ^^^ 2 ^ Move.toSq m) ||| 2 ^ Move.fromSq m := by
        unfold getSB
        rw [move_piece_sb false _ _ _ _ hboundsb]
        rw [getD_set_self (by
          show b.state.side_to_move
            < ({ fullmoveStep b.state.side_to_move (flipStep
                (move_piece true b.state.side_to_move 3 (castleRookFrom (Move.toSq m))
                  (castleRookTo (Move.toSq m))
                  (rightsStep m (pieceStep m (captureStep m (clearEpStep (clockStep
                    (pushStep m b)))))))) with
                state := { b.state with next_move := m },
                history := b.history } : Board).side_bitboards.length
          exact hboundsb) _ _]
        rw [hxs]
        rfl
      rw [move_piece_sb false _ _ _ _ (by
        rw [move_piece_sb false _ _ _ _ hboundsb]
        simp only [List.length_set]
        rw [show ({ fullmoveStep b.state.side_to_move (flipStep
            (move_piece true b.state.side_to_move 3 (castleRookFrom (Move.toSq m))
              (castleRookTo (Move.toSq m))
              (rightsStep m (pieceStep m (captureStep m (clearEpStep (clockStep
                (pushStep m b)))))))) with
              state := { b.state with next_move := m },
              history := b.history } : Board).side_bitboards
          = (fullmoveStep b.state.side_to_move (flipStep
              (move_piece true b.state.side_to_move 3 (castleRookFrom (Move.toSq m))
                (castleRookTo (Move.toSq m))
                (rightsStep m (pieceStep m (captureStep m (clearEpStep (clockStep
                  (pushStep m b))))))))).side_bitboards from rfl]
        rw [hB1sb]
        simp only [List.length_set]
        rw [hlen2]
        omega)]
      rw [hys, move_piece_sb false _ _ _ _ hboundsb, hxs]
      rw [show ({ fullmoveStep b.state.side_to_move (flipStep
          (move_piece true b.state.side_to_move 3 (castleRookFrom (Move.toSq m))
            (castleRookTo (Move.toSq m))
            (rightsStep m (pieceStep m (captureStep m (clearEpStep (clockStep
              (pushStep m b)))))))) with
            state := { b.state with next_move := m },
            history := b.history } : Board).side_bitboards
        = (fullmoveStep b.state.side_to_move (flipStep
            (move_piece true b.state.side_to_move 3 (castleRookFrom (Move.toSq m))
              (castleRookTo (Move.toSq m))
              (rightsStep m (pieceStep m (captureStep m (clearEpStep (clockStep
                (pushStep m b))))))))).side_bitboards from rfl]
      rw [hB1sb]
      simp only [List.set_set]
      rw [bit_castle_restore hsbf hsbt hsbrf hsbrtus hfne hfrf hfrt htrf htrt hrfrt]
      exact set_getD_self (by rw [hlen2]; omega) rfl

/-- The make/unmake round trip: on an invariant-satisfying board, the full
`make_move` update pipeline always succeeds for a structurally pseudo-legal
move, and `unmake_move` maps its result back to the original board with
only `state.next_move` overwritten. -/
theorem make_unmake_restore {b : Board} {m : Nat} (hinv : invariants b)
    (hfit : MoveFits b m) :
    ∃ b1, make_move_applied m b = some b1 ∧
      unmake_move b1 = some { b with state := { b.state with next_move := m } } := by
  by_cases hcast : Move.castling m = true
  · obtain ⟨h1, h2⟩ := restore_castle hinv hfit hcast
    exact ⟨_, h1, h2⟩
  · have hcastF : Move.castling m = false := by
      cases h : Move.castling m
      · rfl
      · exact absurd h hcast
    by_cases hep : Move.en_passant m = true
    · obtain ⟨h1, h2⟩ := restore_ep hinv hfit hcastF hep
      exact ⟨_, h1, h2⟩
    · have hepF : Move.en_passant m = false := by
        cases h : Move.en_passant m
        · rfl
        · exact absurd h hep
      by_cases hq : Move.promotion m = 6
      · by_cases hc6 : Move.capture m = 6
        · obtain ⟨h1, h2⟩ := restore_plain_quiet hinv hfit hcastF hepF hq hc6
          exact ⟨_, h1, h2⟩
        · obtain ⟨h1, h2⟩ := restore_plain_capture hinv hfit hcastF hepF hq hc6
          exact ⟨_, h1, h2⟩
      · by_cases hc6 : Move.capture m = 6
        · obtain ⟨h1, h2⟩ := restore_promo_quiet hinv hfit hcastF hepF hq hc6
          exact ⟨_, h1, h2⟩
        · obtain ⟨h1, h2⟩ := restore_promo_capture hinv hfit hcastF hepF hq hc6
          exact ⟨_, h1, h2⟩

/-- `make_move` in terms of the applied board: it always succeeds on a
structurally pseudo-legal move; the result is `(true, applied)` when the
mover's king square is not attacked afterwards, and `(false, restored)`
otherwise, where `restored` is the original board with only
`state.next_move` overwritten. -/
theorem make_move_spec {b : Board} {m : Nat} (hinv : invariants b)
    (hfit : MoveFits b m) :
    ∃ b1, make_move_applied m b = some b1 ∧
      (is_square_attacked b1 (b.state.side_to_move ^^^ 1)
          (tz64 (getPB b1 b.state.side_to_move 5)) = false →
        make_move m b = some (true, b1)) ∧
      (is_square_attacked b1 (b.state.side_to_move ^^^ 1)
          (tz64 (getPB b1 b.state.side_to_move 5)) = true →
        make_move m b = some (false, { b with state := { b.state with next_move := m } })) ∧
      unmake_move b1 = some { b with state := { b.state with next_move := m } } := by
  obtain ⟨b1, hmk, hret⟩ := make_unmake_restore hinv hfit
  refine ⟨b1, hmk, ?_, ?_, hret⟩
  · intro hno
    unfold make_move
    rw [hmk]
    simp [hno]
  · intro hyes
    unfold make_move
    rw [hmk]
    simp [hyes, hret]

/-- A concrete position: White king e1 (square 4), Black rook a1 (square 0),
Black king h8 (square 63); White to move, no castling rights, empty
history. -/
def C1state : State :=
  State.mk 0 0 1 none 0 0 0

def C1board : Board :=
  Board.mk C1state []
    ((((List.replicate 64 6).set 4 5).set 0 3).set 63 5)
    ((((List.replicate 12 0).set 5 (2 ^ 4)).set 9 (2 ^ 0)).set 11 (2 ^ 63))
    [2 ^ 4, 2 ^ 0 + 2 ^ 63]

/-- King e1–d1: pseudo-legal but illegal (d1 is attacked by the rook on
a1). -/
def C1move : Nat := mkMove 5 4 3 6 6 false false false

/-- King e1–e2: a legal quiet move in `C1board`. -/
def C1moveLegal : Nat := mkMove 5 4 12 6 6 false false false

/-- C1 (amended): for every board satisfying the data-model invariants and
every structurally pseudo-legal move that `make_move` accepts (returns
`true`), `unmake_move` restores the board byte-for-byte — every piece and
side bitboard, the full piece list, the history, and the full state — with
only `state.next_move` overwritten by the move played.  (The original claim,
quantified over all pseudo-legal moves, fails for illegal moves: `make_move`
then returns `false` having already restored the board internally, so the
subsequent `unmake_move` pops an entry that was never pushed.) -/
theorem C1_make_unmake_roundtrip (b : Board) (m : Nat) (b1 : Board)
    (hinv : invariants b) (hfit : MoveFits b m)
    (hacc : make_move m b = some (true, b1)) :
    unmake_move b1 = some { b with state := { b.state with next_move := m } } := by
  obtain ⟨b1', hmk, hret⟩ := make_unmake_restore hinv hfit
  unfold make_move at hacc
  rw [hmk] at hacc
  by_cases hatk : is_square_attacked b1' (b.state.side_to_move ^^^ 1)
      (tz64 (getPB b1' b.state.side_to_move 5)) = true
  · simp [hatk] at hacc
    rw [hret] at hacc
    simp at hacc
  · have hatkF : is_square_attacked b1' (b.state.side_to_move ^^^ 1)
        (tz64 (getPB b1' b.state.side_to_move 5)) = false := by
      cases h : is_square_attacked b1' (b.state.side_to_move ^^^ 1)
        (tz64 (getPB b1' b.state.side_to_move 5))
      · rfl
      · exact absurd h hatk
    simp [hatkF] at hacc
    subst hacc
    exact hret

/-- C1 witness: the legal king move e1–e2 on the concrete position is
accepted and the round trip restores the board. -/
theorem C1_make_unmake_roundtrip_witness :
    invariants C1board ∧ MoveFits C1board C1moveLegal ∧
    unmake_move (fullmoveStep 0 (flipStep (rightsStep C1moveLegal
        (pieceStep C1moveLegal (captureStep C1moveLegal (clearEpStep (clockStep
          (pushStep C1moveLegal C1board))))))))
      = some { C1board with state := { C1board.state with next_move := C1moveLegal } } :=
  ⟨by decide, by decide,
    C1_make_unmake_roundtrip C1board C1moveLegal
      (fullmoveStep 0 (flipStep (rightsStep C1moveLegal
        (pieceStep C1moveLegal (captureStep C1moveLegal (clearEpStep (clockStep
          (pushStep C1moveLegal C1board))))))))
      (by decide) (by decide) (by decide)⟩

/-- C1 counterexample: on the concrete position the pseudo-legal but illegal
king move e1–d1 makes `make_move` return `false` with the board already
restored, so the subsequent `unmake_move` call finds an empty history and
fails (the source would panic on `history.pop().unwrap()`) instead of
restoring the board. -/
theorem C1_make_unmake_roundtrip_counterexample :
    invariants C1board ∧ MoveFits C1board C1move ∧
    make_move C1move C1board
      = some (false, { C1board with state := { C1board.state with next_move := C1move } }) ∧
    unmake_move { C1board with state := { C1board.state with next_move := C1move } }
      = none :=
  ⟨by decide, by decide, by decide, rfl⟩

/-- C4: on an invariant-satisfying board, `make_move` of a structurally
pseudo-legal move always succeeds and returns `false` if and only if the
moving side's king square is attacked by the opponent after the move is
applied; when it returns `false` the returned board is the original board
restored byte-for-byte (bitboards, piece list, history and state) with only
`state.next_move` overwritten, by the internal `unmake_move`. -/
theorem C4_make_move_false_iff_king_attacked (b : Board) (m : Nat)
    (hinv : invariants b) (hfit : MoveFits b m) :
    ∃ b1, make_move_applied m b = some b1 ∧
      (is_square_attacked b1 (b.state.side_to_move ^^^ 1)
          (tz64 (getPB b1 b.state.side_to_move 5)) = true →
        make_move m b = some (false, { b with state := { b.state with next_move := m } })) ∧
      (is_square_attacked b1 (b.state.side_to_move ^^^ 1)
          (tz64 (getPB b1 b.state.side_to_move 5)) = false →
        make_move m b = some (true, b1)) := by
  obtain ⟨b1, hmk, hpos, hneg, -⟩ := make_move_spec hinv hfit
  exact ⟨b1, hmk, hneg, hpos⟩

/-- C4 witness: the illegal king move e1–d1 on the concrete position walks
into the rook's rank; `make_move` applies it, detects the attacked king
square and returns `false` with the restored board. -/
theorem C4_make_move_false_iff_king_attacked_witness :
    invariants C1board ∧ MoveFits C1board C1move ∧
    ∃ b1, make_move_applied C1move C1board = some b1 ∧
      (is_square_attacked b1 (C1board.state.side_to_move ^^^ 1)
          (tz64 (getPB b1 C1board.state.side_to_move 5)) = true →
        make_move C1move C1board
          = some (false, { C1board with state := { C1board.state with next_move := C1move } })) ∧
      (is_square_attacked b1 (C1board.state.side_to_move ^^^ 1)
          (tz64 (getPB b1 C1board.state.side_to_move 5)) = false →
        make_move C1move C1board = some (true, b1)) :=
  ⟨by decide, by decide,
    C4_make_move_false_iff_king_attacked C1board C1move (by decide) (by decide)⟩

/-- `u64::trailing_zeros` via its fueled loop: on a nonzero input below the
fuel's range it lands on the lowest set bit. -/
theorem tz_go_spec : ∀ (f acc n : Nat), n ≠ 0 → n < 2 ^ f →
    ∃ k, k < f ∧ tz64.go f acc n = acc + k ∧ n.testBit k = true ∧
      ∀ i, i < k → n.testBit i = false := by
  intro f
  induction f with
  | zero =>
    intro acc n hn hlt
    interval_cases n
    exact absurd rfl hn
  | succ f ih =>
    intro acc n hn hlt
    by_cases hodd : n % 2 = 1
    · refine ⟨0, by omega, ?_, ?_, ?_⟩
      · rw [show tz64.go (f + 1) acc n = if n % 2 = 1 then acc else tz64.go f (acc + 1) (n / 2) from rfl]
        rw [if_pos hodd]
        omega
      · simp [Nat.testBit_zero, hodd]
      · intro i hi
        omega
    · have hhalf : n / 2 ≠ 0 := by omega
      have hhlt : n / 2 < 2 ^ f := by
        rw [pow_succ] at hlt
        omega
      obtain ⟨k, hk, hgo, hbit, hlow⟩ := ih (acc + 1) (n / 2) hhalf hhlt
      refine ⟨k + 1, by omega, ?_, ?_, ?_⟩
      · rw [show tz64.go (f + 1) acc n = if n % 2 = 1 then acc else tz64.go f (acc + 1) (n / 2) from rfl]
        rw [if_neg hodd, hgo]
        omega
      · rw [Nat.testBit_add_one]
        exact hbit
      · intro i hi
        cases i with
        | zero => simp [Nat.testBit_zero, hodd]
        | succ j =>
          rw [Nat.testBit_add_one]
          exact hlow j (by omega)

theorem tz64_spec {n : Nat} (hn : n ≠ 0) (hlt : n < 2 ^ 64) :
    tz64 n < 64 ∧ n.testBit (tz64 n) = true ∧ ∀ i, i < tz64 n → n.testBit i = false := by
  obtain ⟨k, hk, hgo, hbit, hlow⟩ := tz_go_spec 64 0 n hn hlt
  have : tz64 n = k := by
    rw [show tz64 n = tz64.go 64 0 n from rfl, hgo]
    omega
  rw [this]
  exact ⟨hk, hbit, hlow⟩

theorem addMoveToList_total (b : Board) (pieceType f : Nat) :
    ∀ fuel toBB, toBB < 2 ^ 64 → ∃ l, addMoveToList b pieceType f fuel toBB = some l := by
  intro fuel
  induction fuel with
  | zero => exact fun toBB _ => ⟨[], rfl⟩
  | succ fuel ih =>
    intro toBB hlt
    by_cases h0 : toBB = 0
    · exact ⟨[], by simp [addMoveToList, h0]⟩
    · obtain ⟨htz, -, -⟩ := tz64_spec h0 hlt
      have hrest : toBB ^^^ 2 ^ tz64 toBB < 2 ^ 64 :=
        Nat.xor_lt_two_pow hlt (Nat.pow_lt_pow_right (by norm_num) htz)
      obtain ⟨l, hl⟩ := ih (toBB ^^^ 2 ^ tz64 toBB) hrest
      refine ⟨movesForTarget b pieceType f (tz64 toBB) ++ l, ?_⟩
      rw [show addMoveToList b pieceType f (fuel + 1) toBB
          = if toBB = 0 then some []
            else match bitsNext toBB with
              | none => none
              | some (t, rest) =>
                match addMoveToList b pieceType f fuel rest with
                | none => none
                | some ms => some (movesForTarget b pieceType f t ++ ms) from rfl]
      rw [if_neg h0]
      rw [show bitsNext toBB = some (tz64 toBB, toBB ^^^ 2 ^ tz64 toBB) from by
        unfold bitsNext
        simp only [SQUARE_BITBOARDS]
        rw [if_pos htz]]
      simp [hl]

theorem pieceLoop_total (b : Board) (pieceType : Nat)
    (hsb : getSB b b.state.side_to_move < 2 ^ 64) :
    ∀ fuel pieces, pieces < 2 ^ 64 → ∃ l, pieceLoop b pieceType fuel pieces = some l := by
  intro fuel
  induction fuel with
  | zero => exact fun pieces _ => ⟨[], rfl⟩
  | succ fuel ih =>
    intro pieces hlt
    by_cases h0 : pieces = 0
    · exact ⟨[], by simp [pieceLoop, h0]⟩
    · obtain ⟨htz, -, -⟩ := tz64_spec h0 hlt
      have hrest : pieces ^^^ 2 ^ tz64 pieces < 2 ^ 64 :=
        Nat.xor_lt_two_pow hlt (Nat.pow_lt_pow_right (by norm_num) htz)
      have hto : ∀ X : Nat, X &&& not64 (getSB b b.state.side_to_move) < 2 ^ 64 := by
        intro X
        calc X &&& not64 (getSB b b.state.side_to_move)
            ≤ not64 (getSB b b.state.side_to_move) := Nat.and_le_right
          _ < 2 ^ 64 := by
              unfold not64 MAX64 U64
              exact Nat.xor_lt_two_pow hsb (by norm_num)
      obtain ⟨ms, hms⟩ := addMoveToList_total b pieceType (tz64 pieces) 64
        ((if pieceType = 5 then kingMoves (tz64 pieces)
          else if pieceType = 1 then knightMoves (tz64 pieces)
          else if pieceType = 3 then get_rook_moves (tz64 pieces) (occupancy b)
          else if pieceType = 2 then get_bishop_moves (tz64 pieces) (occupancy b)
          else if pieceType = 4 then get_queen_moves (tz64 pieces) (occupancy b)
          else 0) &&& not64 (getSB b b.state.side_to_move)) (hto _)
      obtain ⟨l, hl⟩ := ih (pieces ^^^ 2 ^ tz64 pieces) hrest
      refine ⟨ms ++ l, ?_⟩
      rw [show pieceLoop b pieceType (fuel + 1) pieces
          = if pieces = 0 then some []
            else match bitsNext pieces with
              | none => none
              | some (f, rest) =>
                match addMoveToList b pieceType f 64
                  ((if pieceType = 5 then kingMoves f
                    else if pieceType = 1 then knightMoves f
                    else if pieceType = 3 then get_rook_moves f (occupancy b)
                    else if pieceType = 2 then get_bishop_moves f (occupancy b)
                    else if pieceType = 4 then get_queen_moves f (occupancy b)
                    else 0) &&& not64 (getSB b b.state.side_to_move)) with
                | none => none
                | some ms =>
                  match pieceLoop b pieceType fuel rest with
                  | none => none
                  | some ms2 => some (ms ++ ms2) from rfl]
      rw [if_neg h0]
      rw [show bitsNext pieces = some (tz64 pieces, pieces ^^^ 2 ^ tz64 pieces) from by
        unfold bitsNext
        simp only [SQUARE_BITBOARDS]
        rw [if_pos htz]]
      simp [hms, hl]

/-- A position whose side to move has no king: White rook a1 and Black king
h8 only, White to move. -/
def C10board : Board :=
  Board.mk C1state []
    (((List.replicate 64 6).set 0 3).set 63 5)
    (((List.replicate 12 0).set 3 (2 ^ 0)).set 11 (2 ^ 63))
    [2 ^ 0, 2 ^ 63]

/-- C10 (amended): `bits::next` demands a non-empty bitboard: on any
non-empty 64-bit bitboard it returns the lowest set square and clears
exactly that one bit, while on the empty bitboard it computes square index
64 and the `SQUARE_BITBOARDS[64]` access panics (`none` here).  The three
call sites inside `while bitboard > 0` loops (the per-piece loop, the pawn
loop and the destination loop of `add_move_to_list`) can therefore never
hit the panic.  But the claim's "every call site" is too strong: the call
in `generate_castling_moves` is not guarded, so whenever the side to move
has no king the move generator panics. -/
theorem C10_bits_next_guarded :
    (∀ bb : Nat, bb ≠ 0 → bb < 2 ^ 64 →
      tz64 bb < 64 ∧
      bitsNext bb = some (tz64 bb, bb ^^^ 2 ^ tz64 bb) ∧
      bb.testBit (tz64 bb) = true ∧
      (∀ i, i < tz64 bb → bb.testBit i = false) ∧
      (bb ^^^ 2 ^ tz64 bb).testBit (tz64 bb) = false ∧
      (∀ i, i ≠ tz64 bb → (bb ^^^ 2 ^ tz64 bb).testBit i = bb.testBit i)) ∧
    bitsNext 0 = none ∧
    (∀ (b : Board) (pieceType f fuel toBB : Nat), toBB < 2 ^ 64 →
      ∃ l, addMoveToList b pieceType f fuel toBB = some l) ∧
    (∀ (b : Board) (pieceType : Nat), getSB b b.state.side_to_move < 2 ^ 64 →
      ∀ fuel pieces, pieces < 2 ^ 64 → ∃ l, pieceLoop b pieceType fuel pieces = some l) ∧
    (∀ b : Board, getPB b b.state.side_to_move 5 = 0 →
      generate_castling_moves b = none) := by
  refine ⟨?_, by decide, ?_, ?_, ?_⟩
  · intro bb hbb hlt
    obtain ⟨htz, hbit, hlow⟩ := tz64_spec hbb hlt
    refine ⟨htz, ?_, hbit, hlow, ?_, ?_⟩
    · unfold bitsNext
      simp only [SQUARE_BITBOARDS]
      rw [if_pos htz]
    · simp [Nat.testBit_xor, Nat.testBit_two_pow, hbit]
    · intro i hi
      simp [Nat.testBit_xor, Nat.testBit_two_pow, Ne.symm hi]
  · intro b pieceType f fuel toBB hlt
    exact addMoveToList_total b pieceType f fuel toBB hlt
  · intro b pieceType hsb fuel pieces hlt
    exact pieceLoop_total b pieceType hsb fuel pieces hlt
  · intro b hk
    unfold generate_castling_moves
    dsimp only
    rw [hk]
    rw [show bitsNext 0 = none from by decide]

/-- C10 counterexample: on the concrete kingless position the castling
generator reaches `bits::next` on the empty king bitboard and panics
(`none`), taking the whole of `generate_moves` down with it, even though
every loop call site honours its guard. -/
theorem C10_bits_next_guarded_counterexample :
    getPB C10board C10board.state.side_to_move 5 = 0 ∧
    generate_castling_moves C10board = none ∧
    generate_moves C10board = none := by
  refine ⟨by decide, by decide, by decide⟩

/-!
## Geometry of `cast_ray` (for C7)

Every square a straight ray reaches shares the source's rank or file;
every square a diagonal ray reaches differs from the source in both.
-/

theorem shl64_pow {e k : Nat} (h : e + k < 64) : shl64 (2 ^ e) k = 2 ^ (e + k) := by
  unfold shl64 U64
  rw [Nat.shiftLeft_eq, ← pow_add]
  exact Nat.mod_eq_of_lt (Nat.pow_lt_pow_right (by norm_num) h)

theorem shr_pow {e k : Nat} (h : k ≤ e) : (2 ^ e) >>> k = 2 ^ (e - k) := by
  rw [Nat.shiftRight_eq_div_pow]
  exact Nat.pow_div h (by norm_num)

theorem castRayAux_north_step (blocker fuel squareBB rank file ray : Nat) :
    castRayAux NORTH blocker (fuel + 1) squareBB rank file ray
      = if rank = 7 then ray
        else if shl64 squareBB 8 &&& blocker > 0 then ray ||| shl64 squareBB 8
        else castRayAux NORTH blocker fuel (shl64 squareBB 8) (rank + 1) file
          (ray ||| shl64 squareBB 8) := rfl

theorem castRayAux_south_step (blocker fuel squareBB rank file ray : Nat) :
    castRayAux SOUTH blocker (fuel + 1) squareBB rank file ray
      = if rank = 0 then ray
        else if squareBB >>> 8 &&& blocker > 0 then ray ||| squareBB >>> 8
        else castRayAux SOUTH blocker fuel (squareBB >>> 8) (rank - 1) file
          (ray ||| squareBB >>> 8) := rfl

theorem castRayAux_east_step (blocker fuel squareBB rank file ray : Nat) :
    castRayAux EAST blocker (fuel + 1) squareBB rank file ray
      = if file = 7 then ray
        else if shl64 squareBB 1 &&& blocker > 0 then ray ||| shl64 squareBB 1
        else castRayAux EAST blocker fuel (shl64 squareBB 1) rank (file + 1)
          (ray ||| shl64 squareBB 1) := rfl

theorem castRayAux_west_step (blocker fuel squareBB rank file ray : Nat) :
    castRayAux WEST blocker (fuel + 1) squareBB rank file ray
      = if file = 0 then ray
        else if squareBB >>> 1 &&& blocker > 0 then ray ||| squareBB >>> 1
        else castRayAux WEST blocker fuel (squareBB >>> 1) rank (file - 1)
          (ray ||| squareBB >>> 1) := rfl

theorem castRayAux_ne_step (blocker fuel squareBB rank file ray : Nat) :
    castRayAux NORTH_EAST blocker (fuel + 1) squareBB rank file ray
      = if rank = 7 ∨ file = 7 then ray
        else if shl64 squareBB 9 &&& blocker > 0 then ray ||| shl64 squareBB 9
        else castRayAux NORTH_EAST blocker fuel (shl64 squareBB 9) (rank + 1) (file + 1)
          (ray ||| shl64 squareBB 9) := rfl

theorem castRayAux_se_step (blocker fuel squareBB rank file ray : Nat) :
    castRayAux SOUTH_EAST blocker (fuel + 1) squareBB rank file ray
      = if rank = 0 ∨ file = 7 then ray
        else if squareBB >>> 7 &&& blocker > 0 then ray ||| squareBB >>> 7
        else castRayAux SOUTH_EAST blocker fuel (squareBB >>> 7) (rank - 1) (file + 1)
          (ray ||| squareBB >>> 7) := rfl

theorem castRayAux_sw_step (blocker fuel squareBB rank file ray : Nat) :
    castRayAux SOUTH_WEST blocker (fuel + 1) squareBB rank file ray
      = if rank = 0 ∨ file = 0 then ray
        else if squareBB >>> 9 &&& blocker > 0 then ray ||| squareBB >>> 9
        else castRayAux SOUTH_WEST blocker fuel (squareBB >>> 9) (rank - 1) (file - 1)
          (ray ||| squareBB >>> 9) := rfl

theorem castRayAux_nw_step (blocker fuel squareBB rank file ray : Nat) :
    castRayAux NORTH_WEST blocker (fuel + 1) squareBB rank file ray
      = if rank = 7 ∨ file = 0 then ray
        else if shl64 squareBB 7 &&& blocker > 0 then ray ||| shl64 squareBB 7
        else castRayAux NORTH_WEST blocker fuel (shl64 squareBB 7) (rank + 1) (file - 1)
          (ray ||| shl64 squareBB 7) := rfl

theorem ray_bits_north (blocker : Nat) : ∀ (fuel rank file ray : Nat),
    rank < 8 → file < 8 → ∀ i : Nat,
    (castRayAux NORTH blocker fuel (2 ^ (rank * 8 + file)) rank file ray).testBit i = true →
    ray.testBit i = true ∨ (i % 8 = file ∧ rank < i / 8) := by
  intro fuel
  induction fuel with
  | zero => exact fun rank file ray _ _ i h => Or.inl h
  | succ fuel ih =>
    intro rank file ray hr hf i h
    rw [castRayAux_north_step] at h
    by_cases h7 : rank = 7
    · rw [if_pos h7] at h
      exact Or.inl h
    · rw [if_neg h7] at h
      rw [shl64_pow (by omega), show rank * 8 + file + 8 = (rank + 1) * 8 + file from by ring] at h
      have hemit : ∀ j : Nat, (2 ^ ((rank + 1) * 8 + file)).testBit j = true →
          j % 8 = file ∧ rank < j / 8 := by
        intro j hj
        rw [Nat.testBit_two_pow] at hj
        have : (rank + 1) * 8 + file = j := by simpa using hj
        omega
      by_cases hb : 2 ^ ((rank + 1) * 8 + file) &&& blocker > 0
      · rw [if_pos hb, Nat.testBit_or, Bool.or_eq_true] at h
        rcases h with h | h
        · exact Or.inl h
        · exact Or.inr (hemit i h)
      · rw [if_neg hb] at h
        rcases ih (rank + 1) file _ (by omega) hf i h with h1 | h2
        · rw [Nat.testBit_or, Bool.or_eq_true] at h1
          rcases h1 with h1 | h1
          · exact Or.inl h1
          · exact Or.inr (hemit i h1)
        · exact Or.inr ⟨h2.1, by omega⟩

theorem ray_bits_south (blocker : Nat) : ∀ (fuel rank file ray : Nat),
    rank < 8 → file < 8 → ∀ i : Nat,
    (castRayAux SOUTH blocker fuel (2 ^ (rank * 8 + file)) rank file ray).testBit i = true →
    ray.testBit i = true ∨ (i % 8 = file ∧ i / 8 < rank) := by
  intro fuel
  induction fuel with
  | zero => exact fun rank file ray _ _ i h => Or.inl h
  | succ fuel ih =>
    intro rank file ray hr hf i h
    rw [castRayAux_south_step] at h
    by_cases h0 : rank = 0
    · rw [if_pos h0] at h
      exact Or.inl h
    · rw [if_neg h0] at h
      rw [shr_pow (by omega), show rank * 8 + file - 8 = (rank - 1) * 8 + file from by
        cases rank with
        | zero => exact absurd rfl h0
        | succ r => simp [Nat.succ_mul]; omega] at h
      have hemit : ∀ j : Nat, (2 ^ ((rank - 1) * 8 + file)).testBit j = true →
          j % 8 = file ∧ j / 8 < rank := by
        intro j hj
        rw [Nat.testBit_two_pow] at hj
        have : (rank - 1) * 8 + file = j := by simpa using hj
        omega
      by_cases hb : 2 ^ ((rank - 1) * 8 + file) &&& blocker > 0
      · rw [if_pos hb, Nat.testBit_or, Bool.or_eq_true] at h
        rcases h with h | h
        · exact Or.inl h
        · exact Or.inr (hemit i h)
      · rw [if_neg hb] at h
        rcases ih (rank - 1) file _ (by omega) hf i h with h1 | h2
        · rw [Nat.testBit_or, Bool.or_eq_true] at h1
          rcases h1 with h1 | h1
          · exact Or.inl h1
          · exact Or.inr (hemit i h1)
        · exact Or.inr ⟨h2.1, by omega⟩

theorem ray_bits_east (blocker : Nat) : ∀ (fuel rank file ray : Nat),
    rank < 8 → file < 8 → ∀ i : Nat,
    (castRayAux EAST blocker fuel (2 ^ (rank * 8 + file)) rank file ray).testBit i = true →
    ray.testBit i = true ∨ (i / 8 = rank ∧ file < i % 8) := by
  intro fuel
  induction fuel with
  | zero => exact fun rank file ray _ _ i h => Or.inl h
  | succ fuel ih =>
    intro rank file ray hr hf i h
    rw [castRayAux_east_step] at h
    by_cases h7 : file = 7
    · rw [if_pos h7] at h
      exact Or.inl h
    · rw [if_neg h7] at h
      rw [shl64_pow (by omega), show rank * 8 + file + 1 = rank * 8 + (file + 1) from by ring] at h
      have hemit : ∀ j : Nat, (2 ^ (rank * 8 + (file + 1))).testBit j = true →
          j / 8 = rank ∧ file < j % 8 := by
        intro j hj
        rw [Nat.testBit_two_pow] at hj
        have : rank * 8 + (file + 1) = j := by simpa using hj
        omega
      by_cases hb : 2 ^ (rank * 8 + (file + 1)) &&& blocker > 0
      · rw [if_pos hb, Nat.testBit_or, Bool.or_eq_true] at h
        rcases h with h | h
        · exact Or.inl h
        · exact Or.inr (hemit i h)
      · rw [if_neg hb] at h
        rcases ih rank (file + 1) _ hr (by omega) i h with h1 | h2
        · rw [Nat.testBit_or, Bool.or_eq_true] at h1
          rcases h1 with h1 | h1
          · exact Or.inl h1
          · exact Or.inr (hemit i h1)
        · exact Or.inr ⟨h2.1, by omega⟩

theorem ray_bits_west (blocker : Nat) : ∀ (fuel rank file ray : Nat),
    rank < 8 → file < 8 → ∀ i : Nat,
    (castRayAux WEST blocker fuel (2 ^ (rank * 8 + file)) rank file ray).testBit i = true →
    ray.testBit i = true ∨ (i / 8 = rank ∧ i % 8 < file) := by
  intro fuel
  induction fuel with
  | zero => exact fun rank file ray _ _ i h => Or.inl h
  | succ fuel ih =>
    intro rank file ray hr hf i h
    rw [castRayAux_west_step] at h
    by_cases h0 : file = 0
    · rw [if_pos h0] at h
      exact Or.inl h
    · rw [if_neg h0] at h
      rw [shr_pow (by omega), show rank * 8 + file - 1 = rank * 8 + (file - 1) from by omega] at h
      have hemit : ∀ j : Nat, (2 ^ (rank * 8 + (file - 1))).testBit j = true →
          j / 8 = rank ∧ j % 8 < file := by
        intro j hj
        rw [Nat.testBit_two_pow] at hj
        have : rank * 8 + (file - 1) = j := by simpa using hj
        omega
      by_cases hb : 2 ^ (rank * 8 + (file - 1)) &&& blocker > 0
      · rw [if_pos hb, Nat.testBit_or, Bool.or_eq_true] at h
        rcases h with h | h
        · exact Or.inl h
        · exact Or.inr (hemit i h)
      · rw [if_neg hb] at h
        rcases ih rank (file - 1) _ hr (by omega) i h with h1 | h2
        · rw [Nat.testBit_or, Bool.or_eq_true] at h1
          rcases h1 with h1 | h1
          · exact Or.inl h1
          · exact Or.inr (hemit i h1)
        · exact Or.inr ⟨h2.1, by omega⟩

theorem ray_bits_ne (blocker : Nat) : ∀ (fuel rank file ray : Nat),
    rank < 8 → file < 8 → ∀ i : Nat,
    (castRayAux NORTH_EAST blocker fuel (2 ^ (rank * 8 + file)) rank file ray).testBit i = true →
    ray.testBit i = true ∨ (rank < i / 8 ∧ file < i % 8) := by
  intro fuel
  induction fuel with
  | zero => exact fun rank file ray _ _ i h => Or.inl h
  | succ fuel ih =>
    intro rank file ray hr hf i h
    rw [castRayAux_ne_step] at h
    by_cases h7 : rank = 7 ∨ file = 7
    · rw [if_pos h7] at h
      exact Or.inl h
    · rw [if_neg h7] at h
      rw [shl64_pow (by omega), show rank * 8 + file + 9 = (rank + 1) * 8 + (file + 1) from by
        ring] at h
      have hemit : ∀ j : Nat, (2 ^ ((rank + 1) * 8 + (file + 1))).testBit j = true →
          rank < j / 8 ∧ file < j % 8 := by
        intro j hj
        rw [Nat.testBit_two_pow] at hj
        have : (rank + 1) * 8 + (file + 1) = j := by simpa using hj
        omega
      by_cases hb : 2 ^ ((rank + 1) * 8 + (file + 1)) &&& blocker > 0
      · rw [if_pos hb, Nat.testBit_or, Bool.or_eq_true] at h
        rcases h with h | h
        · exact Or.inl h
        · exact Or.inr (hemit i h)
      · rw [if_neg hb] at h
        rcases ih (rank + 1) (file + 1) _ (by omega) (by omega) i h with h1 | h2
        · rw [Nat.testBit_or, Bool.or_eq_true] at h1
          rcases h1 with h1 | h1
          · exact Or.inl h1
          · exact Or.inr (hemit i h1)
        · exact Or.inr ⟨by omega, by omega⟩

theorem ray_bits_se (blocker : Nat) : ∀ (fuel rank file ray : Nat),
    rank < 8 → file < 8 → ∀ i : Nat,
    (castRayAux SOUTH_EAST blocker fuel (2 ^ (rank * 8 + file)) rank file ray).testBit i = true →
    ray.testBit i = true ∨ (i / 8 < rank ∧ file < i % 8) := by
  intro fuel
  induction fuel with
  | zero => exact fun rank file ray _ _ i h => Or.inl h
  | succ fuel ih =>
    intro rank file ray hr hf i h
    rw [castRayAux_se_step] at h
    by_cases h7 : rank = 0 ∨ file = 7
    · rw [if_pos h7] at h
      exact Or.inl h
    · rw [if_neg h7] at h
      rw [shr_pow (by omega), show rank * 8 + file - 7 = (rank - 1) * 8 + (file + 1) from by
        omega] at h
      have hemit : ∀ j : Nat, (2 ^ ((rank - 1) * 8 + (file + 1))).testBit j = true →
          j / 8 < rank ∧ file < j % 8 := by
        intro j hj
        rw [Nat.testBit_two_pow] at hj
        have : (rank - 1) * 8 + (file + 1) = j := by simpa using hj
        omega
      by_cases hb : 2 ^ ((rank - 1) * 8 + (file + 1)) &&& blocker > 0
      · rw [if_pos hb, Nat.testBit_or, Bool.or_eq_true] at h
        rcases h with h | h
        · exact Or.inl h
        · exact Or.inr (hemit i h)
      · rw [if_neg hb] at h
        rcases ih (rank - 1) (file + 1) _ (by omega) (by omega) i h with h1 | h2
        · rw [Nat.testBit_or, Bool.or_eq_true] at h1
          rcases h1 with h1 | h1
          · exact Or.inl h1
          · exact Or.inr (hemit i h1)
        · exact Or.inr ⟨by omega, by omega⟩

theorem ray_bits_sw (blocker : Nat) : ∀ (fuel rank file ray : Nat),
    rank < 8 → file < 8 → ∀ i : Nat,
    (castRayAux SOUTH_WEST blocker fuel (2 ^ (rank * 8 + file)) rank file ray).testBit i = true →
    ray.testBit i = true ∨ (i / 8 < rank ∧ i % 8 < file) := by
  intro fuel
  induction fuel with
  | zero => exact fun rank file ray _ _ i h => Or.inl h
  | succ fuel ih =>
    intro rank file ray hr hf i h
    rw [castRayAux_sw_step] at h
    by_cases h7 : rank = 0 ∨ file = 0
    · rw [if_pos h7] at h
      exact Or.inl h
    · rw [if_neg h7] at h
      rw [shr_pow (by omega), show rank * 8 + file - 9 = (rank - 1) * 8 + (file - 1) from by
        omega] at h
      have hemit : ∀ j : Nat, (2 ^ ((rank - 1) * 8 + (file - 1))).testBit j = true →
          j / 8 < rank ∧ j % 8 < file := by
        intro j hj
        rw [Nat.testBit_two_pow] at hj
        have : (rank - 1) * 8 + (file - 1) = j := by simpa using hj
        omega
      by_cases hb : 2 ^ ((rank - 1) * 8 + (file - 1)) &&& blocker > 0
      · rw [if_pos hb, Nat.testBit_or, Bool.or_eq_true] at h
        rcases h with h | h
        · exact Or.inl h
        · exact Or.inr (hemit i h)
      · rw [if_neg hb] at h
        rcases ih (rank - 1) (file - 1) _ (by omega) (by omega) i h with h1 | h2
        · rw [Nat.testBit_or, Bool.or_eq_true] at h1
          rcases h1 with h1 | h1
          · exact Or.inl h1
          · exact Or.inr (hemit i h1)
        · exact Or.inr ⟨by omega, by omega⟩

theorem ray_bits_nw (blocker : Nat) : ∀ (fuel rank file ray : Nat),
    rank < 8 → file < 8 → ∀ i : Nat,
    (castRayAux NORTH_WEST blocker fuel (2 ^ (rank * 8 + file)) rank file ray).testBit i = true →
    ray.testBit i = true ∨ (rank < i / 8 ∧ i % 8 < file) := by
  intro fuel
  induction fuel with
  | zero => exact fun rank file ray _ _ i h => Or.inl h
  | succ fuel ih =>
    intro rank file ray hr hf i h
    rw [castRayAux_nw_step] at h
    by_cases h7 : rank = 7 ∨ file = 0
    · rw [if_pos h7] at h
      exact Or.inl h
    · rw [if_neg h7] at h
      rw [shl64_pow (by omega), show rank * 8 + file + 7 = (rank + 1) * 8 + (file - 1) from by
        omega] at h
      have hemit : ∀ j : Nat, (2 ^ ((rank + 1) * 8 + (file - 1))).testBit j = true →
          rank < j / 8 ∧ j % 8 < file := by
        intro j hj
        rw [Nat.testBit_two_pow] at hj
        have : (rank + 1) * 8 + (file - 1) = j := by simpa using hj
        omega
      by_cases hb : 2 ^ ((rank + 1) * 8 + (file - 1)) &&& blocker > 0
      · rw [if_pos hb, Nat.testBit_or, Bool.or_eq_true] at h
        rcases h with h | h
        · exact Or.inl h
        · exact Or.inr (hemit i h)
      · rw [if_neg hb] at h
        rcases ih (rank + 1) (file - 1) _ (by omega) (by omega) i h with h1 | h2
        · rw [Nat.testBit_or, Bool.or_eq_true] at h1
          rcases h1 with h1 | h1
          · exact Or.inl h1
          · exact Or.inr (hemit i h1)
        · exact Or.inr ⟨by omega, by omega⟩

/-- Every square a rook ray reaches shares the source's rank or file. -/
theorem rookAttacks_bits {sq blocker i : Nat} (hsq : sq < 64)
    (h : (rookAttacks sq blocker).testBit i = true) :
    i % 8 = sq % 8 ∨ i / 8 = sq / 8 := by
  have hrw : SQUARE_BITBOARDS sq = 2 ^ (sq / 8 * 8 + sq % 8) := by
    unfold SQUARE_BITBOARDS
    congr 1
    omega
  unfold rookAttacks castRay getRank getFile at h
  rw [hrw] at h
  simp only [Nat.testBit_or, Bool.or_eq_true] at h
  have hz : ∀ j : Nat, (0 : Nat).testBit j = true → False := by
    intro j hj
    rw [Nat.zero_testBit] at hj
    exact Bool.false_ne_true hj
  rcases h with ((hN | hE) | hS) | hW
  · rcases ray_bits_north blocker rayFuel (sq / 8) (sq % 8) 0 (by omega) (by omega) i hN with
      h0 | hP
    · exact absurd h0 (by simp)
    · exact Or.inl hP.1
  · rcases ray_bits_east blocker rayFuel (sq / 8) (sq % 8) 0 (by omega) (by omega) i hE with
      h0 | hP
    · exact absurd h0 (by simp)
    · exact Or.inr hP.1
  · rcases ray_bits_south blocker rayFuel (sq / 8) (sq % 8) 0 (by omega) (by omega) i hS with
      h0 | hP
    · exact absurd h0 (by simp)
    · exact Or.inl hP.1
  · rcases ray_bits_west blocker rayFuel (sq / 8) (sq % 8) 0 (by omega) (by omega) i hW with
      h0 | hP
    · exact absurd h0 (by simp)
    · exact Or.inr hP.1

/-- Every square a bishop ray reaches differs from the source in both rank
and file. -/
theorem bishopAttacks_bits {sq blocker i : Nat} (hsq : sq < 64)
    (h : (bishopAttacks sq blocker).testBit i = true) :
    i / 8 ≠ sq / 8 ∧ i % 8 ≠ sq % 8 := by
  have hrw : SQUARE_BITBOARDS sq = 2 ^ (sq / 8 * 8 + sq % 8) := by
    unfold SQUARE_BITBOARDS
    congr 1
    omega
  unfold bishopAttacks castRay getRank getFile at h
  rw [hrw] at h
  simp only [Nat.testBit_or, Bool.or_eq_true] at h
  rcases h with ((hNE | hSE) | hSW) | hNW
  · rcases ray_bits_ne blocker rayFuel (sq / 8) (sq % 8) 0 (by omega) (by omega) i hNE with
      h0 | hP
    · exact absurd h0 (by simp)
    · exact ⟨by omega, by omega⟩
  · rcases ray_bits_se blocker rayFuel (sq / 8) (sq % 8) 0 (by omega) (by omega) i hSE with
      h0 | hP
    · exact absurd h0 (by simp)
    · exact ⟨by omega, by omega⟩
  · rcases ray_bits_sw blocker rayFuel (sq / 8) (sq % 8) 0 (by omega) (by omega) i hSW with
      h0 | hP
    · exact absurd h0 (by simp)
    · exact ⟨by omega, by omega⟩
  · rcases ray_bits_nw blocker rayFuel (sq / 8) (sq % 8) 0 (by omega) (by omega) i hNW with
      h0 | hP
    · exact absurd h0 (by simp)
    · exact ⟨by omega, by omega⟩

/-- Rook and bishop attack sets from the same square are disjoint. -/
theorem rook_bishop_disjoint {sq b1 b2 : Nat} (hsq : sq < 64) :
    rookAttacks sq b1 &&& bishopAttacks sq b2 = 0 := by
  apply Nat.eq_of_testBit_eq
  intro i
  rw [Nat.testBit_and, Nat.zero_testBit]
  cases hR : (rookAttacks sq b1).testBit i
  · simp
  · cases hB : (bishopAttacks sq b2).testBit i
    · simp
    · obtain hr := rookAttacks_bits hsq hR
      obtain ⟨hb1, hb2⟩ := bishopAttacks_bits hsq hB
      rcases hr with h | h
      · exact absurd h hb2
      · exact absurd h hb1

theorem xor_eq_or_of_and_eq_zero {a b : Nat} (h : a &&& b = 0) : a ^^^ b = a ||| b := by
  apply Nat.eq_of_testBit_eq
  intro i
  have hi := congrArg (fun x => Nat.testBit x i) h
  simp only [Nat.testBit_and, Nat.zero_testBit] at hi
  rw [Nat.testBit_xor, Nat.testBit_or]
  cases ha : a.testBit i <;> cases hb : b.testBit i <;> simp_all

theorem or_eq_zero_iff {a b : Nat} : a ||| b = 0 ↔ a = 0 ∧ b = 0 := by
  constructor
  · intro h
    constructor
    · apply Nat.eq_of_testBit_eq
      intro i
      have hi := congrArg (fun x => Nat.testBit x i) h
      simp only [Nat.testBit_or, Nat.zero_testBit, Bool.or_eq_false_iff] at hi
      rw [Nat.zero_testBit]
      exact hi.1
    · apply Nat.eq_of_testBit_eq
      intro i
      have hi := congrArg (fun x => Nat.testBit x i) h
      simp only [Nat.testBit_or, Nat.zero_testBit, Bool.or_eq_false_iff] at hi
      rw [Nat.zero_testBit]
      exact hi.2
  · rintro ⟨h1, h2⟩
    rw [h1, h2]
    rfl

/-- The queen move set the attack oracle uses (rook XOR bishop) is the
union of the rook and bishop move sets. -/
theorem get_queen_moves_eq_union {sq occ : Nat} (hsq : sq < 64) :
    get_queen_moves sq occ = get_rook_moves sq occ ||| get_bishop_moves sq occ :=
  xor_eq_or_of_and_eq_zero (rook_bishop_disjoint hsq)

theorem or_pos_iff {a b : Nat} : 0 < (a ||| b) ↔ 0 < a ∨ 0 < b := by
  rw [Nat.pos_iff_ne_zero, Nat.pos_iff_ne_zero, Nat.pos_iff_ne_zero, Ne, or_eq_zero_iff]
  tauto

theorem or_and_distrib {x y z : Nat} : (x ||| y) &&& z = x &&& z ||| y &&& z := by
  rw [Nat.and_comm, Nat.and_or_distrib_left, Nat.and_comm z x, Nat.and_comm z y]

/-- C7: `is_square_attacked` is the five-way intersection test of the
claim — king, knight, pawn (reverse-colour capture table), rook rays
against rooks-and-queens, bishop rays against bishops-and-queens — and the
queen attack set it computes as rook XOR bishop equals the union
rook ∪ bishop, the two being disjoint. -/
theorem C7_is_square_attacked_characterization (b : Board) (attacker square : Nat)
    (hsq : square < 64) :
    (is_square_attacked b attacker square = true ↔
      (kingMoves square &&& getPB b attacker 5 > 0 ∨
       knightMoves square &&& getPB b attacker 1 > 0 ∨
       pawnCaptures (attacker ^^^ 1) square &&& getPB b attacker 0 > 0 ∨
       get_rook_moves square (occupancy b)
         &&& (getPB b attacker 3 ||| getPB b attacker 4) > 0 ∨
       get_bishop_moves square (occupancy b)
         &&& (getPB b attacker 2 ||| getPB b attacker 4) > 0)) ∧
    get_queen_moves square (occupancy b)
      = get_rook_moves square (occupancy b) ||| get_bishop_moves square (occupancy b) := by
  refine ⟨?_, get_queen_moves_eq_union hsq⟩
  unfold is_square_attacked
  dsimp only
  have hd : get_rook_moves square (occupancy b) &&& get_bishop_moves square (occupancy b)
      = 0 := rook_bishop_disjoint hsq
  rw [xor_eq_or_of_and_eq_zero hd]
  simp only [Bool.or_eq_true, decide_eq_true_eq, Nat.and_or_distrib_left,
    or_and_distrib, gt_iff_lt, or_pos_iff]
  tauto

/-! ### Magic-table construction (`MoveGenerator::init_magics`)

`init_magics` (`src/src/movegen/init.rs` lines 157–268) builds the rook or
bishop attack table: per square it enumerates the blocker subsets of the
relevant-occupancy mask with the carry-rippler loop, ray-casts the attack
board for each, and stores it at the magic index, panicking on a
collision, a failed range assert, or a bad final offset.  The `magics`
module (`Magic::get_index` and the shipped `ROOK_MAGIC_NUMBERS` /
`BISHOP_MAGIC_NUMBERS`) is absent from `src/`, so the index map is
modelled from the spec (§4.3) and the whole build is parameterised over
the magic-number array. -/

/-- `u64::count_ones`, as `init_magics` uses for `mask.0.count_ones()`
(the same bit count as `Bitboard::count_ones`, embedded as
`Gambit.popcount64`). -/
def count_ones (n : Nat) : Nat := Gambit.popcount64 n

/-- The blocker-board enumeration loop of `init_magics`
(`src/src/movegen/init.rs` lines 179–196): starting from `n = 0`, push
`n` and step `n = n.wrapping_sub(d) & d` until `n` returns to `0`.  The
fuel `2 ^ count_ones d` is exactly the number of iterations the loop
performs (`blocker_boards_eq_seqW`). -/
def blockerBoardsAux (d : Nat) : Nat → Nat → List Nat
  | 0, _ => []
  | fuel + 1, n =>
    n :: (if wsub n d &&& d = 0 then [] else blockerBoardsAux d fuel (wsub n d &&& d))

/-- The `blocker_boards` vector `init_magics` builds for one mask. -/
def blocker_boards (d : Nat) : List Nat := blockerBoardsAux d (2 ^ count_ones d) 0

/-- The per-square magic record `init_magics` builds
(`shift = 64 - bits`); the structure itself lives in the `magics` module
missing from `src/`. -/
structure Magic where
  mask : Nat
  offset : Nat
  shift : Nat
  number : Nat

/-- `Magic::get_index`.  Modelled from the spec: `magics.rs` is missing
from `src/`; spec §4.3 defines
`index(B) = offset[sq] + ((B · magic[sq]) >> (64 − bits))` applied to the
relevant blockers `B = occupancy & mask[sq]`, the multiply in wrapping
`u64` arithmetic. -/
def Magic.get_index (mg : Magic) (bb : Nat) : Nat :=
  mg.offset + ((bb &&& mg.mask) * mg.number % U64) >>> mg.shift

/-- The `is_rook` mask selection of `init_magics`. -/
def maskFor (isRook : Bool) (sq : Nat) : Nat :=
  if isRook then ROOK_MASK sq else BISHOP_MASK sq

/-- The attack board `init_magics` pairs with a blocker board (the
four-way ray cast, rook or bishop directions). -/
def attackFor (isRook : Bool) (sq bb : Nat) : Nat :=
  if isRook then rookAttacks sq bb else bishopAttacks sq bb

/-- The inner `for i in 0..permutations` loop of `init_magics`: look up
`blocker_boards[i]`, compute the magic index, check the collision
sentinel (`table[index] == Bitboard::EMPTY`), check the
`too_low`/`too_high` asserts against `offset`/`end`, and store
`attack_boards[i]`; `none` models every panic (vector indexing out of
bounds, the collision `panic!`, or a failed assert). -/
def fillLoop (mg : Magic) (blockers attacks : List Nat) (endIdx : Nat) :
    Nat → Nat → List Nat → Option (List Nat)
  | _, 0, table => some table
  | i, rem + 1, table =>
    match blockers[i]? with
    | none => none
    | some bb =>
      if mg.get_index bb < table.length then
        if table.getD (mg.get_index bb) 0 = 0 then
          if mg.get_index bb < mg.offset ∨ endIdx < mg.get_index bb then none
          else
            match attacks[i]? with
            | none => none
            | some ab =>
              fillLoop mg blockers attacks endIdx (i + 1) rem
                (table.set (mg.get_index bb) ab)
        else none
      else none

/-- The per-square loop of `init_magics` (`for square in Squares::ALL`)
with the running `offset`, followed by the final
`assert_eq!(offset, table_size)`. -/
def contMagics (isRook : Bool) (nums : Nat → Nat)
    (recFn : Nat → Nat → List Nat → Option (List Nat)) (sq offset : Nat) :
    Option (List Nat) → Option (List Nat)
  | none => none
  | some t2 => recFn (sq + 1) (offset + 2 ^ count_ones (maskFor isRook sq)) t2

def initMagicsLoop (isRook : Bool) (nums : Nat → Nat) (sq rem offset : Nat)
    (table : List Nat) : Option (List Nat) :=
  Nat.rec (motive := fun _ => Nat → Nat → List Nat → Option (List Nat))
    (fun _ offset table =>
      if offset = (if isRook then 102400 else 5248) then some table else none)
    (fun _ recFn sq offset table =>
      contMagics isRook nums recFn sq offset
        (fillLoop ⟨maskFor isRook sq, offset, 64 - count_ones (maskFor isRook sq), nums sq⟩
          (blocker_boards (maskFor isRook sq))
          ((blocker_boards (maskFor isRook sq)).map (attackFor isRook sq))
          (offset + 2 ^ count_ones (maskFor isRook sq) - 1) 0
          (2 ^ count_ones (maskFor isRook sq)) table))
    rem sq offset table

/-- `MoveGenerator::init_magics`, parameterised over the magic-number
array (the shipped `ROOK_MAGIC_NUMBERS`/`BISHOP_MAGIC_NUMBERS` live in
the missing `magics.rs`): fill the pre-allocated table
(`NUMBER_OF_ROOK_MOVES = 102400` / `NUMBER_OF_BISHOP_MOVES = 5248` empty
entries) square by square. -/
def init_magics (isRook : Bool) (nums : Nat → Nat) : Option (List Nat) :=
  initMagicsLoop isRook nums 0 64 0 (List.replicate (if isRook then 102400 else 5248) 0)

/-- The running-offset total of `init_magics` over squares
`[s, s + rem)`: each square advances the offset by
`2^popcount(mask)`. -/
def sumPermsFrom (isRook : Bool) : Nat → Nat → Nat
  | _, 0 => 0
  | s, rem + 1 => 2 ^ count_ones (maskFor isRook s) + sumPermsFrom isRook (s + 1) rem

/-- The offset-free part of the spec's index map:
`(B · magic) >> (64 − bits)` on `B = bb & mask`. -/
def magicIndex (mask number bb : Nat) : Nat :=
  ((bb &&& mask) * number % U64) >>> (64 - count_ones mask)

/-- Injectivity of the magic index map over one square's enumerated
blocker boards (the property spec §4.3 requires of the magic
constants). -/
def magicInjectiveAt (isRook : Bool) (nums : Nat → Nat) (sq : Nat) : Prop :=
  (blocker_boards (maskFor isRook sq)).Pairwise
    (fun a b => magicIndex (maskFor isRook sq) (nums sq) a
      ≠ magicIndex (maskFor isRook sq) (nums sq) b)

set_option maxRecDepth 4000 in
theorem rook_total : sumPermsFrom true 0 64 = 102400 := by decide

set_option maxRecDepth 4000 in
theorem bishop_total : sumPermsFrom false 0 64 = 5248 := by decide

theorem popcW_le : ∀ (w n : Nat), CRProof.popcW w n ≤ w := by
  intro w
  induction w with
  | zero => intro n; exact Nat.le_refl 0
  | succ w ih =>
    intro n
    have h1 := ih (n / 2)
    have h2 : n % 2 ≤ 1 := by omega
    show n % 2 + CRProof.popcW w (n / 2) ≤ w + 1
    omega

theorem count_ones_eq (n : Nat) : count_ones n = CRProof.popcW 64 n :=
  CRProof.popcount64_eq n

theorem count_ones_le (n : Nat) : count_ones n ≤ 64 := by
  rw [count_ones_eq]
  exact popcW_le 64 n

theorem pos_of_testBit {x i : Nat} (h : x.testBit i = true) : 0 < x := by
  rcases Nat.eq_zero_or_pos x with h0 | h1
  · subst h0
    rw [Nat.zero_testBit] at h
    cases h
  · exact h1

/-- C7 witness: on the concrete rook-vs-king position, square d1 is
attacked by Black (the rook on a1), and the characterization evaluates. -/
theorem C7_is_square_attacked_characterization_witness :
    (3 : Nat) < 64 ∧
    ((is_square_attacked C1board 1 3 = true ↔
      (kingMoves 3 &&& getPB C1board 1 5 > 0 ∨
       knightMoves 3 &&& getPB C1board 1 1 > 0 ∨
       pawnCaptures (1 ^^^ 1) 3 &&& getPB C1board 1 0 > 0 ∨
       get_rook_moves 3 (occupancy C1board)
         &&& (getPB C1board 1 3 ||| getPB C1board 1 4) > 0 ∨
       get_bishop_moves 3 (occupancy C1board)
         &&& (getPB C1board 1 2 ||| getPB C1board 1 4) > 0)) ∧
    get_queen_moves 3 (occupancy C1board)
      = get_rook_moves 3 (occupancy C1board) ||| get_bishop_moves 3 (occupancy C1board)) :=
  ⟨by decide, C7_is_square_attacked_characterization C1board 1 3 (by decide)⟩

theorem castRayAux_mono_north (blocker : Nat) :
    ∀ (fuel squareBB rank file ray i : Nat), ray.testBit i = true →
      (castRayAux NORTH blocker fuel squareBB rank file ray).testBit i = true := by
  intro fuel
  induction fuel with
  | zero => exact fun _ _ _ _ _ h => h
  | succ fuel ih =>
    intro squareBB rank file ray i h
    rw [castRayAux_north_step]
    split_ifs
    · exact h
    · simp [Nat.testBit_or, h]
    · exact ih _ _ _ _ _ (by simp [Nat.testBit_or, h])

theorem castRayAux_mono_south (blocker : Nat) :
    ∀ (fuel squareBB rank file ray i : Nat), ray.testBit i = true →
      (castRayAux SOUTH blocker fuel squareBB rank file ray).testBit i = true := by
  intro fuel
  induction fuel with
  | zero => exact fun _ _ _ _ _ h => h
  | succ fuel ih =>
    intro squareBB rank file ray i h
    rw [castRayAux_south_step]
    split_ifs
    · exact h
    · simp [Nat.testBit_or, h]
    · exact ih _ _ _ _ _ (by simp [Nat.testBit_or, h])

theorem castRayAux_mono_ne (blocker : Nat) :
    ∀ (fuel squareBB rank file ray i : Nat), ray.testBit i = true →
      (castRayAux NORTH_EAST blocker fuel squareBB rank file ray).testBit i = true := by
  intro fuel
  induction fuel with
  | zero => exact fun _ _ _ _ _ h => h
  | succ fuel ih =>
    intro squareBB rank file ray i h
    rw [castRayAux_ne_step]
    split_ifs
    · exact h
    · simp [Nat.testBit_or, h]
    · exact ih _ _ _ _ _ (by simp [Nat.testBit_or, h])

theorem castRayAux_mono_se (blocker : Nat) :
    ∀ (fuel squareBB rank file ray i : Nat), ray.testBit i = true →
      (castRayAux SOUTH_EAST blocker fuel squareBB rank file ray).testBit i = true := by
  intro fuel
  induction fuel with
  | zero => exact fun _ _ _ _ _ h => h
  | succ fuel ih =>
    intro squareBB rank file ray i h
    rw [castRayAux_se_step]
    split_ifs
    · exact h
    · simp [Nat.testBit_or, h]
    · exact ih _ _ _ _ _ (by simp [Nat.testBit_or, h])

theorem castRayAux_mono_sw (blocker : Nat) :
    ∀ (fuel squareBB rank file ray i : Nat), ray.testBit i = true →
      (castRayAux SOUTH_WEST blocker fuel squareBB rank file ray).testBit i = true := by
  intro fuel
  induction fuel with
  | zero => exact fun _ _ _ _ _ h => h
  | succ fuel ih =>
    intro squareBB rank file ray i h
    rw [castRayAux_sw_step]
    split_ifs
    · exact h
    · simp [Nat.testBit_or, h]
    · exact ih _ _ _ _ _ (by simp [Nat.testBit_or, h])

theorem castRayAux_mono_nw (blocker : Nat) :
    ∀ (fuel squareBB rank file ray i : Nat), ray.testBit i = true →
      (castRayAux NORTH_WEST blocker fuel squareBB rank file ray).testBit i = true := by
  intro fuel
  induction fuel with
  | zero => exact fun _ _ _ _ _ h => h
  | succ fuel ih =>
    intro squareBB rank file ray i h
    rw [castRayAux_nw_step]
    split_ifs
    · exact h
    · simp [Nat.testBit_or, h]
    · exact ih _ _ _ _ _ (by simp [Nat.testBit_or, h])

theorem ray_pos_north {sq : Nat} (blocker : Nat) (h : sq / 8 ≠ 7) (hsq : sq < 64) :
    0 < castRay NORTH blocker sq := by
  have hstep : castRay NORTH blocker sq
      = castRayAux NORTH blocker (15 + 1) (2 ^ sq) (sq / 8) (sq % 8) 0 := rfl
  have hpow : shl64 (2 ^ sq) 8 = 2 ^ (sq + 8) := shl64_pow (by omega)
  rw [hstep, castRayAux_north_step, if_neg h, hpow]
  refine pos_of_testBit (i := sq + 8) ?_
  split_ifs
  · simp [Nat.testBit_or, Nat.testBit_two_pow]
  · exact castRayAux_mono_north blocker _ _ _ _ _ _
      (by simp [Nat.testBit_or, Nat.testBit_two_pow])

theorem ray_pos_south {sq : Nat} (blocker : Nat) (h : sq / 8 ≠ 0) :
    0 < castRay SOUTH blocker sq := by
  have hstep : castRay SOUTH blocker sq
      = castRayAux SOUTH blocker (15 + 1) (2 ^ sq) (sq / 8) (sq % 8) 0 := rfl
  have hpow : (2 ^ sq) >>> 8 = 2 ^ (sq - 8) := shr_pow (by omega)
  rw [hstep, castRayAux_south_step, if_neg h, hpow]
  refine pos_of_testBit (i := sq - 8) ?_
  split_ifs
  · simp [Nat.testBit_or, Nat.testBit_two_pow]
  · exact castRayAux_mono_south blocker _ _ _ _ _ _
      (by simp [Nat.testBit_or, Nat.testBit_two_pow])

theorem ray_pos_ne {sq : Nat} (blocker : Nat) (h1 : sq / 8 ≠ 7) (h2 : sq % 8 ≠ 7)
    (hsq : sq < 64) : 0 < castRay NORTH_EAST blocker sq := by
  have hstep : castRay NORTH_EAST blocker sq
      = castRayAux NORTH_EAST blocker (15 + 1) (2 ^ sq) (sq / 8) (sq % 8) 0 := rfl
  have hpow : shl64 (2 ^ sq) 9 = 2 ^ (sq + 9) := shl64_pow (by omega)
  rw [hstep, castRayAux_ne_step, if_neg (by omega : ¬(sq / 8 = 7 ∨ sq % 8 = 7)), hpow]
  refine pos_of_testBit (i := sq + 9) ?_
  split_ifs
  · simp [Nat.testBit_or, Nat.testBit_two_pow]
  · exact castRayAux_mono_ne blocker _ _ _ _ _ _
      (by simp [Nat.testBit_or, Nat.testBit_two_pow])

theorem ray_pos_se {sq : Nat} (blocker : Nat) (h1 : sq / 8 ≠ 0) (h2 : sq % 8 ≠ 7) :
    0 < castRay SOUTH_EAST blocker sq := by
  have hstep : castRay SOUTH_EAST blocker sq
      = castRayAux SOUTH_EAST blocker (15 + 1) (2 ^ sq) (sq / 8) (sq % 8) 0 := rfl
  have hpow : (2 ^ sq) >>> 7 = 2 ^ (sq - 7) := shr_pow (by omega)
  rw [hstep, castRayAux_se_step, if_neg (by omega : ¬(sq / 8 = 0 ∨ sq % 8 = 7)), hpow]
  refine pos_of_testBit (i := sq - 7) ?_
  split_ifs
  · simp [Nat.testBit_or, Nat.testBit_two_pow]
  · exact castRayAux_mono_se blocker _ _ _ _ _ _
      (by simp [Nat.testBit_or, Nat.testBit_two_pow])

theorem ray_pos_sw {sq : Nat} (blocker : Nat) (h1 : sq / 8 ≠ 0) (h2 : sq % 8 ≠ 0) :
    0 < castRay SOUTH_WEST blocker sq := by
  have hstep : castRay SOUTH_WEST blocker sq
      = castRayAux SOUTH_WEST blocker (15 + 1) (2 ^ sq) (sq / 8) (sq % 8) 0 := rfl
  have hpow : (2 ^ sq) >>> 9 = 2 ^ (sq - 9) := shr_pow (by omega)
  rw [hstep, castRayAux_sw_step, if_neg (by omega : ¬(sq / 8 = 0 ∨ sq % 8 = 0)), hpow]
  refine pos_of_testBit (i := sq - 9) ?_
  split_ifs
  · simp [Nat.testBit_or, Nat.testBit_two_pow]
  · exact castRayAux_mono_sw blocker _ _ _ _ _ _
      (by simp [Nat.testBit_or, Nat.testBit_two_pow])

theorem ray_pos_nw {sq : Nat} (blocker : Nat) (h1 : sq / 8 ≠ 7) (h2 : sq % 8 ≠ 0)
    (hsq : sq < 64) : 0 < castRay NORTH_WEST blocker sq := by
  have hstep : castRay NORTH_WEST blocker sq
      = castRayAux NORTH_WEST blocker (15 + 1) (2 ^ sq) (sq / 8) (sq % 8) 0 := rfl
  have hpow : shl64 (2 ^ sq) 7 = 2 ^ (sq + 7) := shl64_pow (by omega)
  rw [hstep, castRayAux_nw_step, if_neg (by omega : ¬(sq / 8 = 7 ∨ sq % 8 = 0)), hpow]
  refine pos_of_testBit (i := sq + 7) ?_
  split_ifs
  · simp [Nat.testBit_or, Nat.testBit_two_pow]
  · exact castRayAux_mono_nw blocker _ _ _ _ _ _
      (by simp [Nat.testBit_or, Nat.testBit_two_pow])

/-- A rook on any square always attacks at least one square, whatever the
blockers: the first ray step is emitted before the blocker test. -/
theorem rookAttacks_pos {sq : Nat} (hsq : sq < 64) (blocker : Nat) :
    0 < rookAttacks sq blocker := by
  unfold rookAttacks
  rw [or_pos_iff, or_pos_iff, or_pos_iff]
  by_cases h7 : sq / 8 = 7
  · exact Or.inl (Or.inr (ray_pos_south blocker (by omega)))
  · exact Or.inl (Or.inl (Or.inl (ray_pos_north blocker h7 hsq)))

/-- A bishop on any square always attacks at least one square, whatever
the blockers. -/
theorem bishopAttacks_pos {sq : Nat} (hsq : sq < 64) (blocker : Nat) :
    0 < bishopAttacks sq blocker := by
  unfold bishopAttacks
  rw [or_pos_iff, or_pos_iff, or_pos_iff]
  by_cases h7 : sq / 8 = 7
  · by_cases hf : sq % 8 = 7
    · exact Or.inl (Or.inr (ray_pos_sw blocker (by omega) (by omega)))
    · exact Or.inl (Or.inl (Or.inr (ray_pos_se blocker (by omega) hf)))
  · by_cases hf : sq % 8 = 7
    · exact Or.inr (ray_pos_nw blocker h7 (by omega) hsq)
    · exact Or.inl (Or.inl (Or.inl (ray_pos_ne blocker h7 hf hsq)))

theorem attackFor_pos {sq : Nat} (hsq : sq < 64) (isRook : Bool) (bb : Nat) :
    0 < attackFor isRook sq bb := by
  cases isRook
  · exact bishopAttacks_pos hsq bb
  · exact rookAttacks_pos hsq bb

theorem edgeMask_lt (sq : Nat) : edgeMask sq < U64 := by
  unfold edgeMask
  have h1 : FILE_BITBOARDS 0 &&& not64 (FILE_BITBOARDS (getFile sq)) < 2 ^ 64 :=
    Nat.lt_of_le_of_lt Nat.and_le_left (by decide)
  have h2 : FILE_BITBOARDS 7 &&& not64 (FILE_BITBOARDS (getFile sq)) < 2 ^ 64 :=
    Nat.lt_of_le_of_lt Nat.and_le_left (by decide)
  have h3 : RANK_BITBOARDS 0 &&& not64 (RANK_BITBOARDS (getRank sq)) < 2 ^ 64 :=
    Nat.lt_of_le_of_lt Nat.and_le_left (by decide)
  have h4 : RANK_BITBOARDS 7 &&& not64 (RANK_BITBOARDS (getRank sq)) < 2 ^ 64 :=
    Nat.lt_of_le_of_lt Nat.and_le_left (by decide)
  have u1 := Nat.or_lt_two_pow h1 h2
  have u2 := Nat.or_lt_two_pow u1 h3
  exact Nat.or_lt_two_pow u2 h4

theorem not64_lt (a : Nat) (h : a < U64) : not64 a < U64 := by
  unfold not64
  exact Nat.xor_lt_two_pow h (by unfold MAX64 U64; omega)

theorem ROOK_MASK_lt (sq : Nat) : ROOK_MASK sq < U64 := by
  unfold ROOK_MASK
  calc (RANK_BITBOARDS (getRank sq) ||| FILE_BITBOARDS (getFile sq))
        &&& not64 (edgeMask sq) &&& not64 (SQUARE_BITBOARDS sq)
      ≤ (RANK_BITBOARDS (getRank sq) ||| FILE_BITBOARDS (getFile sq))
        &&& not64 (edgeMask sq) := Nat.and_le_left
    _ ≤ not64 (edgeMask sq) := Nat.and_le_right
    _ < U64 := not64_lt _ (edgeMask_lt sq)

theorem BISHOP_MASK_lt (sq : Nat) : BISHOP_MASK sq < U64 := by
  unfold BISHOP_MASK
  calc (castRay NORTH_WEST 0 sq ||| castRay NORTH_EAST 0 sq |||
        castRay SOUTH_EAST 0 sq ||| castRay SOUTH_WEST 0 sq) &&& not64 (edgeMask sq)
      ≤ not64 (edgeMask sq) := Nat.and_le_right
    _ < U64 := not64_lt _ (edgeMask_lt sq)

theorem maskFor_lt (isRook : Bool) (sq : Nat) : maskFor isRook sq < U64 := by
  cases isRook
  · exact BISHOP_MASK_lt sq
  · exact ROOK_MASK_lt sq

theorem shift_bound {x c : Nat} (hc : c ≤ 64) (hx : x < 2 ^ 64) :
    x >>> (64 - c) < 2 ^ c := by
  rw [Nat.shiftRight_eq_div_pow]
  rw [Nat.div_lt_iff_lt_mul (Nat.two_pow_pos _)]
  have h2 : 2 ^ c * 2 ^ (64 - c) = 2 ^ 64 := by
    rw [← pow_add]
    congr 1
    omega
  rw [h2]
  exact hx

theorem magicIndex_lt (mask number bb : Nat) :
    magicIndex mask number bb < 2 ^ count_ones mask :=
  shift_bound (count_ones_le mask)
    (by
      have h0 : (0 : Nat) < U64 := by unfold U64; positivity
      have h1 := Nat.mod_lt ((bb &&& mask) * number) h0
      unfold U64 at h1
      exact h1)

theorem get_index_range (mg : Magic) (bb : Nat)
    (hshift : mg.shift = 64 - count_ones mg.mask) :
    mg.offset ≤ mg.get_index bb ∧
      mg.get_index bb ≤ mg.offset + 2 ^ count_ones mg.mask - 1 := by
  have hidx : mg.get_index bb = mg.offset + magicIndex mg.mask mg.number bb := by
    unfold Magic.get_index magicIndex
    rw [hshift]
  have hlt := magicIndex_lt mg.mask mg.number bb
  have hpos : 0 < 2 ^ count_ones mg.mask := Nat.two_pow_pos _
  constructor
  · rw [hidx]; omega
  · rw [hidx]; omega

/-- The carry-rippler loop of `init_magics`, unrolled: with exactly as
much fuel as the orbit of `0` under the step needs, the loop emits that
orbit. -/
theorem blockerBoardsAux_pchain (M : Nat) :
    ∀ (c s : Nat), (Gambit.step M)^[c] s = 0 →
      (∀ j, 1 ≤ j → j < c → (Gambit.step M)^[j] s ≠ 0) →
      blockerBoardsAux M c s = CRProof.pchain (Gambit.step M) s c := by
  intro c
  induction c with
  | zero => intro s _ _; rfl
  | succ c ih =>
    intro s hiter hnz
    show s :: (if Gambit.step M s = 0 then [] else blockerBoardsAux M c (Gambit.step M s))
      = s :: CRProof.pchain (Gambit.step M) (Gambit.step M s) c
    by_cases hz : Gambit.step M s = 0
    · have hc0 : c = 0 := by
        by_contra hc
        exact hnz 1 le_rfl (by omega) (by simpa using hz)
      subst hc0
      rw [if_pos hz]
      rfl
    · rw [if_neg hz]
      cases c with
      | zero => exact absurd (by simpa using hiter) hz
      | succ c2 =>
        have hrec := ih (Gambit.step M s)
          (by rw [← Function.iterate_succ_apply]; exact hiter)
          (fun j hj1 hjc => by
            have hh := hnz (j + 1) (by omega) (by omega)
            rwa [Function.iterate_succ_apply] at hh)
        rw [hrec]

/-- The `blocker_boards` loop enumerates exactly the carry-rippler
sequence of the mask. -/
theorem blocker_boards_eq_seqW {M : Nat} (hM : M < U64) :
    blocker_boards M = CRProof.seqW 64 M := by
  obtain ⟨hchain, hiterW⟩ := CRProof.seq_chain 64 M hM
  set N := 2 ^ CRProof.popcW 64 M with hN
  have hstep0 : (0 : Nat) &&& M = 0 := Nat.zero_and M
  have hpc : ∀ k, (Gambit.step M)^[k] (0 : Nat) = (CRProof.stepW 64 M)^[k] 0 :=
    fun k => (CRProof.pchain_step_eq hM k 0 hstep0).2
  have hzero : (Gambit.step M)^[N] 0 = 0 := by
    rw [hpc]
    exact hiterW
  have hlist : CRProof.seqW 64 M
      = (List.range N).map (fun j => (CRProof.stepW 64 M)^[j] 0) := by
    rw [hchain, CRProof.pchain_get]
  have hnodup := (CRProof.seqW_spec 64 M hM).2.2.2.2
  have hnz : ∀ j, 1 ≤ j → j < N → (Gambit.step M)^[j] 0 ≠ 0 := by
    intro j h1 hjN h0
    have hlen : (CRProof.seqW 64 M).length = N := by
      rw [hlist, List.length_map, List.length_range]
    have hpair := (List.pairwise_iff_getElem.mp hnodup) 0 j (by omega) (by omega) (by omega)
    apply hpair
    simp only [hlist, List.getElem_map, List.getElem_range,
      Function.iterate_zero, id_eq]
    rw [← hpc j, h0]
  have hfuel : blocker_boards M = blockerBoardsAux M N 0 := by
    unfold blocker_boards
    rw [count_ones_eq, hN]
  rw [hfuel, blockerBoardsAux_pchain M N 0 hzero hnz,
    (CRProof.pchain_step_eq hM N 0 hstep0).1, hchain]

theorem blocker_boards_card {M : Nat} (hM : M < U64) :
    (blocker_boards M).length = 2 ^ count_ones M := by
  rw [blocker_boards_eq_seqW hM, (CRProof.seqW_spec 64 M hM).2.2.1, count_ones_eq]

theorem blocker_boards_mem {M : Nat} (hM : M < U64) (s : Nat) :
    s ∈ blocker_boards M ↔ s &&& M = s := by
  rw [blocker_boards_eq_seqW hM]
  exact (CRProof.seqW_spec 64 M hM).2.2.2.1 s

theorem blocker_boards_nodup {M : Nat} (hM : M < U64) :
    (blocker_boards M).Nodup := by
  rw [blocker_boards_eq_seqW hM]
  exact (CRProof.seqW_spec 64 M hM).2.2.2.2

theorem fillLoop_zero (mg : Magic) (blockers attacks : List Nat) (endIdx i : Nat)
    (table : List Nat) :
    fillLoop mg blockers attacks endIdx i 0 table = some table := rfl

theorem fillLoop_succ (mg : Magic) (blockers attacks : List Nat) (endIdx i rem : Nat)
    (table : List Nat) :
    fillLoop mg blockers attacks endIdx i (rem + 1) table
      = match blockers[i]? with
        | none => none
        | some bb =>
          if mg.get_index bb < table.length then
            if table.getD (mg.get_index bb) 0 = 0 then
              if mg.get_index bb < mg.offset ∨ endIdx < mg.get_index bb then none
              else
                match attacks[i]? with
                | none => none
                | some ab =>
                  fillLoop mg blockers attacks endIdx (i + 1) rem
                    (table.set (mg.get_index bb) ab)
            else none
          else none := rfl

/-- A successful inner fill only grows entries inside the square's window
`[offset, end]` and keeps the table length. -/
theorem fillLoop_frame (mg : Magic) (blockers attacks : List Nat) (endIdx : Nat) :
    ∀ (rem i : Nat) (table t2 : List Nat),
      fillLoop mg blockers attacks endIdx i rem table = some t2 →
      t2.length = table.length ∧
        ∀ p, p < mg.offset ∨ endIdx < p → t2.getD p 0 = table.getD p 0 := by
  intro rem
  induction rem with
  | zero =>
    intro i table t2 h
    rw [fillLoop_zero] at h
    obtain rfl := Option.some.inj h
    exact ⟨rfl, fun _ _ => rfl⟩
  | succ rem ih =>
    intro i table t2 h
    rw [fillLoop_succ] at h
    cases hbi : blockers[i]? with
    | none => rw [hbi] at h; dsimp only at h; cases h
    | some bb =>
      rw [hbi] at h
      dsimp only at h
      by_cases h1 : mg.get_index bb < table.length
      · rw [if_pos h1] at h
        by_cases h2 : table.getD (mg.get_index bb) 0 = 0
        · rw [if_pos h2] at h
          by_cases h3 : mg.get_index bb < mg.offset ∨ endIdx < mg.get_index bb
          · rw [if_pos h3] at h
            cases h
          · rw [if_neg h3] at h
            cases hai : attacks[i]? with
            | none => rw [hai] at h; dsimp only at h; cases h
            | some ab =>
              rw [hai] at h
              dsimp only at h
              obtain ⟨hlen, hout⟩ := ih (i + 1) _ t2 h
              constructor
              · rw [hlen, List.length_set]
              · intro p hp
                rw [hout p hp]
                have hne : mg.get_index bb ≠ p := by
                  rcases not_or.mp h3 with ⟨ha, hb2⟩
                  rcases hp with hp | hp <;> omega
                exact getD_set_ne hne ab 0
        · rw [if_neg h2] at h
          cases h
      · rw [if_neg h1] at h
        cases h

/-- A successful inner fill never zeroes an entry. -/
theorem fillLoop_nonzero_mono (mg : Magic) (blockers attacks : List Nat) (endIdx : Nat) :
    ∀ (rem i : Nat) (table t2 : List Nat) (p : Nat),
      fillLoop mg blockers attacks endIdx i rem table = some t2 →
      table.getD p 0 ≠ 0 → t2.getD p 0 ≠ 0 := by
  intro rem
  induction rem with
  | zero =>
    intro i table t2 p h hp
    rw [fillLoop_zero] at h
    obtain rfl := Option.some.inj h
    exact hp
  | succ rem ih =>
    intro i table t2 p h hp
    rw [fillLoop_succ] at h
    cases hbi : blockers[i]? with
    | none => rw [hbi] at h; dsimp only at h; cases h
    | some bb =>
      rw [hbi] at h
      dsimp only at h
      by_cases h1 : mg.get_index bb < table.length
      · rw [if_pos h1] at h
        by_cases h2 : table.getD (mg.get_index bb) 0 = 0
        · rw [if_pos h2] at h
          by_cases h3 : mg.get_index bb < mg.offset ∨ endIdx < mg.get_index bb
          · rw [if_pos h3] at h
            cases h
          · rw [if_neg h3] at h
            cases hai : attacks[i]? with
            | none => rw [hai] at h; dsimp only at h; cases h
            | some ab =>
              rw [hai] at h
              dsimp only at h
              refine ih (i + 1) _ t2 p h ?_
              have hne : mg.get_index bb ≠ p := by
                intro he
                rw [he] at h2
                exact hp h2
              rw [getD_set_ne hne ab 0]
              exact hp
        · rw [if_neg h2] at h
          cases h
      · rw [if_neg h1] at h
        cases h

/-- If some entry the loop will visit is already non-empty, the fill
panics (the collision branch). -/
theorem fillLoop_entry_none (mg : Magic) (blockers attacks : List Nat) (endIdx : Nat) :
    ∀ (rem i m : Nat) (table : List Nat), i ≤ m → m < i + rem →
      table.getD (mg.get_index (blockers.getD m 0)) 0 ≠ 0 →
      fillLoop mg blockers attacks endIdx i rem table = none := by
  intro rem
  induction rem with
  | zero => intro i m table h1 h2 _; omega
  | succ rem ih =>
    intro i m table him hm hne
    rw [fillLoop_succ]
    cases hbi : blockers[i]? with
    | none => rfl
    | some bb =>
      by_cases hmi : m = i
      · subst hmi
        have hgd : blockers.getD m 0 = bb := by
          have := getElem?_eq_some_getD 0 (l := blockers) (i := m)
            (by
              rcases Nat.lt_or_ge m blockers.length with hlt | hge
              · exact hlt
              · rw [List.getElem?_eq_none hge] at hbi; cases hbi)
          rw [this] at hbi
          exact Option.some.inj hbi
        rw [hgd] at hne
        dsimp only
        by_cases h1 : mg.get_index bb < table.length
        · rw [if_pos h1, if_neg hne]
        · rw [if_neg h1]
      · dsimp only
        by_cases h1 : mg.get_index bb < table.length
        · rw [if_pos h1]
          by_cases h2 : table.getD (mg.get_index bb) 0 = 0
          · rw [if_pos h2]
            by_cases h3 : mg.get_index bb < mg.offset ∨ endIdx < mg.get_index bb
            · rw [if_pos h3]
            · rw [if_neg h3]
              cases hai : attacks[i]? with
              | none => rfl
              | some ab =>
                dsimp only
                refine ih (i + 1) m _ (by omega) (by omega) ?_
                have hne2 : mg.get_index bb ≠ mg.get_index (blockers.getD m 0) := by
                  intro he
                  rw [← he] at hne
                  exact hne h2
                rw [getD_set_ne hne2 ab 0]
                exact hne
          · rw [if_neg h2]
        · rw [if_neg h1]

/-- A successful fill leaves a non-empty entry at the index of every
blocker board it processed (attack boards being non-empty). -/
theorem fillLoop_written (mg : Magic) (blockers attacks : List Nat) (endIdx : Nat) :
    ∀ (rem i : Nat) (table t2 : List Nat),
      fillLoop mg blockers attacks endIdx i rem table = some t2 →
      ∀ j, i ≤ j → j < i + rem → attacks.getD j 0 ≠ 0 →
      t2.getD (mg.get_index (blockers.getD j 0)) 0 ≠ 0 := by
  intro rem
  induction rem with
  | zero => intro i table t2 _ j h1 h2 _; omega
  | succ rem ih =>
    intro i table t2 h j hij hj hja
    rw [fillLoop_succ] at h
    cases hbi : blockers[i]? with
    | none => rw [hbi] at h; dsimp only at h; cases h
    | some bb =>
      rw [hbi] at h
      dsimp only at h
      by_cases h1 : mg.get_index bb < table.length
      rotate_left
      · rw [if_neg h1] at h
        cases h
      rw [if_pos h1] at h
      by_cases h2 : table.getD (mg.get_index bb) 0 = 0
      rotate_left
      · rw [if_neg h2] at h
        cases h
      rw [if_pos h2] at h
      by_cases h3 : mg.get_index bb < mg.offset ∨ endIdx < mg.get_index bb
      · rw [if_pos h3] at h
        cases h
      · rw [if_neg h3] at h
        cases hai : attacks[i]? with
        | none => rw [hai] at h; dsimp only at h; cases h
        | some ab =>
          rw [hai] at h
          dsimp only at h
          by_cases hji : j = i
          · subst hji
            have hgd : blockers.getD j 0 = bb := by
              have hj2 := getElem?_eq_some_getD 0 (l := blockers) (i := j)
                (by
                  rcases Nat.lt_or_ge j blockers.length with hlt | hge
                  · exact hlt
                  · rw [List.getElem?_eq_none hge] at hbi; cases hbi)
              rw [hj2] at hbi
              exact Option.some.inj hbi
            have hab : attacks.getD j 0 = ab := by
              have hj3 := getElem?_eq_some_getD 0 (l := attacks) (i := j)
                (by
                  rcases Nat.lt_or_ge j attacks.length with hlt | hge
                  · exact hlt
                  · rw [List.getElem?_eq_none hge] at hai; cases hai)
              rw [hj3] at hai
              exact Option.some.inj hai
            refine fillLoop_nonzero_mono mg blockers attacks endIdx rem (j + 1)
              _ t2 _ h ?_
            rw [hgd, getD_set_self h1 ab 0]
            rw [hab] at hja
            exact hja
          · exact ih (i + 1) _ t2 h j (by omega) (by omega) hja

/-- Splitting the inner fill loop. -/
theorem fillLoop_split (mg : Magic) (blockers attacks : List Nat) (endIdx : Nat) :
    ∀ (a b i : Nat) (table : List Nat),
      fillLoop mg blockers attacks endIdx i (a + b) table
        = match fillLoop mg blockers attacks endIdx i a table with
          | none => none
          | some t3 => fillLoop mg blockers attacks endIdx (i + a) b t3 := by
  intro a
  induction a with
  | zero =>
    intro b i table
    rw [Nat.add_zero i, Nat.zero_add, fillLoop_zero]
  | succ a ih =>
    intro b i table
    rw [show a + 1 + b = (a + b) + 1 from by omega, fillLoop_succ, fillLoop_succ]
    cases hbi : blockers[i]? with
    | none => rfl
    | some bb =>
      dsimp only
      by_cases h1 : mg.get_index bb < table.length
      · simp only [if_pos h1]
        by_cases h2 : table.getD (mg.get_index bb) 0 = 0
        · simp only [if_pos h2]
          by_cases h3 : mg.get_index bb < mg.offset ∨ endIdx < mg.get_index bb
          · simp only [if_pos h3]
          · simp only [if_neg h3]
            cases hai : attacks[i]? with
            | none => rfl
            | some ab =>
              dsimp only
              rw [ih b (i + 1) (table.set (mg.get_index bb) ab),
                show i + 1 + a = i + (a + 1) from by omega]
        · simp only [if_neg h2]
      · simp only [if_neg h1]

/-- If the attack boards are non-empty and two enumerated blockers share
a magic index, the fill panics. -/
theorem fillLoop_collision_none (mg : Magic) (blockers attacks : List Nat)
    (endIdx : Nat) (perms j k : Nat) (table : List Nat)
    (hj : j < k) (hk : k < perms)
    (hatt : ∀ q, q < perms → attacks.getD q 0 ≠ 0)
    (heq : mg.get_index (blockers.getD j 0) = mg.get_index (blockers.getD k 0)) :
    fillLoop mg blockers attacks endIdx 0 perms table = none := by
  rw [show perms = (j + 1) + (perms - (j + 1)) from by omega,
    fillLoop_split]
  cases hpre : fillLoop mg blockers attacks endIdx 0 (j + 1) table with
  | none => rfl
  | some t3 =>
    have hwr := fillLoop_written mg blockers attacks endIdx (j + 1) 0 table t3 hpre
      j (by omega) (by omega) (hatt j (by omega))
    refine fillLoop_entry_none mg blockers attacks endIdx _ (0 + (j + 1)) k t3
      (by omega) (by omega) ?_
    rw [← heq]
    exact hwr

/-- If the indices of the enumerated blockers are pairwise distinct and
the window entries start empty, the fill succeeds. -/
theorem fillLoop_some (mg : Magic) (blockers attacks : List Nat) (endIdx : Nat)
    (hrange : ∀ bb, mg.offset ≤ mg.get_index bb ∧ mg.get_index bb ≤ endIdx)
    (hatt : attacks.length = blockers.length) :
    ∀ (rem i : Nat) (table : List Nat),
      i + rem ≤ blockers.length →
      endIdx < table.length →
      (∀ j, i ≤ j → j < i + rem →
        table.getD (mg.get_index (blockers.getD j 0)) 0 = 0) →
      (∀ j k, i ≤ j → j < k → k < i + rem →
        mg.get_index (blockers.getD j 0) ≠ mg.get_index (blockers.getD k 0)) →
      ∃ t2, fillLoop mg blockers attacks endIdx i rem table = some t2 := by
  intro rem
  induction rem with
  | zero => intro i table _ _ _ _; exact ⟨table, rfl⟩
  | succ rem ih =>
    intro i table hlen htbl hzero hinj
    have hib : i < blockers.length := by omega
    have hbi : blockers[i]? = some (blockers.getD i 0) := getElem?_eq_some_getD 0 hib
    have hai : attacks[i]? = some (attacks.getD i 0) :=
      getElem?_eq_some_getD 0 (by omega)
    rw [fillLoop_succ, hbi, hai]
    dsimp only
    have hr := hrange (blockers.getD i 0)
    rw [if_pos (by omega), if_pos (hzero i le_rfl (by omega)),
      if_neg (by omega : ¬(mg.get_index (blockers.getD i 0) < mg.offset
        ∨ endIdx < mg.get_index (blockers.getD i 0)))]
    refine ih (i + 1) _ (by omega) (by rw [List.length_set]; exact htbl) ?_ ?_
    · intro j hj1 hj2
      have hne : mg.get_index (blockers.getD i 0) ≠ mg.get_index (blockers.getD j 0) :=
        hinj i j le_rfl (by omega) (by omega)
      rw [getD_set_ne hne _ 0]
      exact hzero j (by omega) (by omega)
    · intro j k hj hk1 hk2
      exact hinj j k (by omega) hk1 (by omega)

theorem getD_eq_getElem {l : List Nat} {i : Nat} (h : i < l.length) :
    l.getD i 0 = l[i] := by
  have h1 := getElem?_eq_some_getD 0 h
  rw [List.getElem?_eq_getElem h] at h1
  exact (Option.some.inj h1).symm

theorem getD_map {l : List Nat} {f : Nat → Nat} {q : Nat} (h : q < l.length) :
    (l.map f).getD q 0 = f (l.getD q 0) := by
  rw [getD_eq_getElem (l := l.map f) (by rw [List.length_map]; exact h),
    getD_eq_getElem h, List.getElem_map]

theorem get_index_mk (mask offset number bb : Nat) :
    Magic.get_index ⟨mask, offset, 64 - count_ones mask, number⟩ bb
      = offset + magicIndex mask number bb := rfl

/-- Under a per-square injective magic constant the square's fill
succeeds: the collision sentinel always reads an empty entry and the
range asserts always pass. -/
theorem fill_square_some (isRook : Bool) (nums : Nat → Nat) (sq offset : Nat)
    (table : List Nat)
    (hinj : magicInjectiveAt isRook nums sq)
    (hend : offset + 2 ^ count_ones (maskFor isRook sq) - 1 < table.length)
    (hzero : ∀ p, offset ≤ p → table.getD p 0 = 0) :
    ∃ t2, fillLoop ⟨maskFor isRook sq, offset, 64 - count_ones (maskFor isRook sq), nums sq⟩
        (blocker_boards (maskFor isRook sq))
        ((blocker_boards (maskFor isRook sq)).map (attackFor isRook sq))
        (offset + 2 ^ count_ones (maskFor isRook sq) - 1) 0
        (2 ^ count_ones (maskFor isRook sq)) table = some t2 := by
  have hcard : (blocker_boards (maskFor isRook sq)).length
      = 2 ^ count_ones (maskFor isRook sq) := blocker_boards_card (maskFor_lt isRook sq)
  refine fillLoop_some _ _ _ _ ?_ (List.length_map _ _) _ 0 table ?_ hend ?_ ?_
  · intro bb
    exact get_index_range ⟨maskFor isRook sq, offset,
      64 - count_ones (maskFor isRook sq), nums sq⟩ bb rfl
  · rw [hcard]
    omega
  · intro j _ _
    exact hzero _ (get_index_range ⟨maskFor isRook sq, offset,
      64 - count_ones (maskFor isRook sq), nums sq⟩ _ rfl).1
  · intro j k hj0 hjk hk
    have hk2 : k < (blocker_boards (maskFor isRook sq)).length := by
      rw [hcard]
      omega
    have hp := (List.pairwise_iff_getElem.mp hinj) j k (by omega) hk2 hjk
    intro he
    rw [get_index_mk, get_index_mk] at he
    have he2 := Nat.add_left_cancel he
    rw [getD_eq_getElem (by omega), getD_eq_getElem hk2] at he2
    exact hp he2

/-- Without per-square injectivity the square's fill panics: the second
write to the shared index sees a non-empty entry. -/
theorem fill_square_none (isRook : Bool) (nums : Nat → Nat) (sq offset : Nat)
    (table : List Nat) (hsq : sq < 64)
    (hnot : ¬ magicInjectiveAt isRook nums sq) :
    fillLoop ⟨maskFor isRook sq, offset, 64 - count_ones (maskFor isRook sq), nums sq⟩
        (blocker_boards (maskFor isRook sq))
        ((blocker_boards (maskFor isRook sq)).map (attackFor isRook sq))
        (offset + 2 ^ count_ones (maskFor isRook sq) - 1) 0
        (2 ^ count_ones (maskFor isRook sq)) table = none := by
  have hcard : (blocker_boards (maskFor isRook sq)).length
      = 2 ^ count_ones (maskFor isRook sq) := blocker_boards_card (maskFor_lt isRook sq)
  unfold magicInjectiveAt at hnot
  rw [List.pairwise_iff_getElem] at hnot
  push_neg at hnot
  obtain ⟨j, k, hj, hk, hjk, heq⟩ := hnot
  refine fillLoop_collision_none _ _ _ _ _ j k table hjk (by omega) ?_ ?_
  · intro q hq
    have hq2 : q < (blocker_boards (maskFor isRook sq)).length := by omega
    rw [getD_map hq2]
    have := attackFor_pos hsq isRook ((blocker_boards (maskFor isRook sq)).getD q 0)
    omega
  · rw [get_index_mk, get_index_mk, getD_eq_getElem (by omega), getD_eq_getElem hk, heq]

theorem getD_replicate_zero (n p : Nat) : (List.replicate n (0 : Nat)).getD p 0 = 0 := by
  rcases Nat.lt_or_ge p n with h | h
  · rw [getD_eq_getElem (by simpa using h)]
    exact List.getElem_replicate _ _
  · unfold List.getD
    rw [List.get?_eq_getElem?, List.getElem?_eq_none (by simpa using h)]
    rfl

theorem initMagicsLoop_zero (isRook : Bool) (nums : Nat → Nat) (sq offset : Nat)
    (table : List Nat) :
    initMagicsLoop isRook nums sq 0 offset table
      = if offset = (if isRook then 102400 else 5248) then some table else none := rfl

theorem contMagics_none (isRook : Bool) (nums : Nat → Nat)
    (recFn : Nat → Nat → List Nat → Option (List Nat)) (sq offset : Nat) :
    contMagics isRook nums recFn sq offset none = none := rfl

theorem contMagics_some (isRook : Bool) (nums : Nat → Nat)
    (recFn : Nat → Nat → List Nat → Option (List Nat)) (sq offset : Nat)
    (t2 : List Nat) :
    contMagics isRook nums recFn sq offset (some t2)
      = recFn (sq + 1) (offset + 2 ^ count_ones (maskFor isRook sq)) t2 := rfl

theorem initMagicsLoop_succ (isRook : Bool) (nums : Nat → Nat) (sq rem offset : Nat)
    (table : List Nat) :
    initMagicsLoop isRook nums sq (rem + 1) offset table
      = contMagics isRook nums (fun s o tb => initMagicsLoop isRook nums s rem o tb)
          sq offset
          (fillLoop ⟨maskFor isRook sq, offset, 64 - count_ones (maskFor isRook sq), nums sq⟩
            (blocker_boards (maskFor isRook sq))
            ((blocker_boards (maskFor isRook sq)).map (attackFor isRook sq))
            (offset + 2 ^ count_ones (maskFor isRook sq) - 1) 0
            (2 ^ count_ones (maskFor isRook sq)) table) := rfl

/-- Square-by-square success of the build under per-square injectivity:
the offset invariant and the all-empty-above-offset invariant carry
through each square. -/
theorem initMagicsLoop_some (isRook : Bool) (nums : Nat → Nat) :
    ∀ (rem sq offset : Nat) (table : List Nat),
      sq + rem ≤ 64 →
      (∀ q, sq ≤ q → q < sq + rem → magicInjectiveAt isRook nums q) →
      offset + sumPermsFrom isRook sq rem = (if isRook then 102400 else 5248) →
      table.length = (if isRook then 102400 else 5248) →
      (∀ p, offset ≤ p → table.getD p 0 = 0) →
      ∃ t, initMagicsLoop isRook nums sq rem offset table = some t := by
  intro rem
  induction rem with
  | zero =>
    intro sq offset table _ _ hsum hlen _
    refine ⟨table, ?_⟩
    rw [initMagicsLoop_zero]
    have h0 : sumPermsFrom isRook sq 0 = 0 := rfl
    rw [if_pos (by omega)]
  | succ rem ih =>
    intro sq offset table hsq64 hinjall hsum hlen hzero
    have hpos : 0 < 2 ^ count_ones (maskFor isRook sq) := Nat.two_pow_pos _
    have hsum1 : sumPermsFrom isRook sq (rem + 1)
        = 2 ^ count_ones (maskFor isRook sq) + sumPermsFrom isRook (sq + 1) rem := rfl
    rw [hsum1] at hsum
    obtain ⟨t2, hfill⟩ := fill_square_some isRook nums sq offset table
      (hinjall sq le_rfl (by omega)) (by omega) hzero
    obtain ⟨hlen2, hout⟩ := fillLoop_frame _ _ _ _ _ _ _ _ hfill
    obtain ⟨t, hrec⟩ := ih (sq + 1) (offset + 2 ^ count_ones (maskFor isRook sq)) t2 (by omega)
      (fun q hq1 hq2 => hinjall q (by omega) (by omega))
      (by omega) (by rw [hlen2, hlen])
      (fun p hp => by
        rw [hout p (Or.inr (by omega))]
        exact hzero p (by omega))
    refine ⟨t, ?_⟩
    rw [initMagicsLoop_succ, hfill, contMagics_some]
    exact hrec

/-- Square-by-square converse: a successful build certifies per-square
injectivity at every square it processed. -/
theorem initMagicsLoop_inj (isRook : Bool) (nums : Nat → Nat) :
    ∀ (rem sq offset : Nat) (table t : List Nat),
      sq + rem ≤ 64 →
      initMagicsLoop isRook nums sq rem offset table = some t →
      ∀ q, sq ≤ q → q < sq + rem → magicInjectiveAt isRook nums q := by
  intro rem
  induction rem with
  | zero => intro sq offset table t _ _ q h1 h2; omega
  | succ rem ih =>
    intro sq offset table t hb hsome q hq1 hq2
    rw [initMagicsLoop_succ] at hsome
    cases hfill : fillLoop ⟨maskFor isRook sq, offset,
        64 - count_ones (maskFor isRook sq), nums sq⟩
        (blocker_boards (maskFor isRook sq))
        ((blocker_boards (maskFor isRook sq)).map (attackFor isRook sq))
        (offset + 2 ^ count_ones (maskFor isRook sq) - 1) 0
        (2 ^ count_ones (maskFor isRook sq)) table with
    | none =>
      rw [hfill, contMagics_none] at hsome
      cases hsome
    | some t2 =>
      rw [hfill, contMagics_some] at hsome
      by_cases hq : q = sq
      · subst hq
        by_contra hnot
        have hnone := fill_square_none isRook nums q offset table (by omega) hnot
        rw [hnone] at hfill
        cases hfill
      · exact ih (sq + 1) (offset + 2 ^ count_ones (maskFor isRook sq)) t2 t
          (by omega) hsome q (by omega) (by omega)

/-- C6: during magic-table construction the accumulated offsets total
exactly 102,400 rook entries and 5,248 bishop entries; the blocker loop
enumerates exactly the `2^popcount(mask)` subsets of each mask, each
once; every magic index lies within `[offset, offset + 2^bits - 1]`, for
any magic constants (so the `too_low`/`too_high` asserts are
unreachable); and the build completes without panicking if and only if
the index map is injective on each square's enumerated blocker subsets —
any collision reaches the `panic!`/failed-assert branch, modelled as
`none`.  The shipped magic constants live in the `magics` module missing
from `src/`, so the build is quantified over the constants: for any
choice meeting spec §4.3's injectivity property the panic branches are
unreachable. -/
theorem C6_magic_table_build :
    (sumPermsFrom true 0 64 = 102400 ∧ sumPermsFrom false 0 64 = 5248) ∧
    (∀ M : Nat, M < U64 →
      (blocker_boards M).length = 2 ^ count_ones M ∧
      (∀ s, s ∈ blocker_boards M ↔ s &&& M = s) ∧ (blocker_boards M).Nodup) ∧
    (∀ (mg : Magic) (bb : Nat), mg.shift = 64 - count_ones mg.mask →
      mg.offset ≤ mg.get_index bb ∧
        mg.get_index bb ≤ mg.offset + 2 ^ count_ones mg.mask - 1) ∧
    (∀ (isRook : Bool) (nums : Nat → Nat),
      (∃ t, init_magics isRook nums = some t) ↔
        ∀ sq, sq < 64 → magicInjectiveAt isRook nums sq) := by
  refine ⟨⟨rook_total, bishop_total⟩, ?_, ?_, ?_⟩
  · intro M hM
    exact ⟨blocker_boards_card hM, blocker_boards_mem hM, blocker_boards_nodup hM⟩
  · intro mg bb h
    exact get_index_range mg bb h
  · intro isRook nums
    constructor
    · rintro ⟨t, ht⟩ sq hsq
      have ht2 : initMagicsLoop isRook nums 0 64 0
          (List.replicate (if isRook then 102400 else 5248) 0) = some t := ht
      exact initMagicsLoop_inj isRook nums 64 0 0 _ t (by omega) ht2 sq (by omega) (by omega)
    · intro hinj
      have hsum0 : 0 + sumPermsFrom isRook 0 64 = (if isRook then 102400 else 5248) := by
        cases isRook
        · simpa using bishop_total
        · simpa using rook_total
      have hlen0 : (List.replicate (if isRook then 102400 else 5248) (0 : Nat)).length
          = (if isRook then 102400 else 5248) := List.length_replicate _ _
      obtain ⟨t, ht⟩ := initMagicsLoop_some isRook nums 64 0 0 _ (by omega)
        (fun q _ hq => hinj q (by omega)) hsum0 hlen0
        (fun p _ => getD_replicate_zero _ p)
      exact ⟨t, ht⟩

end Engine

namespace SrcOld

/-!
### The first-generation board (`src/old/src_old`)

`board.rs`, `board/zobrist.rs` and `moves/` of the oldest crate revision:
the `Board` couples the make/unmake machinery with a `ZobristRandoms`
table (embedded as a function-valued parameter, since the concrete
ChaCha-seeded randoms are runtime data).  Squares, ranks, files and the
rank/file/square bitboard tables are the same numerology as the current
crate, so those helpers are shared with the `Engine` namespace.
`u8` counters wrap modulo 256 (the release-build semantics of `+= 1`).
-/

/-- `ZobristRandoms` (`board/zobrist.rs`): the four random tables, as
functions (the source fills them from a seeded ChaCha RNG at startup;
the key computations are parametric in the table contents). -/
structure ZobristRandoms where
  pieces : Nat → Nat → Nat → Nat
  side_to_move : Nat
  castling_rights : Nat → Nat
  en_passant : Nat → Nat

/-- `ZobristRandoms::en_passant`: the random for the en-passant square,
`0` when there is none. -/
def epRandom (z : ZobristRandoms) : Option Nat → Nat
  | some square => z.en_passant square
  | none => 0

/-- `ZobristRandoms::get_key` (`board/zobrist.rs` lines 49–72): the
from-scratch key.  Note the test `bitboard >> i == 1`, kept verbatim. -/
def get_key (z : ZobristRandoms) (pb : List Nat) (side_to_move cast : Nat)
    (ep : Option Nat) : Nat :=
  let pieceKey := (List.range 2).foldl (fun key side =>
    (List.range 6).foldl (fun key piece =>
      (List.range 64).foldl (fun key i =>
        if pb.getD (side * 6 + piece) 0 >>> i = 1 then
          key ^^^ z.pieces side piece i
        else key) key) key) 0
  let key2 := if side_to_move = 1 then pieceKey ^^^ z.side_to_move else pieceKey
  let key3 := key2 ^^^ z.castling_rights cast
  key3 ^^^ epRandom z ep

/-- The key spec §4.5 (and C3) claims `get_key` computes: one XOR per
occupied (colour, kind, square) — every set bit of every piece
bitboard — plus the castling, en-passant and side-to-move randoms.
Modelled from the spec, for comparison with `get_key`. -/
def spec_key (z : ZobristRandoms) (pb : List Nat) (side_to_move cast : Nat)
    (ep : Option Nat) : Nat :=
  let pieceKey := (List.range 2).foldl (fun key side =>
    (List.range 6).foldl (fun key piece =>
      (List.range 64).foldl (fun key i =>
        if (pb.getD (side * 6 + piece) 0).testBit i then
          key ^^^ z.pieces side piece i
        else key) key) key) 0
  let key2 := if side_to_move = 1 then pieceKey ^^^ z.side_to_move else pieceKey
  let key3 := key2 ^^^ z.castling_rights cast
  key3 ^^^ epRandom z ep

/-- `State` (`board.rs` lines 15–25). -/
structure State where
  side_to_move : Nat
  castling_availability : Nat
  en_passant_square : Option Nat
  half_moves : Nat
  full_moves : Nat
  zobrist_key : Nat
  next_move : Nat

/-- `Board` (`board.rs` lines 27–37): piece bitboards flattened to 12
entries (`side * 6 + piece`), the 64-entry piece list, two side
bitboards, and the zobrist random tables the board owns. -/
structure Board where
  state : State
  history : List State
  piece_bitboards : List Nat
  piece_list : List Nat
  side_bitboards : List Nat
  zobrist_randoms : ZobristRandoms

/-- `piece_bitboards[side][piece]`. -/
def getPB (b : Board) (side piece : Nat) : Nat :=
  b.piece_bitboards.getD (side * 6 + piece) 0

/-- `side_bitboards[side]`. -/
def getSB (b : Board) (side : Nat) : Nat := b.side_bitboards.getD side 0

/-- `Board::combine_all_bitboards`. -/
def combine_all_bitboards (b : Board) : Nat := getSB b 0 ||| getSB b 1

namespace Move

/-!
Move field decoding (`moves/piece_move.rs`): shifts 0 (piece), 3 (from),
9 (to), 15 (capture), 18 (promotion), 21 (en passant), 23 (double step),
24 (castling) — bit 22 is unused in this layout.
-/

def piece (m : Nat) : Nat := m &&& 7

def fromSq (m : Nat) : Nat := (m >>> 3) &&& 63

def toSq (m : Nat) : Nat := (m >>> 9) &&& 63

def capture (m : Nat) : Nat := (m >>> 15) &&& 7

def promotion (m : Nat) : Nat := (m >>> 18) &&& 7

def en_passant (m : Nat) : Bool := (m >>> 21) &&& 1 = 1

def double_step (m : Nat) : Bool := (m >>> 23) &&& 1 = 1

def castling (m : Nat) : Bool := (m >>> 24) &&& 1 = 1

end Move

/-- The `move_data` word `add_move_to_list` assembles (without the
promotion field, which the source ORs in afterwards). -/
def moveData (pt f t cap : Nat) (e d c : Bool) : Nat :=
  pt ||| f <<< 3 ||| t <<< 9 ||| cap <<< 15 ||| (cond e 1 0) <<< 21 |||
    (cond d 1 0) <<< 23 ||| (cond c 1 0) <<< 24

/-- `CASTLING_PERMISSIONS` (`moves/castling.rs`): start from `15` and
clear the rights of the rook/king home squares. -/
def CASTLING_PERMISSIONS (sq : Nat) : Nat :=
  if sq = 0 then 13
  else if sq = 4 then 12
  else if sq = 7 then 14
  else if sq = 56 then 7
  else if sq = 60 then 3
  else if sq = 63 then 11
  else 15

/-- `Board::put_piece` (`board.rs` lines 236–241): OR the square into
the piece and side bitboards, XOR the piece random into the key.  The
piece list is NOT maintained. -/
def put_piece (side piece square : Nat) (b : Board) : Board :=
  { b with
    piece_bitboards := b.piece_bitboards.set (side * 6 + piece)
      (b.piece_bitboards.getD (side * 6 + piece) 0 ||| Engine.SQUARE_BITBOARDS square),
    side_bitboards := b.side_bitboards.set side
      (b.side_bitboards.getD side 0 ||| Engine.SQUARE_BITBOARDS square),
    state := { b.state with zobrist_key :=
      b.state.zobrist_key ^^^ b.zobrist_randoms.pieces side piece square } }

/-- `Board::remove_piece` (`board.rs` lines 243–248): XOR the square out
of the piece and side bitboards, XOR the piece random into the key. -/
def remove_piece (side piece square : Nat) (b : Board) : Board :=
  { b with
    piece_bitboards := b.piece_bitboards.set (side * 6 + piece)
      (b.piece_bitboards.getD (side * 6 + piece) 0 ^^^ Engine.SQUARE_BITBOARDS square),
    side_bitboards := b.side_bitboards.set side
      (b.side_bitboards.getD side 0 ^^^ Engine.SQUARE_BITBOARDS square),
    state := { b.state with zobrist_key :=
      b.state.zobrist_key ^^^ b.zobrist_randoms.pieces side piece square } }

/-- `Board::move_piece`: remove at `from`, put at `to`. -/
def move_piece (side piece f t : Nat) (b : Board) : Board :=
  put_piece side piece t (remove_piece side piece f b)

end SrcOld

namespace SrcOld

/-- `MoveGenerator::init_king_map` (`moves/movegen.rs` lines 257–273),
per square.  The east step masks with `RANK_BITBOARD_LOOKUP[Files::H]`
(= rank 8), kept verbatim from the source. -/
def king_attack_map (sq : Nat) : Nat :=
  let s := Engine.SQUARE_BITBOARDS sq
  Engine.shl64 (s &&& not64 (Engine.FILE_BITBOARDS 0) &&& not64 (Engine.RANK_BITBOARDS 7)) 7 |||
  Engine.shl64 (s &&& not64 (Engine.RANK_BITBOARDS 7)) 8 |||
  Engine.shl64 (s &&& not64 (Engine.FILE_BITBOARDS 7) &&& not64 (Engine.RANK_BITBOARDS 7)) 9 |||
  Engine.shl64 (s &&& not64 (Engine.RANK_BITBOARDS 7)) 1 |||
  (s &&& not64 (Engine.FILE_BITBOARDS 7) &&& not64 (Engine.RANK_BITBOARDS 0)) >>> 7 |||
  (s &&& not64 (Engine.RANK_BITBOARDS 0)) >>> 8 |||
  (s &&& not64 (Engine.FILE_BITBOARDS 0) &&& not64 (Engine.RANK_BITBOARDS 0)) >>> 9 |||
  (s &&& not64 (Engine.FILE_BITBOARDS 0)) >>> 1

/-- `MoveGenerator::init_knight_map` (lines 275–291), per square. -/
def knight_attack_map (sq : Nat) : Nat :=
  let s := Engine.SQUARE_BITBOARDS sq
  Engine.shl64 (s &&& not64 (Engine.RANK_BITBOARDS 7) &&& not64 (Engine.RANK_BITBOARDS 6)
    &&& not64 (Engine.FILE_BITBOARDS 0)) 15 |||
  Engine.shl64 (s &&& not64 (Engine.RANK_BITBOARDS 7) &&& not64 (Engine.RANK_BITBOARDS 6)
    &&& not64 (Engine.FILE_BITBOARDS 7)) 17 |||
  Engine.shl64 (s &&& not64 (Engine.FILE_BITBOARDS 0) &&& not64 (Engine.FILE_BITBOARDS 1)
    &&& not64 (Engine.RANK_BITBOARDS 7)) 6 |||
  Engine.shl64 (s &&& not64 (Engine.FILE_BITBOARDS 6) &&& not64 (Engine.FILE_BITBOARDS 7)
    &&& not64 (Engine.RANK_BITBOARDS 7)) 10 |||
  (s &&& not64 (Engine.RANK_BITBOARDS 0) &&& not64 (Engine.RANK_BITBOARDS 1)
    &&& not64 (Engine.FILE_BITBOARDS 0)) >>> 17 |||
  (s &&& not64 (Engine.RANK_BITBOARDS 0) &&& not64 (Engine.RANK_BITBOARDS 1)
    &&& not64 (Engine.FILE_BITBOARDS 7)) >>> 15 |||
  (s &&& not64 (Engine.FILE_BITBOARDS 0) &&& not64 (Engine.FILE_BITBOARDS 1)
    &&& not64 (Engine.RANK_BITBOARDS 0)) >>> 10 |||
  (s &&& not64 (Engine.FILE_BITBOARDS 6) &&& not64 (Engine.FILE_BITBOARDS 7)
    &&& not64 (Engine.RANK_BITBOARDS 0)) >>> 6

/-- `MoveGenerator::init_pawn_map` (lines 293–308): identical clipping
arithmetic to the current crate's `init_pawn_captures`, embedded as
`Engine.pawnCaptures`. -/
def pawn_attack_map (side sq : Nat) : Nat := Engine.pawnCaptures side sq

/-- `MoveGenerator::get_edge_mask` (lines 439–444). -/
def get_edge_mask (rank_bitboard file_bitboard : Nat) : Nat :=
  (Engine.FILE_BITBOARDS 0 &&& not64 file_bitboard) |||
  (Engine.FILE_BITBOARDS 7 &&& not64 file_bitboard) |||
  (Engine.RANK_BITBOARDS 0 &&& not64 rank_bitboard) |||
  (Engine.RANK_BITBOARDS 7 &&& not64 rank_bitboard)

/-- `MoveGenerator::create_rook_mask` (lines 310–319). -/
def create_rook_mask (sq : Nat) : Nat :=
  (Engine.RANK_BITBOARDS (sq / 8) ||| Engine.FILE_BITBOARDS (sq % 8))
    &&& not64 (Engine.SQUARE_BITBOARDS sq)
    &&& not64 (get_edge_mask (Engine.RANK_BITBOARDS (sq / 8)) (Engine.FILE_BITBOARDS (sq % 8)))

/-- `MoveGenerator::create_bishop_mask` (lines 321–335); the diagonal
rays use `cast_ray`, whose per-direction loop is step-for-step the
current crate's `cast_ray`, embedded as `Engine.castRay`. -/
def create_bishop_mask (sq : Nat) : Nat :=
  not64 (get_edge_mask (Engine.RANK_BITBOARDS (sq / 8)) (Engine.FILE_BITBOARDS (sq % 8)))
    &&& (Engine.castRay Engine.NORTH_WEST 0 sq ||| Engine.castRay Engine.NORTH_EAST 0 sq |||
      Engine.castRay Engine.SOUTH_WEST 0 sq ||| Engine.castRay Engine.SOUTH_EAST 0 sq)

/-- `MoveGenerator::get_slider_attacks` (lines 235–255).  Modelled from
the spec for the table lookups: the `magic` module
(`moves/magic.rs`, with `Magic::get_index` and the magic constants) is
missing from `src/`; per spec §4.3 `rook_attack_map[index]` holds the
four-way ray cast for the relevant blockers `occupancy & mask`, built
here by `init_magics`' own `generate_rook_attack_boards` ray casts.
The queen case XORs the two lookups (line 251); other piece types are
`unreachable!` in the source and return `0` here (the function is only
called with rook, bishop or queen). -/
def get_slider_attacks (piece sq occ : Nat) : Nat :=
  if piece = 3 then Engine.rookAttacks sq (occ &&& create_rook_mask sq)
  else if piece = 2 then Engine.bishopAttacks sq (occ &&& create_bishop_mask sq)
  else if piece = 4 then
    Engine.rookAttacks sq (occ &&& create_rook_mask sq)
      ^^^ Engine.bishopAttacks sq (occ &&& create_bishop_mask sq)
  else 0

/-- `MoveGenerator::is_square_attacked` (lines 166–189).  `none` models
the array-index panic when `square` is 64 (a kingless side's
`trailing_zeros`). -/
def is_square_attacked (b : Board) (attacker square : Nat) : Option Bool :=
  if square ≥ 64 then none
  else
    let king_attacking := king_attack_map square &&& getPB b attacker 5 > 0
    let knight_attacking := knight_attack_map square &&& getPB b attacker 1 > 0
    let pawn_attacking := pawn_attack_map (attacker ^^^ 1) square &&& getPB b attacker 0 > 0
    let all_squares := combine_all_bitboards b
    let rook_attacks := get_slider_attacks 3 square all_squares &&& getPB b attacker 3
    let bishop_attacks := get_slider_attacks 2 square all_squares &&& getPB b attacker 2
    let queen_attacks := rook_attacks ||| bishop_attacks
    some (decide king_attacking || decide knight_attacking || decide pawn_attacking ||
      decide (rook_attacks > 0) || decide (bishop_attacks > 0) || decide (queen_attacks > 0))

/-- `make_move` lines 96–99: push the current state with `next_move`
set. -/
def pushStep (m : Nat) (b : Board) : Board :=
  { b with history := { b.state with next_move := m } :: b.history }

/-- Line 116: `half_moves += 1` (u8, wrapping in release builds). -/
def clockStep (b : Board) : Board :=
  { b with state := { b.state with half_moves := (b.state.half_moves + 1) % 256 } }

/-- Lines 118–122: clear the en-passant square, toggling its random out
of the key (the second toggle XORs the `None` random, `0`). -/
def clearEpStep (b : Board) : Board :=
  match b.state.en_passant_square with
  | none => b
  | some sq =>
    { b with state := { b.state with
        en_passant_square := none,
        zobrist_key := b.state.zobrist_key ^^^ b.zobrist_randoms.en_passant sq ^^^
          epRandom b.zobrist_randoms none } }

/-- Lines 124–133, the capture branch, verbatim: it removes
`(us, piece)` — the mover's own piece kind — at `to`, then zeroes the
half-move clock and strips castling rights on a rook capture. -/
def captureStep (m : Nat) (us : Nat) (b : Board) : Board :=
  if Move.capture m = 6 then b
  else
    let b2 := remove_piece us (Move.piece m) (Move.toSq m) b
    let b3 := { b2 with state := { b2.state with half_moves := 0 } }
    if Move.capture m = 3 ∧ b3.state.castling_availability > 0 then
      { b3 with state := { b3.state with
          castling_availability :=
            b3.state.castling_availability &&& CASTLING_PERMISSIONS (Move.toSq m),
          zobrist_key := b3.state.zobrist_key
            ^^^ b3.zobrist_randoms.castling_rights b3.state.castling_availability
            ^^^ b3.zobrist_randoms.castling_rights
              (b3.state.castling_availability &&& CASTLING_PERMISSIONS (Move.toSq m)) } }
    else b3

/-- Lines 135–152: non-pawns just move; pawns are removed and re-put
(promoted piece on promotion), an en-passant capture removes the
opponent pawn behind `to`, and a double step sets the en-passant square
`to ^ 8`. -/
def pieceStep (m : Nat) (us : Nat) (b : Board) : Board :=
  if Move.piece m ≠ 0 then
    move_piece us (Move.piece m) (Move.fromSq m) (Move.toSq m) b
  else
    let b2 := remove_piece us (Move.piece m) (Move.fromSq m) b
    let b3 := put_piece us
      (if Move.promotion m = 6 then Move.piece m else Move.promotion m) (Move.toSq m) b2
    let b4 := { b3 with state := { b3.state with half_moves := 0 } }
    let b5 := if Move.en_passant m then
        remove_piece (us ^^^ 1) 0 (Move.toSq m ^^^ 8) b4
      else b4
    if Move.double_step m then
      { b5 with state := { b5.state with
          en_passant_square := some (Move.toSq m ^^^ 8),
          zobrist_key := b5.state.zobrist_key
            ^^^ epRandom b5.zobrist_randoms b5.state.en_passant_square
            ^^^ b5.zobrist_randoms.en_passant (Move.toSq m ^^^ 8) } }
    else b5

/-- Lines 154–158: king or rook moves strip castling rights by the
`from` square. -/
def rightsStep (m : Nat) (b : Board) : Board :=
  if (Move.piece m = 5 ∨ Move.piece m = 3) ∧ b.state.castling_availability > 0 then
    { b with state := { b.state with
        castling_availability :=
          b.state.castling_availability &&& CASTLING_PERMISSIONS (Move.fromSq m),
        zobrist_key := b.state.zobrist_key
          ^^^ b.zobrist_randoms.castling_rights b.state.castling_availability
          ^^^ b.zobrist_randoms.castling_rights
            (b.state.castling_availability &&& CASTLING_PERMISSIONS (Move.fromSq m)) } }
  else b

/-- Lines 160–168: the castling rook move; `none` models the
`panic!("Unexpected castling move")` arm. -/
def rookStep (m : Nat) (us : Nat) (b : Board) : Option Board :=
  if Move.castling m then
    if Move.toSq m = 2 then some (move_piece us 3 0 3 b)
    else if Move.toSq m = 6 then some (move_piece us 3 7 5 b)
    else if Move.toSq m = 58 then some (move_piece us 3 56 59 b)
    else if Move.toSq m = 62 then some (move_piece us 3 63 61 b)
    else none
  else some b

/-- Lines 170–171: toggle the side random, flip the side to move. -/
def flipStep (b : Board) : Board :=
  { b with state := { b.state with
      side_to_move := b.state.side_to_move ^^^ 1,
      zobrist_key := b.state.zobrist_key ^^^ b.zobrist_randoms.side_to_move } }

/-- Lines 173–175: bump the full-move number after Black's move. -/
def fullmoveStep (us : Nat) (b : Board) : Board :=
  if us = 1 then
    { b with state := { b.state with full_moves := (b.state.full_moves + 1) % 256 } }
  else b

/-- `Board::make_move` up to (not including) the legality check. -/
def make_move_applied (m : Nat) (b : Board) : Option Board :=
  let us := b.state.side_to_move
  let b1 := clearEpStep (clockStep (pushStep m b))
  let b2 := rightsStep m (pieceStep m us (captureStep m us b1))
  match rookStep m us b2 with
  | none => none
  | some b3 => some (fullmoveStep us (flipStep b3))

/-- `Board::unmake_move` (lines 186–229), verbatim — including the
reversed non-promotion restore (`remove` at `from`, `put` at `to`).
`none` models the `history.pop().unwrap()` panic on an empty history
and the castling `panic!` arm. -/
def unmake_move (b : Board) : Option Board :=
  match b.history with
  | [] => none
  | old :: rest =>
    let b0 : Board := { b with history := rest }
    let m := old.next_move
    let us := old.side_to_move
    let b1 :=
      if Move.promotion m = 6 then
        put_piece us (Move.piece m) (Move.toSq m)
          (remove_piece us (Move.piece m) (Move.fromSq m) b0)
      else
        put_piece us 0 (Move.fromSq m)
          (remove_piece us (Move.promotion m) (Move.toSq m) b0)
    let b2 :=
      if Move.castling m then
        if Move.toSq m = 2 then some (move_piece us 3 3 0 b1)
        else if Move.toSq m = 6 then some (move_piece us 3 5 7 b1)
        else if Move.toSq m = 58 then some (move_piece us 3 59 56 b1)
        else if Move.toSq m = 62 then some (move_piece us 3 61 63 b1)
        else none
      else some b1
    match b2 with
    | none => none
    | some b3 =>
      let b4 :=
        if Move.capture m ≠ 6 then
          put_piece (us ^^^ 1) (Move.capture m) (Move.toSq m) b3
        else b3
      let b5 :=
        if Move.en_passant m then
          put_piece (us ^^^ 1) 0 (Move.toSq m ^^^ 8) b4
        else b4
      some { b5 with state := old }

/-- `Board::make_move` (lines 95–184): apply, then reject and restore
via the internal `unmake_move` when the mover's king square
(`trailing_zeros` of the king bitboard) is attacked. -/
def make_move (m : Nat) (b : Board) : Option (Bool × Board) :=
  let us := b.state.side_to_move
  match make_move_applied m b with
  | none => none
  | some b1 =>
    match is_square_attacked b1 (us ^^^ 1) (Engine.tz64 (getPB b1 us 5)) with
    | none => none
    | some attacked =>
      if attacked then
        match unmake_move b1 with
        | none => none
        | some b2 => some (false, b2)
      else some (true, b1)

end SrcOld

namespace SrcOld

/-- `Ranks::fourth_rank` (`board/square.rs`): R4 for White, R5 for
Black. -/
def fourth_rank (side : Nat) : Nat := if side = 0 then 3 else 4

/-- `Ranks::promotion_rank`: R8 for White, R1 for Black. -/
def promotion_rank (side : Nat) : Nat := if side = 0 then 7 else 0

/-- `Squares::on_rank`: `rank * 8 ≤ square ≤ rank * 8 + 7`. -/
def on_rank (square rank : Nat) : Bool := rank * 8 ≤ square ∧ square ≤ rank * 8 + 7

/-- `MoveList::push` (`moves/move_list.rs`): the backing array holds
`MAX_MOVES = 128` entries; pushing past that indexes out of bounds
(`none`). -/
def pushMove (acc : List Nat) (v : Nat) : Option (List Nat) :=
  if acc.length < 128 then some (acc ++ [v]) else none

/-- The `while to > 0` loop of `MoveGenerator::add_move_to_list`
(lines 191–233): pop the lowest destination bit, read the capture from
the (never-updated) piece list, compute the flags — the double-step test
is the source's `(to_square as i8) - (from as i8).abs() == 16`, where
`.abs()` binds only `from`, i.e. `to - from == 16` — and push the
encoded move(s), four on promotion.  `none` models the `MoveList`
overflow and the `piece_type == QUEEN` `panic!`. -/
def addMoveLoop (b : Board) (pt f : Nat) : Nat → Nat → List Nat → Option (List Nat)
  | 0, tb, acc => if tb = 0 then some acc else none
  | fuel + 1, tb, acc =>
    if tb = 0 then some acc
    else
      let t := Engine.tz64 tb
      let to2 := tb ^^^ Engine.shl64 1 t
      let us := b.state.side_to_move
      let cap := b.piece_list.getD t 0
      let epF : Bool := match b.state.en_passant_square with
        | some sq => decide (pt = 0) && decide (sq = t)
        | none => false
      let promoF : Bool := decide (pt = 0) && on_rank t (promotion_rank us)
      let dsF : Bool := decide (pt = 0) && decide ((t : Int) - (f : Int) = 16)
      let castF : Bool := decide (pt = 5) && decide (((t : Int) - (f : Int)).natAbs = 2)
      let data := moveData pt f t cap epF dsF castF
      if pt = 4 then none
      else if promoF then
        match pushMove acc (data ||| 4 <<< 18) with
        | none => none
        | some a1 =>
          match pushMove a1 (data ||| 3 <<< 18) with
          | none => none
          | some a2 =>
            match pushMove a2 (data ||| 2 <<< 18) with
            | none => none
            | some a3 =>
              match pushMove a3 (data ||| 1 <<< 18) with
              | none => none
              | some a4 => addMoveLoop b pt f fuel to2 a4
      else
        match pushMove acc (data ||| 6 <<< 18) with
        | none => none
        | some a1 => addMoveLoop b pt f fuel to2 a1

/-- The `while pieces > 0` loop of
`MoveGenerator::generate_moves_for_pawn` (lines 80–112): single pushes,
double pushes onto the side's fourth rank, captures and the en-passant
capture.  `none` models the `SQUARE_BITBOARD_LOOKUP` index panics (a
pawn stepping off the board, or an en-passant square out of range). -/
def pawnLoop (b : Board) : Nat → Nat → List Nat → Option (List Nat)
  | 0, pieces, acc => if pieces = 0 then some acc else none
  | fuel + 1, pieces, acc =>
    if pieces = 0 then some acc
    else
      let us := b.state.side_to_move
      let f := Engine.tz64 pieces
      let pieces2 := pieces ^^^ Engine.shl64 1 f
      let dir : Int := if us = 0 then 8 else -8
      let t : Int := (f : Int) + dir
      if t < 0 ∨ 64 ≤ t then none
      else
        let empty := not64 (combine_all_bitboards b)
        let one_step := Engine.SQUARE_BITBOARDS t.toNat &&& empty
        let two_steps := Engine.rol64 one_step (64 + dir).toNat &&& empty
          &&& Engine.RANK_BITBOARDS (fourth_rank us)
        let targets := pawn_attack_map us f
        let captures := targets &&& getSB b (us ^^^ 1)
        let epc : Option Nat := match b.state.en_passant_square with
          | some sq => if sq < 64 then some (targets &&& Engine.SQUARE_BITBOARDS sq) else none
          | none => some 0
        match epc with
        | none => none
        | some ep_capture =>
          match addMoveLoop b 0 f 64
              ((one_step ||| two_steps) ||| (captures ||| ep_capture)) acc with
          | none => none
          | some acc2 => pawnLoop b fuel pieces2 acc2

/-- `MoveGenerator::generate_moves` (lines 43–53): every per-piece
generator except the pawn one is commented out in this revision. -/
def generate_moves (b : Board) : Option (List Nat) :=
  pawnLoop b 64 (getPB b b.state.side_to_move 0) []

/-- All-zero zobrist tables, for positions where the key plays no
role. -/
def Z0 : ZobristRandoms := ZobristRandoms.mk (fun _ _ _ => 0) 0 (fun _ => 0) (fun _ => 0)

/-- White to move, no castling rights, no en-passant square. -/
def C2state : State := State.mk 0 0 none 0 1 0 0

/-- White Ke1 and Ra1, Black Kh8 and Ra8, consistent piece list and
side bitboards. -/
def C2board : Board := Board.mk C2state []
  (((((List.replicate 12 0).set 5 (2 ^ 4)).set 3 (2 ^ 0)).set 11 (2 ^ 63)).set 9 (2 ^ 56))
  (((((List.replicate 64 6).set 4 5).set 0 3).set 63 5).set 56 3)
  [2 ^ 4 + 2 ^ 0, 2 ^ 63 + 2 ^ 56] Z0

/-- Ra1xa8: rook move from a1 (0) to a8 (56) capturing a rook, no
promotion, no flags. -/
def C2move : Nat := moveData 3 0 56 3 false false false ||| 6 <<< 18

end SrcOld

namespace SrcOld

set_option maxRecDepth 8000 in
/-- C2: make_move's capture branch (`board.rs` lines 124–133) calls
`remove_piece(us, piece, to)` — the mover's own side and piece kind —
instead of removing the opponent's captured piece.  On Ra1xa8 the board
it returns (accepted, `true`) still has the black rook's bitboard and
Black's side bitboard containing a8, and the two side bitboards overlap
exactly at a8; immediately after the capture step the side bitboards
already intersect. -/
theorem C2_capture_removes_wrong_piece :
    (make_move C2move C2board).map
      (fun r => (r.1, (getPB r.2 1 3).testBit 56, (getSB r.2 1).testBit 56,
        getSB r.2 0 &&& getSB r.2 1))
      = some (true, true, true, 2 ^ 56) ∧
    getSB (captureStep C2move 0 (clearEpStep (clockStep (pushStep C2move C2board)))) 0
      &&& getSB (captureStep C2move 0 (clearEpStep (clockStep (pushStep C2move C2board)))) 1
      ≠ 0 := by
  decide

/-- Zobrist tables that are zero except for the white-pawn-on-a2
random. -/
def C3z : ZobristRandoms :=
  ZobristRandoms.mk (fun s p sq => if s = 0 ∧ p = 0 ∧ sq = 8 then 42 else 0)
    0 (fun _ => 0) (fun _ => 0)

/-- White pawns on a2 and b2, nothing else. -/
def C3pb : List Nat := (List.replicate 12 0).set 0 (2 ^ 8 + 2 ^ 9)

set_option maxRecDepth 8000 in
/-- C3: `ZobristRandoms::get_key` (`board/zobrist.rs` lines 49–72) tests
`bitboard >> i == 1`, which holds only at the index of a bitboard's
highest set bit, so it XORs at most one piece random per (side, piece)
bitboard instead of one per occupied square: with pawns on a2 and b2 and
only the a2 random non-zero (42), `get_key` returns `0` while the
claimed every-set-bit XOR (`spec_key`) returns `42`. -/
theorem C3_get_key_skips_occupied_squares :
    get_key C3z C3pb 0 0 none = 0 ∧ spec_key C3z C3pb 0 0 none = 42 ∧
    get_key C3z C3pb 0 0 none ≠ spec_key C3z C3pb 0 0 none := by
  decide

end SrcOld

namespace SrcOld

/-!
### C8: the en-passant-square invariant over reachable boards

`state.en_passant_square` is written in exactly two places of this
revision: `parse_en_passant_square` (which parses the FEN field with
`parse::<usize>()` on a letter-bearing string and therefore errors on
every non-`"-"` input, leaving `None`), and the double-step branch of
`make_move`, which stores `to ^ 8`.  The double-step flag itself is set
by `add_move_to_list`'s test `(to as i8) - (from as i8).abs() == 16`,
i.e. `to - from == 16` — true only for White's double pushes.  The
development below characterises the flag over the generator's output,
chases the flag through `make_move`, and derives the invariant for all
reachable boards.
-/

/-- `dsOk b m`: if the move word has the double-step flag, the board
had White to move and the destination sits on the fourth rank
(squares 24–31). -/
def dsOk (b : Board) (m : Nat) : Prop :=
  Move.double_step m = true → b.state.side_to_move = 0 ∧ Move.toSq m / 8 = 3

/-- Bits below `k` never meet a value shifted left by `k`. -/
theorem and_shl_hi {a y k : Nat} (ha : a < 2 ^ k) : a &&& y <<< k = 0 := by
  refine Nat.eq_of_testBit_eq fun i => ?_
  rw [Nat.testBit_and, Nat.testBit_shiftLeft, Nat.zero_testBit]
  rcases Nat.lt_or_ge i k with hik | hik
  · have h1 : decide (i ≥ k) = false := decide_eq_false_iff_not.mpr (by omega)
    rw [h1]
    simp
  · have h1 : a.testBit i = false :=
      Nat.testBit_lt_two_pow (lt_of_lt_of_le ha (Nat.pow_le_pow_right (by norm_num) hik))
    rw [h1]
    simp

/-- ORing a shifted field onto low bits is addition. -/
theorem or_shl_eq_add {a y k : Nat} (ha : a < 2 ^ k) : a ||| y <<< k = a + y * 2 ^ k := by
  rw [← CRProof.add_eq_or_of_and_eq_zero a (y <<< k) (and_shl_hi ha), Nat.shiftLeft_eq]

/-- The 6-bit field mask is reduction modulo 64. -/
theorem and63_eq_mod (x : Nat) : x &&& 63 = x % 64 := by
  have h := Nat.and_pow_two_sub_one_eq_mod x 6
  norm_num at h
  exact h

theorem o_toSq_lt (m : Nat) : Move.toSq m < 64 := by
  simp only [Move.toSq]
  rw [and63_eq_mod]
  exact Nat.mod_lt _ (by norm_num)

theorem o_fromSq_lt (m : Nat) : Move.fromSq m < 64 := by
  simp only [Move.fromSq]
  rw [and63_eq_mod]
  exact Nat.mod_lt _ (by norm_num)

/-- Decoding what `add_move_to_list` encodes: the `to` field and the
double-step flag of an assembled move word come back out unchanged
(pawn moves: piece field 0). -/
theorem moveData_decode {f t cap pr : Nat} (hf : f < 64) (ht : t < 64) (hcap : cap < 8)
    (hpr : pr < 8) (e d c : Bool) :
    Move.toSq (moveData 0 f t cap e d c ||| pr <<< 18) = t ∧
    Move.double_step (moveData 0 f t cap e d c ||| pr <<< 18) = d := by
  have hE : cond e 1 0 ≤ 1 := by cases e <;> decide
  have hD : cond d 1 0 ≤ 1 := by cases d <;> decide
  have hC : cond c 1 0 ≤ 1 := by cases c <;> decide
  have hsum : moveData 0 f t cap e d c ||| pr <<< 18
      = f * 8 + t * 512 + cap * 32768 + pr * 262144 + cond e 1 0 * 2097152 +
        cond d 1 0 * 8388608 + cond c 1 0 * 16777216 := by
    unfold moveData
    have p1 : (0 : Nat) ||| f <<< 3 = f * 8 := by
      rw [or_shl_eq_add (show (0 : Nat) < 2 ^ 3 by norm_num)]
      norm_num
    have p2 : f * 8 ||| t <<< 9 = f * 8 + t * 512 := by
      rw [or_shl_eq_add (show f * 8 < 2 ^ 9 by omega)]
      norm_num
    have p3 : f * 8 + t * 512 ||| cap <<< 15 = f * 8 + t * 512 + cap * 32768 := by
      rw [or_shl_eq_add (show f * 8 + t * 512 < 2 ^ 15 by omega)]
      norm_num
    have p4 : f * 8 + t * 512 + cap * 32768 ||| cond e 1 0 <<< 21
        = f * 8 + t * 512 + cap * 32768 + cond e 1 0 * 2097152 := by
      rw [or_shl_eq_add (show f * 8 + t * 512 + cap * 32768 < 2 ^ 21 by omega)]
      norm_num
    have p5 : f * 8 + t * 512 + cap * 32768 + cond e 1 0 * 2097152 ||| cond d 1 0 <<< 23
        = f * 8 + t * 512 + cap * 32768 + cond e 1 0 * 2097152 + cond d 1 0 * 8388608 := by
      rw [or_shl_eq_add
        (show f * 8 + t * 512 + cap * 32768 + cond e 1 0 * 2097152 < 2 ^ 23 by omega)]
      norm_num
    have p6 : f * 8 + t * 512 + cap * 32768 + cond e 1 0 * 2097152 + cond d 1 0 * 8388608
        ||| cond c 1 0 <<< 24
        = f * 8 + t * 512 + cap * 32768 + cond e 1 0 * 2097152 + cond d 1 0 * 8388608 +
          cond c 1 0 * 16777216 := by
      rw [or_shl_eq_add (show f * 8 + t * 512 + cap * 32768 + cond e 1 0 * 2097152 +
        cond d 1 0 * 8388608 < 2 ^ 24 by omega)]
      norm_num
    rw [p1, p2, p3, p4, p5, p6]
    have hsplit : f * 8 + t * 512 + cap * 32768 + cond e 1 0 * 2097152 +
        cond d 1 0 * 8388608 + cond c 1 0 * 16777216
        = f * 8 + t * 512 + cap * 32768 |||
          (cond e 1 0 + cond d 1 0 * 4 + cond c 1 0 * 8) <<< 21 := by
      rw [or_shl_eq_add (show f * 8 + t * 512 + cap * 32768 < 2 ^ 21 by omega)]
      omega
    rw [hsplit, Nat.or_assoc,
      Nat.or_comm ((cond e 1 0 + cond d 1 0 * 4 + cond c 1 0 * 8) <<< 21) (pr <<< 18),
      ← Nat.or_assoc,
      or_shl_eq_add (show f * 8 + t * 512 + cap * 32768 < 2 ^ 18 by omega),
      or_shl_eq_add (show f * 8 + t * 512 + cap * 32768 + pr * 2 ^ 18 < 2 ^ 21 by omega)]
    omega
  constructor
  · simp only [Move.toSq]
    rw [hsum, and63_eq_mod, Nat.shiftRight_eq_div_pow]
    omega
  · have hbit : (moveData 0 f t cap e d c ||| pr <<< 18) >>> 23 &&& 1 = cond d 1 0 := by
      rw [hsum, Nat.and_one_is_mod, Nat.shiftRight_eq_div_pow]
      omega
    simp only [Move.double_step]
    rw [hbit]
    cases d
    · decide
    · decide

/-- A `MoveList::push` that succeeds appends the value. -/
theorem pushMove_some {acc : List Nat} {v : Nat} {a : List Nat}
    (h : pushMove acc v = some a) : a = acc ++ [v] := by
  unfold pushMove at h
  split at h
  · exact (Option.some.inj h).symm
  · exact Option.noConfusion h

/-- `getD` inherits any property of the members and of the default. -/
theorem getD_bound {l : List Nat} {P : Nat → Prop} (h : ∀ x ∈ l, P x) (h0 : P 0)
    (i : Nat) : P (l.getD i 0) := by
  rcases Nat.lt_or_ge i l.length with hi | hi
  · rw [List.getD_eq_getElem l 0 hi]
    exact h _ (List.getElem_mem hi)
  · have he : l.getD i 0 = 0 := by
      unfold List.getD
      rw [List.get?_eq_getElem?, List.getElem?_eq_none hi]
      rfl
    rw [he]
    exact h0

theorem or_bit {x y j : Nat} (h : (x ||| y).testBit j = true) :
    x.testBit j = true ∨ y.testBit j = true := by
  rw [Nat.testBit_or, Bool.or_eq_true] at h
  exact h

theorem and_bit_left {x y j : Nat} (h : (x &&& y).testBit j = true) : x.testBit j = true := by
  rw [Nat.testBit_and, Bool.and_eq_true] at h
  exact h.1

theorem and_bit_right {x y j : Nat} (h : (x &&& y).testBit j = true) : y.testBit j = true := by
  rw [Nat.testBit_and, Bool.and_eq_true] at h
  exact h.2

/-- A bit of `SQUARE_BITBOARD_LOOKUP[s] & m` pins the index to `s`. -/
theorem sq_and_bit {s y j : Nat}
    (h : (Engine.SQUARE_BITBOARDS s &&& y).testBit j = true) : j = s := by
  have h1 := and_bit_left h
  simp only [Engine.SQUARE_BITBOARDS] at h1
  rw [Nat.testBit_two_pow] at h1
  exact (of_decide_eq_true h1).symm

/-- A bit of `RANK_BITBOARD_LOOKUP[r]` sits on rank `r`. -/
theorem rank_bit {r j : Nat} (h : (Engine.RANK_BITBOARDS r).testBit j = true) :
    j / 8 = r := by
  simp only [Engine.RANK_BITBOARDS] at h
  rw [Nat.testBit_shiftLeft] at h
  rw [Bool.and_eq_true] at h
  obtain ⟨h1, h2⟩ := h
  have hge : r * 8 ≤ j := of_decide_eq_true h1
  have hlt : j - r * 8 < 8 := by
    by_contra hc
    have h255 : (0xFF : Nat) < 2 ^ (j - r * 8) :=
      lt_of_lt_of_le (by norm_num) (Nat.pow_le_pow_right (by norm_num) (le_of_not_lt hc))
    rw [Nat.testBit_lt_two_pow h255] at h2
    exact Bool.noConfusion h2
  omega

theorem o_shl64_lt (a k : Nat) : Engine.shl64 a k < 2 ^ 64 :=
  Nat.mod_lt _ (by norm_num [U64])

theorem o_rol64_lt (x n : Nat) : Engine.rol64 x n < 2 ^ 64 :=
  Nat.mod_lt _ (by norm_num [U64])

/-- Bits of a 64-bit rotation come from the rotated source position. -/
theorem rol64_bit {x n j : Nat} (hx : x < 2 ^ 64) (hj : j < 64)
    (h : (Engine.rol64 x n).testBit j = true) :
    x.testBit ((j + 64 - n % 64) % 64) = true := by
  unfold Engine.rol64 at h
  rw [show U64 = 2 ^ 64 from rfl, Nat.testBit_mod_two_pow] at h
  rw [Bool.and_eq_true] at h
  replace h := h.2
  have hn : n % 64 < 64 := Nat.mod_lt _ (by norm_num)
  rcases or_bit h with h | h
  · rw [Nat.testBit_shiftLeft] at h
    rw [Bool.and_eq_true] at h
    obtain ⟨h1, h2⟩ := h
    have hge : n % 64 ≤ j := of_decide_eq_true h1
    have hidx : (j + 64 - n % 64) % 64 = j - n % 64 := by omega
    rw [hidx]
    exact h2
  · rw [Nat.testBit_shiftRight] at h
    have hlow : 64 - n % 64 + j < 64 := by
      by_contra hc
      have hf : x.testBit (64 - n % 64 + j) = false :=
        Nat.testBit_lt_two_pow (lt_of_lt_of_le hx
          (Nat.pow_le_pow_right (by norm_num) (le_of_not_lt hc)))
      rw [hf] at h
      exact Bool.noConfusion h
    have hidx : (j + 64 - n % 64) % 64 = 64 - n % 64 + j := by omega
    rw [hidx]
    exact h

/-- Bits of the pawn-capture map of square `f`: two up-diagonals for
White, two down-diagonals for Black. -/
theorem pawnCaptures_bit {side f j : Nat}
    (h : (Engine.pawnCaptures side f).testBit j = true) :
    (side = 0 → j = f + 7 ∨ j = f + 9) ∧ (side ≠ 0 → j + 9 = f ∨ j + 7 = f) := by
  unfold Engine.pawnCaptures at h
  dsimp only at h
  by_cases hs : side = 0
  · rw [if_pos hs] at h
    refine ⟨fun _ => ?_, fun hne => absurd hs hne⟩
    rcases or_bit h with h | h
    · left
      unfold Engine.shl64 at h
      rw [show U64 = 2 ^ 64 from rfl, Nat.testBit_mod_two_pow] at h
      rw [Bool.and_eq_true] at h
      replace h := h.2
      rw [Nat.testBit_shiftLeft] at h
      rw [Bool.and_eq_true] at h
      obtain ⟨h1, h2⟩ := h
      have hge : 7 ≤ j := of_decide_eq_true h1
      have := sq_and_bit h2
      omega
    · right
      unfold Engine.shl64 at h
      rw [show U64 = 2 ^ 64 from rfl, Nat.testBit_mod_two_pow] at h
      rw [Bool.and_eq_true] at h
      replace h := h.2
      rw [Nat.testBit_shiftLeft] at h
      rw [Bool.and_eq_true] at h
      obtain ⟨h1, h2⟩ := h
      have hge : 9 ≤ j := of_decide_eq_true h1
      have := sq_and_bit h2
      omega
  · rw [if_neg hs] at h
    refine ⟨fun h0 => absurd h0 hs, fun _ => ?_⟩
    rcases or_bit h with h | h
    · left
      rw [Nat.testBit_shiftRight] at h
      have := sq_and_bit h
      omega
    · right
      rw [Nat.testBit_shiftRight] at h
      have := sq_and_bit h
      omega

/-- The pawn-capture map of an on-board square is a 64-bit value. -/
theorem o_pawnmap_lt {side f : Nat} (hf : f < 64) : pawn_attack_map side f < 2 ^ 64 := by
  unfold pawn_attack_map Engine.pawnCaptures
  dsimp only
  split
  · exact Nat.or_lt_two_pow (o_shl64_lt _ _) (o_shl64_lt _ _)
  · refine Nat.or_lt_two_pow ?_ ?_ <;>
      (rw [Nat.shiftRight_eq_div_pow]
       exact lt_of_le_of_lt (Nat.div_le_self _ _)
        (lt_of_le_of_lt Nat.and_le_left
          (by simpa [Engine.SQUARE_BITBOARDS] using
            Nat.pow_lt_pow_right (by norm_num) hf)))

/-- Clearing the extracted low bit keeps every other set bit. -/
theorem xor_pow_bit {x s j : Nat} (hs : s < 64) (hxs : x.testBit s = true)
    (h : (x ^^^ Engine.shl64 1 s).testBit j = true) : x.testBit j = true := by
  have h1 : Engine.shl64 1 s = 2 ^ s := by
    have h2 := Engine.shl64_pow (show 0 + s < 64 by omega)
    norm_num at h2
    exact h2
  rw [h1, Nat.testBit_xor, Nat.testBit_two_pow] at h
  by_cases hj : s = j
  · subst hj
    rw [hxs] at h
    simp at h
  · have hd : decide (s = j) = false := decide_eq_false_iff_not.mpr hj
    rw [hd] at h
    simpa using h

end SrcOld

namespace SrcOld

/-- Every move the destination loop of `add_move_to_list` emits with
the double-step flag set came from a target square 16 above its origin;
under the loop's target-bitboard guarantee this forces White to move
and a fourth-rank destination. -/
theorem addMoveLoop_ds {b : Board} (hpl : ∀ x ∈ b.piece_list, x ≤ 6) {f : Nat}
    (hf : f < 64) :
    ∀ (fuel tb : Nat) (acc out : List Nat), tb < 2 ^ 64 →
      (∀ j, j < 64 → tb.testBit j = true → (j : Int) - (f : Int) = 16 →
        b.state.side_to_move = 0 ∧ j / 8 = 3) →
      (∀ m ∈ acc, dsOk b m) →
      addMoveLoop b 0 f fuel tb acc = some out →
      ∀ m ∈ out, dsOk b m := by
  intro fuel
  induction fuel with
  | zero =>
    intro tb acc out htb hbits hacc h
    unfold addMoveLoop at h
    by_cases h0 : tb = 0
    · rw [if_pos h0] at h
      obtain rfl := Option.some.inj h
      exact hacc
    · rw [if_neg h0] at h
      exact Option.noConfusion h
  | succ fuel ih =>
    intro tb acc out htb hbits hacc h
    unfold addMoveLoop at h
    by_cases h0 : tb = 0
    · rw [if_pos h0] at h
      obtain rfl := Option.some.inj h
      exact hacc
    · rw [if_neg h0] at h
      dsimp only at h
      rw [if_neg (show ¬((0 : Nat) = 4) by decide)] at h
      obtain ⟨ht64, htbit, -⟩ := Engine.tz64_spec h0 htb
      have hcap8 : b.piece_list.getD (Engine.tz64 tb) 0 < 8 := by
        have h6 := getD_bound hpl (by norm_num) (Engine.tz64 tb)
        omega
      have hP : ∀ (pr : Nat), pr < 8 → ∀ (e d c : Bool),
          Move.double_step (moveData 0 f (Engine.tz64 tb)
            (b.piece_list.getD (Engine.tz64 tb) 0) e d c ||| pr <<< 18) = true →
          (d = true → (Engine.tz64 tb : Int) - (f : Int) = 16) →
          b.state.side_to_move = 0 ∧
          Move.toSq (moveData 0 f (Engine.tz64 tb)
            (b.piece_list.getD (Engine.tz64 tb) 0) e d c ||| pr <<< 18) / 8 = 3 := by
        intro pr hpr e d c hds himp
        have hdec := moveData_decode hf ht64 hcap8 hpr e d c
        rw [hdec.2] at hds
        rw [hdec.1]
        exact hbits _ ht64 htbit (himp hds)
      split at h
      · split at h
        · exact Option.noConfusion h
        · rename_i a1 h1
          split at h
          · exact Option.noConfusion h
          · rename_i a2 h2
            split at h
            · exact Option.noConfusion h
            · rename_i a3 h3
              split at h
              · exact Option.noConfusion h
              · rename_i a4 h4
                obtain rfl := pushMove_some h1
                obtain rfl := pushMove_some h2
                obtain rfl := pushMove_some h3
                obtain rfl := pushMove_some h4
                refine ih _ _ out (Nat.xor_lt_two_pow htb (o_shl64_lt 1 _)) ?_ ?_ h
                · intro j hj hbit hdiff
                  exact hbits j hj (xor_pow_bit ht64 htbit hbit) hdiff
                · intro m hm
                  simp only [List.mem_append, List.mem_singleton] at hm
                  rcases hm with (((hm | rfl) | rfl) | rfl) | rfl
                  · exact hacc m hm
                  · exact fun hds => hP 4 (by norm_num) _ _ _ hds
                      (fun hd => of_decide_eq_true (Bool.and_eq_true _ _ ▸ hd).2)
                  · exact fun hds => hP 3 (by norm_num) _ _ _ hds
                      (fun hd => of_decide_eq_true (Bool.and_eq_true _ _ ▸ hd).2)
                  · exact fun hds => hP 2 (by norm_num) _ _ _ hds
                      (fun hd => of_decide_eq_true (Bool.and_eq_true _ _ ▸ hd).2)
                  · exact fun hds => hP 1 (by norm_num) _ _ _ hds
                      (fun hd => of_decide_eq_true (Bool.and_eq_true _ _ ▸ hd).2)
      · split at h
        · exact Option.noConfusion h
        · rename_i a1 h1
          obtain rfl := pushMove_some h1
          refine ih _ _ out (Nat.xor_lt_two_pow htb (o_shl64_lt 1 _)) ?_ ?_ h
          · intro j hj hbit hdiff
            exact hbits j hj (xor_pow_bit ht64 htbit hbit) hdiff
          · intro m hm
            simp only [List.mem_append, List.mem_singleton] at hm
            rcases hm with hm | rfl
            · exact hacc m hm
            · exact fun hds => hP 6 (by norm_num) _ _ _ hds
                (fun hd => of_decide_eq_true (Bool.and_eq_true _ _ ▸ hd).2)

end SrcOld

namespace SrcOld

/-- Every move the pawn generator's piece loop emits satisfies `dsOk`:
the double-step flag only survives on moves whose destination is 16
above the origin, which among the loop's targets (single push, double
push onto the fourth-rank mask, captures, en-passant capture) only the
White double push attains. -/
theorem pawnLoop_ds {b : Board} (hpl : ∀ x ∈ b.piece_list, x ≤ 6) :
    ∀ (fuel pieces : Nat) (acc out : List Nat), pieces < 2 ^ 64 →
      (∀ m ∈ acc, dsOk b m) →
      pawnLoop b fuel pieces acc = some out →
      ∀ m ∈ out, dsOk b m := by
  intro fuel
  induction fuel with
  | zero =>
    intro pieces acc out hp hacc h
    unfold pawnLoop at h
    by_cases h0 : pieces = 0
    · rw [if_pos h0] at h
      obtain rfl := Option.some.inj h
      exact hacc
    · rw [if_neg h0] at h
      exact Option.noConfusion h
  | succ fuel ih =>
    intro pieces acc out hp hacc h
    unfold pawnLoop at h
    by_cases h0 : pieces = 0
    · rw [if_pos h0] at h
      obtain rfl := Option.some.inj h
      exact hacc
    · rw [if_neg h0] at h
      dsimp only at h
      obtain ⟨hf64, hfbit, -⟩ := Engine.tz64_spec h0 hp
      have hcapbits : ∀ j : Nat,
          (pawn_attack_map b.state.side_to_move (Engine.tz64 pieces)).testBit j = true →
          (j : Int) - (Engine.tz64 pieces : Int) = 16 → False := by
        intro j htarget hdiff
        obtain ⟨hw, hb⟩ := pawnCaptures_bit htarget
        by_cases hus : b.state.side_to_move = 0
        · rcases hw hus with h' | h' <;> omega
        · rcases hb hus with h' | h' <;> omega
      by_cases hstm : b.state.side_to_move = 0
      · rw [if_pos hstm] at h
        split at h
        · exact Option.noConfusion h
        · rename_i htrange
          split at h
          · exact Option.noConfusion h
          · rename_i ep_capture hepc
            split at h
            · exact Option.noConfusion h
            · rename_i acc2 hadd
              have htn : ((Engine.tz64 pieces : Int) + 8).toNat < 64 := by omega
              have hepc2 : ep_capture = 0 ∨ ∃ sq, ep_capture =
                  pawn_attack_map b.state.side_to_move (Engine.tz64 pieces) &&&
                    Engine.SQUARE_BITBOARDS sq := by
                rcases hE : b.state.en_passant_square with _ | sq
                · rw [hE] at hepc
                  exact Or.inl (Option.some.inj hepc).symm
                · rw [hE] at hepc
                  dsimp only at hepc
                  split at hepc
                  · exact Or.inr ⟨sq, (Option.some.inj hepc).symm⟩
                  · exact Option.noConfusion hepc
              refine ih _ acc2 out (Nat.xor_lt_two_pow hp (o_shl64_lt 1 _)) ?_ h
              refine addMoveLoop_ds hpl hf64 64 _ acc acc2 ?_ ?_ hacc hadd
              · refine Nat.or_lt_two_pow (Nat.or_lt_two_pow ?_ ?_)
                  (Nat.or_lt_two_pow ?_ ?_)
                · exact lt_of_le_of_lt Nat.and_le_left
                    (by simpa [Engine.SQUARE_BITBOARDS] using
                      Nat.pow_lt_pow_right (by norm_num) htn)
                · exact lt_of_le_of_lt (le_trans Nat.and_le_left Nat.and_le_left)
                    (o_rol64_lt _ _)
                · exact lt_of_le_of_lt Nat.and_le_left (o_pawnmap_lt hf64)
                · rcases hepc2 with rfl | ⟨sq, rfl⟩
                  · norm_num
                  · exact lt_of_le_of_lt Nat.and_le_left (o_pawnmap_lt hf64)
              · intro j hj hbit hdiff
                rcases or_bit hbit with hbit | hbit
                · rcases or_bit hbit with hbit | hbit
                  · exfalso
                    have hj2 := sq_and_bit hbit
                    omega
                  · have hrank := rank_bit (and_bit_right hbit)
                    rw [hstm] at hrank
                    refine ⟨hstm, ?_⟩
                    simpa [fourth_rank] using hrank
                · rcases or_bit hbit with hbit | hbit
                  · exact (hcapbits j (and_bit_left hbit) hdiff).elim
                  · rcases hepc2 with rfl | ⟨sq, rfl⟩
                    · rw [Nat.zero_testBit] at hbit
                      exact Bool.noConfusion hbit
                    · exact (hcapbits j (and_bit_left hbit) hdiff).elim
      · rw [if_neg hstm] at h
        split at h
        · exact Option.noConfusion h
        · rename_i htrange
          split at h
          · exact Option.noConfusion h
          · rename_i ep_capture hepc
            split at h
            · exact Option.noConfusion h
            · rename_i acc2 hadd
              have htn : ((Engine.tz64 pieces : Int) + -8).toNat < 64 := by omega
              have hepc2 : ep_capture = 0 ∨ ∃ sq, ep_capture =
                  pawn_attack_map b.state.side_to_move (Engine.tz64 pieces) &&&
                    Engine.SQUARE_BITBOARDS sq := by
                rcases hE : b.state.en_passant_square with _ | sq
                · rw [hE] at hepc
                  exact Or.inl (Option.some.inj hepc).symm
                · rw [hE] at hepc
                  dsimp only at hepc
                  split at hepc
                  · exact Or.inr ⟨sq, (Option.some.inj hepc).symm⟩
                  · exact Option.noConfusion hepc
              refine ih _ acc2 out (Nat.xor_lt_two_pow hp (o_shl64_lt 1 _)) ?_ h
              refine addMoveLoop_ds hpl hf64 64 _ acc acc2 ?_ ?_ hacc hadd
              · refine Nat.or_lt_two_pow (Nat.or_lt_two_pow ?_ ?_)
                  (Nat.or_lt_two_pow ?_ ?_)
                · exact lt_of_le_of_lt Nat.and_le_left
                    (by simpa [Engine.SQUARE_BITBOARDS] using
                      Nat.pow_lt_pow_right (by norm_num) htn)
                · exact lt_of_le_of_lt (le_trans Nat.and_le_left Nat.and_le_left)
                    (o_rol64_lt _ _)
                · exact lt_of_le_of_lt Nat.and_le_left (o_pawnmap_lt hf64)
                · rcases hepc2 with rfl | ⟨sq, rfl⟩
                  · norm_num
                  · exact lt_of_le_of_lt Nat.and_le_left (o_pawnmap_lt hf64)
              · intro j hj hbit hdiff
                rcases or_bit hbit with hbit | hbit
                · rcases or_bit hbit with hbit | hbit
                  · exfalso
                    have hj2 := sq_and_bit hbit
                    omega
                  · exfalso
                    have h2 := and_bit_left (and_bit_left hbit)
                    have h3 := rol64_bit (lt_of_le_of_lt Nat.and_le_left
                      (by simpa [Engine.SQUARE_BITBOARDS] using
                        Nat.pow_lt_pow_right (by norm_num) htn)) hj h2
                    have h4 := sq_and_bit h3
                    have hK : ((64 : Int) + -8).toNat = 56 := by decide
                    rw [hK] at h4
                    omega
                · rcases or_bit hbit with hbit | hbit
                  · exact (hcapbits j (and_bit_left hbit) hdiff).elim
                  · rcases hepc2 with rfl | ⟨sq, rfl⟩
                    · rw [Nat.zero_testBit] at hbit
                      exact Bool.noConfusion hbit
                    · exact (hcapbits j (and_bit_left hbit) hdiff).elim


/-- Every generated move of this revision (the pawn generator) respects
`dsOk`. -/
theorem generate_moves_ds {b : Board} (hpl : ∀ x ∈ b.piece_list, x ≤ 6)
    (hpb : ∀ x ∈ b.piece_bitboards, x < 2 ^ 64) {l : List Nat}
    (h : generate_moves b = some l) :
    ∀ m ∈ l, dsOk b m := by
  unfold generate_moves at h
  refine pawnLoop_ds hpl 64 _ [] l ?_ ?_ h
  · exact getD_bound hpb (by norm_num) _
  · intro m hm
    exact absurd hm (List.not_mem_nil m)

end SrcOld

namespace SrcOld

/-!
State bookkeeping of `make_move`'s pipeline steps: which fields each
step preserves, what it writes into `en_passant_square` and
`side_to_move`, and that the piece bitboards stay 64-bit when the
touched squares are on the board.
-/

theorem o_push_facts (m : Nat) (b : Board) :
    (pushStep m b).state = b.state ∧
    (pushStep m b).history = { b.state with next_move := m } :: b.history ∧
    (pushStep m b).piece_list = b.piece_list ∧
    (pushStep m b).piece_bitboards = b.piece_bitboards :=
  ⟨rfl, rfl, rfl, rfl⟩

theorem o_clock_facts (b : Board) :
    (clockStep b).state.side_to_move = b.state.side_to_move ∧
    (clockStep b).state.en_passant_square = b.state.en_passant_square ∧
    (clockStep b).history = b.history ∧
    (clockStep b).piece_list = b.piece_list ∧
    (clockStep b).piece_bitboards = b.piece_bitboards :=
  ⟨rfl, rfl, rfl, rfl, rfl⟩

theorem o_clearEp_facts (b : Board) :
    (clearEpStep b).state.en_passant_square = none ∧
    (clearEpStep b).state.side_to_move = b.state.side_to_move ∧
    (clearEpStep b).history = b.history ∧
    (clearEpStep b).piece_list = b.piece_list ∧
    (clearEpStep b).piece_bitboards = b.piece_bitboards := by
  unfold clearEpStep
  rcases hE : b.state.en_passant_square with _ | sq
  · exact ⟨hE, rfl, rfl, rfl, rfl⟩
  · exact ⟨rfl, rfl, rfl, rfl, rfl⟩

theorem o_capture_facts (m us : Nat) (b : Board) :
    (captureStep m us b).state.en_passant_square = b.state.en_passant_square ∧
    (captureStep m us b).state.side_to_move = b.state.side_to_move ∧
    (captureStep m us b).history = b.history ∧
    (captureStep m us b).piece_list = b.piece_list := by
  unfold captureStep
  split
  · exact ⟨rfl, rfl, rfl, rfl⟩
  · dsimp only
    split
    · exact ⟨rfl, rfl, rfl, rfl⟩
    · exact ⟨rfl, rfl, rfl, rfl⟩

theorem o_piece_facts (m us : Nat) (b : Board) :
    (pieceStep m us b).state.side_to_move = b.state.side_to_move ∧
    (pieceStep m us b).history = b.history ∧
    (pieceStep m us b).piece_list = b.piece_list := by
  unfold pieceStep
  split
  · exact ⟨rfl, rfl, rfl⟩
  · dsimp only
    split
    · split
      · exact ⟨rfl, rfl, rfl⟩
      · exact ⟨rfl, rfl, rfl⟩
    · split
      · exact ⟨rfl, rfl, rfl⟩
      · exact ⟨rfl, rfl, rfl⟩

/-- The only write to the en-passant square in the pipeline: a pawn
double step stores `to ^ 8`; everything else passes the field through. -/
theorem o_piece_ep (m us : Nat) (b : Board) :
    (pieceStep m us b).state.en_passant_square =
      if Move.piece m ≠ 0 then b.state.en_passant_square
      else if Move.double_step m then some (Move.toSq m ^^^ 8)
      else b.state.en_passant_square := by
  unfold pieceStep
  by_cases h1 : Move.piece m ≠ 0
  · rw [if_pos h1, if_pos h1]
    rfl
  · rw [if_neg h1, if_neg h1]
    dsimp only
    by_cases h2 : Move.double_step m = true
    · rw [if_pos h2, if_pos h2]
    · rw [if_neg h2, if_neg h2]
      by_cases h3 : Move.en_passant m = true
      · rw [if_pos h3]
        rfl
      · rw [if_neg h3]
        rfl

theorem o_rights_facts (m : Nat) (b : Board) :
    (rightsStep m b).state.en_passant_square = b.state.en_passant_square ∧
    (rightsStep m b).state.side_to_move = b.state.side_to_move ∧
    (rightsStep m b).history = b.history ∧
    (rightsStep m b).piece_list = b.piece_list ∧
    (rightsStep m b).piece_bitboards = b.piece_bitboards := by
  unfold rightsStep
  split
  · exact ⟨rfl, rfl, rfl, rfl, rfl⟩
  · exact ⟨rfl, rfl, rfl, rfl, rfl⟩

theorem o_rook_state {m us : Nat} {b b3 : Board} (h : rookStep m us b = some b3) :
    b3.state.en_passant_square = b.state.en_passant_square ∧
    b3.state.side_to_move = b.state.side_to_move ∧
    b3.history = b.history ∧ b3.piece_list = b.piece_list := by
  unfold rookStep at h
  split at h
  · split at h
    · obtain rfl := Option.some.inj h
      exact ⟨rfl, rfl, rfl, rfl⟩
    · split at h
      · obtain rfl := Option.some.inj h
        exact ⟨rfl, rfl, rfl, rfl⟩
      · split at h
        · obtain rfl := Option.some.inj h
          exact ⟨rfl, rfl, rfl, rfl⟩
        · split at h
          · obtain rfl := Option.some.inj h
            exact ⟨rfl, rfl, rfl, rfl⟩
          · exact Option.noConfusion h
  · obtain rfl := Option.some.inj h
    exact ⟨rfl, rfl, rfl, rfl⟩

theorem o_flip_facts (b : Board) :
    (flipStep b).state.side_to_move = b.state.side_to_move ^^^ 1 ∧
    (flipStep b).state.en_passant_square = b.state.en_passant_square ∧
    (flipStep b).history = b.history ∧
    (flipStep b).piece_list = b.piece_list ∧
    (flipStep b).piece_bitboards = b.piece_bitboards :=
  ⟨rfl, rfl, rfl, rfl, rfl⟩

theorem o_fullmove_facts (us : Nat) (b : Board) :
    (fullmoveStep us b).state.side_to_move = b.state.side_to_move ∧
    (fullmoveStep us b).state.en_passant_square = b.state.en_passant_square ∧
    (fullmoveStep us b).history = b.history ∧
    (fullmoveStep us b).piece_list = b.piece_list ∧
    (fullmoveStep us b).piece_bitboards = b.piece_bitboards := by
  unfold fullmoveStep
  split
  · exact ⟨rfl, rfl, rfl, rfl, rfl⟩
  · exact ⟨rfl, rfl, rfl, rfl, rfl⟩

theorem o_put_pb {s p sq : Nat} {b : Board} (hsq : sq < 64)
    (hpb : ∀ x ∈ b.piece_bitboards, x < 2 ^ 64) :
    ∀ x ∈ (put_piece s p sq b).piece_bitboards, x < 2 ^ 64 := by
  intro x hx
  unfold put_piece at hx
  dsimp only at hx
  rcases List.mem_or_eq_of_mem_set hx with hx | rfl
  · exact hpb x hx
  · refine Nat.or_lt_two_pow (getD_bound hpb (by norm_num) _) ?_
    simpa [Engine.SQUARE_BITBOARDS] using Nat.pow_lt_pow_right (by norm_num) hsq

theorem o_remove_pb {s p sq : Nat} {b : Board} (hsq : sq < 64)
    (hpb : ∀ x ∈ b.piece_bitboards, x < 2 ^ 64) :
    ∀ x ∈ (remove_piece s p sq b).piece_bitboards, x < 2 ^ 64 := by
  intro x hx
  unfold remove_piece at hx
  dsimp only at hx
  rcases List.mem_or_eq_of_mem_set hx with hx | rfl
  · exact hpb x hx
  · refine Nat.xor_lt_two_pow (getD_bound hpb (by norm_num) _) ?_
    simpa [Engine.SQUARE_BITBOARDS] using Nat.pow_lt_pow_right (by norm_num) hsq

theorem o_move_pb {s p f t : Nat} {b : Board} (hf : f < 64) (ht : t < 64)
    (hpb : ∀ x ∈ b.piece_bitboards, x < 2 ^ 64) :
    ∀ x ∈ (move_piece s p f t b).piece_bitboards, x < 2 ^ 64 :=
  o_put_pb ht (o_remove_pb hf hpb)

theorem o_capture_pb {m us : Nat} {b : Board}
    (hpb : ∀ x ∈ b.piece_bitboards, x < 2 ^ 64) :
    ∀ x ∈ (captureStep m us b).piece_bitboards, x < 2 ^ 64 := by
  unfold captureStep
  split
  · exact hpb
  · dsimp only
    split
    · exact o_remove_pb (o_toSq_lt m) hpb
    · exact o_remove_pb (o_toSq_lt m) hpb

theorem o_piece_pb {m us : Nat} {b : Board}
    (hpb : ∀ x ∈ b.piece_bitboards, x < 2 ^ 64) :
    ∀ x ∈ (pieceStep m us b).piece_bitboards, x < 2 ^ 64 := by
  unfold pieceStep
  split
  · exact o_move_pb (o_fromSq_lt m) (o_toSq_lt m) hpb
  · dsimp only
    have hbase : ∀ x ∈ (put_piece us (if Move.promotion m = 6 then Move.piece m
        else Move.promotion m) (Move.toSq m)
        (remove_piece us (Move.piece m) (Move.fromSq m) b)).piece_bitboards, x < 2 ^ 64 :=
      o_put_pb (o_toSq_lt m) (o_remove_pb (o_fromSq_lt m) hpb)
    by_cases h2 : Move.double_step m = true
    · rw [if_pos h2]
      by_cases h3 : Move.en_passant m = true
      · rw [if_pos h3]
        exact o_remove_pb (Engine.xor8_lt (o_toSq_lt m)) hbase
      · rw [if_neg h3]
        exact hbase
    · rw [if_neg h2]
      by_cases h3 : Move.en_passant m = true
      · rw [if_pos h3]
        exact o_remove_pb (Engine.xor8_lt (o_toSq_lt m)) hbase
      · rw [if_neg h3]
        exact hbase

theorem o_rook_pb {m us : Nat} {b b3 : Board} (h : rookStep m us b = some b3)
    (hpb : ∀ x ∈ b.piece_bitboards, x < 2 ^ 64) :
    ∀ x ∈ b3.piece_bitboards, x < 2 ^ 64 := by
  unfold rookStep at h
  split at h
  · split at h
    · obtain rfl := Option.some.inj h
      exact o_move_pb (by norm_num) (by norm_num) hpb
    · split at h
      · obtain rfl := Option.some.inj h
        exact o_move_pb (by norm_num) (by norm_num) hpb
      · split at h
        · obtain rfl := Option.some.inj h
          exact o_move_pb (by norm_num) (by norm_num) hpb
        · split at h
          · obtain rfl := Option.some.inj h
            exact o_move_pb (by norm_num) (by norm_num) hpb
          · exact Option.noConfusion h
  · obtain rfl := Option.some.inj h
    exact hpb

end SrcOld

namespace SrcOld

/-- The applied half of `make_move`: the side flips, the en-passant
square is cleared then (only) a pawn double step re-sets it to
`to ^ 8`, the old state is pushed with `next_move := m`, and the piece
list is untouched. -/
theorem o_applied_state {m : Nat} {b b1 : Board} (h : make_move_applied m b = some b1) :
    b1.state.side_to_move = b.state.side_to_move ^^^ 1 ∧
    b1.state.en_passant_square =
      (if Move.piece m ≠ 0 then none
       else if Move.double_step m then some (Move.toSq m ^^^ 8) else none) ∧
    b1.history = { b.state with next_move := m } :: b.history ∧
    b1.piece_list = b.piece_list := by
  unfold make_move_applied at h
  dsimp only at h
  split at h
  · exact Option.noConfusion h
  · rename_i b3 hrook
    obtain rfl := Option.some.inj h
    obtain ⟨hep3, hstm3, hh3, hpl3⟩ := o_rook_state hrook
    refine ⟨?_, ?_, ?_, ?_⟩
    · rw [(o_fullmove_facts _ _).1, (o_flip_facts _).1, hstm3,
        (o_rights_facts _ _).2.1, (o_piece_facts _ _ _).1, (o_capture_facts _ _ _).2.1,
        (o_clearEp_facts _).2.1, (o_clock_facts _).1, (o_push_facts _ _).1]
    · rw [(o_fullmove_facts _ _).2.1, (o_flip_facts _).2.1, hep3,
        (o_rights_facts _ _).1, o_piece_ep, (o_capture_facts _ _ _).1,
        (o_clearEp_facts _).1]
    · rw [(o_fullmove_facts _ _).2.2.1, (o_flip_facts _).2.2.1, hh3,
        (o_rights_facts _ _).2.2.1, (o_piece_facts _ _ _).2.1,
        (o_capture_facts _ _ _).2.2.1, (o_clearEp_facts _).2.2.1,
        (o_clock_facts _).2.2.1, (o_push_facts _ _).2.1]
    · rw [(o_fullmove_facts _ _).2.2.2.1, (o_flip_facts _).2.2.2.1, hpl3,
        (o_rights_facts _ _).2.2.2.1, (o_piece_facts _ _ _).2.2,
        (o_capture_facts _ _ _).2.2.2, (o_clearEp_facts _).2.2.2.1,
        (o_clock_facts _).2.2.2.1, (o_push_facts _ _).2.2.1]

/-- The applied half of `make_move` keeps the piece bitboards 64-bit:
every touched square is a decoded 6-bit field, its `^ 8` mirror, or a
castling-rook home square. -/
theorem o_applied_pb {m : Nat} {b b1 : Board} (h : make_move_applied m b = some b1)
    (hpb : ∀ x ∈ b.piece_bitboards, x < 2 ^ 64) :
    ∀ x ∈ b1.piece_bitboards, x < 2 ^ 64 := by
  unfold make_move_applied at h
  dsimp only at h
  split at h
  · exact Option.noConfusion h
  · rename_i b3 hrook
    obtain rfl := Option.some.inj h
    rw [(o_fullmove_facts _ _).2.2.2.2, (o_flip_facts _).2.2.2.2]
    refine o_rook_pb hrook ?_
    rw [(o_rights_facts _ _).2.2.2.2]
    refine o_piece_pb ?_
    refine o_capture_pb ?_
    rw [(o_clearEp_facts _).2.2.2.2, (o_clock_facts _).2.2.2.2, (o_push_facts _ _).2.2.2]
    exact hpb

/-- `unmake_move`, when it succeeds: it pops the pushed state verbatim,
restores the rest of the history, and leaves the (never-maintained)
piece list untouched; its puts keep the piece bitboards 64-bit. -/
theorem o_unmake_facts {b b2 : Board} (h : unmake_move b = some b2)
    (hpb : ∀ x ∈ b.piece_bitboards, x < 2 ^ 64) :
    ∃ old rest, b.history = old :: rest ∧ b2.state = old ∧ b2.history = rest ∧
      b2.piece_list = b.piece_list ∧ ∀ x ∈ b2.piece_bitboards, x < 2 ^ 64 := by
  unfold unmake_move at h
  split at h
  · exact Option.noConfusion h
  · rename_i old rest heq
    dsimp only at h
    split at h
    · exact Option.noConfusion h
    · rename_i b3 hb3
      have h3 : b3.history = rest ∧ b3.piece_list = b.piece_list ∧
          ∀ x ∈ b3.piece_bitboards, x < 2 ^ 64 := by
        split at hb3
        · split at hb3
          · obtain rfl := Option.some.inj hb3
            refine ⟨?_, ?_, ?_⟩
            · simp only [move_piece, put_piece, remove_piece,
                apply_ite (f := Board.history), ite_self]
            · simp only [move_piece, put_piece, remove_piece,
                apply_ite (f := Board.piece_list), ite_self]
            · refine o_move_pb (by norm_num) (by norm_num) ?_
              split
              · exact o_put_pb (o_toSq_lt _) (o_remove_pb (o_fromSq_lt _) hpb)
              · exact o_put_pb (o_fromSq_lt _) (o_remove_pb (o_toSq_lt _) hpb)
          · split at hb3
            · obtain rfl := Option.some.inj hb3
              refine ⟨?_, ?_, ?_⟩
              · simp only [move_piece, put_piece, remove_piece,
                  apply_ite (f := Board.history), ite_self]
              · simp only [move_piece, put_piece, remove_piece,
                  apply_ite (f := Board.piece_list), ite_self]
              · refine o_move_pb (by norm_num) (by norm_num) ?_
                split
                · exact o_put_pb (o_toSq_lt _) (o_remove_pb (o_fromSq_lt _) hpb)
                · exact o_put_pb (o_fromSq_lt _) (o_remove_pb (o_toSq_lt _) hpb)
            · split at hb3
              · obtain rfl := Option.some.inj hb3
                refine ⟨?_, ?_, ?_⟩
                · simp only [move_piece, put_piece, remove_piece,
                    apply_ite (f := Board.history), ite_self]
                · simp only [move_piece, put_piece, remove_piece,
                    apply_ite (f := Board.piece_list), ite_self]
                · refine o_move_pb (by norm_num) (by norm_num) ?_
                  split
                  · exact o_put_pb (o_toSq_lt _) (o_remove_pb (o_fromSq_lt _) hpb)
                  · exact o_put_pb (o_fromSq_lt _) (o_remove_pb (o_toSq_lt _) hpb)
              · split at hb3
                · obtain rfl := Option.some.inj hb3
                  refine ⟨?_, ?_, ?_⟩
                  · simp only [move_piece, put_piece, remove_piece,
                      apply_ite (f := Board.history), ite_self]
                  · simp only [move_piece, put_piece, remove_piece,
                      apply_ite (f := Board.piece_list), ite_self]
                  · refine o_move_pb (by norm_num) (by norm_num) ?_
                    split
                    · exact o_put_pb (o_toSq_lt _) (o_remove_pb (o_fromSq_lt _) hpb)
                    · exact o_put_pb (o_fromSq_lt _) (o_remove_pb (o_toSq_lt _) hpb)
                · exact Option.noConfusion hb3
        · obtain rfl := Option.some.inj hb3
          refine ⟨?_, ?_, ?_⟩
          · simp only [put_piece, remove_piece,
              apply_ite (f := Board.history), ite_self]
          · simp only [put_piece, remove_piece,
              apply_ite (f := Board.piece_list), ite_self]
          · split
            · exact o_put_pb (o_toSq_lt _) (o_remove_pb (o_fromSq_lt _) hpb)
            · exact o_put_pb (o_fromSq_lt _) (o_remove_pb (o_toSq_lt _) hpb)
      obtain ⟨h3h, h3l, h3b⟩ := h3
      obtain rfl := Option.some.inj h
      refine ⟨old, rest, heq, rfl, ?_, ?_, ?_⟩
      · simp only [put_piece, apply_ite (f := Board.history), ite_self]
        exact h3h
      · simp only [put_piece, apply_ite (f := Board.piece_list), ite_self]
        exact h3l
      · dsimp only
        split
        · refine o_put_pb (Engine.xor8_lt (o_toSq_lt _)) ?_
          split
          · exact o_put_pb (o_toSq_lt _) h3b
          · exact h3b
        · split
          · exact o_put_pb (o_toSq_lt _) h3b
          · exact h3b

end SrcOld

namespace SrcOld

/-- `make_move`, when it returns: on acceptance the board is the applied
board (side flipped, en-passant square from the double-step branch,
state pushed); on rejection the internal `unmake_move` has restored the
original state with only `next_move` overwritten.  Either way the piece
list is untouched and the piece bitboards stay 64-bit. -/
theorem o_make_state {m : Nat} {b : Board} {legal : Bool} {b2 : Board}
    (h : make_move m b = some (legal, b2))
    (hpb : ∀ x ∈ b.piece_bitboards, x < 2 ^ 64) :
    (∀ x ∈ b2.piece_bitboards, x < 2 ^ 64) ∧
    ((legal = true ∧
      b2.state.side_to_move = b.state.side_to_move ^^^ 1 ∧
      b2.state.en_passant_square =
        (if Move.piece m ≠ 0 then none
         else if Move.double_step m then some (Move.toSq m ^^^ 8) else none) ∧
      b2.history = { b.state with next_move := m } :: b.history ∧
      b2.piece_list = b.piece_list) ∨
    (legal = false ∧ b2.state = { b.state with next_move := m } ∧
      b2.history = b.history ∧ b2.piece_list = b.piece_list)) := by
  unfold make_move at h
  dsimp only at h
  split at h
  · exact Option.noConfusion h
  · rename_i b1 happ
    obtain ⟨hstm1, hep1, hh1, hpl1⟩ := o_applied_state happ
    have hpb1 := o_applied_pb happ hpb
    split at h
    · exact Option.noConfusion h
    · rename_i attacked hatt
      split at h
      · split at h
        · exact Option.noConfusion h
        · rename_i b2x hun
          obtain ⟨old, rest, hh, hst, hh2, hplu, hpbu⟩ := o_unmake_facts hun hpb1
          injection Option.some.inj h with hL hB
          subst hB
          subst hL
          rw [hh1] at hh
          injection hh with ho hr
          refine ⟨hpbu, Or.inr ⟨rfl, ?_, ?_, ?_⟩⟩
          · rw [hst]
            exact ho.symm
          · rw [hh2]
            exact hr.symm
          · rw [hplu, hpl1]
      · injection Option.some.inj h with hL hB
        subst hB
        subst hL
        exact ⟨hpb1, Or.inl ⟨rfl, hstm1, hep1, hh1, hpl1⟩⟩

/-- Mirroring a fourth-rank square down one rank. -/
theorem xor8_of_rank3 {t : Nat} (h : t / 8 = 3) : (t ^^^ 8) / 8 = 2 := by
  have h1 : 24 ≤ t := by omega
  have h2 : t < 32 := by omega
  interval_cases t <;> decide

/-- The boards reachable in this revision: start from any board a FEN
parse can produce — empty history, no en-passant square
(`parse_en_passant_square` errors on every square string, leaving
`None`), piece-kind entries in the 64-slot piece list and 64-bit piece
bitboards — and mutate only by `make_move` on generated moves and by
`unmake_move`. -/
inductive Reachable : Board → Prop
  | base (b : Board) (hh : b.history = [])
      (hep : b.state.en_passant_square = none)
      (hpl : ∀ x ∈ b.piece_list, x ≤ 6)
      (hpb : ∀ x ∈ b.piece_bitboards, x < 2 ^ 64) : Reachable b
  | step_make (b : Board) (m : Nat) (l : List Nat) (legal : Bool) (b2 : Board) :
      Reachable b → generate_moves b = some l → m ∈ l →
      make_move m b = some (legal, b2) → Reachable b2
  | step_unmake (b b2 : Board) : Reachable b → unmake_move b = some b2 → Reachable b2

/-- What a state with a sound en-passant square looks like in this
revision: the square is on rank 3 (indices 16–23) and Black is to
move. -/
def epOk (st : State) : Prop :=
  ∀ sq, st.en_passant_square = some sq → sq / 8 = 2 ∧ st.side_to_move = 1

/-- The reachable-board invariant: the current state and every pushed
state have sound en-passant squares, the piece list holds piece kinds,
and the piece bitboards are 64-bit. -/
theorem reachable_invariant {b : Board} (h : Reachable b) :
    epOk b.state ∧ (∀ st ∈ b.history, epOk st) ∧
    (∀ x ∈ b.piece_list, x ≤ 6) ∧ (∀ x ∈ b.piece_bitboards, x < 2 ^ 64) := by
  induction h with
  | base b hh hep hpl hpb =>
    refine ⟨?_, ?_, hpl, hpb⟩
    · intro sq hsq
      rw [hep] at hsq
      exact Option.noConfusion hsq
    · intro st hst
      rw [hh] at hst
      exact absurd hst (List.not_mem_nil st)
  | step_make b m l legal b2 hr hgen hmem hmk ih =>
    obtain ⟨hcur, hhist, hpl, hpb⟩ := ih
    obtain ⟨hpb2, hcase⟩ := o_make_state hmk hpb
    rcases hcase with ⟨-, hstm, hep, hh2, hpl2⟩ | ⟨-, hst, hh2, hpl2⟩
    · refine ⟨?_, ?_, ?_, hpb2⟩
      · intro sq hsq
        rw [hep] at hsq
        by_cases h1 : Move.piece m ≠ 0
        · rw [if_pos h1] at hsq
          exact Option.noConfusion hsq
        · rw [if_neg h1] at hsq
          by_cases h2 : Move.double_step m = true
          · rw [if_pos h2] at hsq
            obtain rfl := Option.some.inj hsq
            obtain ⟨hstm0, hto⟩ := generate_moves_ds hpl hpb hgen m hmem h2
            refine ⟨xor8_of_rank3 hto, ?_⟩
            rw [hstm, hstm0]
            decide
          · rw [if_neg h2] at hsq
            exact Option.noConfusion hsq
      · intro st hst2
        rw [hh2] at hst2
        rcases List.mem_cons.mp hst2 with rfl | hst2
        · intro sq hsq
          exact hcur sq hsq
        · exact hhist st hst2
      · rw [hpl2]
        exact hpl
    · refine ⟨?_, ?_, ?_, hpb2⟩
      · intro sq hsq
        rw [hst] at hsq
        obtain ⟨ha, hb⟩ := hcur sq hsq
        refine ⟨ha, ?_⟩
        rw [hst]
        exact hb
      · intro st hst2
        rw [hh2] at hst2
        exact hhist st hst2
      · rw [hpl2]
        exact hpl
  | step_unmake b b2 hr hun ih =>
    obtain ⟨hcur, hhist, hpl, hpb⟩ := ih
    obtain ⟨old, rest, hh, hst, hh2, hpl2, hpb2⟩ := o_unmake_facts hun hpb
    have hmemo : old ∈ b.history := by
      rw [hh]
      exact List.mem_cons_self _ _
    refine ⟨?_, ?_, ?_, hpb2⟩
    · intro sq hsq
      rw [hst] at hsq
      obtain ⟨ha, hb⟩ := hhist old hmemo sq hsq
      refine ⟨ha, ?_⟩
      rw [hst]
      exact hb
    · intro st hst2
      rw [hh2] at hst2
      refine hhist st ?_
      rw [hh]
      exact List.mem_cons_of_mem _ hst2
    · rw [hpl2]
      exact hpl

end SrcOld

namespace SrcOld

/-- C8: over all reachable boards of the first-generation engine
(FEN-parse bases mutated by make_move on generated moves and by
unmake_move), a present en-passant square always sits on rank 3
(indices 16–23, `sq / 8 = 2`) with BLACK to move — not, as the claim
states, on rank 3 with White to move / rank 6 with Black to move: only
White's double steps ever set the flag, because the generator's test
`(to as i8) - (from as i8).abs() == 16` binds `.abs()` to `from` alone
and is therefore never true for Black's downward double pushes. -/
theorem C8_en_passant_rank_invariant {b : Board} (h : Reachable b) :
    ∀ sq, b.state.en_passant_square = some sq →
      sq / 8 = 2 ∧ b.state.side_to_move = 1 :=
  fun sq hsq => (reachable_invariant h).1 sq hsq

end SrcOld

namespace SrcOld

/-- The start-position state: White to move, full castling rights, no
en-passant square. -/
def C8state0 : State := State.mk 0 15 none 0 1 0 0

/-- The classical start position with all-zero zobrist tables: piece
bitboards in `side * 6 + piece` order, the matching piece list, both
side bitboards, empty history. -/
def C8start : Board := Board.mk C8state0 []
  [0xFF00, 0x42, 0x24, 0x81, 0x8, 0x10,
   0xFF000000000000, 0x4200000000000000, 0x2400000000000000, 0x8100000000000000,
   0x800000000000000, 0x1000000000000000]
  ([3, 1, 2, 4, 5, 2, 1, 3] ++ List.replicate 8 0 ++ List.replicate 32 6 ++
    List.replicate 8 0 ++ [3, 1, 2, 4, 5, 2, 1, 3])
  [0xFFFF, 0xFFFF000000000000] Z0

/-- e2–e4 exactly as the generator encodes it: pawn (0), from 12,
to 28, capture NONE (6), double-step flag, promotion NONE (6). -/
def C8move : Nat := moveData 0 12 28 6 false true false ||| 6 <<< 18

/-- The board `make_move` returns for e2–e4, extracted from the
computation. -/
def C8after : Board := ((make_move C8move C8start).getD (true, C8start)).2

/-- The start position is a valid base board. -/
theorem C8start_reach : Reachable C8start :=
  Reachable.base C8start rfl rfl (by decide) (by decide)

set_option maxRecDepth 8000 in
/-- e2–e4 is accepted by `make_move` on the start position. -/
theorem C8make_shape : (make_move C8move C8start).map Prod.fst = some true := by decide

/-- `make_move` of e2–e4 returns exactly `(true, C8after)`. -/
theorem C8after_def : make_move C8move C8start = some (true, C8after) := by
  have hs := C8make_shape
  cases hm : make_move C8move C8start with
  | none =>
    rw [hm] at hs
    exact Option.noConfusion hs
  | some r =>
    obtain ⟨lg, bb⟩ := r
    rw [hm] at hs
    dsimp only [Option.map] at hs
    obtain rfl := Option.some.inj hs
    have hA : C8after = bb := by
      unfold C8after
      rw [hm]
      rfl
    rw [hA]

set_option maxRecDepth 8000 in
/-- After e2–e4 the en-passant square is 20 (rank 3) and it is Black to
move. -/
theorem C8after_facts :
    C8after.state.en_passant_square = some 20 ∧ C8after.state.side_to_move = 1 := by
  decide

set_option maxRecDepth 8000 in
/-- e2–e4 is among the generated moves of the start position. -/
theorem C8gen : (generate_moves C8start).map (fun l => decide (C8move ∈ l)) = some true := by
  decide

/-- The position after e2–e4 is reachable. -/
theorem C8after_reach : Reachable C8after := by
  have hs := C8gen
  cases hg : generate_moves C8start with
  | none =>
    rw [hg] at hs
    exact Option.noConfusion hs
  | some l =>
    rw [hg] at hs
    dsimp only [Option.map] at hs
    have hmem : C8move ∈ l := of_decide_eq_true (Option.some.inj hs)
    exact Reachable.step_make C8start C8move l true C8after C8start_reach hg hmem C8after_def

/-- C8 witness: the invariant applied to the reachable post-e2–e4
board, whose en-passant square is 20. -/
theorem C8_en_passant_rank_invariant_witness :
    (20 : Nat) / 8 = 2 ∧ C8after.state.side_to_move = 1 :=
  C8_en_passant_rank_invariant C8after_reach 20 C8after_facts.1

/-- C8 counterexample to the claim as stated: on the reachable board
after White's double step e2–e4 the en-passant square 20 sits on rank 3
while BLACK is to move, where the claim demands rank 6 (`sq / 8 = 5`)
whenever Black is to move. -/
theorem C8_en_passant_rank_invariant_counterexample :
    Reachable C8after ∧ C8after.state.en_passant_square = some 20 ∧
    C8after.state.side_to_move = 1 ∧ ¬(20 / 8 = 5) :=
  ⟨C8after_reach, C8after_facts.1, C8after_facts.2, by decide⟩

end SrcOld
